import Mathlib

/-!
# Memory files of libnethack (`src/libnethack/src/memfile.c`)

A shallow embedding of the memory-file engine: the growable byte buffer, the
endian helpers, the typed writes and reads, the run-length diff encoder with
its tags, alignment and magic markers.

Conventions of the embedding.

* A byte is a `Nat`; a C buffer of `len` bytes is a `List Nat` of that length.
  `NULL` is the empty list.
* The `int` fields of `struct memfile` (`len`, `pos`, `difflen`, `diffpos`,
  `relativepos`, `curcount`) are `Int`.  Additions on them are the
  mathematical ones (signed overflow is undefined in C and no buffer of two
  gigabytes is considered).  Where the source relies on a conversion between
  widths or signedness (the endian helpers, `mdiffwrite14`, the mask of
  `mfalign`, the `min` of `mread`) the conversion is written out with an
  explicit `% 2 ^ w`.
* `panic` and `terminate` do not return: a function that can reach one of them
  returns `Except fatal _`.
* The pointer `relativeto` is modelled by the value of the memfile it points
  to; the parent is read, never written, by the functions of this file.
* What the translation unit takes from outside (the `IS_BIG_ENDIAN` switch,
  the constant `MEMFILE_HASHTABLE_SIZE`, the indeterminate contents of bytes
  handed out by `realloc`) is collected in the structure `host`.
-/

namespace Memfile

/-! ## Machine integers and object representations -/

/-- Conversion of an integer to the unsigned type of `w` bits. -/
def to_unsigned (w : Nat) (x : Int) : Nat := (x % 2 ^ w).toNat

/-- Reading of a `w`-bit pattern as a two's complement signed value. -/
def to_signed (w : Nat) (x : Nat) : Int :=
  if x < 2 ^ (w - 1) then (x : Int) else (x : Int) - 2 ^ w

/-- The `n` bytes of `x`, least significant first. -/
def le_bytes : Nat → Nat → List Nat
  | 0, _ => []
  | n + 1, x => x % 256 :: le_bytes n (x / 256)

/-- The number whose bytes, least significant first, are `bs`. -/
def le_value : List Nat → Nat
  | [] => 0
  | b :: bs => b + 256 * le_value bs

/-- The bytes an `n`-byte integer object holding `x` occupies in memory, in
address order, on a big-endian (`big = true`) or little-endian host: what
`memcpy` from `&x` copies. -/
def object_bytes (big : Bool) (n : Nat) (x : Nat) : List Nat :=
  if big then (le_bytes n x).reverse else le_bytes n x

/-- The value of the integer object stored at the bytes `bs` (address order). -/
def object_value (big : Bool) (bs : List Nat) : Nat :=
  if big then le_value bs.reverse else le_value bs

/-- Modelled from the spec: `_byteswap16` is not defined in memfile.c; it is
the host-to-little-endian conversion of a big-endian host, the reversal of the
two bytes of its argument. -/
def _byteswap16 (x : Nat) : Nat := le_value (le_bytes 2 x).reverse

/-- Modelled from the spec: `_byteswap32` is not defined in memfile.c; it
reverses the four bytes of its argument. -/
def _byteswap32 (x : Nat) : Nat := le_value (le_bytes 4 x).reverse

/-- Modelled from the spec: `_byteswap64` is not defined in memfile.c; it
reverses the eight bytes of its argument. -/
def _byteswap64 (x : Nat) : Nat := le_value (le_bytes 8 x).reverse

/-! ## Environment of the translation unit -/

/-- What memfile.c takes from outside: the preprocessor switch
`IS_BIG_ENDIAN`, the constant `MEMFILE_HASHTABLE_SIZE` of the header, and the
indeterminate byte `fresh i` found at index `i` of a buffer when `realloc`
first hands that index out. -/
structure host where
  IS_BIG_ENDIAN : Bool
  MEMFILE_HASHTABLE_SIZE : Int
  fresh : Nat → Nat

/-- `host_to_le16`: `unsigned short` to `unsigned short`, both branches of
`#ifdef IS_BIG_ENDIAN`. -/
def host_to_le16 (h : host) (x : Nat) : Nat :=
  if h.IS_BIG_ENDIAN then _byteswap16 (x % 2 ^ 16) else x % 2 ^ 16

/-- `host_to_le32`: `unsigned int` to `unsigned int`. -/
def host_to_le32 (h : host) (x : Nat) : Nat :=
  if h.IS_BIG_ENDIAN then _byteswap32 (x % 2 ^ 32) else x % 2 ^ 32

/-- `host_to_le64`: the parameter is `unsigned long long`; the return type is
`unsigned long long` under `IS_BIG_ENDIAN` and `unsigned int` otherwise
(line 58), so the little-endian branch converts the result to 32 bits. -/
def host_to_le64 (h : host) (x : Nat) : Nat :=
  if h.IS_BIG_ENDIAN then _byteswap64 (x % 2 ^ 64) else (x % 2 ^ 64) % 2 ^ 32

/-- `le16_to_host`. -/
def le16_to_host (h : host) (x : Nat) : Nat :=
  if h.IS_BIG_ENDIAN then _byteswap16 (x % 2 ^ 16) else x % 2 ^ 16

/-- `le32_to_host`. -/
def le32_to_host (h : host) (x : Nat) : Nat :=
  if h.IS_BIG_ENDIAN then _byteswap32 (x % 2 ^ 32) else x % 2 ^ 32

/-- `le64_to_host`: return type `unsigned int` in the little-endian branch
(line 76). -/
def le64_to_host (h : host) (x : Nat) : Nat :=
  if h.IS_BIG_ENDIAN then _byteswap64 (x % 2 ^ 64) else (x % 2 ^ 64) % 2 ^ 32

/-! ## Data model -/

/-- Fatal exits reachable from memfile.c: the three calls that do not return,
and the one array access of the file whose index nothing bounds. -/
inductive fatal where
  /-- The call `panic("mdiffflush: trying to edit with too much data")`. -/
  | PANIC_MDIFFFLUSH
  /-- The call `panic("Error reading game data.")`. -/
  | PANIC_READ
  /-- The call `terminate(ERR_RESTORE_FAILED)`. -/
  | ERR_RESTORE_FAILED
  /-- The access `tags[bucket]` of mtag with `bucket` outside
  `0 .. MEMFILE_HASHTABLE_SIZE - 1`.  The code has no test and no exit for it:
  the store goes outside the array and the behaviour of C is undefined from
  there on, so the embedding ends the call here. -/
  | TAGS_OUT_OF_BOUNDS
deriving DecidableEq, Repr

/-- Modelled from the spec: the diff commands `MDIFF_*` are declared in the
header, which is not part of the sources; the spec names three commands and
"a 4th value as invalid/absent". -/
inductive memfile_diffcmd where
  | MDIFF_COPY
  | MDIFF_EDIT
  | MDIFF_SEEK
  | MDIFF_INVALID
deriving DecidableEq, Repr

open memfile_diffcmd

/-- Modelled from the spec: the numeric selectors of the commands, "0 = copy,
1 = edit, 2 = seek", the fourth value being the invalid one. -/
def memfile_diffcmd.code : memfile_diffcmd → Nat
  | MDIFF_COPY => 0
  | MDIFF_EDIT => 1
  | MDIFF_SEEK => 2
  | MDIFF_INVALID => 3

/-- Modelled from the spec: `struct memfile_tag` is declared in the header;
the fields are the ones mtag assigns (`next` is the tail of the chain, here
the rest of the list).  `tagtype` is the integer value of the enumeration
`memfile_tagtype`. -/
structure memfile_tag where
  tagdata : Int
  tagtype : Int
  pos : Int
deriving DecidableEq, Repr

/-- Modelled from the spec: `struct memfile` is declared in the header; the
fields are the ones memfile.c reads and writes.  `tags` is the array of chain
heads, indexed by bucket. -/
structure memfile where
  buf : List Nat
  len : Int
  pos : Int
  relativeto : Option memfile
  diffbuf : List Nat
  difflen : Int
  diffpos : Int
  relativepos : Int
  curcmd : memfile_diffcmd
  curcount : Int
  tags : Int → List memfile_tag

/-! ## Raw memory helpers -/

/-- `realloc(buf, n)`: the first bytes are kept, the bytes handed out anew are
the indeterminate ones of the host. -/
def realloc (h : host) (buf : List Nat) (n : Nat) : List Nat :=
  buf.take n ++ (List.range (n - buf.length)).map (fun i => h.fresh (buf.length + i) % 256)

/-- `memcpy(&dst[off], src, src.length)`. -/
def memcpy (dst : List Nat) (off : Nat) (src : List Nat) : List Nat :=
  dst.take off ++ src ++ dst.drop (off + src.length)

/-- The bytes `buf[off .. off + n)`. -/
def slice (buf : List Nat) (off : Int) (n : Int) : List Nat :=
  (buf.drop off.toNat).take n.toNat

/-- The byte `buf[i]`. -/
def byte_at (buf : List Nat) (i : Int) : Nat := buf.getD i.toNat 0

/-! ## Creating memory files -/

/-- `mnew(mf, relativeto)`: every field is assigned except `curcount`, which
keeps the value found in `*mf`; the buckets `0 .. MEMFILE_HASHTABLE_SIZE - 1`
are emptied. -/
def mnew (h : host) (mf : memfile) (relativeto : Option memfile) : memfile :=
  { buf := [], diffbuf := [],
    len := 0, pos := 0, difflen := 0, diffpos := 0, relativepos := 0,
    relativeto := relativeto,
    curcmd := MDIFF_INVALID,
    curcount := mf.curcount,
    tags := fun i => if 0 ≤ i ∧ i < h.MEMFILE_HASHTABLE_SIZE then [] else mf.tags i }

/-! ## Writing -/

/-- `expand_memfile(mf, newlen)`.  `newlen & ~4095L` clears the low twelve bits
of the two's complement `long`, that is `newlen - newlen % 4096` with the
non-negative remainder. -/
def expand_memfile (h : host) (mf : memfile) (newlen : Int) : memfile :=
  if mf.len < newlen then
    let len := (newlen - newlen % 4096) + 4096
    { mf with len := len, buf := realloc h mf.buf len.toNat }
  else mf

/-- The loop `while (mf->difflen < mf->diffpos + num) mf->difflen += 4096` of
mdiffwrite, on the value of `difflen`; `need` is `diffpos + num`.  The first
argument bounds the number of iterations. -/
def mdiffwrite_grow : Nat → Int → Int → Int
  | 0, difflen, _ => difflen
  | fuel + 1, difflen, need =>
    if difflen < need then mdiffwrite_grow fuel (difflen + 4096) need else difflen

/-- `mdiffwrite(mf, buf, num)` with `num = buf.length`.  The loop adds 4096 at
least once per missing byte, so `need - difflen` iterations are enough
(`mdiffwrite_grow_ge`). -/
def mdiffwrite (h : host) (mf : memfile) (buf : List Nat) : memfile :=
  let num : Int := buf.length
  let do_realloc : Bool := decide (mf.difflen < mf.diffpos + num)
  let difflen := mdiffwrite_grow (mf.diffpos + num - mf.difflen).toNat mf.difflen (mf.diffpos + num)
  let diffbuf := if do_realloc then realloc h mf.diffbuf difflen.toNat else mf.diffbuf
  { mf with difflen := difflen,
            diffbuf := memcpy diffbuf mf.diffpos.toNat buf,
            diffpos := mf.diffpos + num }

/-- `mdiffwrite14(mf, command, value)`: `command` is a `uint8_t`, `value` an
`int16_t` converted to `uint16_t`, masked to 14 bits, or-ed with the shifted
command and truncated to 16 bits by the assignment. -/
def mdiffwrite14 (h : host) (mf : memfile) (command : Nat) (value : Int) : memfile :=
  let le_value : Nat := to_unsigned 16 value
  let le_value : Nat := Nat.land le_value 0x3fff
  let le_value : Nat := (Nat.lor le_value (command <<< 14)) % 2 ^ 16
  let le_value : Nat := host_to_le16 h le_value
  mdiffwrite h mf (object_bytes h.IS_BIG_ENDIAN 2 le_value)

/-- `mdiffflush(mf)`. -/
def mdiffflush (h : host) (mf : memfile) : Except fatal memfile :=
  let mf1 := if mf.curcmd ≠ MDIFF_INVALID then mdiffwrite14 h mf mf.curcmd.code mf.curcount else mf
  if mf1.curcmd = MDIFF_EDIT then
    if mf1.curcount > mf1.pos ∨ mf1.curcount < 0 then .error fatal.PANIC_MDIFFFLUSH
    else
      let mf2 := mdiffwrite h mf1 (slice mf1.buf (mf1.pos - mf1.curcount) mf1.curcount)
      .ok { mf2 with curcmd := MDIFF_INVALID }
  else .ok { mf1 with curcmd := MDIFF_INVALID }

/-- The statements run before `mf->curcmd = cmd; mf->curcount++` in both
branches of the loop of mwrite: flush and reset the counter unless the pending
command is already `cmd` with room left. -/
def mwrite_run (h : host) (mf : memfile) (cmd : memfile_diffcmd) : Except fatal memfile :=
  (if mf.curcmd ≠ cmd ∨ mf.curcount = 0x3fff then
      (mdiffflush h mf).map (fun m => { m with curcount := 0 })
    else .ok mf).map
    (fun m => { m with curcmd := cmd, curcount := m.curcount + 1 })

/-- The loop `while (num--)` of mwrite for a file with parent `parent`. -/
def mwrite_diff (h : host) (parent : memfile) : Nat → memfile → Except fatal memfile
  | 0, mf => .ok mf
  | num + 1, mf =>
    (if mf.relativepos < parent.pos ∧
          byte_at mf.buf mf.pos = byte_at parent.buf mf.relativepos then
        mwrite_run h mf MDIFF_COPY
      else
        mwrite_run h mf MDIFF_EDIT) >>= fun mf =>
    mwrite_diff h parent num { mf with pos := mf.pos + 1, relativepos := mf.relativepos + 1 }

/-- The first two statements of mwrite: `expand_memfile(mf, mf->pos + num)` and
`memcpy(&mf->buf[mf->pos], buf, num)`. -/
def mwrite_copy (h : host) (mf : memfile) (buf : List Nat) : memfile :=
  let mf := expand_memfile h mf (mf.pos + buf.length)
  { mf with buf := memcpy mf.buf mf.pos.toNat buf }

/-- `mwrite(mf, buf, num)` with `num = buf.length`. -/
def mwrite (h : host) (mf : memfile) (buf : List Nat) : Except fatal memfile :=
  let num : Nat := buf.length
  let mf := mwrite_copy h mf buf
  match mf.relativeto with
  | none => .ok { mf with pos := mf.pos + num }
  | some parent => mwrite_diff h parent num mf

/-- `mwrite8(mf, value)`: the one byte of the `int8_t`. -/
def mwrite8 (h : host) (mf : memfile) (value : Int) : Except fatal memfile :=
  mwrite h mf (object_bytes h.IS_BIG_ENDIAN 1 (to_unsigned 8 value))

/-- `mwrite16(mf, value)`. -/
def mwrite16 (h : host) (mf : memfile) (value : Int) : Except fatal memfile :=
  let le_value : Nat := host_to_le16 h (to_unsigned 16 value)
  mwrite h mf (object_bytes h.IS_BIG_ENDIAN 2 le_value)

/-- `mwrite32(mf, value)`. -/
def mwrite32 (h : host) (mf : memfile) (value : Int) : Except fatal memfile :=
  let le_value : Nat := host_to_le32 h (to_unsigned 32 value)
  mwrite h mf (object_bytes h.IS_BIG_ENDIAN 4 le_value)

/-- `mwrite64(mf, value)`: the result of host_to_le64 is stored in an
`int64_t` and its eight bytes are written. -/
def mwrite64 (h : host) (mf : memfile) (value : Int) : Except fatal memfile :=
  let le_value : Nat := host_to_le64 h (to_unsigned 64 value)
  mwrite h mf (object_bytes h.IS_BIG_ENDIAN 8 le_value)

/-! ## Tagging -/

/-- The loop of mtag that writes seek units of `-0x1fff` or `0x1fff` while
`offset + curcount` is outside `(-(1 << 13), 1 << 13)`; it returns the memfile
and the remaining offset.  The first argument bounds the number of
iterations. -/
def mtag_seek : Nat → host → memfile → Int → memfile × Int
  | 0, _, mf, offset => (mf, offset)
  | fuel + 1, h, mf, offset =>
    if offset + mf.curcount ≥ 2 ^ 13 ∨ offset + mf.curcount ≤ -(2 ^ 13) then
      if offset + mf.curcount < 0 then
        mtag_seek fuel h (mdiffwrite14 h mf MDIFF_SEEK.code (-0x1fff)) (offset + 0x1fff)
      else
        mtag_seek fuel h (mdiffwrite14 h mf MDIFF_SEEK.code 0x1fff) (offset - 0x1fff)
    else (mf, offset)

/-- The bucket of a tag: `(tagdata * 619 + (int)tagtype) % MEMFILE_HASHTABLE_SIZE`
with the remainder of C (truncated division). -/
def mtag_bucket (h : host) (tagdata : Int) (tagtype : Int) : Int :=
  Int.tmod (tagdata * 619 + tagtype) h.MEMFILE_HASHTABLE_SIZE

/-- The statements of mtag run before the seek loop: unless a seek is already
pending, flush the pending command and reset the counter. -/
def mtag_flush (h : host) (mf : memfile) : Except fatal memfile :=
  if mf.curcmd ≠ MDIFF_SEEK then
    (mdiffflush h mf).map (fun m => { m with curcount := 0 })
  else .ok mf

/-- The statements of mtag from the seek loop on, for the parent tag offset
`tagpos` and the initial `offset = relativepos - tagpos`: the loop, then
`curcount += offset`, the choice of `curcmd` and the move of `relativepos`.
Each iteration of the loop shortens `|offset + curcount|` by `0x1fff`, so that
many iterations are enough (`mtag_seek_inv`). -/
def mtag_realign (h : host) (mf : memfile) (tagpos : Int) (offset : Int) : memfile :=
  let r := mtag_seek (offset + mf.curcount).natAbs h mf offset
  let mf := r.1
  let offset := r.2
  let mf := { mf with curcount := mf.curcount + offset }
  let mf := { mf with curcmd := if mf.curcount ≠ 0 then MDIFF_SEEK else MDIFF_INVALID }
  { mf with relativepos := tagpos }

/-- The bucket of the tag is an index of the arrays `mf->tags` and
`mf->relativeto->tags`, which have `MEMFILE_HASHTABLE_SIZE` entries. -/
def in_table (h : host) (tagdata : Int) (tagtype : Int) : Prop :=
  0 ≤ mtag_bucket h tagdata tagtype ∧ mtag_bucket h tagdata tagtype < h.MEMFILE_HASHTABLE_SIZE

instance (h : host) (tagdata tagtype : Int) : Decidable (in_table h tagdata tagtype) := by
  unfold in_table
  infer_instance

/-- `mtag(mf, tagdata, tagtype)`.  The first statements read and write
`mf->tags[bucket]`, and with a parent the loop starts from
`mf->relativeto->tags[bucket]`: both are arrays of `MEMFILE_HASHTABLE_SIZE`
chain heads, and mtag does not test `bucket`.  With `bucket` inside the arrays
the call is the one of the source; with `bucket` outside (a negative
`tagdata` gives a negative remainder) the store lands outside `mf->tags`, and
the embedding ends the call with `TAGS_OUT_OF_BOUNDS`.  The search of the
parent chain stops at the first tag with the same type and data. -/
def mtag (h : host) (mf : memfile) (tagdata : Int) (tagtype : Int) : Except fatal memfile :=
  let bucket := mtag_bucket h tagdata tagtype
  if 0 ≤ bucket ∧ bucket < h.MEMFILE_HASHTABLE_SIZE then
    let tag : memfile_tag := { tagdata := tagdata, tagtype := tagtype, pos := mf.pos }
    let mf := { mf with tags := Function.update mf.tags bucket (tag :: mf.tags bucket) }
    match mf.relativeto with
    | none => .ok mf
    | some parent =>
      match (parent.tags bucket).find? (fun t => t.tagtype = tagtype ∧ t.tagdata = tagdata) with
      | none => .ok mf
      | some tag =>
        if mf.relativepos ≠ tag.pos then
          (mtag_flush h mf).map (fun m => mtag_realign h m tag.pos (mf.relativepos - tag.pos))
        else .ok mf
  else .error fatal.TAGS_OUT_OF_BOUNDS

/-! ## Reading -/

/-- Modelled from the spec: the macro `min` comes from a header that is not
part of the sources; it is the usual `((x) < (y) ? (x) : (y))`.  In mread its
operands are an `unsigned int` and an `int`, so both are compared, and the
result is taken, as `unsigned int`. -/
def min_unsigned (x y : Nat) : Nat := if x < y then x else y

/-- `mread(mf, buf, len)`: returns the bytes copied to `buf` and the memfile.
`min(len, mf->len - mf->pos)` converts `mf->len - mf->pos` to `unsigned int`;
the result is stored in the `int` `rlen`.  The copy and the move of `pos`
happen before the test, but panic does not return. -/
def mread (mf : memfile) (len : Nat) : Except fatal (List Nat × memfile) :=
  let rlen : Int := to_signed 32 (min_unsigned len (to_unsigned 32 (mf.len - mf.pos)))
  let out := slice mf.buf mf.pos rlen
  let mf := { mf with pos := mf.pos + rlen }
  if to_unsigned 32 rlen ≠ len then .error fatal.PANIC_READ
  else .ok (out, mf)

/-- `mread8(mf)`. -/
def mread8 (h : host) (mf : memfile) : Except fatal (Int × memfile) := do
  let (bytes, mf) ← mread mf 1
  pure (to_signed 8 (object_value h.IS_BIG_ENDIAN bytes), mf)

/-- `mread16(mf)`. -/
def mread16 (h : host) (mf : memfile) : Except fatal (Int × memfile) := do
  let (bytes, mf) ← mread mf 2
  pure (to_signed 16 (le16_to_host h (object_value h.IS_BIG_ENDIAN bytes)), mf)

/-- `mread32(mf)`. -/
def mread32 (h : host) (mf : memfile) : Except fatal (Int × memfile) := do
  let (bytes, mf) ← mread mf 4
  pure (to_signed 32 (le32_to_host h (object_value h.IS_BIG_ENDIAN bytes)), mf)

/-- `mread64(mf)`. -/
def mread64 (h : host) (mf : memfile) : Except fatal (Int × memfile) := do
  let (bytes, mf) ← mread mf 8
  pure (to_signed 64 (le64_to_host h (object_value h.IS_BIG_ENDIAN bytes)), mf)

/-! ## Alignment and magic markers -/

/-- The value of `alignbytes` in mfalign: `alignmask` is the `unsigned int`
`~(aln - 1)`, the and and the subtraction are done on `unsigned int`, and the
result is stored in an `int`. -/
def mfalign_bytes (pos : Int) (aln : Int) : Int :=
  let alignmask : Nat := to_unsigned 32 (-(aln - 1) - 1)
  let masked : Nat := Nat.land (to_unsigned 32 pos) alignmask
  to_signed 32 (to_unsigned 32 (aln - masked))

/-- The loop `for (i = 0; i < alignbytes; i++) mwrite8(mf, 0)`. -/
def mfalign_loop (h : host) : Nat → memfile → Except fatal memfile
  | 0, mf => .ok mf
  | n + 1, mf => do
    let mf ← mwrite8 h mf 0
    mfalign_loop h n mf

/-- `mfalign(mf, aln)`. -/
def mfalign (h : host) (mf : memfile) (aln : Int) : Except fatal memfile :=
  mfalign_loop h (mfalign_bytes mf.pos aln).toNat mf

/-- `mfmagic_check(mf, magic)`: `magic` is an `int32_t`. -/
def mfmagic_check (h : host) (mf : memfile) (magic : Int) : Except fatal memfile := do
  let mf ← mfalign h mf 4
  let (m2, mf) ← mread32 h mf
  if to_signed 32 (to_unsigned 32 magic) ≠ m2 then .error fatal.ERR_RESTORE_FAILED
  else pure mf

/-- `mfmagic_set(mf, magic)`. -/
def mfmagic_set (h : host) (mf : memfile) (magic : Int) : Except fatal memfile := do
  let mf ← mfalign h mf 4
  mwrite32 h mf magic

/-! ## Well-formed memory files -/

/-- Representation invariant of the data buffer: `buf` points to `len` bytes
and the cursor lies inside them. -/
def memfile.wf (mf : memfile) : Prop :=
  (mf.buf.length : Int) = mf.len ∧ 0 ≤ mf.pos ∧ mf.pos ≤ mf.len

/-- Representation invariant of the diff buffer: `diffbuf` points to `difflen`
bytes and `diffpos` lies inside them. -/
def memfile.diff_wf (mf : memfile) : Prop :=
  (mf.diffbuf.length : Int) = mf.difflen ∧ 0 ≤ mf.diffpos ∧ mf.diffpos ≤ mf.difflen

/-- The content of a memory file: the bytes `buf[0 .. pos)`. -/
def memfile.content (mf : memfile) : List Nat := mf.buf.take mf.pos.toNat

/-- The diff stream of a memory file: the bytes `diffbuf[0 .. diffpos)`. -/
def memfile.diffstream (mf : memfile) : List Nat := mf.diffbuf.take mf.diffpos.toNat

/-- The effect of a write of the bytes `data` on the data side of a memfile:
the result `mf1` is well formed, the cursor has moved over `data`, which now
stands at the old cursor, and what stood before the old cursor is kept. -/
structure written (mf : memfile) (data : List Nat) (mf1 : memfile) : Prop where
  wf : mf1.wf
  pos_eq : mf1.pos = mf.pos + data.length
  len_ge : mf.len ≤ mf1.len
  len_le : mf1.len ≤ max mf.len (mf.pos + data.length + 4096)
  before : mf1.buf.take mf.pos.toNat = mf.buf.take mf.pos.toNat
  at_pos : slice mf1.buf mf.pos data.length = data
  relativeto_eq : mf1.relativeto = mf.relativeto
  tags_eq : mf1.tags = mf.tags

/-! ## Sample hosts and files -/

/-- A little-endian host: table of 1009 buckets, fresh bytes zero. -/
def host_le : host := ⟨false, 1009, fun _ => 0⟩

/-- A big-endian host: table of 1009 buckets, fresh bytes zero. -/
def host_be : host := ⟨true, 1009, fun _ => 0⟩

/-- A zeroed `struct memfile`, as handed to mnew. -/
def memfile.zero : memfile := ⟨[], 0, 0, none, [], 0, 0, 0, MDIFF_INVALID, 0, fun _ => []⟩

/-- The condition under which mdiffflush does not panic: a pending edit run is
not longer than the data written so far. -/
def memfile.edit_ok (mf : memfile) : Prop :=
  mf.curcmd = MDIFF_EDIT → 0 ≤ mf.curcount ∧ mf.curcount ≤ mf.pos

instance (mf : memfile) : Decidable mf.wf := by
  unfold memfile.wf
  infer_instance

instance (mf : memfile) : Decidable mf.edit_ok := by
  unfold memfile.edit_ok
  infer_instance

/-- A fresh parentless file on the little-endian sample host. -/
def fresh_le : memfile := mnew host_le memfile.zero none

/-- The file `fresh_le` after `mwrite` of the five bytes 1, 2, 3, 4, 5. -/
def five_le : memfile :=
  { mwrite_copy host_le fresh_le [1, 2, 3, 4, 5] with pos := fresh_le.pos + 5 }

/-- The diff side of `mf1` is the one of `mf`: diff buffer, its length and
cursor, the parent cursor and the pending command. -/
def same_diff (mf mf1 : memfile) : Prop :=
  mf1.diffbuf = mf.diffbuf ∧ mf1.difflen = mf.difflen ∧ mf1.diffpos = mf.diffpos ∧
  mf1.relativepos = mf.relativepos ∧ mf1.curcmd = mf.curcmd ∧ mf1.curcount = mf.curcount

/-! ## Sequences of typed writes and reads -/

/-- One typed write: an `int8_t`, `int16_t` or `int32_t` value, or a raw block
of bytes. -/
inductive item where
  | i8 (v : Int)
  | i16 (v : Int)
  | i32 (v : Int)
  | raw (bytes : List Nat)
deriving DecidableEq, Repr

/-- The width of a typed read. -/
inductive width where
  | w8
  | w16
  | w32
  | raw (num : Nat)
deriving DecidableEq, Repr

/-- The width with which an item is read back. -/
def item.shape : item → width
  | .i8 _ => .w8
  | .i16 _ => .w16
  | .i32 _ => .w32
  | .raw bytes => .raw bytes.length

/-- The value of an item lies in the range of its C type. -/
def item.valid : item → Prop
  | .i8 v => -2 ^ 7 ≤ v ∧ v < 2 ^ 7
  | .i16 v => -2 ^ 15 ≤ v ∧ v < 2 ^ 15
  | .i32 v => -2 ^ 31 ≤ v ∧ v < 2 ^ 31
  | .raw _ => True

/-- The number of bytes of an item. -/
def item.size : item → Nat
  | .i8 _ => 1
  | .i16 _ => 2
  | .i32 _ => 4
  | .raw bytes => bytes.length

/-- The total number of bytes of a sequence of items. -/
def items_size (items : List item) : Nat := (items.map item.size).sum

/-- The call of mwrite8, mwrite16, mwrite32 or mwrite for one item. -/
def write_item (h : host) (mf : memfile) : item → Except fatal memfile
  | .i8 v => mwrite8 h mf v
  | .i16 v => mwrite16 h mf v
  | .i32 v => mwrite32 h mf v
  | .raw bytes => mwrite h mf bytes

/-- The calls for a sequence of items, in order. -/
def write_items (h : host) : memfile → List item → Except fatal memfile
  | mf, [] => .ok mf
  | mf, it :: rest => write_item h mf it >>= fun m => write_items h m rest

/-- The call of mread8, mread16, mread32 or mread for one width. -/
def read_item (h : host) (mf : memfile) : width → Except fatal (item × memfile)
  | .w8 => (mread8 h mf).map (fun r => (item.i8 r.1, r.2))
  | .w16 => (mread16 h mf).map (fun r => (item.i16 r.1, r.2))
  | .w32 => (mread32 h mf).map (fun r => (item.i32 r.1, r.2))
  | .raw num => (mread mf num).map (fun r => (item.raw r.1, r.2))

/-- The reads for a sequence of widths, in order. -/
def read_items (h : host) : memfile → List width → Except fatal (List item × memfile)
  | mf, [] => .ok ([], mf)
  | mf, w :: rest =>
    read_item h mf w >>= fun r =>
    (read_items h r.2 rest).map (fun q => (r.1 :: q.1, q.2))

/-- The bytes an item occupies in the file. -/
def item.wire : item → List Nat
  | .i8 v => le_bytes 1 (to_unsigned 8 v)
  | .i16 v => le_bytes 2 (to_unsigned 16 v)
  | .i32 v => le_bytes 4 (to_unsigned 32 v)
  | .raw bytes => bytes

/-- The bytes a sequence of items occupies in the file. -/
def items_wire : List item → List Nat
  | [] => []
  | it :: rest => it.wire ++ items_wire rest

instance (it : item) : Decidable it.valid := by
  cases it <;> unfold item.valid <;> infer_instance

/-! ## Decoding a diff stream -/

/-- Modelled from the spec: the decoder of the diff stream is not in
memfile.c.  It follows the wire format: a unit is a 16-bit little-endian word,
bits 15-14 the command, bits 13-0 the payload; with a cursor into the parent
content, copy `n` takes the `n` parent bytes at the cursor and advances it by
`n`; edit `n` takes the `n` literal bytes that follow the unit and advances
the cursor by `n`; seek `k` (payload read as a signed 14-bit value, mtag
computing it as `relativepos - tag.pos`) moves the cursor to `cursor - k`.
The result is the decoded bytes and the final cursor, `none` when the stream
is malformed or a copy leaves the parent content.  The first argument bounds
the number of units. -/
def mdiff_decode_fuel (parent : List Nat) : Nat → List Nat → Int → Option (List Nat × Int)
  | 0, _, _ => none
  | _ + 1, [], cursor => some ([], cursor)
  | _ + 1, [_], _ => none
  | fuel + 1, b0 :: b1 :: rest, cursor =>
    if (b0 + 256 * b1) / 2 ^ 14 = MDIFF_COPY.code then
      if 0 ≤ cursor ∧ cursor + ((b0 + 256 * b1) % 2 ^ 14 : Nat) ≤ parent.length then
        (mdiff_decode_fuel parent fuel rest (cursor + ((b0 + 256 * b1) % 2 ^ 14 : Nat))).map
          (fun r => (slice parent cursor ((b0 + 256 * b1) % 2 ^ 14 : Nat) ++ r.1, r.2))
      else none
    else if (b0 + 256 * b1) / 2 ^ 14 = MDIFF_EDIT.code then
      if (b0 + 256 * b1) % 2 ^ 14 ≤ rest.length then
        (mdiff_decode_fuel parent fuel (rest.drop ((b0 + 256 * b1) % 2 ^ 14))
            (cursor + ((b0 + 256 * b1) % 2 ^ 14 : Nat))).map
          (fun r => (rest.take ((b0 + 256 * b1) % 2 ^ 14) ++ r.1, r.2))
      else none
    else if (b0 + 256 * b1) / 2 ^ 14 = MDIFF_SEEK.code then
      mdiff_decode_fuel parent fuel rest (cursor - to_signed 14 ((b0 + 256 * b1) % 2 ^ 14))
    else none

/-- The decoder started at `cursor`; every unit takes at least two bytes, so
one more unit than the stream has bytes is enough. -/
def mdiff_run (parent : List Nat) (stream : List Nat) (cursor : Int) :
    Option (List Nat × Int) :=
  mdiff_decode_fuel parent (stream.length + 1) stream cursor

/-- Modelled from the spec: decoding a whole diff stream against the parent
content, the parent cursor starting at 0. -/
def mdiff_decode (parent : List Nat) (stream : List Nat) : Option (List Nat) :=
  (mdiff_run parent stream 0).map (fun r => r.1)

/-! ## Sequences of writes and tags on a diff file -/

/-- One call on a diff file: mwrite of a block, one of the typed writes, or
mtag. -/
inductive diff_op where
  | write (data : List Nat)
  | write8 (v : Int)
  | write16 (v : Int)
  | write32 (v : Int)
  | write64 (v : Int)
  | tag (tagdata : Int) (tagtype : Int)
deriving DecidableEq, Repr

/-- The call for one operation. -/
def apply_op (h : host) (mf : memfile) : diff_op → Except fatal memfile
  | .write data => mwrite h mf data
  | .write8 v => mwrite8 h mf v
  | .write16 v => mwrite16 h mf v
  | .write32 v => mwrite32 h mf v
  | .write64 v => mwrite64 h mf v
  | .tag tagdata tagtype => mtag h mf tagdata tagtype

/-- The calls for a sequence of operations, in order. -/
def apply_ops (h : host) : memfile → List diff_op → Except fatal memfile
  | mf, [] => .ok mf
  | mf, op :: rest => apply_op h mf op >>= fun m => apply_ops h m rest

/-- The operations whose array accesses are inside the arrays: the bucket of
an mtag is an index of the tag table.  The writes index `buf` and `diffbuf`
only below the capacity they have just ensured. -/
def op_valid (h : host) : diff_op → Prop
  | .tag tagdata tagtype => in_table h tagdata tagtype
  | _ => True

instance (h : host) (op : diff_op) : Decidable (op_valid h op) := by
  cases op <;> unfold op_valid <;> infer_instance

/-- What the decoder has produced from the units written so far (`out`, with
its cursor at `cur`) against what the pending command of `mf` still stands
for: `out` followed by the pending run is the content of `mf`, and the cursor
moved by the pending command is `relativepos`. -/
def pending_ok (parent : List Nat) (mf : memfile) (out : List Nat) (cur : Int) : Prop :=
  match mf.curcmd with
  | MDIFF_INVALID => out = mf.content ∧ cur = mf.relativepos
  | MDIFF_COPY =>
    1 ≤ mf.curcount ∧ mf.curcount ≤ 0x3fff ∧ mf.curcount ≤ mf.pos ∧ 0 ≤ cur ∧
    cur + mf.curcount = mf.relativepos ∧ mf.relativepos ≤ parent.length ∧
    out = mf.content.take (mf.pos - mf.curcount).toNat ∧
    slice mf.content (mf.pos - mf.curcount) mf.curcount = slice parent cur mf.curcount
  | MDIFF_EDIT =>
    1 ≤ mf.curcount ∧ mf.curcount ≤ 0x3fff ∧ mf.curcount ≤ mf.pos ∧
    cur + mf.curcount = mf.relativepos ∧
    out = mf.content.take (mf.pos - mf.curcount).toNat
  | MDIFF_SEEK =>
    -0x1fff ≤ mf.curcount ∧ mf.curcount ≤ 0x1fff ∧ cur - mf.curcount = mf.relativepos ∧
    out = mf.content

/-- The invariant of a diff file with parent `parent`: both buffers are well
formed, the parent cursor is not negative, and the units written so far decode
to the content up to the pending command. -/
structure diff_inv (parent : memfile) (mf : memfile) : Prop where
  wf : mf.wf
  dwf : mf.diff_wf
  rel : mf.relativeto = some parent
  relpos : 0 ≤ mf.relativepos
  dec : ∃ out cur, mdiff_run parent.content mf.diffstream 0 = some (out, cur) ∧
    pending_ok parent.content mf out cur

/-- The file `five_le` after `mtag(mf, 5, 1)`: a parent with one tag, at
offset 5. -/
def parent_le : memfile :=
  { five_le with tags := (Function.update five_le.tags (mtag_bucket host_le 5 1)
      [{ tagdata := 5, tagtype := 1, pos := 5 }]) }

/-- The first statements of mtag: the new record, filled with the tag and the
cursor, is put at the head of its bucket chain. -/
def mtag_add (h : host) (mf : memfile) (tagdata : Int) (tagtype : Int) : memfile :=
  { mf with tags := (Function.update mf.tags (mtag_bucket h tagdata tagtype)
      ({ tagdata := tagdata, tagtype := tagtype, pos := mf.pos } ::
        mf.tags (mtag_bucket h tagdata tagtype))) }

/-- The first tag of the parent chain that mtag matches with `(tagdata, tagtype)`. -/
def parent_tag (h : host) (parent : memfile) (tagdata : Int) (tagtype : Int) :
    Option memfile_tag :=
  (parent.tags (mtag_bucket h tagdata tagtype)).find?
    (fun t => t.tagtype = tagtype ∧ t.tagdata = tagdata)

/-- A diff file on `parent_le` with a pending seek of 5 and the parent cursor
at 0. -/
def seek_le : memfile :=
  { mnew host_le memfile.zero (some parent_le) with curcmd := MDIFF_SEEK, curcount := 5 }

/-- The calls `mwrite(mf, b, b.length)` for the blocks `b` of a list, in order. -/
def mwrite_all (h : host) : memfile → List (List Nat) → Except fatal memfile
  | mf, [] => .ok mf
  | mf, b :: rest => mwrite h mf b >>= fun m => mwrite_all h m rest

/-- The two bytes of a command unit as mdiffwrite14 writes them
(`mdiffwrite14_eq`): the 16-bit word with the command in the two high bits and
the low 14 bits of the value, low byte first. -/
def command_unit (command : memfile_diffcmd) (value : Int) : List Nat :=
  le_bytes 2 ((value % 2 ^ 14).toNat + command.code * 2 ^ 14)

/-- The bytes of consecutive seek units with the given payloads. -/
def seek_units : List Int → List Nat
  | [] => []
  | p :: rest => command_unit MDIFF_SEEK p ++ seek_units rest

/-- The pending seek count of a memfile: `curcount` when the pending command
is a seek, 0 otherwise. -/
def pending_seek (mf : memfile) : Int :=
  if mf.curcmd = MDIFF_SEEK then mf.curcount else 0

/-- A diff file on `parent_le` whose parent cursor stands at 20000. -/
def far_le : memfile :=
  { mnew host_le memfile.zero (some parent_le) with relativepos := 20000 }

/-- The command that the loop of mwrite chooses for the byte `buf[pos]` with
the parent cursor at `relativepos`: a copy when the parent has the same byte
there, an edit otherwise. -/
def run_kind (parent : memfile) (buf : List Nat) (pos relativepos : Int) : memfile_diffcmd :=
  if relativepos < parent.pos ∧ byte_at buf pos = byte_at parent.buf relativepos then MDIFF_COPY
  else MDIFF_EDIT

/-- A parentless file whose content is 16384 zero bytes. -/
def zeros_le : memfile :=
  ⟨List.replicate 16384 0, 16384, 16384, none, [], 0, 0, 0, MDIFF_INVALID, 0, fun _ => []⟩

/-! ## Mapping and comparing -/

/-- `mmmap(mf, len, off)`: the memfile after the call; the pointer returned is
`mf->buf + off`, so the caller reads its byte `i` as `byte_at buf (off + i)`. -/
def mmmap (h : host) (mf : memfile) (len off : Int) : memfile :=
  let mf := expand_memfile h mf (len + off)
  if len + off > mf.pos then { mf with pos := len + off } else mf

/-- Modelled from the spec: the constants `ROWNO` and `MTAG_LOCATIONS` that the
diagnostics of mequal use come from headers that are not part of the sources;
they are taken as parameters. -/
structure header where
  ROWNO : Int
  MTAG_LOCATIONS : Int

/-- One call of `raw_printf` in mequal, with the values of its arguments:
the heading, a desync line (offset, tag type, tag data, distance from the tag,
whether "bytes" is written in the plural, the byte of each file) and the line
for a location tag (the two coordinates, the byte inside the location, the
plural). -/
inductive report where
  | changed
  | desync (off : Int) (tagtype : Int) (tagdata : Int) (rel : Int) (plural : Bool)
      (was : Nat) (now : Nat)
  | location (x : Int) (y : Int) (rel : Int) (plural : Bool)
deriving DecidableEq, Repr

/-- The two inner loops of the diagnostics of mequal for one offset: every
chain of `mf2`, bucket after bucket, is walked, and `tag` becomes the last tag
met whose `pos` is `off`; it is left as it was when there is none. -/
def mequal_scan (h : host) (mf2 : memfile) (off : Int) (tag : Option memfile_tag) :
    Option memfile_tag :=
  (List.range h.MEMFILE_HASHTABLE_SIZE.toNat).foldl
    (fun tag bin =>
      (mf2.tags bin).foldl (fun tag titer => if titer.pos = off then some titer else tag) tag)
    tag

/-- The loop `for (off = 0; off < len; off++)` of the diagnostics of mequal,
with the number of offsets left, the offset and the current `tag`; the result
is what is printed.  `bpl` is 8; the divisions are the truncating ones of C. -/
def mequal_report (h : host) (c : header) (buf1 buf2 : List Nat) (mf2 : memfile) :
    Nat → Int → Option memfile_tag → List report
  | 0, _, _ => []
  | n + 1, off, tag =>
    match mequal_scan h mf2 off tag with
    | some t =>
      if byte_at buf1 off ≠ byte_at buf2 off then
        let which_location : Int := Int.tdiv (off - t.pos) 8
        [report.desync off t.tagtype t.tagdata (off - t.pos) (decide (off - t.pos ≠ 1))
          (byte_at buf1 off) (byte_at buf2 off)] ++
        (if t.tagtype = c.MTAG_LOCATIONS then
          [report.location (Int.tdiv which_location c.ROWNO) (Int.tmod which_location c.ROWNO)
            (Int.tmod (off - t.pos) 8) (decide (Int.tmod (off - t.pos) 8 ≠ 1))]
        else []) ++
        mequal_report h c buf1 buf2 mf2 n (off + 1) none
      else mequal_report h c buf1 buf2 mf2 n (off + 1) (some t)
    | none => mequal_report h c buf1 buf2 mf2 n (off + 1) none

/-- What a call of mequal leaves: the value returned, the two memfiles after
the calls of mmmap, and what was printed. -/
structure mequal_result where
  verdict : Bool
  mf1 : memfile
  mf2 : memfile
  printed : List report

/-- `mequal(mf1, mf2, noisy)`.  `memcmp(p1, p2, len) != 0` says that the first
`len` bytes of the two buffers differ somewhere. -/
def mequal (h : host) (c : header) (mf1 mf2 : memfile) (noisy : Bool) : mequal_result :=
  let len := if mf1.pos > mf2.pos then mf2.pos else mf1.pos
  let mf1 := mmmap h mf1 len 0
  let mf2 := mmmap h mf2 len 0
  if mf1.pos ≠ mf2.pos ∨ slice mf1.buf 0 len ≠ slice mf2.buf 0 len then
    if noisy = false then ⟨false, mf1, mf2, []⟩
    else ⟨false, mf1, mf2, report.changed :: mequal_report h c mf1.buf mf2.buf mf2 len.toNat 0 none⟩
  else ⟨true, mf1, mf2, []⟩

/-- Header constants of the sample hosts: 21 rows, location tags of type 3. -/
def header_le : header := ⟨21, 3⟩

/-- A host with a table of four buckets. -/
def host_four : host := ⟨false, 4, fun _ => 0⟩

/-- Two files of three bytes that differ in the second one; the second file has
a location tag at offset 1 in bucket 2. -/
def was_le : memfile := ⟨[1, 2, 3], 3, 3, none, [], 0, 0, 0, MDIFF_INVALID, 0, fun _ => []⟩

/-- The file compared with `was_le`. -/
def now_le : memfile :=
  ⟨[1, 9, 3], 3, 3, none, [], 0, 0, 0, MDIFF_INVALID, 0,
    fun i => if i = 2 then [⟨7, 3, 1⟩] else []⟩

/-! ## Draining to a sink -/

/-- `mfree(mf)`: both buffers are released and their pointers set to null, and
every bucket `0 .. MEMFILE_HASHTABLE_SIZE - 1` is emptied; no other field is
assigned. -/
def mfree (h : host) (mf : memfile) : memfile :=
  { mf with buf := [], diffbuf := [],
            tags := (fun i => if 0 ≤ i ∧ i < h.MEMFILE_HASHTABLE_SIZE then [] else mf.tags i) }

/-- The loop of store_mf.  `write s bytes` stands for `write(fd, p, count)`,
`bytes` being the `count` bytes at `p` and `s` the state of the sink: it gives
the value returned and the next state of the sink.  The arguments are the
bound on the number of iterations, `left` and the sink; the result is the sink
at the label `out` and the record of the calls made (the bytes offered and the
value returned), `none` when the bound is used up before the loop ends. -/
def store_mf_loop {σ : Type} (write : σ → List Nat → Int × σ) (buf : List Nat) (len : Int) :
    Nat → Int → σ → Option (σ × List (List Nat × Int))
  | 0, left, s => if left ≠ 0 then none else some (s, [])
  | fuel + 1, left, s =>
    if left ≠ 0 then
      if (write s (slice buf (len - left) left)).1 = -1 then
        some ((write s (slice buf (len - left) left)).2,
          [(slice buf (len - left) left, (write s (slice buf (len - left) left)).1)])
      else
        (store_mf_loop write buf len fuel (left - (write s (slice buf (len - left) left)).1)
            (write s (slice buf (len - left) left)).2).map
          (fun x => (x.1, (slice buf (len - left) left,
            (write s (slice buf (len - left) left)).1) :: x.2))
    else some (s, [])

/-- `store_mf(fd, mf)`: the loop, then `mfree(mf)` and `mnew(mf, NULL)` at the
label `out`, which is reached both when everything was accepted and when the
sink returned -1.  The result is the memfile, the sink and the record of the
calls of `write`. -/
def store_mf {σ : Type} (h : host) (write : σ → List Nat → Int × σ) (fuel : Nat) (fd : σ)
    (mf : memfile) : Option (memfile × σ × List (List Nat × Int)) :=
  (store_mf_loop write mf.buf mf.pos fuel mf.pos fd).map
    (fun x => (mnew h (mfree h mf) none, x.1, x.2))

/-- A record of calls of `write` drains the bytes `rest`: every call is
offered exactly what is left, accepts between one byte and all of it, and
nothing is left after the last call. -/
def drained : List Nat → List (List Nat × Int) → Prop
  | rest, [] => rest = []
  | rest, (offered, ret) :: calls =>
    offered = rest ∧ 1 ≤ ret ∧ ret ≤ offered.length ∧ drained (rest.drop ret.toNat) calls

/-- The bytes that the sink accepted, call after call. -/
def accepted : List (List Nat × Int) → List Nat
  | [] => []
  | (offered, ret) :: calls => offered.take ret.toNat ++ accepted calls

/-- A sink that accepts at most two bytes per call and keeps what it accepted. -/
def sink_two (s : List Nat) (bytes : List Nat) : Int × List Nat :=
  (min 2 bytes.length, s ++ bytes.take 2)

/-- A record of calls of `write` on the bytes `rest` that ends either with
everything accepted or with a call that returned -1: every call is offered
exactly what is left; a call that returns -1 is the last one; any other call
accepts between one byte and all of what it was offered. -/
def drained_or_failed : List Nat → List (List Nat × Int) → Prop
  | rest, [] => rest = []
  | rest, (offered, ret) :: calls =>
    offered = rest ∧
      ((ret = -1 ∧ calls = []) ∨
        (1 ≤ ret ∧ ret ≤ offered.length ∧ drained_or_failed (rest.drop ret.toNat) calls))

/-- A sink that accepts two bytes on its first call and fails afterwards; its
state is what it accepted. -/
def sink_once (s : List Nat) (bytes : List Nat) : Int × List Nat :=
  if s = [] then (min 2 bytes.length, bytes.take 2) else (-1, s)

/-- What mdiffflush appends to the diff stream (`mdiffflush_stream`): nothing
when no command is pending, the command unit of the pending command, and after
the unit of an edit the `curcount` bytes before the cursor. -/
def flush_bytes (mf : memfile) : List Nat :=
  match mf.curcmd with
  | MDIFF_INVALID => []
  | MDIFF_EDIT =>
    command_unit MDIFF_EDIT mf.curcount ++ slice mf.buf (mf.pos - mf.curcount) mf.curcount
  | MDIFF_COPY => command_unit MDIFF_COPY mf.curcount
  | MDIFF_SEEK => command_unit MDIFF_SEEK mf.curcount

/-- A diff file on `parent_le` with three bytes written and an edit run of two
pending. -/
def edit_le : memfile :=
  ⟨[7, 8, 9], 3, 3, some parent_le, [], 0, 0, 3, MDIFF_EDIT, 2, fun _ => []⟩

/-! ## Sequences of calls of the write path -/

/-- A call of the write path: mwrite, mwrite8, mwrite16, mwrite32, mwrite64,
mtag, mfalign, mfmagic_set or mdiffflush, with its arguments. -/
inductive call where
  | write (data : List Nat)
  | write8 (value : Int)
  | write16 (value : Int)
  | write32 (value : Int)
  | write64 (value : Int)
  | tag (tagdata : Int) (tagtype : Int)
  | align (aln : Int)
  | magic (magic : Int)
  | flush
deriving DecidableEq, Repr

/-- The call made. -/
def do_call (h : host) (mf : memfile) : call → Except fatal memfile
  | .write data => mwrite h mf data
  | .write8 value => mwrite8 h mf value
  | .write16 value => mwrite16 h mf value
  | .write32 value => mwrite32 h mf value
  | .write64 value => mwrite64 h mf value
  | .tag tagdata tagtype => mtag h mf tagdata tagtype
  | .align aln => mfalign h mf aln
  | .magic magic => mfmagic_set h mf magic
  | .flush => mdiffflush h mf

/-- The calls of a list made one after the other; a fatal exit ends the run. -/
def do_calls (h : host) : memfile → List call → Except fatal memfile
  | mf, [] => .ok mf
  | mf, c :: rest => do_call h mf c >>= fun m => do_calls h m rest

/-- The calls whose array accesses are inside the arrays: the bucket of an
mtag is an index of the tag table. -/
def call_valid (h : host) : call → Prop
  | .tag tagdata tagtype => in_table h tagdata tagtype
  | _ => True

instance (h : host) (c : call) : Decidable (call_valid h c) := by
  cases c <;> unfold call_valid <;> infer_instance

/-- The diff streams that are a sequence of command units within bounds: a
copy unit with a run length from 1 to 0x3fff; an edit unit with a run length
from 1 to 0x3fff followed by that many literal bytes; a seek unit with a
payload from -0x1fff to 0x1fff other than 0. -/
inductive units_valid : List Nat → Prop where
  | nil : units_valid []
  | copy (n : Int) (rest : List Nat) : 1 ≤ n → n ≤ 0x3fff → units_valid rest →
      units_valid (command_unit MDIFF_COPY n ++ rest)
  | edit (n : Int) (lit rest : List Nat) : 1 ≤ n → n ≤ 0x3fff → (lit.length : Int) = n →
      units_valid rest → units_valid (command_unit MDIFF_EDIT n ++ lit ++ rest)
  | seek (k : Int) (rest : List Nat) : k ≠ 0 → -0x1fff ≤ k → k ≤ 0x1fff →
      units_valid rest → units_valid (command_unit MDIFF_SEEK k ++ rest)

/-- The invariant of the writer: both buffers are well formed, the capacity
is a multiple of 4096, a pending edit run is not longer than the data, a
pending copy or edit has a count from 1 to 0x3fff, a pending seek has a count
from -0x1fff to 0x1fff other than 0, and the diff stream is a sequence of
command units within bounds. -/
structure enc_inv (mf : memfile) : Prop where
  wf : mf.wf
  dwf : mf.diff_wf
  cap : mf.len % 4096 = 0
  edit : mf.curcmd = MDIFF_EDIT → mf.curcount ≤ mf.pos
  run : mf.curcmd = MDIFF_COPY ∨ mf.curcmd = MDIFF_EDIT →
    1 ≤ mf.curcount ∧ mf.curcount ≤ 0x3fff
  seek : mf.curcmd = MDIFF_SEEK →
    mf.curcount ≠ 0 ∧ -0x1fff ≤ mf.curcount ∧ mf.curcount ≤ 0x1fff
  units : units_valid mf.diffstream

/-- A parent whose bucket 69 holds, from the head: a tag of another pair that
falls into the same bucket, then two tags of the pair (5, 1), the newer one at
offset 9 and the older one at offset 5. -/
def twice_le : memfile :=
  ⟨[1, 2, 3, 4, 5, 6, 7, 8, 9], 9, 9, none, [], 0, 0, 0, MDIFF_INVALID, 0,
    fun i => if i = 69 then [⟨1014, 1, 7⟩, ⟨5, 1, 9⟩, ⟨5, 1, 5⟩] else []⟩

/-! ## Cloning -/

/-- The loop of mclone over one chain: a new record is allocated for every
record of the chain and filled with its fields, in the same order. -/
def mclone_chain : List memfile_tag → List memfile_tag
  | [] => []
  | fromtag :: rest =>
    { tagdata := fromtag.tagdata, tagtype := fromtag.tagtype, pos := fromtag.pos } ::
      mclone_chain rest

/-- `mclone(to, from)`, the memfile left in `*to`; `*from` is `const`.  The
structure is copied; when `from->buf` is not null a block of `from->len` bytes
is allocated and the first `from->len` bytes of `from->buf` are copied into
it; the same for `diffbuf` with `difflen`; the chains of the buckets
`0 .. MEMFILE_HASHTABLE_SIZE - 1` are copied.  What `*to` held before is
overwritten, so the result does not depend on it. -/
def mclone (h : host) (src : memfile) : memfile :=
  { src with
    buf := (if src.buf ≠ [] then
        memcpy (realloc h [] src.len.toNat) 0 (slice src.buf 0 src.len)
      else src.buf),
    diffbuf := (if src.diffbuf ≠ [] then
        memcpy (realloc h [] src.difflen.toNat) 0 (slice src.diffbuf 0 src.difflen)
      else src.diffbuf),
    tags := (fun i =>
      if 0 ≤ i ∧ i < h.MEMFILE_HASHTABLE_SIZE then mclone_chain (src.tags i)
      else src.tags i) }

/-! ## Sequences of calls with mapping and reading -/

/-- A call of the write path, of mmmap, or of one of the readers mread,
mread8, mread16, mread32, mread64, with its arguments. -/
inductive step where
  | call (c : call)
  | map (len : Int) (off : Int)
  | read (len : Nat)
  | read8
  | read16
  | read32
  | read64
deriving DecidableEq, Repr

/-- The call made, with the memfile it leaves (the pointer of mmmap and the
values read are dropped). -/
def do_step (h : host) (mf : memfile) : step → Except fatal memfile
  | .call c => do_call h mf c
  | .map len off => .ok (mmmap h mf len off)
  | .read len => (mread mf len).map (fun r => r.2)
  | .read8 => (mread8 h mf).map (fun r => r.2)
  | .read16 => (mread16 h mf).map (fun r => r.2)
  | .read32 => (mread32 h mf).map (fun r => r.2)
  | .read64 => (mread64 h mf).map (fun r => r.2)

/-- The calls of a list made one after the other; a fatal exit ends the run. -/
def do_steps (h : host) : memfile → List step → Except fatal memfile
  | mf, [] => .ok mf
  | mf, s :: rest => do_step h mf s >>= fun m => do_steps h m rest

/-- The arguments that the claims about mmmap and mread admit: for a call of
the write path the bucket of an mtag inside the tag table (`call_valid`),
`len >= 0` and `off >= 0` for mmmap, and for mread a count below `2 ^ 31`
(`mf->len` is an `int`, so in C a read of more always panics; the `len` of the
embedding has no bound, and this condition stands for it). -/
def step_valid (h : host) : step → Prop
  | .call c => call_valid h c
  | .map len off => 0 ≤ len ∧ 0 ≤ off
  | .read len => len < 2 ^ 31
  | _ => True

instance (h : host) (s : step) : Decidable (step_valid h s) := by
  cases s <;> unfold step_valid <;> infer_instance

/-- The calls whose array accesses are inside the arrays, whatever the other
arguments are: the bucket of an mtag is an index of the tag table. -/
def step_in_table (h : host) : step → Prop
  | .call c => call_valid h c
  | _ => True

instance (h : host) (s : step) : Decidable (step_in_table h s) := by
  cases s <;> unfold step_in_table <;> infer_instance

/-- The diff side of a memfile is inert: no parent, no diff buffer, `difflen`,
`diffpos` and `relativepos` zero, no pending command. -/
def inert (mf : memfile) : Prop :=
  mf.relativeto = none ∧ mf.diffbuf = [] ∧ mf.difflen = 0 ∧ mf.diffpos = 0 ∧
  mf.relativepos = 0 ∧ mf.curcmd = MDIFF_INVALID

/-- The bytes that a call of the write path appends to the content of a file
seen as a linear file, the cursor being at `pos`: the block of mwrite, the
object bytes of the typed writes, the padding of mfalign, the padding and the
word of mfmagic_set, nothing for mtag and mdiffflush. -/
def linear_data (h : host) (pos : Int) : call → List Nat
  | .write data => data
  | .write8 value => object_bytes h.IS_BIG_ENDIAN 1 (to_unsigned 8 value)
  | .write16 value => object_bytes h.IS_BIG_ENDIAN 2 (host_to_le16 h (to_unsigned 16 value))
  | .write32 value => object_bytes h.IS_BIG_ENDIAN 4 (host_to_le32 h (to_unsigned 32 value))
  | .write64 value => object_bytes h.IS_BIG_ENDIAN 8 (host_to_le64 h (to_unsigned 64 value))
  | .tag _ _ => []
  | .align aln => List.replicate (mfalign_bytes pos aln).toNat 0
  | .magic magic =>
    List.replicate (mfalign_bytes pos 4).toNat 0 ++
      object_bytes h.IS_BIG_ENDIAN 4 (host_to_le32 h (to_unsigned 32 magic))
  | .flush => []

/-- The tag index that a call of the write path leaves, the cursor being at
`pos`: mtag puts its record at the head of its bucket chain, the other calls
leave the index alone. -/
def linear_tags (h : host) (pos : Int) (tags : Int → List memfile_tag) :
    call → (Int → List memfile_tag)
  | .tag tagdata tagtype =>
    Function.update tags (mtag_bucket h tagdata tagtype)
      ({ tagdata := tagdata, tagtype := tagtype, pos := pos } ::
        tags (mtag_bucket h tagdata tagtype))
  | _ => tags

/-! ## Machine integers: basic facts -/

theorem to_unsigned_lt (w : Nat) (x : Int) : to_unsigned w x < 2 ^ w := by
  unfold to_unsigned
  have h2 : (0 : Int) < 2 ^ w := by positivity
  have h1 := Int.emod_lt_of_pos x h2
  have h0 := Int.emod_nonneg x (ne_of_gt h2)
  zify
  rw [Int.toNat_of_nonneg h0]
  exact_mod_cast h1

theorem to_unsigned_of_range (w : Nat) (x : Int) (h0 : 0 ≤ x) (h1 : x < 2 ^ w) :
    to_unsigned w x = x.toNat := by
  unfold to_unsigned
  rw [Int.emod_eq_of_lt h0 h1]

theorem to_signed_to_unsigned8 (x : Int) (lo : -128 ≤ x) (hi : x < 128) :
    to_signed 8 (to_unsigned 8 x) = x := by
  unfold to_signed to_unsigned
  norm_num
  omega

theorem le_bytes_length (n x : Nat) : (le_bytes n x).length = n := by
  induction n generalizing x with
  | zero => rfl
  | succ n ih => simp [le_bytes, ih]

theorem le_bytes_lt (n x : Nat) : ∀ b ∈ le_bytes n x, b < 256 := by
  induction n generalizing x with
  | zero => simp [le_bytes]
  | succ n ih =>
    intro b hb
    simp only [le_bytes, List.mem_cons] at hb
    rcases hb with hb | hb
    · omega
    · exact ih _ b hb

theorem le_value_le_bytes (n x : Nat) : le_value (le_bytes n x) = x % 256 ^ n := by
  induction n generalizing x with
  | zero => simp [le_bytes, le_value, Nat.mod_one]
  | succ n ih =>
    simp only [le_bytes, le_value, ih]
    rw [pow_succ, Nat.mul_comm (256 ^ n) 256, Nat.mod_mul]

theorem le_bytes_le_value (bs : List Nat) (hb : ∀ b ∈ bs, b < 256) :
    le_bytes bs.length (le_value bs) = bs := by
  induction bs with
  | nil => rfl
  | cons b bs ih =>
    have h1 : b < 256 := hb b (List.mem_cons_self _ _)
    have h2 := ih (fun c hc => hb c (List.mem_cons_of_mem _ hc))
    simp only [List.length_cons, le_bytes, le_value]
    have e1 : (b + 256 * le_value bs) % 256 = b := by omega
    have e2 : (b + 256 * le_value bs) / 256 = le_value bs := by omega
    rw [e1, e2, h2]

theorem le_value_lt (bs : List Nat) (hb : ∀ b ∈ bs, b < 256) :
    le_value bs < 256 ^ bs.length := by
  induction bs with
  | nil => simp [le_value]
  | cons b bs ih =>
    have h1 : b < 256 := hb b (List.mem_cons_self _ _)
    have h2 := ih (fun c hc => hb c (List.mem_cons_of_mem _ hc))
    simp only [List.length_cons, le_value, pow_succ]
    omega

theorem le_bytes_mod (n x : Nat) : le_bytes n (x % 256 ^ n) = le_bytes n x := by
  have h := le_bytes_le_value (le_bytes n x) (le_bytes_lt n x)
  rw [le_bytes_length, le_value_le_bytes] at h
  exact h

/-! ## Endian helpers -/

theorem byteswap_bytes (n x : Nat) :
    (le_bytes n (le_value (le_bytes n x).reverse)).reverse = le_bytes n x := by
  have hl : ((le_bytes n x).reverse).length = n := by simp [le_bytes_length]
  have hb : ∀ b ∈ (le_bytes n x).reverse, b < 256 := by
    intro b hb
    exact le_bytes_lt n x b (List.mem_reverse.mp hb)
  have h := le_bytes_le_value _ hb
  rw [hl] at h
  rw [h, List.reverse_reverse]

theorem object_bytes_host_to_le16 (h : host) (x : Nat) :
    object_bytes h.IS_BIG_ENDIAN 2 (host_to_le16 h x) = le_bytes 2 x := by
  have e : le_bytes 2 (x % 2 ^ 16) = le_bytes 2 x := le_bytes_mod 2 x
  unfold object_bytes host_to_le16 _byteswap16
  cases h.IS_BIG_ENDIAN
  · simpa using e
  · simp only [if_true]
    rw [byteswap_bytes, e]

theorem object_bytes_host_to_le32 (h : host) (x : Nat) :
    object_bytes h.IS_BIG_ENDIAN 4 (host_to_le32 h x) = le_bytes 4 x := by
  have e : le_bytes 4 (x % 2 ^ 32) = le_bytes 4 x := le_bytes_mod 4 x
  unfold object_bytes host_to_le32 _byteswap32
  cases h.IS_BIG_ENDIAN
  · simpa using e
  · simp only [if_true]
    rw [byteswap_bytes, e]

theorem object_bytes_host_to_le64_big (h : host) (hb : h.IS_BIG_ENDIAN = true) (x : Nat) :
    object_bytes h.IS_BIG_ENDIAN 8 (host_to_le64 h x) = le_bytes 8 x := by
  have e : le_bytes 8 (x % 2 ^ 64) = le_bytes 8 x := le_bytes_mod 8 x
  unfold object_bytes host_to_le64 _byteswap64
  rw [hb]
  simp only [if_true]
  rw [byteswap_bytes, e]

theorem byteswap_value (bs : List Nat) (hb : ∀ b ∈ bs, b < 256) :
    le_value (le_bytes bs.length (le_value bs.reverse % 256 ^ bs.length)).reverse = le_value bs := by
  have hr : ∀ b ∈ bs.reverse, b < 256 := fun b m => hb b (List.mem_reverse.mp m)
  have h := le_bytes_le_value bs.reverse hr
  rw [List.length_reverse] at h
  rw [le_bytes_mod, h, List.reverse_reverse]

theorem le16_to_host_object_value (h : host) (bs : List Nat) (hl : bs.length = 2)
    (hb : ∀ b ∈ bs, b < 256) :
    le16_to_host h (object_value h.IS_BIG_ENDIAN bs) = le_value bs := by
  have hv := le_value_lt bs hb
  have hs := byteswap_value bs hb
  rw [hl] at hv hs
  unfold le16_to_host object_value _byteswap16
  cases h.IS_BIG_ENDIAN
  · simp only [Bool.false_eq_true, if_false]
    exact Nat.mod_eq_of_lt (by omega)
  · simp only [if_true]
    exact hs

theorem le32_to_host_object_value (h : host) (bs : List Nat) (hl : bs.length = 4)
    (hb : ∀ b ∈ bs, b < 256) :
    le32_to_host h (object_value h.IS_BIG_ENDIAN bs) = le_value bs := by
  have hv := le_value_lt bs hb
  have hs := byteswap_value bs hb
  rw [hl] at hv hs
  unfold le32_to_host object_value _byteswap32
  cases h.IS_BIG_ENDIAN
  · simp only [Bool.false_eq_true, if_false]
    exact Nat.mod_eq_of_lt (by omega)
  · simp only [if_true]
    exact hs

theorem le64_to_host_object_value_big (h : host) (hbig : h.IS_BIG_ENDIAN = true)
    (bs : List Nat) (hl : bs.length = 8) (hb : ∀ b ∈ bs, b < 256) :
    le64_to_host h (object_value h.IS_BIG_ENDIAN bs) = le_value bs := by
  have hs := byteswap_value bs hb
  rw [hl] at hs
  unfold le64_to_host object_value _byteswap64
  rw [hbig]
  simp only [if_true]
  exact hs

theorem object_value_bytes1 (big : Bool) (x : Nat) :
    object_value big (object_bytes big 1 x) = x % 256 := by
  unfold object_value object_bytes
  cases big <;> simp [le_bytes, le_value]

/-! ## Raw memory: basic facts -/

theorem realloc_length (h : host) (buf : List Nat) (n : Nat) :
    (realloc h buf n).length = n := by
  unfold realloc
  simp only [List.length_append, List.length_take, List.length_map, List.length_range]
  omega

theorem realloc_take (h : host) (buf : List Nat) (n k : Nat) (hk : k ≤ buf.length)
    (hn : k ≤ n) : (realloc h buf n).take k = buf.take k := by
  unfold realloc
  rw [List.take_append_of_le_length (by simp; omega), List.take_take]
  congr 1
  omega

theorem memcpy_length (dst : List Nat) (off : Nat) (src : List Nat)
    (hd : off + src.length ≤ dst.length) : (memcpy dst off src).length = dst.length := by
  unfold memcpy
  simp only [List.length_append, List.length_take, List.length_drop]
  omega

theorem memcpy_take (dst : List Nat) (off : Nat) (src : List Nat) (k : Nat)
    (hk : k ≤ off) (hd : off ≤ dst.length) : (memcpy dst off src).take k = dst.take k := by
  unfold memcpy
  rw [List.append_assoc, List.take_append_of_le_length (by simp; omega), List.take_take]
  congr 1
  omega

theorem memcpy_slice (dst : List Nat) (off : Nat) (src : List Nat) (hd : off ≤ dst.length) :
    ((memcpy dst off src).drop off).take src.length = src := by
  unfold memcpy
  have hl : (dst.take off).length = off := by simp; omega
  rw [List.append_assoc, List.drop_append_of_le_length (by omega)]
  rw [List.drop_of_length_le (by omega), List.nil_append, List.take_left']
  rfl

theorem memcpy_drop (dst : List Nat) (off : Nat) (src : List Nat) (hd : off ≤ dst.length) :
    (memcpy dst off src).drop (off + src.length) = dst.drop (off + src.length) := by
  unfold memcpy
  have hl : (dst.take off ++ src).length = off + src.length := by simp; omega
  rw [List.drop_append_of_le_length (by omega), List.drop_of_length_le (by omega), List.nil_append]

/-! ## Results of fallible steps -/

theorem bind_eq_ok {α β : Type} (x : Except fatal α) (f : α → Except fatal β) (b : β) :
    (x >>= f) = .ok b ↔ ∃ a, x = .ok a ∧ f a = .ok b := by
  cases x with
  | error e => simp [bind, Except.bind]
  | ok a => simp [bind, Except.bind]

theorem map_eq_ok {α β : Type} (x : Except fatal α) (f : α → β) (b : β) :
    (x.map f) = .ok b ↔ ∃ a, x = .ok a ∧ f a = b := by
  cases x with
  | error e => simp [Except.map]
  | ok a => simp [Except.map]

/-! ## Frame facts of the diff writer -/

@[simp] theorem mdiffwrite_buf (h : host) (mf : memfile) (d : List Nat) :
    (mdiffwrite h mf d).buf = mf.buf := rfl
@[simp] theorem mdiffwrite_len (h : host) (mf : memfile) (d : List Nat) :
    (mdiffwrite h mf d).len = mf.len := rfl
@[simp] theorem mdiffwrite_pos (h : host) (mf : memfile) (d : List Nat) :
    (mdiffwrite h mf d).pos = mf.pos := rfl
@[simp] theorem mdiffwrite_relativeto (h : host) (mf : memfile) (d : List Nat) :
    (mdiffwrite h mf d).relativeto = mf.relativeto := rfl
@[simp] theorem mdiffwrite_relativepos (h : host) (mf : memfile) (d : List Nat) :
    (mdiffwrite h mf d).relativepos = mf.relativepos := rfl
@[simp] theorem mdiffwrite_curcmd (h : host) (mf : memfile) (d : List Nat) :
    (mdiffwrite h mf d).curcmd = mf.curcmd := rfl
@[simp] theorem mdiffwrite_curcount (h : host) (mf : memfile) (d : List Nat) :
    (mdiffwrite h mf d).curcount = mf.curcount := rfl
@[simp] theorem mdiffwrite_tags (h : host) (mf : memfile) (d : List Nat) :
    (mdiffwrite h mf d).tags = mf.tags := rfl
@[simp] theorem mdiffwrite_diffpos (h : host) (mf : memfile) (d : List Nat) :
    (mdiffwrite h mf d).diffpos = mf.diffpos + d.length := rfl

@[simp] theorem mdiffwrite14_buf (h : host) (mf : memfile) (c : Nat) (v : Int) :
    (mdiffwrite14 h mf c v).buf = mf.buf := rfl
@[simp] theorem mdiffwrite14_len (h : host) (mf : memfile) (c : Nat) (v : Int) :
    (mdiffwrite14 h mf c v).len = mf.len := rfl
@[simp] theorem mdiffwrite14_pos (h : host) (mf : memfile) (c : Nat) (v : Int) :
    (mdiffwrite14 h mf c v).pos = mf.pos := rfl
@[simp] theorem mdiffwrite14_relativeto (h : host) (mf : memfile) (c : Nat) (v : Int) :
    (mdiffwrite14 h mf c v).relativeto = mf.relativeto := rfl
@[simp] theorem mdiffwrite14_relativepos (h : host) (mf : memfile) (c : Nat) (v : Int) :
    (mdiffwrite14 h mf c v).relativepos = mf.relativepos := rfl
@[simp] theorem mdiffwrite14_curcmd (h : host) (mf : memfile) (c : Nat) (v : Int) :
    (mdiffwrite14 h mf c v).curcmd = mf.curcmd := rfl
@[simp] theorem mdiffwrite14_curcount (h : host) (mf : memfile) (c : Nat) (v : Int) :
    (mdiffwrite14 h mf c v).curcount = mf.curcount := rfl
@[simp] theorem mdiffwrite14_tags (h : host) (mf : memfile) (c : Nat) (v : Int) :
    (mdiffwrite14 h mf c v).tags = mf.tags := rfl

theorem mdiffflush_invalid (h : host) (mf : memfile) (hc : mf.curcmd = MDIFF_INVALID) :
    mdiffflush h mf = .ok mf := by
  unfold mdiffflush
  simp only [hc, ne_eq, not_true_eq_false, if_false, reduceCtorEq]
  congr 1
  cases mf
  simp only at hc
  simp [hc]

theorem mdiffflush_unit (h : host) (mf : memfile) (h1 : mf.curcmd ≠ MDIFF_INVALID)
    (h2 : mf.curcmd ≠ MDIFF_EDIT) :
    mdiffflush h mf =
      .ok { mdiffwrite14 h mf mf.curcmd.code mf.curcount with curcmd := MDIFF_INVALID } := by
  unfold mdiffflush
  simp [h1, h2]

theorem mdiffflush_edit (h : host) (mf : memfile) (h1 : mf.curcmd = MDIFF_EDIT)
    (h2 : 0 ≤ mf.curcount) (h3 : mf.curcount ≤ mf.pos) :
    mdiffflush h mf =
      .ok { mdiffwrite h (mdiffwrite14 h mf MDIFF_EDIT.code mf.curcount)
              (slice mf.buf (mf.pos - mf.curcount) mf.curcount) with curcmd := MDIFF_INVALID } := by
  unfold mdiffflush
  have h4 : ¬ (mf.curcount > mf.pos ∨ mf.curcount < 0) := by omega
  simp [h1, h4]

theorem mdiffflush_edit_panic (h : host) (mf : memfile) (h1 : mf.curcmd = MDIFF_EDIT)
    (h2 : mf.curcount > mf.pos ∨ mf.curcount < 0) :
    mdiffflush h mf = .error fatal.PANIC_MDIFFFLUSH := by
  unfold mdiffflush
  simp [h1, h2]

/-- A flush leaves everything but the diff stream and the pending command. -/
theorem mdiffflush_frame (h : host) (mf mf1 : memfile) (e : mdiffflush h mf = .ok mf1) :
    mf1.buf = mf.buf ∧ mf1.len = mf.len ∧ mf1.pos = mf.pos ∧ mf1.relativeto = mf.relativeto ∧
    mf1.relativepos = mf.relativepos ∧ mf1.tags = mf.tags ∧ mf1.curcount = mf.curcount ∧
    mf1.curcmd = MDIFF_INVALID := by
  by_cases h1 : mf.curcmd = MDIFF_INVALID
  · rw [mdiffflush_invalid h mf h1] at e
    cases e
    simp [h1]
  · by_cases h2 : mf.curcmd = MDIFF_EDIT
    · by_cases h3 : mf.curcount > mf.pos ∨ mf.curcount < 0
      · rw [mdiffflush_edit_panic h mf h2 h3] at e
        cases e
      · rw [mdiffflush_edit h mf h2 (by omega) (by omega)] at e
        cases e
        simp
    · rw [mdiffflush_unit h mf h1 h2] at e
      cases e
      simp

theorem mwrite_run_frame (h : host) (mf mf1 : memfile) (c : memfile_diffcmd)
    (e : mwrite_run h mf c = .ok mf1) :
    mf1.buf = mf.buf ∧ mf1.len = mf.len ∧ mf1.pos = mf.pos ∧ mf1.relativeto = mf.relativeto ∧
    mf1.relativepos = mf.relativepos ∧ mf1.tags = mf.tags := by
  unfold mwrite_run at e
  rw [map_eq_ok] at e
  obtain ⟨a, ha, rfl⟩ := e
  split at ha
  · rw [map_eq_ok] at ha
    obtain ⟨m, hm, rfl⟩ := ha
    have f := mdiffflush_frame h mf m hm
    simp [f]
  · cases ha
    simp

theorem mwrite_diff_frame (h : host) (parent : memfile) (num : Nat) (mf mf1 : memfile)
    (e : mwrite_diff h parent num mf = .ok mf1) :
    mf1.buf = mf.buf ∧ mf1.len = mf.len ∧ mf1.pos = mf.pos + num ∧
    mf1.relativeto = mf.relativeto ∧ mf1.tags = mf.tags := by
  induction num generalizing mf with
  | zero =>
    simp only [mwrite_diff] at e
    cases e
    simp
  | succ n ih =>
    simp only [mwrite_diff] at e
    rw [bind_eq_ok] at e
    obtain ⟨a, ha, hb⟩ := e
    have f := ih _ hb
    have g : a.buf = mf.buf ∧ a.len = mf.len ∧ a.pos = mf.pos ∧ a.relativeto = mf.relativeto ∧
        a.relativepos = mf.relativepos ∧ a.tags = mf.tags := by
      split at ha
      · exact mwrite_run_frame h mf a _ ha
      · exact mwrite_run_frame h mf a _ ha
    simp only at f
    obtain ⟨f1, f2, f3, f4, f5⟩ := f
    obtain ⟨g1, g2, g3, g4, g5, g6⟩ := g
    refine ⟨by rw [f1, g1], by rw [f2, g2], ?_, by rw [f4, g4], by rw [f5, g6]⟩
    rw [f3, g3]
    push_cast
    ring

/-! ## Growing and appending -/

@[simp] theorem expand_memfile_pos (h : host) (mf : memfile) (n : Int) :
    (expand_memfile h mf n).pos = mf.pos := by
  unfold expand_memfile; split <;> rfl
@[simp] theorem expand_memfile_relativeto (h : host) (mf : memfile) (n : Int) :
    (expand_memfile h mf n).relativeto = mf.relativeto := by
  unfold expand_memfile; split <;> rfl
@[simp] theorem expand_memfile_tags (h : host) (mf : memfile) (n : Int) :
    (expand_memfile h mf n).tags = mf.tags := by
  unfold expand_memfile; split <;> rfl
@[simp] theorem expand_memfile_diffbuf (h : host) (mf : memfile) (n : Int) :
    (expand_memfile h mf n).diffbuf = mf.diffbuf := by
  unfold expand_memfile; split <;> rfl
@[simp] theorem expand_memfile_difflen (h : host) (mf : memfile) (n : Int) :
    (expand_memfile h mf n).difflen = mf.difflen := by
  unfold expand_memfile; split <;> rfl
@[simp] theorem expand_memfile_diffpos (h : host) (mf : memfile) (n : Int) :
    (expand_memfile h mf n).diffpos = mf.diffpos := by
  unfold expand_memfile; split <;> rfl
@[simp] theorem expand_memfile_relativepos (h : host) (mf : memfile) (n : Int) :
    (expand_memfile h mf n).relativepos = mf.relativepos := by
  unfold expand_memfile; split <;> rfl
@[simp] theorem expand_memfile_curcmd (h : host) (mf : memfile) (n : Int) :
    (expand_memfile h mf n).curcmd = mf.curcmd := by
  unfold expand_memfile; split <;> rfl
@[simp] theorem expand_memfile_curcount (h : host) (mf : memfile) (n : Int) :
    (expand_memfile h mf n).curcount = mf.curcount := by
  unfold expand_memfile; split <;> rfl

theorem expand_memfile_fits (h : host) (mf : memfile) (n : Int) (hn : n ≤ mf.len) :
    expand_memfile h mf n = mf := by
  unfold expand_memfile
  rw [if_neg (by omega)]

theorem expand_memfile_spec (h : host) (mf : memfile) (n : Int)
    (hl : (mf.buf.length : Int) = mf.len) :
    (((expand_memfile h mf n).buf.length : Int) = (expand_memfile h mf n).len) ∧
    mf.len ≤ (expand_memfile h mf n).len ∧ n ≤ (expand_memfile h mf n).len ∧
    (expand_memfile h mf n).len ≤ max mf.len (n + 4096) ∧
    ∀ k, k ≤ mf.buf.length → (expand_memfile h mf n).buf.take k = mf.buf.take k := by
  unfold expand_memfile
  split
  · simp only [realloc_length]
    refine ⟨by omega, by omega, by omega, by omega, ?_⟩
    intro k hk
    exact realloc_take h mf.buf _ k hk (by omega)
  · refine ⟨hl, by omega, by omega, by omega, fun k _ => rfl⟩

theorem mwrite_copy_spec (h : host) (mf : memfile) (data : List Nat) (hw : mf.wf) :
    written mf data { mwrite_copy h mf data with pos := mf.pos + data.length } := by
  obtain ⟨hl, hp0, hp1⟩ := hw
  obtain ⟨e1, e2, e3, e4, e5⟩ := expand_memfile_spec h mf (mf.pos + data.length) hl
  have hfit : mf.pos.toNat + data.length ≤ (expand_memfile h mf (mf.pos + data.length)).buf.length := by
    omega
  have hml : (memcpy (expand_memfile h mf (mf.pos + data.length)).buf mf.pos.toNat data).length
      = (expand_memfile h mf (mf.pos + data.length)).buf.length := memcpy_length _ _ _ hfit
  constructor
  · simp only [memfile.wf, mwrite_copy, expand_memfile_pos]
    rw [hml]
    refine ⟨e1, by omega, by omega⟩
  · rfl
  · exact e2
  · exact e4
  · simp only [mwrite_copy, expand_memfile_pos]
    rw [memcpy_take _ _ _ _ (le_refl _) (by omega)]
    exact e5 _ (by omega)
  · simp only [mwrite_copy, expand_memfile_pos, slice]
    have := memcpy_slice (expand_memfile h mf (mf.pos + data.length)).buf mf.pos.toNat data (by omega)
    simpa using this
  · simp [mwrite_copy]
  · simp [mwrite_copy]

theorem mwrite_linear (h : host) (mf : memfile) (data : List Nat) (hp : mf.relativeto = none) :
    mwrite h mf data = .ok { mwrite_copy h mf data with pos := mf.pos + data.length } := by
  unfold mwrite
  have e : (mwrite_copy h mf data).relativeto = none := by simp [mwrite_copy, hp]
  simp only
  split
  · simp [mwrite_copy]
  · rename_i hq
    rw [e] at hq
    cases hq

theorem mwrite_written (h : host) (mf mf1 : memfile) (data : List Nat) (hw : mf.wf)
    (e : mwrite h mf data = .ok mf1) : written mf data mf1 := by
  have w := mwrite_copy_spec h mf data hw
  unfold mwrite at e
  simp only at e
  split at e
  · cases e
    simpa [mwrite_copy] using w
  · have f := mwrite_diff_frame h _ _ _ _ e
    obtain ⟨f1, f2, f3, f4, f5⟩ := f
    have hpos : (mwrite_copy h mf data).pos = mf.pos := by simp [mwrite_copy]
    constructor
    · have := w.wf
      simp only [memfile.wf] at this ⊢
      rw [f1, f2, f3, hpos]
      exact this
    · rw [f3, hpos]
    · rw [f2]; exact w.len_ge
    · rw [f2]; exact w.len_le
    · rw [f1]; exact w.before
    · rw [f1]; exact w.at_pos
    · rw [f4]; exact w.relativeto_eq
    · rw [f5]; exact w.tags_eq

/-! ## Reading -/

theorem slice_length (buf : List Nat) (off n : Int) (h0 : 0 ≤ off)
    (h2 : off + n ≤ buf.length) : (slice buf off n).length = n.toNat := by
  unfold slice
  simp only [List.length_take, List.length_drop]
  omega

theorem to_unsigned32_small (x : Int) (h0 : 0 ≤ x) (h1 : x < 2 ^ 32) :
    to_unsigned 32 x = x.toNat := to_unsigned_of_range 32 x h0 h1

theorem to_signed32_small (x : Nat) (h1 : x < 2 ^ 31) : to_signed 32 x = x := by
  unfold to_signed
  rw [if_pos (by simpa using h1)]

theorem mread_ok (mf : memfile) (k : Nat) (hw : mf.wf) (hlen : mf.len < 2 ^ 31)
    (hk : (k : Int) ≤ mf.len - mf.pos) :
    mread mf k = .ok (slice mf.buf mf.pos k, { mf with pos := mf.pos + k }) := by
  obtain ⟨hl, hp0, hp1⟩ := hw
  have ha : to_unsigned 32 (mf.len - mf.pos) = (mf.len - mf.pos).toNat :=
    to_unsigned32_small _ (by omega) (by omega)
  have hmin : min_unsigned k (mf.len - mf.pos).toNat = k := by
    unfold min_unsigned
    split <;> omega
  have hs : to_signed 32 k = k := to_signed32_small k (by omega)
  have hu : to_unsigned 32 (k : Int) = k := by
    rw [to_unsigned32_small _ (by omega) (by omega)]
    omega
  unfold mread
  simp only [ha, hmin, hs, hu, ne_eq, not_true_eq_false, if_false]

theorem mread_panic (mf : memfile) (k : Nat) (hw : mf.wf) (hlen : mf.len < 2 ^ 31)
    (hk32 : k < 2 ^ 32) (hk : (k : Int) > mf.len - mf.pos) :
    mread mf k = .error fatal.PANIC_READ := by
  obtain ⟨hl, hp0, hp1⟩ := hw
  have ha : to_unsigned 32 (mf.len - mf.pos) = (mf.len - mf.pos).toNat :=
    to_unsigned32_small _ (by omega) (by omega)
  have hmin : min_unsigned k (mf.len - mf.pos).toNat = (mf.len - mf.pos).toNat := by
    unfold min_unsigned
    split <;> omega
  have hs : to_signed 32 (mf.len - mf.pos).toNat = ((mf.len - mf.pos).toNat : Int) :=
    to_signed32_small _ (by omega)
  have hu : to_unsigned 32 (((mf.len - mf.pos).toNat : Nat) : Int) = (mf.len - mf.pos).toNat := by
    rw [to_unsigned32_small _ (by omega) (by omega)]
    omega
  unfold mread
  simp only [ha, hmin, hs, hu]
  rw [if_pos (by omega)]

/-- Claim C10.  For a well-formed memfile (`buf` holds `len` bytes,
`0 <= pos <= len`, `len` an `int`) and a requested count `k` (an `unsigned
int`), mread panics with "Error reading game data." exactly when
`k > len - pos`; otherwise it returns the `k` bytes `buf[pos .. pos + k)` and
the memfile with `pos` advanced by `k` and every other field (buffer, tags,
diff state) unchanged. -/
theorem mread_truncated (mf : memfile) (k : Nat) (hw : mf.wf) (hlen : mf.len < 2 ^ 31)
    (hk32 : k < 2 ^ 32) :
    (mread mf k = .error fatal.PANIC_READ ↔ (k : Int) > mf.len - mf.pos) ∧
    (¬ ((k : Int) > mf.len - mf.pos) →
      mread mf k = .ok (slice mf.buf mf.pos k, { mf with pos := mf.pos + k }) ∧
      (slice mf.buf mf.pos k).length = k) := by
  constructor
  · constructor
    · intro e
      by_contra hn
      rw [mread_ok mf k hw hlen (by omega)] at e
      cases e
    · intro hk
      exact mread_panic mf k hw hlen hk32 hk
  · intro hn
    refine ⟨mread_ok mf k hw hlen (by omega), ?_⟩
    obtain ⟨hl, hp0, hp1⟩ := hw
    rw [slice_length _ _ _ hp0 (by omega)]
    omega

/-- Witness of C10: a memfile of capacity 3 with the cursor at 1, asked for 2
bytes. -/
theorem mread_truncated_witness :
    (mread ⟨[1, 2, 3], 3, 1, none, [], 0, 0, 0, MDIFF_INVALID, 0, fun _ => []⟩ 2
        = .error fatal.PANIC_READ ↔ ((2 : Nat) : Int) > 3 - 1) ∧
    (¬ (((2 : Nat) : Int) > 3 - 1) →
      mread ⟨[1, 2, 3], 3, 1, none, [], 0, 0, 0, MDIFF_INVALID, 0, fun _ => []⟩ 2
        = .ok (slice [1, 2, 3] 1 ((2 : Nat) : Int),
            { (⟨[1, 2, 3], 3, 1, none, [], 0, 0, 0, MDIFF_INVALID, 0, fun _ => []⟩ : memfile)
                with pos := 1 + ((2 : Nat) : Int) }) ∧
      (slice [1, 2, 3] 1 ((2 : Nat) : Int)).length = 2) :=
  mread_truncated ⟨[1, 2, 3], 3, 1, none, [], 0, 0, 0, MDIFF_INVALID, 0, fun _ => []⟩ 2
    ⟨by decide, by decide, by decide⟩ (by decide) (by decide)

/-! ## Writes return -/

theorem mdiffflush_ok (h : host) (mf : memfile) (he : mf.edit_ok) :
    ∃ m, mdiffflush h mf = .ok m := by
  by_cases h1 : mf.curcmd = MDIFF_INVALID
  · exact ⟨_, mdiffflush_invalid h mf h1⟩
  · by_cases h2 : mf.curcmd = MDIFF_EDIT
    · obtain ⟨a, b⟩ := he h2
      exact ⟨_, mdiffflush_edit h mf h2 a b⟩
    · exact ⟨_, mdiffflush_unit h mf h1 h2⟩

theorem mwrite_run_ok (h : host) (mf : memfile) (c : memfile_diffcmd) (he : mf.edit_ok)
    (hp : 0 ≤ mf.pos) :
    ∃ m, mwrite_run h mf c = .ok m ∧
      (m.curcmd = MDIFF_EDIT → 0 ≤ m.curcount ∧ m.curcount ≤ m.pos + 1) := by
  unfold mwrite_run
  by_cases hc : mf.curcmd ≠ c ∨ mf.curcount = 0x3fff
  · rw [if_pos hc]
    obtain ⟨m, hm⟩ := mdiffflush_ok h mf he
    have f := mdiffflush_frame h mf m hm
    rw [hm]
    refine ⟨_, rfl, ?_⟩
    intro _
    simp only [f.2.2.1]
    omega
  · rw [if_neg hc]
    refine ⟨_, rfl, ?_⟩
    intro hc2
    simp only at hc2
    have : mf.curcmd = c := by
      by_contra hne
      exact hc (Or.inl hne)
    obtain ⟨a, b⟩ := he (by rw [this]; exact hc2)
    simp only
    omega

theorem mwrite_diff_ok (h : host) (parent : memfile) (num : Nat) (mf : memfile)
    (he : mf.edit_ok) (hp : 0 ≤ mf.pos) :
    ∃ m, mwrite_diff h parent num mf = .ok m ∧ m.edit_ok := by
  induction num generalizing mf with
  | zero => exact ⟨mf, rfl, he⟩
  | succ n ih =>
    simp only [mwrite_diff]
    have step : ∀ c, ∃ m, mwrite_run h mf c = .ok m ∧ m.pos = mf.pos ∧
        (m.curcmd = MDIFF_EDIT → 0 ≤ m.curcount ∧ m.curcount ≤ m.pos + 1) := by
      intro c
      obtain ⟨m, hm, hq⟩ := mwrite_run_ok h mf c he hp
      exact ⟨m, hm, (mwrite_run_frame h mf m c hm).2.2.1, hq⟩
    split
    · obtain ⟨m, hm, hq, hr⟩ := step MDIFF_COPY
      rw [hm]
      exact ih _ hr (by simp only; omega)
    · obtain ⟨m, hm, hq, hr⟩ := step MDIFF_EDIT
      rw [hm]
      exact ih _ hr (by simp only; omega)

theorem mwrite_ok (h : host) (mf : memfile) (data : List Nat) (hw : mf.wf) (he : mf.edit_ok) :
    ∃ m, mwrite h mf data = .ok m ∧ written mf data m ∧ m.edit_ok := by
  have key : ∃ m, mwrite h mf data = .ok m ∧ m.edit_ok := by
    unfold mwrite
    simp only
    split
    · refine ⟨_, rfl, ?_⟩
      intro hc
      have := he (by simpa [mwrite_copy] using hc)
      simp only [mwrite_copy, expand_memfile_pos, expand_memfile_curcount] at this ⊢
      omega
    · apply mwrite_diff_ok
      · intro hc
        exact he (by simpa [mwrite_copy] using hc) |> fun x => by simpa [mwrite_copy] using x
      · simpa [mwrite_copy] using hw.2.1
  obtain ⟨m, hm, hq⟩ := key
  exact ⟨m, hm, mwrite_written h mf m data hw hm, hq⟩

/-! ## Wire order of the typed writes -/

theorem le_bytes2 (v : Int) :
    le_bytes 2 (to_unsigned 16 v) = [(v % 256).toNat, (v / 256 % 256).toNat] := by
  unfold to_unsigned
  simp only [le_bytes]
  norm_num
  constructor <;> omega

theorem le_bytes4 (v : Int) :
    le_bytes 4 (to_unsigned 32 v) =
      [(v % 256).toNat, (v / 256 % 256).toNat, (v / 65536 % 256).toNat,
        (v / 16777216 % 256).toNat] := by
  unfold to_unsigned
  simp only [le_bytes]
  norm_num
  refine ⟨?_, ?_, ?_, ?_⟩ <;> omega

/-- Claim C4.  On every host (big- or little-endian) and for every well-formed
memfile: whenever mwrite16 of `v` returns, it has written at the cursor
exactly the two bytes `v & 0xff`, `(v >> 8) & 0xff`, and whenever mwrite32 of
`u` returns, exactly the four bytes `u & 0xff`, `(u >> 8) & 0xff`,
`(u >> 16) & 0xff`, `(u >> 24) & 0xff`, least significant first, the cursor
moved over them and the bytes before it kept; the bytes do not depend on the
host.  Both calls return when no flush can panic (a pending edit run lies
within the data), in particular on every parentless file built by writes. -/
theorem mwrite16_mwrite32_wire_order (h : host) (mf : memfile) (v u : Int) (hw : mf.wf) :
    (∀ m, mwrite16 h mf v = .ok m →
      written mf [(v % 256).toNat, (v / 256 % 256).toNat] m) ∧
    (∀ m, mwrite32 h mf u = .ok m →
      written mf [(u % 256).toNat, (u / 256 % 256).toNat, (u / 65536 % 256).toNat,
        (u / 16777216 % 256).toNat] m) ∧
    (mf.edit_ok → (∃ m, mwrite16 h mf v = .ok m) ∧ ∃ m, mwrite32 h mf u = .ok m) := by
  refine ⟨?_, ?_, ?_⟩
  · intro m hm
    unfold mwrite16 at hm
    simp only [object_bytes_host_to_le16, le_bytes2] at hm
    exact mwrite_written h mf m _ hw hm
  · intro m hm
    unfold mwrite32 at hm
    simp only [object_bytes_host_to_le32, le_bytes4] at hm
    exact mwrite_written h mf m _ hw hm
  · intro he
    constructor
    · obtain ⟨m, hm, _, _⟩ := mwrite_ok h mf
        (object_bytes h.IS_BIG_ENDIAN 2 (host_to_le16 h (to_unsigned 16 v))) hw he
      exact ⟨m, hm⟩
    · obtain ⟨m, hm, _, _⟩ := mwrite_ok h mf
        (object_bytes h.IS_BIG_ENDIAN 4 (host_to_le32 h (to_unsigned 32 u))) hw he
      exact ⟨m, hm⟩

theorem land_mask (x k : Nat) (hk : k ≤ 32) (hx : x < 2 ^ 32) :
    Nat.land x (2 ^ 32 - 2 ^ k) = x - x % 2 ^ k := by
  have e1 : 2 ^ 32 - 2 ^ k = (2 ^ (32 - k) - 1) <<< k := by
    rw [Nat.shiftLeft_eq, Nat.sub_mul, Nat.one_mul, ← pow_add]
    congr 2
    omega
  have e2 : x - x % 2 ^ k = (x >>> k) <<< k := by
    rw [Nat.shiftLeft_eq, Nat.shiftRight_eq_div_pow]
    have := Nat.div_add_mod x (2 ^ k)
    rw [Nat.mul_comm] at this
    omega
  rw [e1, e2]
  apply Nat.eq_of_testBit_eq
  intro i
  show (x &&& (2 ^ (32 - k) - 1) <<< k).testBit i = _
  rw [Nat.testBit_and, Nat.testBit_shiftLeft, Nat.testBit_shiftLeft, Nat.testBit_shiftRight,
    Nat.testBit_two_pow_sub_one]
  by_cases h1 : k ≤ i
  · have e3 : k + (i - k) = i := by omega
    rw [e3]
    by_cases h2 : i < 32
    · have : i - k < 32 - k := by omega
      simp [h1, this]
    · have hf : x.testBit i = false := by
        apply Nat.testBit_lt_two_pow
        calc x < 2 ^ 32 := hx
          _ ≤ 2 ^ i := Nat.pow_le_pow_right (by omega) (by omega)
      simp [hf]
  · simp [h1]

/-! ## Alignment -/

theorem mfalign_bytes_pow2 (pos : Int) (k : Nat) (hk : k ≤ 30) (h0 : 0 ≤ pos)
    (h1 : pos < 2 ^ 31) :
    mfalign_bytes pos ((2 ^ k : Nat) : Int) = ((2 ^ k : Nat) : Int) - (pos - pos % ((2 ^ k : Nat) : Int)) := by
  have ha1 : 0 < 2 ^ k := Nat.pos_pow_of_pos k (by omega)
  have ha2 : 2 ^ k ≤ 2 ^ 30 := Nat.pow_le_pow_right (by omega) hk
  have hm := land_mask pos.toNat k (by omega) (by omega)
  have hr : ((pos.toNat % 2 ^ k : Nat) : Int) = pos % ((2 ^ k : Nat) : Int) := by
    rw [Int.natCast_mod, Int.toNat_of_nonneg h0]
  have hle : pos.toNat % 2 ^ k ≤ pos.toNat := Nat.mod_le _ _
  unfold mfalign_bytes
  generalize 2 ^ k = a at *
  have m1 : to_unsigned 32 (-((a : Int) - 1) - 1) = 2 ^ 32 - a := by
    unfold to_unsigned
    norm_num
    omega
  have m2 : to_unsigned 32 pos = pos.toNat := to_unsigned32_small pos h0 (by omega)
  simp only [m1, m2, hm]
  rw [← hr]
  generalize pos.toNat % a = r at *
  unfold to_signed to_unsigned
  norm_num
  split <;> omega

theorem mfalign_bytes_toNat (pos : Int) (k : Nat) (hk : k ≤ 30) (h0 : 0 ≤ pos)
    (h1 : pos < 2 ^ 31) :
    (mfalign_bytes pos ((2 ^ k : Nat) : Int)).toNat = if pos < ((2 ^ k : Nat) : Int) then 2 ^ k else 0 := by
  rw [mfalign_bytes_pow2 pos k hk h0 h1]
  have ha1 : 0 < 2 ^ k := Nat.pos_pow_of_pos k (by omega)
  have hd := Int.emod_add_ediv pos ((2 ^ k : Nat) : Int)
  have hr0 := Int.emod_nonneg pos (b := ((2 ^ k : Nat) : Int)) (by omega)
  have hr1 := Int.emod_lt_of_pos pos (b := ((2 ^ k : Nat) : Int)) (by omega)
  generalize 2 ^ k = a at *
  split
  · rename_i hlt
    rw [Int.emod_eq_of_lt h0 hlt]
    omega
  · rename_i hge
    have hq : 1 ≤ pos / (a : Int) := by
      by_contra hc
      have : pos / (a : Int) ≤ 0 := by omega
      have : (a : Int) * (pos / (a : Int)) ≤ 0 := Int.mul_nonpos_of_nonneg_of_nonpos (by omega) this
      omega
    have : (a : Int) ≤ (a : Int) * (pos / (a : Int)) := by
      calc (a : Int) = (a : Int) * 1 := by ring
        _ ≤ (a : Int) * (pos / (a : Int)) := Int.mul_le_mul_of_nonneg_left hq (by omega)
    omega

theorem object_bytes_length (big : Bool) (n x : Nat) : (object_bytes big n x).length = n := by
  unfold object_bytes
  cases big <;> simp [le_bytes_length]

theorem slice_add (l : List Nat) (p : Int) (a b : Nat) (hp : 0 ≤ p) :
    slice l p ((a + b : Nat) : Int) = slice l p a ++ slice l (p + a) b := by
  unfold slice
  have e : (p + (a : Int)).toNat = p.toNat + a := by omega
  rw [e]
  simp only [Int.toNat_ofNat]
  rw [List.take_add, List.drop_drop]

theorem slice_take (l : List Nat) (n : Nat) (p : Int) (a : Nat) (hp : 0 ≤ p)
    (hn : p + a ≤ n) : slice (l.take n) p a = slice l p a := by
  unfold slice
  simp only [Int.toNat_ofNat]
  rw [List.drop_take, List.take_take]
  congr 1
  omega

theorem slice_of_take_eq (l1 l2 : List Nat) (n : Nat) (p : Int) (a : Nat) (hp : 0 ≤ p)
    (hn : p + a ≤ n) (e : l1.take n = l2.take n) : slice l1 p a = slice l2 p a := by
  rw [← slice_take l1 n p a hp hn, ← slice_take l2 n p a hp hn, e]

theorem take_of_take_eq (l1 l2 : List Nat) (n k : Nat) (hk : k ≤ n)
    (e : l1.take n = l2.take n) : l1.take k = l2.take k := by
  have h1 : (l1.take n).take k = l1.take k := by
    rw [List.take_take]; congr 1; omega
  have h2 : (l2.take n).take k = l2.take k := by
    rw [List.take_take]; congr 1; omega
  rw [← h1, ← h2, e]

theorem written_trans (mf m1 m2 : memfile) (a b : List Nat) (hp : 0 ≤ mf.pos)
    (w1 : written mf a m1) (w2 : written m1 b m2) : written mf (a ++ b) m2 := by
  have p1 := w1.pos_eq
  have p2 := w2.pos_eq
  have hb : m2.buf.take m1.pos.toNat = m1.buf.take m1.pos.toNat := w2.before
  constructor
  · exact w2.wf
  · rw [p2, p1]; simp only [List.length_append]; push_cast; ring
  · have := w1.len_ge; have := w2.len_ge; omega
  · have := w1.len_le; have := w2.len_le
    simp only [List.length_append]; push_cast
    omega
  · rw [take_of_take_eq _ _ _ _ (by omega) hb]
    exact w1.before
  · rw [List.length_append, slice_add _ _ _ _ hp]
    have e1 : slice m2.buf mf.pos a.length = slice m1.buf mf.pos a.length :=
      slice_of_take_eq _ _ m1.pos.toNat _ _ hp (by omega) hb
    have e2 : slice m2.buf (mf.pos + a.length) b.length = b := by
      rw [← p1]; exact w2.at_pos
    rw [e1, e2, w1.at_pos]
  · rw [w2.relativeto_eq, w1.relativeto_eq]
  · rw [w2.tags_eq, w1.tags_eq]

theorem written_nil (mf : memfile) (hw : mf.wf) : written mf [] mf := by
  constructor
  · exact hw
  · simp
  · omega
  · omega
  · rfl
  · simp [slice]
  · rfl
  · rfl

theorem mwrite8_zero (h : host) (mf : memfile) : mwrite8 h mf 0 = mwrite h mf [0] := by
  unfold mwrite8 object_bytes to_unsigned
  cases h.IS_BIG_ENDIAN <;> rfl

theorem mfalign_loop_ok (h : host) (n : Nat) (mf : memfile) (hw : mf.wf) (he : mf.edit_ok) :
    ∃ m, mfalign_loop h n mf = .ok m ∧ written mf (List.replicate n 0) m ∧ m.edit_ok := by
  induction n generalizing mf with
  | zero => exact ⟨mf, rfl, written_nil mf hw, he⟩
  | succ n ih =>
    simp only [mfalign_loop, mwrite8_zero]
    obtain ⟨m1, hm1, w1, e1⟩ := mwrite_ok h mf [0] hw he
    obtain ⟨m2, hm2, w2, e2⟩ := ih m1 w1.wf e1
    rw [hm1]
    refine ⟨m2, hm2, ?_, e2⟩
    have := written_trans mf m1 m2 _ _ hw.2.1 w1 w2
    simpa [List.replicate_succ] using this

theorem pow2_cast (k : Nat) : (2 : Int) ^ k = ((2 ^ k : Nat) : Int) := by
  push_cast
  rfl

theorem mwrite_pos (h : host) (mf m : memfile) (data : List Nat)
    (e : mwrite h mf data = .ok m) : m.pos = mf.pos + data.length := by
  unfold mwrite at e
  simp only at e
  split at e
  · cases e
    simp [mwrite_copy]
  · have f := mwrite_diff_frame h _ _ _ _ e
    rw [f.2.2.1]
    simp [mwrite_copy]

theorem mfalign_loop_pos (h : host) (n : Nat) (mf m : memfile)
    (e : mfalign_loop h n mf = .ok m) : m.pos = mf.pos + n := by
  induction n generalizing mf with
  | zero =>
    simp only [mfalign_loop] at e
    cases e
    simp
  | succ n ih =>
    simp only [mfalign_loop, mwrite8_zero] at e
    rw [bind_eq_ok] at e
    obtain ⟨a, ha, hb⟩ := e
    rw [ih a hb, mwrite_pos h mf a [0] ha]
    simp only [List.length_singleton]
    push_cast
    ring

/-- Claim C8.  For every power of two `n = 2 ^ k` (an `int`) and every memfile
with `pos >= 0` (and `pos + n` an `int`): a second mfalign on the result of
mfalign returns that same state, so no byte is written and `pos`, the buffer
and the diff state are unchanged.  The first call returns on every memfile on
which writes return (well formed, a pending edit run within the data). -/
theorem mfalign_idempotent (h : host) (mf : memfile) (k : Nat) (hk : k ≤ 30)
    (hp0 : 0 ≤ mf.pos) (hb : mf.pos + 2 ^ k < 2 ^ 31) :
    (∀ m, mfalign h mf (2 ^ k) = .ok m → mfalign h m (2 ^ k) = .ok m) ∧
    (mf.wf → mf.edit_ok → ∃ m, mfalign h mf (2 ^ k) = .ok m) := by
  have ha1 : 0 < 2 ^ k := Nat.pos_pow_of_pos k (by omega)
  rw [pow2_cast] at hb ⊢
  constructor
  · intro m hm
    unfold mfalign at hm ⊢
    have hpos := mfalign_loop_pos h _ mf m hm
    rw [mfalign_bytes_toNat mf.pos k hk hp0 (by omega)] at hpos
    have e2 : (mfalign_bytes m.pos ((2 ^ k : Nat) : Int)).toNat = 0 := by
      rw [mfalign_bytes_toNat m.pos k hk (by split at hpos <;> omega)
        (by split at hpos <;> omega)]
      split at hpos
      · rw [if_neg (by omega)]
      · rw [if_neg (by omega)]
    rw [e2]
    rfl
  · intro hw he
    obtain ⟨m, hm, _, _⟩ :=
      mfalign_loop_ok h (mfalign_bytes mf.pos ((2 ^ k : Nat) : Int)).toNat mf hw he
    exact ⟨m, hm⟩

/-- Witness of C8: the fresh file, aligned to 4 twice. -/
theorem mfalign_idempotent_witness :
    (0 ≤ fresh_le.pos ∧ fresh_le.pos + 2 ^ 2 < 2 ^ 31) ∧
    (∀ m, mfalign host_le fresh_le (2 ^ 2) = .ok m → mfalign host_le m (2 ^ 2) = .ok m) ∧
    (∃ m, mfalign host_le fresh_le (2 ^ 2) = .ok m) :=
  ⟨by decide,
    (mfalign_idempotent host_le fresh_le 2 (by decide) (by decide) (by decide)).1,
    (mfalign_idempotent host_le fresh_le 2 (by decide) (by decide) (by decide)).2
      (by decide) (by decide)⟩

/-- Witness of C4: a big-endian host, the fresh file, the values -2 and
0xCAFEBABE. -/
theorem mwrite16_mwrite32_wire_order_witness :
    (mnew host_be memfile.zero none).wf ∧
    (∀ m, mwrite16 host_be (mnew host_be memfile.zero none) (-2) = .ok m →
      written (mnew host_be memfile.zero none)
        [((-2 : Int) % 256).toNat, ((-2 : Int) / 256 % 256).toNat] m) ∧
    (∀ m, mwrite32 host_be (mnew host_be memfile.zero none) 0xCAFEBABE = .ok m →
      written (mnew host_be memfile.zero none)
        [((0xCAFEBABE : Int) % 256).toNat, ((0xCAFEBABE : Int) / 256 % 256).toNat,
          ((0xCAFEBABE : Int) / 65536 % 256).toNat,
          ((0xCAFEBABE : Int) / 16777216 % 256).toNat] m) ∧
    ((∃ m, mwrite16 host_be (mnew host_be memfile.zero none) (-2) = .ok m) ∧
      ∃ m, mwrite32 host_be (mnew host_be memfile.zero none) 0xCAFEBABE = .ok m) :=
  ⟨by decide,
    (mwrite16_mwrite32_wire_order host_be (mnew host_be memfile.zero none) (-2) 0xCAFEBABE
      (by decide)).1,
    (mwrite16_mwrite32_wire_order host_be (mnew host_be memfile.zero none) (-2) 0xCAFEBABE
      (by decide)).2.1,
    (mwrite16_mwrite32_wire_order host_be (mnew host_be memfile.zero none) (-2) 0xCAFEBABE
      (by decide)).2.2 (by decide)⟩

/-- Claim C3, the code at the failing input.  On the little-endian host
`host_to_le64` and `le64_to_host` return `unsigned int`: mwrite64 of -1 on a
fresh parentless file followed by mread64 from position 0 returns 4294967295,
not -1. -/
theorem mwrite64_mread64_little_endian :
    ((mwrite64 host_le fresh_le (-1)).bind
      (fun m => mread64 host_le { m with pos := 0 })).toOption.map (fun r => r.1)
      = some 4294967295 := by
  decide

/-- Claim C6, the code at the failing input.  After five bytes are written to
a fresh parentless file the cursor is 5; mfalign with 4 returns the file
unchanged, the cursor still 5, which is not a multiple of 4. -/
theorem mfalign_leaves_misaligned :
    mwrite host_le fresh_le [1, 2, 3, 4, 5] = .ok five_le ∧
    mfalign host_le five_le 4 = .ok five_le ∧ five_le.pos = 5 ∧ ¬ ((4 : Int) ∣ five_le.pos) :=
  ⟨mwrite_linear host_le fresh_le [1, 2, 3, 4, 5] rfl, rfl, rfl, by decide⟩

/-- Claim C7, the code at the failing input.  The fresh parentless file has
its cursor at 0, a multiple of 4; mfalign with 4 writes four zero bytes and
moves the cursor to 4. -/
theorem mfalign_pads_aligned :
    fresh_le.pos = 0 ∧
    (mfalign host_le fresh_le 4).toOption.map (fun m => (m.pos, m.buf.take 4))
      = some (4, [0, 0, 0, 0]) :=
  ⟨rfl, by decide⟩

/-! ## Typed reads of known bytes -/

theorem memfile.eta (mf : memfile) :
    ({ buf := mf.buf, len := mf.len, pos := mf.pos, relativeto := mf.relativeto,
       diffbuf := mf.diffbuf, difflen := mf.difflen, diffpos := mf.diffpos,
       relativepos := mf.relativepos, curcmd := mf.curcmd, curcount := mf.curcount,
       tags := mf.tags } : memfile) = mf := by
  cases mf
  rfl

theorem memcpy_same (dst : List Nat) (off : Nat) (src : List Nat)
    (hs : (dst.drop off).take src.length = src) : memcpy dst off src = dst := by
  unfold memcpy
  have hl : src.length ≤ (dst.drop off).length := by
    have := congrArg List.length hs
    simp only [List.length_take] at this
    omega
  have e : dst.drop (off + src.length) = (dst.drop off).drop src.length := by
    rw [List.drop_drop]
  rw [e, List.append_assoc]
  nth_rewrite 1 [← hs]
  rw [List.take_append_drop, List.take_append_drop]

theorem mread8_of_slice (h : host) (mf : memfile) (x : Nat) (hw : mf.wf)
    (hlen : mf.len < 2 ^ 31) (hfit : mf.pos + 1 ≤ mf.len)
    (hs : slice mf.buf mf.pos 1 = [x % 256]) :
    mread8 h mf = .ok (to_signed 8 (x % 256), { mf with pos := mf.pos + 1 }) := by
  unfold mread8
  rw [mread_ok mf 1 hw hlen (by omega)]
  simp only [bind, Except.bind, pure, Except.pure, Nat.cast_one]
  rw [hs]
  unfold object_value
  cases h.IS_BIG_ENDIAN <;> simp [le_value]

theorem mread16_of_slice (h : host) (mf : memfile) (x : Nat) (hw : mf.wf)
    (hlen : mf.len < 2 ^ 31) (hfit : mf.pos + 2 ≤ mf.len)
    (hs : slice mf.buf mf.pos 2 = le_bytes 2 x) :
    mread16 h mf = .ok (to_signed 16 (x % 2 ^ 16), { mf with pos := mf.pos + 2 }) := by
  unfold mread16
  rw [mread_ok mf 2 hw hlen (by omega)]
  simp only [bind, Except.bind, pure, Except.pure, Nat.cast_ofNat]
  rw [hs, le16_to_host_object_value h _ (le_bytes_length 2 x) (le_bytes_lt 2 x),
    le_value_le_bytes]
  rfl

theorem mread32_of_slice (h : host) (mf : memfile) (x : Nat) (hw : mf.wf)
    (hlen : mf.len < 2 ^ 31) (hfit : mf.pos + 4 ≤ mf.len)
    (hs : slice mf.buf mf.pos 4 = le_bytes 4 x) :
    mread32 h mf = .ok (to_signed 32 (x % 2 ^ 32), { mf with pos := mf.pos + 4 }) := by
  unfold mread32
  rw [mread_ok mf 4 hw hlen (by omega)]
  simp only [bind, Except.bind, pure, Except.pure, Nat.cast_ofNat]
  rw [hs, le32_to_host_object_value h _ (le_bytes_length 4 x) (le_bytes_lt 4 x),
    le_value_le_bytes]
  rfl

/-- On a parentless file, padding over bytes that are already zero and inside
the capacity changes only the cursor. -/
theorem mfalign_loop_same (h : host) (n : Nat) (mf : memfile) (hp : mf.relativeto = none)
    (hw : mf.wf) (hfit : mf.pos + n ≤ mf.len)
    (hs : slice mf.buf mf.pos n = List.replicate n 0) :
    mfalign_loop h n mf = .ok { mf with pos := mf.pos + n } := by
  induction n generalizing mf with
  | zero =>
    simp only [mfalign_loop, Nat.cast_zero, add_zero]
    rw [memfile.eta]
  | succ n ih =>
    obtain ⟨hl, hp0, hp1⟩ := hw
    have hsplit := slice_add mf.buf mf.pos 1 n hp0
    rw [Nat.add_comm 1 n, hs, List.replicate_succ] at hsplit
    have hlen1 : (slice mf.buf mf.pos (1 : Nat)).length = 1 := by
      rw [slice_length _ _ _ hp0 (by push_cast at hfit ⊢; omega)]
      rfl
    have h1 : slice mf.buf mf.pos (1 : Nat) = [0] ∧
        slice mf.buf (mf.pos + (1 : Nat)) n = List.replicate n 0 := by
      match hq : slice mf.buf mf.pos (1 : Nat), hlen1 with
      | [b], _ =>
        rw [hq] at hsplit
        simp only [List.singleton_append, List.cons.injEq] at hsplit
        exact ⟨by rw [hsplit.1], hsplit.2.symm⟩
    have hcopy : mwrite_copy h mf [0] = mf := by
      unfold mwrite_copy
      simp only [List.length_singleton, Nat.cast_one]
      rw [expand_memfile_fits h mf _ (by push_cast at hfit; omega)]
      rw [memcpy_same _ _ _ (by simpa [slice] using h1.1)]
      exact memfile.eta mf
    simp only [mfalign_loop, mwrite8_zero]
    rw [mwrite_linear h mf [0] hp, hcopy]
    simp only [bind, Except.bind, List.length_singleton, Nat.cast_one]
    have hi := ih { mf with pos := mf.pos + 1 } hp
      ⟨hl, by simp only; omega, by simp only; push_cast at hfit; omega⟩
      (by simp only; push_cast at hfit; omega) (by simpa using h1.2)
    rw [hi]
    simp only [Nat.cast_succ]
    congr 2
    ring

/-! ## Parentless files -/

theorem same_diff_refl (mf : memfile) : same_diff mf mf := ⟨rfl, rfl, rfl, rfl, rfl, rfl⟩

theorem same_diff_trans (a b c : memfile) (h1 : same_diff a b) (h2 : same_diff b c) :
    same_diff a c := by
  obtain ⟨a1, a2, a3, a4, a5, a6⟩ := h1
  obtain ⟨b1, b2, b3, b4, b5, b6⟩ := h2
  exact ⟨by rw [b1, a1], by rw [b2, a2], by rw [b3, a3], by rw [b4, a4], by rw [b5, a5],
    by rw [b6, a6]⟩

theorem mwrite_linear_ok (h : host) (mf : memfile) (data : List Nat)
    (hp : mf.relativeto = none) (hw : mf.wf) :
    ∃ m, mwrite h mf data = .ok m ∧ written mf data m ∧ m.relativeto = none ∧
      same_diff mf m := by
  refine ⟨_, mwrite_linear h mf data hp, mwrite_copy_spec h mf data hw, ?_, ?_⟩
  · simp [mwrite_copy, hp]
  · simp [same_diff, mwrite_copy]

theorem mfalign_loop_linear (h : host) (n : Nat) (mf : memfile) (hp : mf.relativeto = none)
    (hw : mf.wf) :
    ∃ m, mfalign_loop h n mf = .ok m ∧ written mf (List.replicate n 0) m ∧
      m.relativeto = none ∧ same_diff mf m := by
  induction n generalizing mf with
  | zero => exact ⟨mf, rfl, written_nil mf hw, hp, same_diff_refl mf⟩
  | succ n ih =>
    simp only [mfalign_loop, mwrite8_zero]
    obtain ⟨m1, hm1, w1, p1, d1⟩ := mwrite_linear_ok h mf [0] hp hw
    obtain ⟨m2, hm2, w2, p2, d2⟩ := ih m1 p1 w1.wf
    rw [hm1]
    refine ⟨m2, hm2, ?_, p2, same_diff_trans _ _ _ d1 d2⟩
    have := written_trans mf m1 m2 _ _ hw.2.1 w1 w2
    simpa [List.replicate_succ] using this

theorem to_signed_to_unsigned32 (x : Int) (lo : -2 ^ 31 ≤ x) (hi : x < 2 ^ 31) :
    to_signed 32 (to_unsigned 32 x) = x := by
  unfold to_signed to_unsigned
  norm_num
  omega

theorem to_signed_to_unsigned16 (x : Int) (lo : -2 ^ 15 ≤ x) (hi : x < 2 ^ 15) :
    to_signed 16 (to_unsigned 16 x) = x := by
  unfold to_signed to_unsigned
  norm_num
  omega

theorem mfalign_bytes4_le (pos : Int) (h0 : 0 ≤ pos) (h1 : pos < 2 ^ 31) :
    (mfalign_bytes pos 4).toNat ≤ 4 := by
  have := mfalign_bytes_toNat pos 2 (by omega) h0 h1
  have e : ((2 ^ 2 : Nat) : Int) = 4 := by norm_num
  rw [e] at this
  rw [this]
  split <;> omega

theorem written_split (mf m : memfile) (a b : List Nat) (hp : 0 ≤ mf.pos)
    (w : written mf (a ++ b) m) :
    slice m.buf mf.pos a.length = a ∧ slice m.buf (mf.pos + a.length) b.length = b := by
  have hat := w.at_pos
  have hwf := w.wf
  have hpos := w.pos_eq
  obtain ⟨hl, _, hp1⟩ := hwf
  rw [List.length_append, slice_add _ _ _ _ hp] at hat
  simp only [List.length_append] at hpos
  push_cast at hpos
  have hlen : (slice m.buf mf.pos a.length).length = a.length := by
    rw [slice_length _ _ _ hp (by omega)]
    simp
  exact List.append_inj hat hlen

/-- What mfmagic_check does on a parentless file whose bytes at the cursor
are the padding mfalign would write followed by the four bytes of `x`. -/
theorem mfmagic_check_of_slice (h : host) (mf : memfile) (e : Int) (x : Nat)
    (hp : mf.relativeto = none) (hw : mf.wf) (hlen : mf.len < 2 ^ 31)
    (hfit : mf.pos + (mfalign_bytes mf.pos 4).toNat + 4 ≤ mf.len)
    (hz : slice mf.buf mf.pos (mfalign_bytes mf.pos 4).toNat
      = List.replicate (mfalign_bytes mf.pos 4).toNat 0)
    (hs : slice mf.buf (mf.pos + (mfalign_bytes mf.pos 4).toNat) 4 = le_bytes 4 x) :
    mfmagic_check h mf e =
      if to_signed 32 (to_unsigned 32 e) = to_signed 32 (x % 2 ^ 32) then
        .ok { mf with pos := mf.pos + (mfalign_bytes mf.pos 4).toNat + 4 }
      else .error fatal.ERR_RESTORE_FAILED := by
  obtain ⟨hl, hp0, hp1⟩ := hw
  unfold mfmagic_check mfalign
  rw [mfalign_loop_same h _ mf hp ⟨hl, hp0, hp1⟩ (by omega) hz]
  simp only [bind, Except.bind]
  rw [mread32_of_slice h { mf with pos := mf.pos + (mfalign_bytes mf.pos 4).toNat } x
    ⟨hl, by simp only; omega, by simp only; omega⟩ hlen (by simp only; omega) hs]
  simp only [ne_eq, ite_not, pure, Except.pure]

/-- What mfmagic_set does on a parentless file: it returns, having written the
padding of mfalign and the four bytes of the marker. -/
theorem mfmagic_set_linear (h : host) (mf : memfile) (m : Int) (hp : mf.relativeto = none)
    (hw : mf.wf) :
    ∃ s, mfmagic_set h mf m = .ok s ∧
      written mf (List.replicate (mfalign_bytes mf.pos 4).toNat 0
        ++ le_bytes 4 (to_unsigned 32 m)) s ∧
      s.relativeto = none ∧ same_diff mf s := by
  unfold mfmagic_set mfalign
  obtain ⟨m1, hm1, w1, p1, d1⟩ := mfalign_loop_linear h (mfalign_bytes mf.pos 4).toNat mf hp hw
  rw [hm1]
  simp only [bind, Except.bind]
  unfold mwrite32
  simp only [object_bytes_host_to_le32]
  obtain ⟨m2, hm2, w2, p2, d2⟩ := mwrite_linear_ok h m1 (le_bytes 4 (to_unsigned 32 m)) p1 w1.wf
  exact ⟨m2, hm2, written_trans mf m1 m2 _ _ hw.2.1 w1 w2, p2, same_diff_trans _ _ _ d1 d2⟩

/-- The marker round trip on a parentless file, with the bytes written. -/
theorem magic_marker_round_trip (h : host) (mf : memfile) (m e : Int) (hp : mf.relativeto = none)
    (hw : mf.wf) (hlen : mf.len + 4104 < 2 ^ 31) (hm : -2 ^ 31 ≤ m ∧ m < 2 ^ 31)
    (he : -2 ^ 31 ≤ e ∧ e < 2 ^ 31) :
    ∃ s, mfmagic_set h mf m = .ok s ∧
      written mf (List.replicate (mfalign_bytes mf.pos 4).toNat 0
        ++ le_bytes 4 (to_unsigned 32 m)) s ∧
      (e = m → mfmagic_check h { s with pos := mf.pos } e = .ok s) ∧
      (e ≠ m → mfmagic_check h { s with pos := mf.pos } e = .error fatal.ERR_RESTORE_FAILED) := by
  obtain ⟨s, hs, w, ps, _⟩ := mfmagic_set_linear h mf m hp hw
  obtain ⟨hl, hp0, hp1⟩ := hw
  have hnb := mfalign_bytes4_le mf.pos hp0 (by omega)
  obtain ⟨z1, z2⟩ := written_split mf s _ _ hp0 w
  rw [List.length_replicate] at z1 z2
  rw [le_bytes_length] at z2
  have hpos := w.pos_eq
  simp only [List.length_append, List.length_replicate, le_bytes_length] at hpos
  push_cast at hpos
  have hsl := w.len_le
  simp only [List.length_append, List.length_replicate, le_bytes_length] at hsl
  push_cast at hsl
  obtain ⟨sl, _, sp1⟩ := w.wf
  have key := mfmagic_check_of_slice h { s with pos := mf.pos } e (to_unsigned 32 m) ps
    ⟨sl, hp0, by simp only; omega⟩ (by simp only; omega) (by simp only; omega) z1 z2
  have e1 : to_unsigned 32 m % 2 ^ 32 = to_unsigned 32 m :=
    Nat.mod_eq_of_lt (to_unsigned_lt 32 m)
  rw [e1, to_signed_to_unsigned32 e he.1 he.2, to_signed_to_unsigned32 m hm.1 hm.2] at key
  refine ⟨s, hs, w, ?_, ?_⟩
  · intro hem
    rw [key, if_pos hem]
    have hpos2 : mf.pos + ((mfalign_bytes mf.pos 4).toNat : Int) + 4 = s.pos := by omega
    simp only
    rw [hpos2, memfile.eta]
  · intro hem
    rw [key, if_neg hem]

/-- Claim C9.  For every parentless well-formed memfile at cursor `p >= 0`
(with `len + 4104` an `int`) and all `int32_t` values `m` and `e`:
mfmagic_set of `m` returns a file `s`; with the cursor set back to `p`,
mfmagic_check of `e` returns normally when `e = m`, and then the file is `s`
again (the cursor is where mfmagic_set left it), and terminates with
`ERR_RESTORE_FAILED` when `e` differs from `m`. -/
theorem mfmagic_set_check (h : host) (mf : memfile) (m e : Int) (hp : mf.relativeto = none)
    (hw : mf.wf) (hlen : mf.len + 4104 < 2 ^ 31) (hm : -2 ^ 31 ≤ m ∧ m < 2 ^ 31)
    (he : -2 ^ 31 ≤ e ∧ e < 2 ^ 31) :
    ∃ s, mfmagic_set h mf m = .ok s ∧
      (e = m → mfmagic_check h { s with pos := mf.pos } e = .ok s) ∧
      (e ≠ m → mfmagic_check h { s with pos := mf.pos } e = .error fatal.ERR_RESTORE_FAILED) := by
  obtain ⟨s, hs, _, h1, h2⟩ := magic_marker_round_trip h mf m e hp hw hlen hm he
  exact ⟨s, hs, h1, h2⟩

/-- Witness of C9: the fresh file, marker 0x1234 set and checked. -/
theorem mfmagic_set_check_witness :
    fresh_le.relativeto = none ∧ fresh_le.wf ∧
    ∃ s, mfmagic_set host_le fresh_le 0x1234 = .ok s ∧
      ((0x1234 : Int) = 0x1234 →
        mfmagic_check host_le { s with pos := fresh_le.pos } 0x1234 = .ok s) ∧
      ((0x1234 : Int) ≠ 0x1234 →
        mfmagic_check host_le { s with pos := fresh_le.pos } 0x1234
          = .error fatal.ERR_RESTORE_FAILED) :=
  ⟨rfl, by decide,
    mfmagic_set_check host_le fresh_le 0x1234 0x1234 rfl (by decide) (by decide) (by decide)
      (by decide)⟩

/-! ## The concrete scenario -/

theorem mnew_wf (h : host) (c : memfile) (r : Option memfile) : (mnew h c r).wf :=
  ⟨rfl, le_refl _, le_refl _⟩

theorem slice_zero (l : List Nat) (n : Nat) : slice l 0 n = l.take n := by
  simp [slice]

/-- Claim C5.  On every host, on a fresh parentless memfile: mwrite32 of
0xCAFEBABE returns `m1`; mfalign with 4 then returns `m1` unchanged (no padding
byte); mfmagic_set of 0x1234 returns `s` with `pos = 8`, whose eight bytes are
the two little-endian words without padding; with `pos` set back to 0, mread32
returns 0xCAFEBABE as an `int32_t` (0xCAFEBABE - 2^32) and a reader `r1`;
mfmagic_check of 0x1234 on `r1` returns normally (the file is `s` again), and
mfmagic_check of 0x9999 on the same reader terminates with
`ERR_RESTORE_FAILED`. -/
theorem scenario_cafebabe (h : host) (c : memfile) :
    ∃ m1 s r1,
      mwrite32 h (mnew h c none) 0xCAFEBABE = .ok m1 ∧
      mfalign h m1 4 = .ok m1 ∧
      mfmagic_set h m1 0x1234 = .ok s ∧ s.pos = 8 ∧
      s.content = [0xBE, 0xBA, 0xFE, 0xCA, 0x34, 0x12, 0x00, 0x00] ∧
      mread32 h { s with pos := 0 } = .ok (0xCAFEBABE - 2 ^ 32, r1) ∧
      mfmagic_check h r1 0x1234 = .ok s ∧
      mfmagic_check h r1 0x9999 = .error fatal.ERR_RESTORE_FAILED := by
  have hw0 := mnew_wf h c none
  have hpos0 : (mnew h c none).pos = 0 := rfl
  have hlen0 : (mnew h c none).len = 0 := rfl
  obtain ⟨m1, hm1, w1, p1, _⟩ :=
    mwrite_linear_ok h (mnew h c none) (le_bytes 4 (to_unsigned 32 0xCAFEBABE)) rfl hw0
  have hp1 : m1.pos = 4 := by
    rw [w1.pos_eq, hpos0, le_bytes_length]; rfl
  have hl1 : m1.len ≤ 4100 := by
    have := w1.len_le
    rw [hpos0, hlen0, le_bytes_length] at this
    omega
  have hnb : (mfalign_bytes m1.pos 4).toNat = 0 := by
    rw [hp1]; decide
  obtain ⟨s, hs, w2, c1, c2⟩ := magic_marker_round_trip h m1 0x1234 0x1234 p1 w1.wf (by omega)
    (by norm_num) (by norm_num)
  obtain ⟨s2, hs2, _, _, d2⟩ := magic_marker_round_trip h m1 0x1234 0x9999 p1 w1.wf (by omega)
    (by norm_num) (by norm_num)
  have es : s2 = s := by
    rw [hs] at hs2
    exact (Except.ok.inj hs2).symm
  subst es
  have hb1 : le_bytes 4 (to_unsigned 32 0xCAFEBABE) = [0xBE, 0xBA, 0xFE, 0xCA] := by decide
  have hb2 : le_bytes 4 (to_unsigned 32 0x1234) = [0x34, 0x12, 0x00, 0x00] := by decide
  rw [hnb, hb2] at w2
  rw [hb1] at w1
  have hps : s2.pos = 8 := by
    rw [w2.pos_eq, hp1]; rfl
  have wt := written_trans _ _ _ _ _ (by rw [hpos0]) w1 w2
  have hat := wt.at_pos
  rw [hpos0] at hat
  have hsl := wt.len_le
  rw [hpos0, hlen0] at hsl
  have hlen8 : ([0xBE, 0xBA, 0xFE, 0xCA] ++ (List.replicate 0 0 ++ [0x34, 0x12, 0x00, 0x00])
      : List Nat).length = 8 := rfl
  rw [hlen8] at hat hsl
  have hsp := written_split _ _ _ _ (by rw [hpos0]) wt
  rw [hpos0] at hsp
  obtain ⟨swl, _, swp⟩ := wt.wf
  have hrd := mread32_of_slice h { s2 with pos := 0 } (to_unsigned 32 0xCAFEBABE)
    ⟨swl, le_refl _, by simp only; omega⟩ (by simp only; omega) (by simp only; omega)
    (by rw [hb1]; exact hsp.1)
  have hval : to_signed 32 (to_unsigned 32 0xCAFEBABE % 2 ^ 32) = 0xCAFEBABE - 2 ^ 32 := by
    decide
  rw [hval] at hrd
  have hr1 : ({ ({ s2 with pos := 0 } : memfile) with pos := (0 : Int) + 4 } : memfile)
      = { s2 with pos := m1.pos } := by
    rw [hp1]
    rfl
  refine ⟨m1, s2, _, ?_, ?_, hs, hps, ?_, hrd, ?_, ?_⟩
  · unfold mwrite32
    simp only [object_bytes_host_to_le32]
    exact hm1
  · unfold mfalign
    rw [hnb]
    rfl
  · unfold memfile.content
    rw [hps]
    show List.take 8 s2.buf = _
    rw [← slice_zero, hat]
    rfl
  · simp only at hr1 ⊢
    rw [hr1]
    exact c1 rfl
  · simp only at hr1 ⊢
    rw [hr1]
    exact d2 (by norm_num)

/-! ## Round trip of typed writes -/

theorem item_wire_length (it : item) : it.wire.length = it.size := by
  cases it <;> simp [item.wire, item.size, le_bytes_length]

theorem items_wire_length (items : List item) : (items_wire items).length = items_size items := by
  induction items with
  | nil => rfl
  | cons it rest ih =>
    simp only [items_wire, List.length_append, item_wire_length, ih, items_size, List.map_cons,
      List.sum_cons]

theorem write_item_eq (h : host) (mf : memfile) (it : item) :
    write_item h mf it = mwrite h mf it.wire := by
  cases it with
  | i8 v =>
    simp only [write_item, mwrite8, item.wire]
    congr 1
    unfold object_bytes
    cases h.IS_BIG_ENDIAN <;> simp [le_bytes]
  | i16 v => simp only [write_item, mwrite16, item.wire, object_bytes_host_to_le16]
  | i32 v => simp only [write_item, mwrite32, item.wire, object_bytes_host_to_le32]
  | raw bytes => rfl

theorem write_items_ok (h : host) (items : List item) (mf : memfile)
    (hp : mf.relativeto = none) (hw : mf.wf) :
    ∃ m, write_items h mf items = .ok m ∧ written mf (items_wire items) m ∧
      m.relativeto = none ∧ same_diff mf m := by
  induction items generalizing mf with
  | nil => exact ⟨mf, rfl, written_nil mf hw, hp, same_diff_refl mf⟩
  | cons it rest ih =>
    simp only [write_items, write_item_eq, items_wire]
    obtain ⟨m1, hm1, w1, p1, d1⟩ := mwrite_linear_ok h mf it.wire hp hw
    obtain ⟨m2, hm2, w2, p2, d2⟩ := ih m1 p1 w1.wf
    rw [hm1]
    exact ⟨m2, hm2, written_trans mf m1 m2 _ _ hw.2.1 w1 w2, p2, same_diff_trans _ _ _ d1 d2⟩

theorem read_item_ok (h : host) (mf : memfile) (it : item) (hv : it.valid) (hw : mf.wf)
    (hlen : mf.len < 2 ^ 31) (hfit : mf.pos + it.size ≤ mf.len)
    (hs : slice mf.buf mf.pos it.size = it.wire) :
    read_item h mf it.shape = .ok (it, { mf with pos := mf.pos + it.size }) := by
  cases it with
  | i8 v =>
    simp only [item.size, item.wire, item.valid, item.shape, read_item, le_bytes,
      Nat.cast_one] at *
    rw [mread8_of_slice h mf (to_unsigned 8 v) hw hlen hfit hs]
    simp only [Except.map]
    have e : to_unsigned 8 v % 256 = to_unsigned 8 v := Nat.mod_eq_of_lt (to_unsigned_lt 8 v)
    rw [e, to_signed_to_unsigned8 v (by omega) (by omega)]
  | i16 v =>
    simp only [item.size, item.wire, item.valid, item.shape, read_item, Nat.cast_ofNat] at *
    rw [mread16_of_slice h mf (to_unsigned 16 v) hw hlen hfit hs]
    simp only [Except.map]
    have e : to_unsigned 16 v % 2 ^ 16 = to_unsigned 16 v :=
      Nat.mod_eq_of_lt (to_unsigned_lt 16 v)
    rw [e, to_signed_to_unsigned16 v hv.1 hv.2]
  | i32 v =>
    simp only [item.size, item.wire, item.valid, item.shape, read_item, Nat.cast_ofNat] at *
    rw [mread32_of_slice h mf (to_unsigned 32 v) hw hlen hfit hs]
    simp only [Except.map]
    have e : to_unsigned 32 v % 2 ^ 32 = to_unsigned 32 v :=
      Nat.mod_eq_of_lt (to_unsigned_lt 32 v)
    rw [e, to_signed_to_unsigned32 v hv.1 hv.2]
  | raw bytes =>
    simp only [item.size, item.wire, item.shape, read_item] at *
    rw [mread_ok mf bytes.length hw hlen (by omega)]
    simp only [Except.map, hs]

theorem read_items_ok (h : host) (items : List item) (mf : memfile)
    (hv : ∀ it ∈ items, it.valid) (hw : mf.wf) (hlen : mf.len < 2 ^ 31)
    (hfit : mf.pos + items_size items ≤ mf.len)
    (hs : slice mf.buf mf.pos (items_size items) = items_wire items) :
    read_items h mf (items.map item.shape)
      = .ok (items, { mf with pos := mf.pos + items_size items }) := by
  induction items generalizing mf with
  | nil =>
    simp only [List.map_nil, read_items, items_size, List.sum_nil, Nat.cast_zero, add_zero]
    rw [memfile.eta]
  | cons it rest ih =>
    obtain ⟨hl, hp0, hp1⟩ := hw
    have hsz : items_size (it :: rest) = it.size + items_size rest := by
      simp [items_size]
    rw [hsz] at hfit hs
    push_cast at hfit
    rw [slice_add _ _ _ _ hp0] at hs
    simp only [items_wire] at hs
    have hlen1 : (slice mf.buf mf.pos it.size).length = it.wire.length := by
      rw [slice_length _ _ _ hp0 (by omega), item_wire_length]
      simp
    obtain ⟨s1, s2⟩ := List.append_inj hs hlen1
    have hi := read_item_ok h mf it (hv it (List.mem_cons_self _ _)) ⟨hl, hp0, hp1⟩ hlen
      (by omega) s1
    have hr := ih { mf with pos := mf.pos + it.size }
      (fun x hx => hv x (List.mem_cons_of_mem _ hx))
      ⟨hl, by simp only; omega, by simp only; omega⟩ hlen (by simp only; omega) s2
    simp only [List.map_cons, read_items]
    rw [hi]
    simp only [bind, Except.bind]
    rw [hr]
    simp only [Except.map, hsz]
    congr 3
    push_cast
    ring

/-- Claim C2.  On every host (big- or little-endian), for every sequence of
`int8_t`, `int16_t`, `int32_t` values and raw byte blocks (of total size below
`2^31 - 4096`, so that the capacity is an `int`): the mwrite8, mwrite16,
mwrite32 and mwrite calls on a fresh parentless memfile return; after `pos` is
set back to 0, the mread8, mread16, mread32 and mread calls of the same widths
in the same order return exactly the values and blocks written. -/
theorem typed_round_trip (h : host) (c : memfile) (items : List item)
    (hv : ∀ it ∈ items, it.valid) (hsize : (items_size items : Int) + 4096 < 2 ^ 31) :
    ∃ m, write_items h (mnew h c none) items = .ok m ∧
      ∃ r, read_items h { m with pos := 0 } (items.map item.shape) = .ok (items, r) := by
  obtain ⟨m, hm, w, _, _⟩ := write_items_ok h items (mnew h c none) rfl (mnew_wf h c none)
  have hpos0 : (mnew h c none).pos = 0 := rfl
  have hlen0 : (mnew h c none).len = 0 := rfl
  have hat := w.at_pos
  have hpe := w.pos_eq
  have hle := w.len_le
  rw [hpos0, items_wire_length] at hat hpe
  rw [hpos0, hlen0, items_wire_length] at hle
  obtain ⟨ml, _, mp⟩ := w.wf
  refine ⟨m, hm, _, read_items_ok h items { m with pos := 0 } hv
    ⟨ml, le_refl _, by simp only; omega⟩ (by simp only; omega) (by simp only; omega) hat⟩

/-- Witness of C2: on the big-endian sample host, the values -1 (8 bits),
-2 (16 bits), 0x12345678 (32 bits) and the block 1, 2, 3. -/
theorem typed_round_trip_witness :
    (∀ it ∈ [item.i8 (-1), item.i16 (-2), item.i32 0x12345678, item.raw [1, 2, 3]], it.valid) ∧
    ∃ m, write_items host_be (mnew host_be memfile.zero none)
        [item.i8 (-1), item.i16 (-2), item.i32 0x12345678, item.raw [1, 2, 3]] = .ok m ∧
      ∃ r, read_items host_be { m with pos := 0 }
        ([item.i8 (-1), item.i16 (-2), item.i32 0x12345678, item.raw [1, 2, 3]].map item.shape)
        = .ok ([item.i8 (-1), item.i16 (-2), item.i32 0x12345678, item.raw [1, 2, 3]], r) :=
  ⟨by decide,
    typed_round_trip host_be memfile.zero
      [item.i8 (-1), item.i16 (-2), item.i32 0x12345678, item.raw [1, 2, 3]]
      (by decide) (by decide)⟩

/-! ## The decoder -/

theorem mdiff_decode_fuel_eq (parent : List Nat) (f1 f2 : Nat) (s : List Nat) (c : Int)
    (h1 : s.length < f1) (h2 : s.length < f2) :
    mdiff_decode_fuel parent f1 s c = mdiff_decode_fuel parent f2 s c := by
  induction f1 generalizing f2 s c with
  | zero => omega
  | succ f1 ih =>
    cases f2 with
    | zero => omega
    | succ f2 =>
      match s with
      | [] => rfl
      | [_] => rfl
      | b0 :: b1 :: rest =>
        simp only [List.length_cons] at h1 h2
        have hd : (rest.drop ((b0 + 256 * b1) % 2 ^ 14)).length ≤ rest.length := by
          simp only [List.length_drop]
          omega
        simp only [mdiff_decode_fuel]
        rw [ih f2 rest _ (by omega) (by omega), ih f2 rest _ (by omega) (by omega),
          ih f2 (rest.drop ((b0 + 256 * b1) % 2 ^ 14)) _ (by omega) (by omega)]

theorem mdiff_run_nil (parent : List Nat) (c : Int) : mdiff_run parent [] c = some ([], c) := rfl

theorem mdiff_run_copy (parent : List Nat) (b0 b1 : Nat) (rest : List Nat) (c : Int)
    (hc : (b0 + 256 * b1) / 2 ^ 14 = 0) :
    mdiff_run parent (b0 :: b1 :: rest) c =
      if 0 ≤ c ∧ c + ((b0 + 256 * b1) % 2 ^ 14 : Nat) ≤ parent.length then
        (mdiff_run parent rest (c + ((b0 + 256 * b1) % 2 ^ 14 : Nat))).map
          (fun r => (slice parent c ((b0 + 256 * b1) % 2 ^ 14 : Nat) ++ r.1, r.2))
      else none := by
  unfold mdiff_run
  simp only [List.length_cons, mdiff_decode_fuel, hc, memfile_diffcmd.code, if_true]
  rw [mdiff_decode_fuel_eq parent (rest.length + 1 + 1) (rest.length + 1) rest _ (by omega)
    (by omega)]

theorem mdiff_run_edit (parent : List Nat) (b0 b1 : Nat) (rest : List Nat) (c : Int)
    (hc : (b0 + 256 * b1) / 2 ^ 14 = 1) :
    mdiff_run parent (b0 :: b1 :: rest) c =
      if (b0 + 256 * b1) % 2 ^ 14 ≤ rest.length then
        (mdiff_run parent (rest.drop ((b0 + 256 * b1) % 2 ^ 14))
            (c + ((b0 + 256 * b1) % 2 ^ 14 : Nat))).map
          (fun r => (rest.take ((b0 + 256 * b1) % 2 ^ 14) ++ r.1, r.2))
      else none := by
  unfold mdiff_run
  have hd : (rest.drop ((b0 + 256 * b1) % 2 ^ 14)).length ≤ rest.length := by
    simp only [List.length_drop]
    omega
  simp only [List.length_cons, mdiff_decode_fuel, hc, memfile_diffcmd.code, if_true,
    OfNat.one_ne_ofNat, if_false, one_ne_zero]
  rw [mdiff_decode_fuel_eq parent (rest.length + 1 + 1) _ _ _ (by omega) (Nat.lt_succ_self _)]

theorem mdiff_run_seek (parent : List Nat) (b0 b1 : Nat) (rest : List Nat) (c : Int)
    (hc : (b0 + 256 * b1) / 2 ^ 14 = 2) :
    mdiff_run parent (b0 :: b1 :: rest) c =
      mdiff_run parent rest (c - to_signed 14 ((b0 + 256 * b1) % 2 ^ 14)) := by
  unfold mdiff_run
  simp only [List.length_cons, mdiff_decode_fuel, hc, memfile_diffcmd.code, if_true,
    OfNat.ofNat_ne_zero, OfNat.ofNat_ne_one, if_false]
  rw [mdiff_decode_fuel_eq parent (rest.length + 1 + 1) (rest.length + 1) rest _ (by omega)
    (by omega)]

theorem mdiff_run_bad (parent : List Nat) (b0 b1 : Nat) (rest : List Nat) (c : Int)
    (hc : 3 ≤ (b0 + 256 * b1) / 2 ^ 14) :
    mdiff_run parent (b0 :: b1 :: rest) c = none := by
  unfold mdiff_run
  have h0 : ¬ (b0 + 256 * b1) / 2 ^ 14 = 0 := by omega
  have h1 : ¬ (b0 + 256 * b1) / 2 ^ 14 = 1 := by omega
  have h2 : ¬ (b0 + 256 * b1) / 2 ^ 14 = 2 := by omega
  simp only [List.length_cons, mdiff_decode_fuel, memfile_diffcmd.code, h0, h1, h2, if_false]

theorem mdiff_run_single (parent : List Nat) (b : Nat) (c : Int) :
    mdiff_run parent [b] c = none := rfl

theorem option_map_eq_some {α β : Type} (x : Option α) (f : α → β) (b : β)
    (e : x.map f = some b) : ∃ a, x = some a ∧ f a = b := by
  cases x with
  | none => cases e
  | some a => exact ⟨a, rfl, by simpa using e⟩

/-- Decoding a stream that continues after a decodable one. -/
theorem mdiff_run_append (parent : List Nat) (s1 s2 : List Nat) (c : Int) (o1 : List Nat)
    (c1 : Int) (e : mdiff_run parent s1 c = some (o1, c1)) :
    mdiff_run parent (s1 ++ s2) c =
      (mdiff_run parent s2 c1).map (fun r => (o1 ++ r.1, r.2)) := by
  generalize hn : s1.length = n
  induction n using Nat.strong_induction_on generalizing s1 c o1 c1 with
  | _ n ih =>
    match s1, hn with
    | [], _ =>
      rw [mdiff_run_nil] at e
      cases e
      simp
    | [b], _ =>
      rw [mdiff_run_single] at e
      cases e
    | b0 :: b1 :: rest, hn =>
      simp only [List.length_cons] at hn
      simp only [List.cons_append]
      by_cases h0 : (b0 + 256 * b1) / 2 ^ 14 = 0
      · rw [mdiff_run_copy _ _ _ _ _ h0] at e ⊢
        split at e
        · rename_i hc
          rw [if_pos hc]
          obtain ⟨⟨o, k⟩, ha, hb⟩ := option_map_eq_some _ _ _ e
          simp only [Prod.mk.injEq] at hb
          obtain ⟨rfl, rfl⟩ := hb
          rw [ih rest.length (by omega) rest _ o k ha rfl]
          rw [Option.map_map]
          congr 1
          funext r
          simp only [Function.comp, List.append_assoc]
        · cases e
      · by_cases h1 : (b0 + 256 * b1) / 2 ^ 14 = 1
        · rw [mdiff_run_edit _ _ _ _ _ h1] at e ⊢
          split at e
          · rename_i hc
            rw [if_pos (by simp only [List.length_append]; omega)]
            obtain ⟨⟨o, k⟩, ha, hb⟩ := option_map_eq_some _ _ _ e
            simp only [Prod.mk.injEq] at hb
            obtain ⟨rfl, rfl⟩ := hb
            rw [List.drop_append_of_le_length hc, List.take_append_of_le_length hc]
            rw [ih (rest.drop ((b0 + 256 * b1) % 2 ^ 14)).length
              (by simp only [List.length_drop]; omega) _ _ o k ha rfl]
            rw [Option.map_map]
            congr 1
            funext r
            simp only [Function.comp, List.append_assoc]
          · cases e
        · by_cases h2 : (b0 + 256 * b1) / 2 ^ 14 = 2
          · rw [mdiff_run_seek _ _ _ _ _ h2] at e ⊢
            exact ih rest.length (by omega) rest _ o1 c1 e rfl
          · rw [mdiff_run_bad _ _ _ _ _ (by omega)] at e
            cases e

/-! ## The diff writer -/

theorem mdiffwrite_grow_ge (fuel : Nat) (difflen need : Int)
    (hf : need - difflen ≤ fuel) :
    need ≤ mdiffwrite_grow fuel difflen need ∧ difflen ≤ mdiffwrite_grow fuel difflen need := by
  induction fuel generalizing difflen with
  | zero =>
    simp only [mdiffwrite_grow]
    simp only [Nat.cast_zero] at hf
    omega
  | succ n ih =>
    simp only [mdiffwrite_grow]
    split
    · have := ih (difflen + 4096) (by push_cast at hf; omega)
      omega
    · omega

theorem mdiffwrite_grow_fits (fuel : Nat) (difflen need : Int) (hf : need ≤ difflen) :
    mdiffwrite_grow fuel difflen need = difflen := by
  cases fuel with
  | zero => rfl
  | succ n =>
    simp only [mdiffwrite_grow]
    rw [if_neg (by omega)]

theorem memcpy_take_end (dst : List Nat) (off : Nat) (src : List Nat) (hd : off ≤ dst.length) :
    (memcpy dst off src).take (off + src.length) = dst.take off ++ src := by
  unfold memcpy
  have hl : (dst.take off ++ src).length = off + src.length := by
    simp only [List.length_append, List.length_take]
    omega
  rw [← hl, List.take_left']
  rfl

/-- The bytes handed to mdiffwrite are appended to the diff stream. -/
theorem mdiffwrite_stream (h : host) (mf : memfile) (d : List Nat) (hw : mf.diff_wf) :
    (mdiffwrite h mf d).diffstream = mf.diffstream ++ d ∧ (mdiffwrite h mf d).diff_wf := by
  obtain ⟨hl, hp0, hp1⟩ := hw
  have hg := mdiffwrite_grow_ge (mf.diffpos + d.length - mf.difflen).toNat mf.difflen
    (mf.diffpos + d.length) (by omega)
  have key : ∃ D : List Nat, (mdiffwrite h mf d).diffbuf = memcpy D mf.diffpos.toNat d ∧
      (D.length : Int) = (mdiffwrite h mf d).difflen ∧
      D.take mf.diffpos.toNat = mf.diffbuf.take mf.diffpos.toNat := by
    by_cases hc : mf.difflen < mf.diffpos + d.length
    · refine ⟨realloc h mf.diffbuf
        (mdiffwrite_grow (mf.diffpos + d.length - mf.difflen).toNat mf.difflen
          (mf.diffpos + d.length)).toNat, ?_, ?_, ?_⟩
      · simp only [mdiffwrite, hc, decide_True, if_true]
      · simp only [mdiffwrite, realloc_length]
        omega
      · exact realloc_take h _ _ _ (by omega) (by omega)
    · refine ⟨mf.diffbuf, ?_, ?_, rfl⟩
      · simp only [mdiffwrite, hc, decide_False, Bool.false_eq_true, if_false]
      · simp only [mdiffwrite]
        rw [mdiffwrite_grow_fits _ _ _ (by omega)]
        exact hl
  obtain ⟨D, hD, hDl, hDt⟩ := key
  have hlen' : (mdiffwrite h mf d).difflen = mdiffwrite_grow
      (mf.diffpos + d.length - mf.difflen).toNat mf.difflen (mf.diffpos + d.length) := rfl
  constructor
  · unfold memfile.diffstream
    rw [hD, mdiffwrite_diffpos]
    have e : (mf.diffpos + (d.length : Int)).toNat = mf.diffpos.toNat + d.length := by omega
    rw [e, memcpy_take_end _ _ _ (by omega), hDt]
  · refine ⟨?_, ?_, ?_⟩
    · rw [hD, memcpy_length _ _ _ (by omega)]
      exact hDl
    · rw [mdiffwrite_diffpos]; omega
    · rw [mdiffwrite_diffpos]; omega

theorem unit_word (c : Nat) (v : Int) (hc : c < 4) :
    (Nat.lor (Nat.land (to_unsigned 16 v) 0x3fff) (c <<< 14)) % 2 ^ 16
      = (v % 2 ^ 14).toNat + c * 2 ^ 14 := by
  have e1 : Nat.land (to_unsigned 16 v) 0x3fff = to_unsigned 16 v % 2 ^ 14 :=
    Nat.and_pow_two_sub_one_eq_mod (to_unsigned 16 v) 14
  have e2 : to_unsigned 16 v % 2 ^ 14 = (v % 2 ^ 14).toNat := by
    unfold to_unsigned
    norm_num
    omega
  have hlt : (v % 2 ^ 14).toNat < 2 ^ 14 := by
    norm_num
    omega
  have e3 : Nat.lor (v % 2 ^ 14).toNat (c <<< 14) = 2 ^ 14 * c + (v % 2 ^ 14).toNat := by
    rw [Nat.shiftLeft_eq, Nat.mul_comm c, Nat.mul_add_lt_is_or hlt c]
    exact Nat.lor_comm _ _
  rw [e1, e2, e3]
  norm_num at hlt ⊢
  omega

/-- A command unit is written as the two bytes, low first, of the word with
the command in bits 15-14 and the value modulo `2 ^ 14` below. -/
theorem mdiffwrite14_eq (h : host) (mf : memfile) (c : Nat) (v : Int) (hc : c < 4) :
    mdiffwrite14 h mf c v = mdiffwrite h mf (le_bytes 2 ((v % 2 ^ 14).toNat + c * 2 ^ 14)) := by
  unfold mdiffwrite14
  simp only [unit_word c v hc, object_bytes_host_to_le16]

theorem unit_bytes (w : Nat) (hw : w < 2 ^ 16) :
    le_bytes 2 w = [w % 256, w / 256] ∧ w % 256 + 256 * (w / 256) = w := by
  simp only [le_bytes]
  refine ⟨?_, by omega⟩
  have : w / 256 % 256 = w / 256 := Nat.mod_eq_of_lt (by omega)
  rw [this]

/-! ## Decoding the units the writer emits -/

theorem unit_fields (v c : Nat) (hv : v < 2 ^ 14) (hc : c < 4) :
    ∃ b0 b1, le_bytes 2 (v + c * 2 ^ 14) = [b0, b1] ∧ (b0 + 256 * b1) / 2 ^ 14 = c ∧
      (b0 + 256 * b1) % 2 ^ 14 = v := by
  have hw : v + c * 2 ^ 14 < 2 ^ 16 := by omega
  obtain ⟨e1, e2⟩ := unit_bytes _ hw
  refine ⟨_, _, e1, ?_, ?_⟩
  · rw [e2]; omega
  · rw [e2]; omega

theorem mdiff_run_unit_copy (parent : List Nat) (v : Nat) (rest : List Nat) (cur : Int)
    (hv : v < 2 ^ 14) :
    mdiff_run parent (le_bytes 2 (v + MDIFF_COPY.code * 2 ^ 14) ++ rest) cur =
      if 0 ≤ cur ∧ cur + v ≤ parent.length then
        (mdiff_run parent rest (cur + v)).map (fun r => (slice parent cur v ++ r.1, r.2))
      else none := by
  obtain ⟨b0, b1, e, hc, hp⟩ := unit_fields v MDIFF_COPY.code hv (by decide)
  rw [e]
  simp only [List.cons_append, List.nil_append]
  rw [mdiff_run_copy _ _ _ _ _ hc, hp]

theorem mdiff_run_unit_edit (parent : List Nat) (v : Nat) (rest : List Nat) (cur : Int)
    (hv : v < 2 ^ 14) :
    mdiff_run parent (le_bytes 2 (v + MDIFF_EDIT.code * 2 ^ 14) ++ rest) cur =
      if v ≤ rest.length then
        (mdiff_run parent (rest.drop v) (cur + v)).map (fun r => (rest.take v ++ r.1, r.2))
      else none := by
  obtain ⟨b0, b1, e, hc, hp⟩ := unit_fields v MDIFF_EDIT.code hv (by decide)
  rw [e]
  simp only [List.cons_append, List.nil_append]
  rw [mdiff_run_edit _ _ _ _ _ hc, hp]

theorem mdiff_run_unit_seek (parent : List Nat) (v : Nat) (rest : List Nat) (cur : Int)
    (hv : v < 2 ^ 14) :
    mdiff_run parent (le_bytes 2 (v + MDIFF_SEEK.code * 2 ^ 14) ++ rest) cur =
      mdiff_run parent rest (cur - to_signed 14 v) := by
  obtain ⟨b0, b1, e, hc, hp⟩ := unit_fields v MDIFF_SEEK.code hv (by decide)
  rw [e]
  simp only [List.cons_append, List.nil_append]
  rw [mdiff_run_seek _ _ _ _ _ hc, hp]

theorem content_length (mf : memfile) (hw : mf.wf) : (mf.content.length : Int) = mf.pos := by
  obtain ⟨hl, hp0, hp1⟩ := hw
  unfold memfile.content
  simp only [List.length_take]
  omega

theorem take_append_slice (l : List Nat) (a n : Int) (ha : 0 ≤ a) (hn : 0 ≤ n)
    (hl : a + n = l.length) : l.take a.toNat ++ slice l a n = l := by
  unfold slice
  have : (l.drop a.toNat).take n.toNat = l.drop a.toNat := by
    apply List.take_of_length_le
    simp only [List.length_drop]
    omega
  rw [this, List.take_append_drop]

theorem slice_content (mf : memfile) (a n : Int) (ha : 0 ≤ a) (hn : 0 ≤ n)
    (hl : a + n ≤ mf.pos) : slice mf.content a n = slice mf.buf a n := by
  unfold memfile.content
  have e := slice_take mf.buf mf.pos.toNat a n.toNat ha (by omega)
  rw [Int.toNat_of_nonneg hn] at e
  exact e

theorem seek_payload (k : Int) (h1 : -0x1fff ≤ k) (h2 : k ≤ 0x1fff) :
    (k % 2 ^ 14).toNat < 2 ^ 14 ∧ to_signed 14 (k % 2 ^ 14).toNat = k := by
  unfold to_signed
  norm_num
  constructor
  · omega
  · split <;> omega

theorem run_payload (n : Int) (h1 : 0 ≤ n) (h2 : n ≤ 0x3fff) :
    (n % 2 ^ 14).toNat < 2 ^ 14 ∧ (((n % 2 ^ 14).toNat : Nat) : Int) = n := by
  norm_num
  omega

/-! ## The encoder invariant -/

/-- Writing to the diff stream bytes that decode from the current cursor. -/
theorem emit_run (h : host) (parent : List Nat) (mf : memfile) (data out : List Nat)
    (cur : Int) (r : List Nat × Int) (hd : mf.diff_wf)
    (hrun : mdiff_run parent mf.diffstream 0 = some (out, cur))
    (hdata : mdiff_run parent data cur = some r) :
    (mdiffwrite h mf data).diff_wf ∧
      mdiff_run parent (mdiffwrite h mf data).diffstream 0 = some (out ++ r.1, r.2) := by
  obtain ⟨e1, e2⟩ := mdiffwrite_stream h mf data hd
  refine ⟨e2, ?_⟩
  rw [e1, mdiff_run_append _ _ _ _ _ _ hrun, hdata]
  rfl

theorem emit_run2 (h : host) (parent : List Nat) (mf : memfile) (a b out : List Nat)
    (cur : Int) (r : List Nat × Int) (hd : mf.diff_wf)
    (hrun : mdiff_run parent mf.diffstream 0 = some (out, cur))
    (hdata : mdiff_run parent (a ++ b) cur = some r) :
    (mdiffwrite h (mdiffwrite h mf a) b).diff_wf ∧
      mdiff_run parent (mdiffwrite h (mdiffwrite h mf a) b).diffstream 0
        = some (out ++ r.1, r.2) := by
  obtain ⟨e1, e2⟩ := mdiffwrite_stream h mf a hd
  obtain ⟨e3, e4⟩ := mdiffwrite_stream h (mdiffwrite h mf a) b e2
  refine ⟨e4, ?_⟩
  rw [e3, e1, List.append_assoc, mdiff_run_append _ _ _ _ _ _ hrun, hdata]
  rfl

theorem copy_unit_run (parent : List Nat) (n cur : Int) (h1 : 0 ≤ n) (h2 : n ≤ 0x3fff)
    (h3 : 0 ≤ cur) (h4 : cur + n ≤ parent.length) :
    mdiff_run parent (le_bytes 2 ((n % 2 ^ 14).toNat + MDIFF_COPY.code * 2 ^ 14)) cur
      = some (slice parent cur n, cur + n) := by
  obtain ⟨v1, v2⟩ := run_payload n h1 h2
  have hu := mdiff_run_unit_copy parent (n % 2 ^ 14).toNat [] cur v1
  rw [List.append_nil, v2, if_pos ⟨h3, h4⟩, mdiff_run_nil] at hu
  rw [hu]
  simp only [Option.map_some', List.append_nil]

theorem edit_unit_run (parent : List Nat) (n cur : Int) (lit : List Nat) (h1 : 0 ≤ n)
    (h2 : n ≤ 0x3fff) (h3 : (lit.length : Int) = n) :
    mdiff_run parent (le_bytes 2 ((n % 2 ^ 14).toNat + MDIFF_EDIT.code * 2 ^ 14) ++ lit) cur
      = some (lit, cur + n) := by
  obtain ⟨v1, v2⟩ := run_payload n h1 h2
  have hll : lit.length = (n % 2 ^ 14).toNat := by omega
  have hu := mdiff_run_unit_edit parent (n % 2 ^ 14).toNat lit cur v1
  rw [if_pos (by omega), ← hll, List.drop_length, List.take_length, mdiff_run_nil] at hu
  rw [← hll, hu]
  simp only [Option.map_some', List.append_nil, h3]

theorem seek_unit_run (parent : List Nat) (k cur : Int) (h1 : -0x1fff ≤ k) (h2 : k ≤ 0x1fff) :
    mdiff_run parent (le_bytes 2 ((k % 2 ^ 14).toNat + MDIFF_SEEK.code * 2 ^ 14)) cur
      = some ([], cur - k) := by
  obtain ⟨v1, v2⟩ := seek_payload k h1 h2
  have hu := mdiff_run_unit_seek parent (k % 2 ^ 14).toNat [] cur v1
  rw [List.append_nil, v2, mdiff_run_nil] at hu
  exact hu

/-- A flush under the invariant returns, and the units then decode to the
whole content with the cursor at `relativepos`. -/
theorem mdiffflush_inv (h : host) (parent mf : memfile) (hi : diff_inv parent mf) :
    ∃ m, mdiffflush h mf = .ok m ∧ m.diff_wf ∧
      mdiff_run parent.content m.diffstream 0 = some (mf.content, mf.relativepos) := by
  obtain ⟨hw, hd, _, _, out, cur, hrun, hpend⟩ := hi
  have hcl := content_length mf hw
  obtain ⟨_, hp0, _⟩ := hw
  unfold pending_ok at hpend
  cases hc : mf.curcmd with
  | MDIFF_INVALID =>
    rw [hc] at hpend
    simp only at hpend
    refine ⟨mf, mdiffflush_invalid h mf hc, hd, ?_⟩
    rw [hrun, hpend.1, hpend.2]
  | MDIFF_COPY =>
    rw [hc] at hpend
    simp only at hpend
    obtain ⟨c1, c2, c3, c4, c5, c6, c7, c8⟩ := hpend
    have hu := copy_unit_run parent.content mf.curcount cur (by omega) c2 c4 (by omega)
    obtain ⟨e1, e2⟩ := emit_run h parent.content mf _ out cur _ hd hrun hu
    refine ⟨_, mdiffflush_unit h mf (by rw [hc]; decide) (by rw [hc]; decide), ?_, ?_⟩
    · rw [hc, mdiffwrite14_eq h mf _ _ (by decide)]
      exact e1
    · rw [hc, mdiffwrite14_eq h mf _ _ (by decide)]
      refine Eq.trans e2 ?_
      simp only
      rw [← c8, c7, take_append_slice _ _ _ (by omega) (by omega) (by omega), c5]
  | MDIFF_EDIT =>
    rw [hc] at hpend
    simp only at hpend
    obtain ⟨c1, c2, c3, c5, c7⟩ := hpend
    have hlit : slice mf.buf (mf.pos - mf.curcount) mf.curcount
        = slice mf.content (mf.pos - mf.curcount) mf.curcount :=
      (slice_content mf _ _ (by omega) (by omega) (by omega)).symm
    have hll : ((slice mf.buf (mf.pos - mf.curcount) mf.curcount).length : Int)
        = mf.curcount := by
      rw [hlit, slice_length _ _ _ (by omega) (by omega)]
      omega
    have hu := edit_unit_run parent.content mf.curcount cur _ (by omega) c2 hll
    obtain ⟨e1, e2⟩ := emit_run2 h parent.content mf _ _ out cur _ hd hrun hu
    refine ⟨_, mdiffflush_edit h mf hc (by omega) c3, ?_, ?_⟩
    · rw [mdiffwrite14_eq h mf _ _ (by decide)]
      exact e1
    · rw [mdiffwrite14_eq h mf _ _ (by decide)]
      refine Eq.trans e2 ?_
      simp only
      rw [hlit, c7, take_append_slice _ _ _ (by omega) (by omega) (by omega), c5]
  | MDIFF_SEEK =>
    rw [hc] at hpend
    simp only at hpend
    obtain ⟨c1, c2, c5, c7⟩ := hpend
    have hu := seek_unit_run parent.content mf.curcount cur c1 c2
    obtain ⟨e1, e2⟩ := emit_run h parent.content mf _ out cur _ hd hrun hu
    refine ⟨_, mdiffflush_unit h mf (by rw [hc]; decide) (by rw [hc]; decide), ?_, ?_⟩
    · rw [hc, mdiffwrite14_eq h mf _ _ (by decide)]
      exact e1
    · rw [hc, mdiffwrite14_eq h mf _ _ (by decide)]
      refine Eq.trans e2 ?_
      simp only [List.append_nil]
      rw [c7, c5]

/-! ## One more byte -/

theorem slice_one (l : List Nat) (p : Int) (h0 : 0 ≤ p) (h1 : p < l.length) :
    slice l p 1 = [byte_at l p] := by
  unfold slice byte_at
  have hlt : p.toNat < l.length := by omega
  rw [List.drop_eq_getElem_cons hlt]
  simp only [Int.toNat_one, List.take_succ_cons, List.take_zero]
  rw [List.getD_eq_getElem l 0 hlt]

theorem slice_snoc (l : List Nat) (a n : Int) (h0 : 0 ≤ a) (hn : 0 ≤ n)
    (h1 : a + n < l.length) :
    slice l a (n + 1) = slice l a n ++ [byte_at l (a + n)] := by
  have e := slice_add l a n.toNat 1 h0
  have e1 : ((n.toNat + 1 : Nat) : Int) = n + 1 := by omega
  have e2 : ((n.toNat : Nat) : Int) = n := by omega
  rw [e1, e2] at e
  rw [e]
  congr 1
  exact slice_one l (a + n) (by omega) h1

theorem slice_append_left (l x : List Nat) (a n : Int) (h0 : 0 ≤ a) (hn : 0 ≤ n)
    (h1 : a + n ≤ l.length) : slice (l ++ x) a n = slice l a n := by
  unfold slice
  rw [List.drop_append_of_le_length (by omega), List.take_append_of_le_length]
  simp only [List.length_drop]
  omega

theorem byte_at_append_length (l : List Nat) (b : Nat) (p : Int) (hp : p = l.length) :
    byte_at (l ++ [b]) p = b := by
  unfold byte_at
  have : p.toNat = l.length := by omega
  rw [this]
  simp [List.getD_eq_getElem?_getD]

theorem content_succ (mf : memfile) (hw : mf.wf) (hfit : mf.pos < mf.len) :
    mf.buf.take (mf.pos + 1).toNat = mf.content ++ [byte_at mf.buf mf.pos] := by
  obtain ⟨hl, hp0, hp1⟩ := hw
  unfold memfile.content byte_at
  have e : (mf.pos + 1).toNat = mf.pos.toNat + 1 := by omega
  have hlt : mf.pos.toNat < mf.buf.length := by omega
  rw [e, List.take_succ, List.getD_eq_getElem mf.buf 0 hlt, List.getElem?_eq_getElem hlt]
  rfl

theorem byte_at_content (mf : memfile) (i : Int) (h0 : 0 ≤ i) (h1 : i < mf.pos) :
    byte_at mf.content i = byte_at mf.buf i := by
  unfold memfile.content byte_at
  simp only [List.getD_eq_getElem?_getD]
  rw [List.getElem?_take_of_lt (by omega)]

theorem parent_content_length (parent : memfile) (hP : parent.wf) :
    (parent.content.length : Int) = parent.pos := content_length parent hP

theorem parent_byte (parent : memfile) (hP : parent.wf) (i : Int) (h0 : 0 ≤ i)
    (h1 : i < parent.pos) : slice parent.content i 1 = [byte_at parent.buf i] := by
  rw [slice_one _ _ h0 (by rw [parent_content_length parent hP]; exact h1),
    byte_at_content parent i h0 h1]

theorem pending_invalid_of (parent : List Nat) (mf : memfile) (out : List Nat) (cur : Int)
    (e1 : mf.curcmd = MDIFF_INVALID) (h1 : out = mf.content) (h2 : cur = mf.relativepos) :
    pending_ok parent mf out cur := by
  unfold pending_ok
  rw [e1]
  exact ⟨h1, h2⟩

theorem pending_copy_of (parent : List Nat) (mf : memfile) (out : List Nat) (cur : Int)
    (content : List Nat) (pos cnt relpos : Int)
    (e1 : mf.curcmd = MDIFF_COPY) (e2 : mf.curcount = cnt) (e3 : mf.pos = pos)
    (e4 : mf.relativepos = relpos) (e5 : mf.content = content)
    (hc : 1 ≤ cnt ∧ cnt ≤ 0x3fff ∧ cnt ≤ pos ∧ 0 ≤ cur ∧ cur + cnt = relpos ∧
      relpos ≤ parent.length ∧ out = content.take (pos - cnt).toNat ∧
      slice content (pos - cnt) cnt = slice parent cur cnt) :
    pending_ok parent mf out cur := by
  unfold pending_ok
  rw [e1]
  simp only
  rw [e2, e3, e4, e5]
  exact hc

theorem pending_edit_of (parent : List Nat) (mf : memfile) (out : List Nat) (cur : Int)
    (content : List Nat) (pos cnt relpos : Int)
    (e1 : mf.curcmd = MDIFF_EDIT) (e2 : mf.curcount = cnt) (e3 : mf.pos = pos)
    (e4 : mf.relativepos = relpos) (e5 : mf.content = content)
    (hc : 1 ≤ cnt ∧ cnt ≤ 0x3fff ∧ cnt ≤ pos ∧ cur + cnt = relpos ∧
      out = content.take (pos - cnt).toNat) :
    pending_ok parent mf out cur := by
  unfold pending_ok
  rw [e1]
  simp only
  rw [e2, e3, e4, e5]
  exact hc

theorem pending_seek_of (parent : List Nat) (mf : memfile) (out : List Nat) (cur : Int)
    (e1 : mf.curcmd = MDIFF_SEEK)
    (hc : -0x1fff ≤ mf.curcount ∧ mf.curcount ≤ 0x1fff ∧ cur - mf.curcount = mf.relativepos ∧
      out = mf.content) :
    pending_ok parent mf out cur := by
  unfold pending_ok
  rw [e1]
  exact hc

/-- The per-byte step of mwrite when the pending command has to be flushed
first: a new run of length 1 starts. -/
theorem step_flush (h : host) (parent mf : memfile) (c : memfile_diffcmd)
    (hi : diff_inv parent mf) (hP : parent.wf) (hfit : mf.pos < mf.len)
    (hc : c = MDIFF_COPY ∨ c = MDIFF_EDIT)
    (hcopy : c = MDIFF_COPY → mf.relativepos < parent.pos ∧
      byte_at mf.buf mf.pos = byte_at parent.buf mf.relativepos)
    (hbr : mf.curcmd ≠ c ∨ mf.curcount = 0x3fff) :
    ∃ m, mwrite_run h mf c = .ok m ∧
      diff_inv parent { m with pos := m.pos + 1, relativepos := m.relativepos + 1 } := by
  obtain ⟨m0, hm0, hd0, hrun0⟩ := mdiffflush_inv h parent mf hi
  obtain ⟨f1, f2, f3, f4, f5, f6, f7, f8⟩ := mdiffflush_frame h mf m0 hm0
  obtain ⟨hw, _, hrel, hrp, _⟩ := hi
  have hcl := content_length mf hw
  have hcs := content_succ mf hw hfit
  obtain ⟨hl, hp0, hp1⟩ := hw
  have hpl := parent_content_length parent hP
  refine ⟨_, by unfold mwrite_run; rw [if_pos hbr, hm0]; rfl, ?_⟩
  have e2 : (0 : Int) + 1 = 1 := by omega
  have e3 : m0.pos + 1 = mf.pos + 1 := by rw [f3]
  have e4 : m0.relativepos + 1 = mf.relativepos + 1 := by rw [f5]
  have e5 : m0.buf.take (m0.pos + 1).toNat = mf.content ++ [byte_at mf.buf mf.pos] := by
    rw [f1, f3]; exact hcs
  have et : (mf.content ++ [byte_at mf.buf mf.pos]).take (mf.pos + 1 - 1).toNat
      = mf.content := by
    have e : (mf.pos + 1 - 1).toNat = mf.content.length := by omega
    rw [e, List.take_left']
    rfl
  refine ⟨?_, ?_, ?_, ?_, mf.content, mf.relativepos, ?_, ?_⟩
  · show (m0.buf.length : Int) = m0.len ∧ 0 ≤ m0.pos + 1 ∧ m0.pos + 1 ≤ m0.len
    rw [f1, f2, f3]
    exact ⟨hl, by omega, by omega⟩
  · exact hd0
  · show m0.relativeto = some parent
    rw [f4]; exact hrel
  · show 0 ≤ m0.relativepos + 1
    rw [f5]; omega
  · exact hrun0
  · rcases hc with rfl | rfl
    · obtain ⟨q1, q2⟩ := hcopy rfl
      refine pending_copy_of _ _ _ _ _ _ _ _ rfl e2 e3 e4 e5
        ⟨by omega, by omega, by omega, hrp, by omega, by omega, et.symm, ?_⟩
      have e : mf.pos + 1 - 1 = mf.pos := by omega
      rw [e, slice_one _ _ hp0 (by simp only [List.length_append, List.length_singleton]; omega),
        byte_at_append_length _ _ _ hcl.symm, parent_byte parent hP _ hrp q1, q2]
    · exact pending_edit_of _ _ _ _ _ _ _ _ rfl e2 e3 e4 e5
        ⟨by omega, by omega, by omega, by omega, et.symm⟩

/-- The per-byte step of mwrite when the pending run continues. -/
theorem step_cont (h : host) (parent mf : memfile) (c : memfile_diffcmd)
    (hi : diff_inv parent mf) (hP : parent.wf) (hfit : mf.pos < mf.len)
    (hc : c = MDIFF_COPY ∨ c = MDIFF_EDIT)
    (hcopy : c = MDIFF_COPY → mf.relativepos < parent.pos ∧
      byte_at mf.buf mf.pos = byte_at parent.buf mf.relativepos)
    (hbr : ¬ (mf.curcmd ≠ c ∨ mf.curcount = 0x3fff)) :
    ∃ m, mwrite_run h mf c = .ok m ∧
      diff_inv parent { m with pos := m.pos + 1, relativepos := m.relativepos + 1 } := by
  obtain ⟨hw, hd, hrel, hrp, out, cur, hrun, hpend⟩ := hi
  have hcl := content_length mf hw
  have hcs := content_succ mf hw hfit
  obtain ⟨hl, hp0, hp1⟩ := hw
  have hpl := parent_content_length parent hP
  have hcmd : mf.curcmd = c := by
    by_contra hne
    exact hbr (Or.inl hne)
  have hcnt : mf.curcount ≠ 0x3fff := fun e => hbr (Or.inr e)
  refine ⟨{ mf with curcmd := c, curcount := mf.curcount + 1 },
    by unfold mwrite_run; rw [if_neg hbr]; rfl, ?_⟩
  refine ⟨⟨hl, by show 0 ≤ mf.pos + 1; omega, by show mf.pos + 1 ≤ mf.len; omega⟩, hd, hrel,
    by show 0 ≤ mf.relativepos + 1; omega, out, cur, hrun, ?_⟩
  unfold pending_ok at hpend
  rw [hcmd] at hpend
  rcases hc with rfl | rfl
  · simp only at hpend
    obtain ⟨c1, c2, c3, c4, c5, c6, c7, c8⟩ := hpend
    obtain ⟨q1, q2⟩ := hcopy rfl
    refine pending_copy_of _ _ _ _ (mf.content ++ [byte_at mf.buf mf.pos]) (mf.pos + 1)
      (mf.curcount + 1) (mf.relativepos + 1) rfl rfl rfl rfl hcs
      ⟨by omega, by omega, by omega, c4, by omega, by omega, ?_, ?_⟩
    · have e : mf.pos + 1 - (mf.curcount + 1) = mf.pos - mf.curcount := by omega
      rw [e, List.take_append_of_le_length (by omega)]
      exact c7
    · have e : mf.pos + 1 - (mf.curcount + 1) = mf.pos - mf.curcount := by omega
      rw [e, slice_snoc _ _ _ (by omega) (by omega)
          (by simp only [List.length_append, List.length_singleton]; omega),
        slice_snoc parent.content _ _ c4 (by omega) (by omega),
        slice_append_left _ _ _ _ (by omega) (by omega) (by omega), c8]
      congr 2
      have e1 : mf.pos - mf.curcount + mf.curcount = mf.pos := by omega
      rw [e1, byte_at_append_length _ _ _ hcl.symm, c5,
        byte_at_content parent _ hrp q1, q2]
  · simp only at hpend
    obtain ⟨c1, c2, c3, c5, c7⟩ := hpend
    refine pending_edit_of _ _ _ _ (mf.content ++ [byte_at mf.buf mf.pos]) (mf.pos + 1)
      (mf.curcount + 1) (mf.relativepos + 1) rfl rfl rfl rfl hcs
      ⟨by omega, by omega, by omega, by omega, ?_⟩
    have e : mf.pos + 1 - (mf.curcount + 1) = mf.pos - mf.curcount := by omega
    rw [e, List.take_append_of_le_length (by omega)]
    exact c7

/-- The per-byte step of mwrite keeps the invariant. -/
theorem step_inv (h : host) (parent mf : memfile) (hi : diff_inv parent mf) (hP : parent.wf)
    (hfit : mf.pos < mf.len) :
    ∃ m, (if mf.relativepos < parent.pos ∧
            byte_at mf.buf mf.pos = byte_at parent.buf mf.relativepos then
          mwrite_run h mf MDIFF_COPY
        else mwrite_run h mf MDIFF_EDIT) = .ok m ∧
      diff_inv parent { m with pos := m.pos + 1, relativepos := m.relativepos + 1 } := by
  split
  · rename_i hc
    by_cases hbr : mf.curcmd ≠ MDIFF_COPY ∨ mf.curcount = 0x3fff
    · exact step_flush h parent mf _ hi hP hfit (Or.inl rfl) (fun _ => hc) hbr
    · exact step_cont h parent mf _ hi hP hfit (Or.inl rfl) (fun _ => hc) hbr
  · by_cases hbr : mf.curcmd ≠ MDIFF_EDIT ∨ mf.curcount = 0x3fff
    · exact step_flush h parent mf _ hi hP hfit (Or.inr rfl) (fun e => by cases e) hbr
    · exact step_cont h parent mf _ hi hP hfit (Or.inr rfl) (fun e => by cases e) hbr

/-- The loop of mwrite keeps the invariant. -/
theorem mwrite_diff_inv (h : host) (parent : memfile) (num : Nat) (mf : memfile)
    (hi : diff_inv parent mf) (hP : parent.wf) (hfit : mf.pos + num ≤ mf.len) :
    ∃ m, mwrite_diff h parent num mf = .ok m ∧ diff_inv parent m := by
  induction num generalizing mf with
  | zero => exact ⟨mf, rfl, hi⟩
  | succ n ih =>
    simp only [mwrite_diff]
    obtain ⟨m, hm, hmi⟩ := step_inv h parent mf hi hP (by push_cast at hfit; omega)
    rw [hm]
    have f : m.pos = mf.pos ∧ m.len = mf.len := by
      split at hm
      · have := mwrite_run_frame h mf m _ hm
        exact ⟨this.2.2.1, this.2.1⟩
      · have := mwrite_run_frame h mf m _ hm
        exact ⟨this.2.2.1, this.2.1⟩
    exact ih _ hmi (by show m.pos + 1 + (n : Int) ≤ m.len; rw [f.1, f.2]; push_cast at hfit; omega)

/-! ## Tags keep the invariant -/

/-- The seek loop of mtag: the units it writes move the decoder cursor by
what it takes off the offset, and it stops with the sum inside the range. -/
theorem mtag_seek_inv (h : host) (parent : List Nat) (fuel : Nat) (mf : memfile)
    (offset : Int) (out : List Nat) (cur : Int) (hd : mf.diff_wf)
    (hrun : mdiff_run parent mf.diffstream 0 = some (out, cur))
    (hf : (offset + mf.curcount).natAbs ≤ fuel + 8191) :
    (mtag_seek fuel h mf offset).1.diff_wf ∧
    (∃ cur1, mdiff_run parent (mtag_seek fuel h mf offset).1.diffstream 0 = some (out, cur1) ∧
      cur1 - ((mtag_seek fuel h mf offset).1.curcount + (mtag_seek fuel h mf offset).2)
        = cur - (mf.curcount + offset)) ∧
    -(2 ^ 13) < (mtag_seek fuel h mf offset).2 + (mtag_seek fuel h mf offset).1.curcount ∧
    (mtag_seek fuel h mf offset).2 + (mtag_seek fuel h mf offset).1.curcount < 2 ^ 13 ∧
    (mtag_seek fuel h mf offset).1.buf = mf.buf ∧
    (mtag_seek fuel h mf offset).1.len = mf.len ∧
    (mtag_seek fuel h mf offset).1.pos = mf.pos ∧
    (mtag_seek fuel h mf offset).1.relativeto = mf.relativeto ∧
    (mtag_seek fuel h mf offset).1.tags = mf.tags ∧
    (mtag_seek fuel h mf offset).1.curcount = mf.curcount := by
  induction fuel generalizing mf offset cur with
  | zero =>
    have e : mtag_seek 0 h mf offset = (mf, offset) := rfl
    rw [e]
    exact ⟨hd, ⟨cur, hrun, by show cur - (mf.curcount + offset) = _; omega⟩,
      by show -(2 ^ 13) < offset + mf.curcount; omega,
      by show offset + mf.curcount < 2 ^ 13; omega, rfl, rfl, rfl, rfl, rfl, rfl⟩
  | succ n ih =>
    simp only [mtag_seek]
    by_cases hg : offset + mf.curcount ≥ 2 ^ 13 ∨ offset + mf.curcount ≤ -(2 ^ 13)
    · rw [if_pos hg]
      by_cases hneg : offset + mf.curcount < 0
      · rw [if_pos hneg]
        have hu := seek_unit_run parent (-0x1fff) cur (by omega) (by omega)
        obtain ⟨e1, e2⟩ := emit_run h parent mf _ out cur _ hd hrun hu
        rw [← mdiffwrite14_eq h mf MDIFF_SEEK.code (-0x1fff) (by decide)] at e1 e2
        simp only [List.append_nil] at e2
        have := ih (mdiffwrite14 h mf MDIFF_SEEK.code (-0x1fff)) (offset + 0x1fff)
          (cur - -0x1fff) e1 e2 (by rw [mdiffwrite14_curcount]; omega)
        simp only [mdiffwrite14_curcount, mdiffwrite14_buf, mdiffwrite14_len, mdiffwrite14_pos,
          mdiffwrite14_relativeto, mdiffwrite14_tags] at this
        obtain ⟨a1, ⟨c1, a2, a3⟩, a4, a5, a6⟩ := this
        exact ⟨a1, ⟨c1, a2, by omega⟩, a4, a5, a6⟩
      · rw [if_neg hneg]
        have hu := seek_unit_run parent 0x1fff cur (by omega) (by omega)
        obtain ⟨e1, e2⟩ := emit_run h parent mf _ out cur _ hd hrun hu
        rw [← mdiffwrite14_eq h mf MDIFF_SEEK.code 0x1fff (by decide)] at e1 e2
        simp only [List.append_nil] at e2
        have := ih (mdiffwrite14 h mf MDIFF_SEEK.code 0x1fff) (offset - 0x1fff)
          (cur - 0x1fff) e1 e2 (by rw [mdiffwrite14_curcount]; omega)
        simp only [mdiffwrite14_curcount, mdiffwrite14_buf, mdiffwrite14_len, mdiffwrite14_pos,
          mdiffwrite14_relativeto, mdiffwrite14_tags] at this
        obtain ⟨a1, ⟨c1, a2, a3⟩, a4, a5, a6⟩ := this
        exact ⟨a1, ⟨c1, a2, by omega⟩, a4, a5, a6⟩
    · rw [if_neg hg]
      exact ⟨hd, ⟨cur, hrun, by show cur - (mf.curcount + offset) = _; omega⟩,
        by show -(2 ^ 13) < offset + mf.curcount; omega,
        by show offset + mf.curcount < 2 ^ 13; omega, rfl, rfl, rfl, rfl, rfl, rfl⟩

/-! ## Writes keep the invariant -/

theorem pending_ok_congr (parent : List Nat) (a b : memfile) (out : List Nat) (cur : Int)
    (e1 : b.curcmd = a.curcmd) (e2 : b.curcount = a.curcount) (e3 : b.pos = a.pos)
    (e4 : b.relativepos = a.relativepos) (e5 : b.content = a.content)
    (hp : pending_ok parent a out cur) : pending_ok parent b out cur := by
  unfold pending_ok at hp ⊢
  rw [e1, e2, e3, e4, e5]
  exact hp

theorem mwrite_copy_inv (h : host) (parent mf : memfile) (data : List Nat)
    (hi : diff_inv parent mf) :
    diff_inv parent (mwrite_copy h mf data) ∧
      (mwrite_copy h mf data).pos + data.length ≤ (mwrite_copy h mf data).len := by
  obtain ⟨hw, hd, hrel, hrp, out, cur, hrun, hpend⟩ := hi
  have w := mwrite_copy_spec h mf data hw
  obtain ⟨wl, wp0, wp1⟩ := w.wf
  have hp0 := hw.2.1
  have epos : (mwrite_copy h mf data).pos = mf.pos := by simp [mwrite_copy]
  have ebuf : (mwrite_copy h mf data).buf.take mf.pos.toNat = mf.buf.take mf.pos.toNat :=
    w.before
  have elen : ((mwrite_copy h mf data).buf.length : Int) = (mwrite_copy h mf data).len := wl
  have efit : mf.pos + data.length ≤ (mwrite_copy h mf data).len := wp1
  refine ⟨⟨⟨elen, by rw [epos]; exact hp0, by rw [epos]; omega⟩, ?_, ?_, ?_, out, cur, ?_, ?_⟩,
    by rw [epos]; exact efit⟩
  · simpa [memfile.diff_wf, mwrite_copy] using hd
  · simpa [mwrite_copy] using hrel
  · simpa [mwrite_copy] using hrp
  · have : (mwrite_copy h mf data).diffstream = mf.diffstream := by
      simp [memfile.diffstream, mwrite_copy]
    rw [this]; exact hrun
  · refine pending_ok_congr _ mf _ _ _ (by simp [mwrite_copy]) (by simp [mwrite_copy]) epos
      (by simp [mwrite_copy]) ?_ hpend
    unfold memfile.content
    rw [epos]
    exact ebuf

/-- A write keeps the invariant of a diff file, and returns. -/
theorem mwrite_inv (h : host) (parent mf : memfile) (data : List Nat)
    (hi : diff_inv parent mf) (hP : parent.wf) :
    ∃ m, mwrite h mf data = .ok m ∧ diff_inv parent m := by
  obtain ⟨ci, cfit⟩ := mwrite_copy_inv h parent mf data hi
  unfold mwrite
  simp only
  rw [ci.rel]
  exact mwrite_diff_inv h parent data.length _ ci hP cfit

theorem diff_inv_congr (parent a b : memfile) (e1 : b.buf = a.buf) (e2 : b.len = a.len)
    (e3 : b.pos = a.pos) (e4 : b.relativeto = a.relativeto) (e5 : b.diffbuf = a.diffbuf)
    (e6 : b.difflen = a.difflen) (e7 : b.diffpos = a.diffpos)
    (e8 : b.relativepos = a.relativepos) (e9 : b.curcmd = a.curcmd)
    (e10 : b.curcount = a.curcount) (hi : diff_inv parent a) : diff_inv parent b := by
  obtain ⟨hw, hd, hrel, hrp, out, cur, hrun, hpend⟩ := hi
  refine ⟨?_, ?_, by rw [e4]; exact hrel, by rw [e8]; exact hrp, out, cur, ?_, ?_⟩
  · unfold memfile.wf at hw ⊢
    rw [e1, e2, e3]; exact hw
  · unfold memfile.diff_wf at hd ⊢
    rw [e5, e6, e7]; exact hd
  · unfold memfile.diffstream at hrun ⊢
    rw [e5, e7]; exact hrun
  · refine pending_ok_congr _ a _ _ _ e9 e10 e3 e8 ?_ hpend
    unfold memfile.content
    rw [e1, e3]

/-- After the flush of mtag the file is in the state of a pending seek (of
count 0 when a command was flushed). -/
theorem mtag_flush_inv (h : host) (parent mf : memfile) (hi : diff_inv parent mf) :
    ∃ m, mtag_flush h mf = .ok m ∧ m.wf ∧ m.diff_wf ∧ m.relativeto = some parent ∧
      m.relativepos = mf.relativepos ∧ -0x1fff ≤ m.curcount ∧ m.curcount ≤ 0x1fff ∧
      ∃ cur, mdiff_run parent.content m.diffstream 0 = some (m.content, cur) ∧
        cur - m.curcount = m.relativepos := by
  unfold mtag_flush
  by_cases hc : mf.curcmd ≠ MDIFF_SEEK
  · rw [if_pos hc]
    obtain ⟨m0, hm0, hd0, hrun0⟩ := mdiffflush_inv h parent mf hi
    obtain ⟨f1, f2, f3, f4, f5, f6, f7, f8⟩ := mdiffflush_frame h mf m0 hm0
    obtain ⟨hw, _, hrel, hrp, _⟩ := hi
    rw [hm0]
    refine ⟨_, rfl, ?_, hd0, by show m0.relativeto = _; rw [f4]; exact hrel, f5,
      by show -0x1fff ≤ (0 : Int); omega, by show (0 : Int) ≤ 0x1fff; omega,
      mf.relativepos, ?_, by show mf.relativepos - 0 = m0.relativepos; rw [f5]; omega⟩
    · show (m0.buf.length : Int) = m0.len ∧ 0 ≤ m0.pos ∧ m0.pos ≤ m0.len
      rw [f1, f2, f3]; exact hw
    · have : ({ m0 with curcount := 0 } : memfile).content = mf.content := by
        show m0.buf.take m0.pos.toNat = _
        rw [f1, f3]; rfl
      rw [this]
      exact hrun0
  · rw [if_neg hc]
    have hs : mf.curcmd = MDIFF_SEEK := by
      by_contra hne
      exact hc hne
    obtain ⟨hw, hd, hrel, hrp, out, cur, hrun, hpend⟩ := hi
    unfold pending_ok at hpend
    rw [hs] at hpend
    simp only at hpend
    obtain ⟨c1, c2, c3, c4⟩ := hpend
    rw [c4] at hrun
    exact ⟨mf, rfl, hw, hd, hrel, rfl, c1, c2, cur, hrun, c3⟩

/-- The realignment of mtag establishes the invariant with `relativepos` at
the offset of the parent tag. -/
theorem mtag_realign_inv (h : host) (parent m : memfile) (tagpos offset cur : Int)
    (hw : m.wf) (hd : m.diff_wf) (hrel : m.relativeto = some parent)
    (hoff : offset = m.relativepos - tagpos) (htag : 0 ≤ tagpos)
    (hrun : mdiff_run parent.content m.diffstream 0 = some (m.content, cur))
    (hcur : cur - m.curcount = m.relativepos) :
    diff_inv parent (mtag_realign h m tagpos offset) := by
  obtain ⟨a1, ⟨cur1, a2, a3⟩, a4, a5, a6, a7, a8, a9, a10, a11⟩ :=
    mtag_seek_inv h parent.content (offset + m.curcount).natAbs m offset m.content cur hd hrun
      (by omega)
  have hcont : (mtag_realign h m tagpos offset).content = m.content := by
    show (mtag_seek _ h m offset).1.buf.take (mtag_seek _ h m offset).1.pos.toNat = _
    rw [a6, a8]; rfl
  refine ⟨?_, a1, by show (mtag_seek _ h m offset).1.relativeto = _; rw [a9]; exact hrel,
    htag, m.content, cur1, a2, ?_⟩
  · show ((mtag_seek _ h m offset).1.buf.length : Int) = (mtag_seek _ h m offset).1.len ∧
      0 ≤ (mtag_seek _ h m offset).1.pos ∧
      (mtag_seek _ h m offset).1.pos ≤ (mtag_seek _ h m offset).1.len
    rw [a6, a7, a8]; exact hw
  · by_cases hz : (mtag_seek (offset + m.curcount).natAbs h m offset).1.curcount
        + (mtag_seek (offset + m.curcount).natAbs h m offset).2 = 0
    · refine pending_invalid_of _ _ _ _ ?_ hcont.symm ?_
      · show (if _ ≠ 0 then MDIFF_SEEK else MDIFF_INVALID) = MDIFF_INVALID
        rw [if_neg (by simpa using hz)]
      · show cur1 = tagpos
        omega
    · refine pending_seek_of _ _ _ _ ?_ ⟨?_, ?_, ?_, hcont.symm⟩
      · show (if _ ≠ 0 then MDIFF_SEEK else MDIFF_INVALID) = MDIFF_SEEK
        rw [if_pos hz]
      · show -0x1fff ≤ (mtag_seek _ h m offset).1.curcount + (mtag_seek _ h m offset).2
        omega
      · show (mtag_seek _ h m offset).1.curcount + (mtag_seek _ h m offset).2 ≤ 0x1fff
        omega
      · show cur1 - ((mtag_seek _ h m offset).1.curcount + (mtag_seek _ h m offset).2) = tagpos
        omega

/-- A tag keeps the invariant of a diff file, and mtag returns. -/
theorem mtag_inv (h : host) (parent mf : memfile) (tagdata tagtype : Int)
    (hb : in_table h tagdata tagtype)
    (hi : diff_inv parent mf) (ht : ∀ b, ∀ t ∈ parent.tags b, 0 ≤ t.pos) :
    ∃ m, mtag h mf tagdata tagtype = .ok m ∧ diff_inv parent m := by
  unfold in_table at hb
  obtain ⟨mf1, hmf1⟩ : ∃ x : memfile, x = { mf with tags := (Function.update mf.tags
      (mtag_bucket h tagdata tagtype)
      ({ tagdata := tagdata, tagtype := tagtype, pos := mf.pos } ::
        mf.tags (mtag_bucket h tagdata tagtype))) } := ⟨_, rfl⟩
  have hi1 : diff_inv parent mf1 := by
    rw [hmf1]
    exact diff_inv_congr parent mf _ rfl rfl rfl rfl rfl rfl rfl rfl rfl rfl hi
  have hrp1 : mf1.relativepos = mf.relativepos := by rw [hmf1]
  unfold mtag
  simp only [if_pos hb]
  rw [← hmf1, hi.rel]
  simp only
  split
  · exact ⟨_, rfl, hi1⟩
  · rename_i tag hfind
    have htag : 0 ≤ tag.pos := ht _ tag (List.mem_of_find?_eq_some hfind)
    split
    · obtain ⟨m, hm, b1, b2, b3, b4, b5, b6, cur, b7, b8⟩ := mtag_flush_inv h parent mf1 hi1
      rw [hm]
      refine ⟨_, rfl, ?_⟩
      exact mtag_realign_inv h parent m tag.pos _ cur b1 b2 b3 (by rw [b4, hrp1]) htag b7 b8
    · exact ⟨_, rfl, hi1⟩

/-! ## Diff correctness -/

theorem mnew_inv (h : host) (c parent : memfile) : diff_inv parent (mnew h c (some parent)) :=
  ⟨mnew_wf h c _, ⟨rfl, le_refl _, le_refl _⟩, rfl, le_refl _, [], 0, rfl, ⟨rfl, rfl⟩⟩

theorem apply_op_inv (h : host) (parent mf : memfile) (op : diff_op) (hv : op_valid h op)
    (hi : diff_inv parent mf) (hP : parent.wf) (ht : ∀ b, ∀ t ∈ parent.tags b, 0 ≤ t.pos) :
    ∃ m, apply_op h mf op = .ok m ∧ diff_inv parent m := by
  cases op with
  | write data => exact mwrite_inv h parent mf data hi hP
  | write8 v => exact mwrite_inv h parent mf _ hi hP
  | write16 v => exact mwrite_inv h parent mf _ hi hP
  | write32 v => exact mwrite_inv h parent mf _ hi hP
  | write64 v => exact mwrite_inv h parent mf _ hi hP
  | tag tagdata tagtype => exact mtag_inv h parent mf tagdata tagtype hv hi ht

theorem apply_ops_inv (h : host) (parent : memfile) (ops : List diff_op) (mf : memfile)
    (hv : ∀ op ∈ ops, op_valid h op)
    (hi : diff_inv parent mf) (hP : parent.wf) (ht : ∀ b, ∀ t ∈ parent.tags b, 0 ≤ t.pos) :
    ∃ m, apply_ops h mf ops = .ok m ∧ diff_inv parent m := by
  induction ops generalizing mf with
  | nil => exact ⟨mf, rfl, hi⟩
  | cons op rest ih =>
    obtain ⟨m1, hm1, hi1⟩ :=
      apply_op_inv h parent mf op (hv op (List.mem_cons_self _ _)) hi hP ht
    simp only [apply_ops]
    rw [hm1]
    exact ih m1 (fun o ho => hv o (List.mem_cons_of_mem _ ho)) hi1

/-- The sample parent is what mtag returns on the sample file. -/
theorem parent_le_eq : mtag host_le five_le 5 1 = .ok parent_le := rfl

theorem parent_le_tags (b : Int) : ∀ t ∈ parent_le.tags b, 0 ≤ t.pos := by
  intro t ht
  unfold parent_le at ht
  simp only [Function.update] at ht
  split at ht
  · simp only [List.mem_singleton, eq_rec_constant] at ht
    rw [ht]
    decide
  · have e : five_le.tags b = [] := by
      show (if 0 ≤ b ∧ b < 1009 then [] else []) = ([] : List memfile_tag)
      split <;> rfl
    rw [e] at ht
    cases ht

theorem to_signed_to_unsigned64 (x : Int) (lo : -2 ^ 63 ≤ x) (hi : x < 2 ^ 63) :
    to_signed 64 (to_unsigned 64 x) = x := by
  unfold to_signed to_unsigned
  norm_num
  omega

theorem mwrite64_bytes (h : host) (v : Int) :
    object_bytes h.IS_BIG_ENDIAN 8 (host_to_le64 h (to_unsigned 64 v)) =
      if h.IS_BIG_ENDIAN then le_bytes 8 (to_unsigned 64 v)
      else le_bytes 8 (to_unsigned 64 v % 2 ^ 32) := by
  cases hb : h.IS_BIG_ENDIAN
  · have e : to_unsigned 64 v % 2 ^ 64 = to_unsigned 64 v :=
      Nat.mod_eq_of_lt (to_unsigned_lt 64 v)
    simp only [object_bytes, host_to_le64, hb, Bool.false_eq_true, if_false, e]
  · have := object_bytes_host_to_le64_big h hb (to_unsigned 64 v)
    rw [hb] at this
    simpa using this

theorem mread64_of_slice (h : host) (mf : memfile) (x : Nat) (hw : mf.wf)
    (hlen : mf.len < 2 ^ 31) (hfit : mf.pos + 8 ≤ mf.len)
    (hs : slice mf.buf mf.pos 8 = le_bytes 8 x) :
    mread64 h mf = .ok (to_signed 64 (if h.IS_BIG_ENDIAN then x % 2 ^ 64 else x % 2 ^ 32),
      { mf with pos := mf.pos + 8 }) := by
  unfold mread64
  rw [mread_ok mf 8 hw hlen (by omega)]
  simp only [bind, Except.bind, pure, Except.pure, Nat.cast_ofNat]
  rw [hs]
  cases hb : h.IS_BIG_ENDIAN
  · have e : le64_to_host h (object_value false (le_bytes 8 x)) = x % 2 ^ 32 := by
      simp only [le64_to_host, hb, object_value, Bool.false_eq_true, if_false, le_value_le_bytes]
      omega
    rw [e]
    rfl
  · have e := le64_to_host_object_value_big h hb (le_bytes 8 x) (le_bytes_length 8 x)
      (le_bytes_lt 8 x)
    rw [hb, le_value_le_bytes] at e
    rw [e]
    rfl

/-- The 64-bit round trip in both configurations: on a fresh parentless file
mwrite64 of an `int64_t` `v` followed by mread64 from position 0 returns `v`
when `IS_BIG_ENDIAN` is defined, and `v` modulo `2 ^ 32` when it is not. -/
theorem mwrite64_mread64_value (h : host) (c : memfile) (v : Int) (lo : -2 ^ 63 ≤ v)
    (hi : v < 2 ^ 63) :
    ∃ m, mwrite64 h (mnew h c none) v = .ok m ∧
      ∃ r, mread64 h { m with pos := 0 }
        = .ok (if h.IS_BIG_ENDIAN then v else v % 2 ^ 32, r) := by
  have hpos0 : (mnew h c none).pos = 0 := rfl
  have hlen0 : (mnew h c none).len = 0 := rfl
  unfold mwrite64
  simp only [mwrite64_bytes]
  cases hb : h.IS_BIG_ENDIAN
  · simp only [Bool.false_eq_true, if_false]
    obtain ⟨m, hm, w, _, _⟩ :=
      mwrite_linear_ok h (mnew h c none) (le_bytes 8 (to_unsigned 64 v % 2 ^ 32)) rfl
        (mnew_wf h c none)
    have hat := w.at_pos
    have hle := w.len_le
    rw [hpos0, le_bytes_length] at hat
    rw [hpos0, hlen0, le_bytes_length] at hle
    obtain ⟨ml, _, mp⟩ := w.wf
    have hpe := w.pos_eq
    rw [hpos0, le_bytes_length] at hpe
    have hr := mread64_of_slice h { m with pos := 0 } (to_unsigned 64 v % 2 ^ 32)
      ⟨ml, le_refl _, by simp only; omega⟩ (by simp only; omega) (by simp only; omega) hat
    rw [hb] at hr
    simp only [Bool.false_eq_true, if_false] at hr
    have hval : to_signed 64 (to_unsigned 64 v % 2 ^ 32 % 2 ^ 32) = v % 2 ^ 32 := by
      unfold to_signed to_unsigned
      norm_num
      omega
    rw [hval] at hr
    exact ⟨m, hm, _, hr⟩
  · simp only [if_true]
    obtain ⟨m, hm, w, _, _⟩ :=
      mwrite_linear_ok h (mnew h c none) (le_bytes 8 (to_unsigned 64 v)) rfl (mnew_wf h c none)
    have hat := w.at_pos
    have hle := w.len_le
    rw [hpos0, le_bytes_length] at hat
    rw [hpos0, hlen0, le_bytes_length] at hle
    obtain ⟨ml, _, mp⟩ := w.wf
    have hpe := w.pos_eq
    rw [hpos0, le_bytes_length] at hpe
    have hr := mread64_of_slice h { m with pos := 0 } (to_unsigned 64 v)
      ⟨ml, le_refl _, by simp only; omega⟩ (by simp only; omega) (by simp only; omega) hat
    rw [hb] at hr
    simp only [if_true] at hr
    have e : to_unsigned 64 v % 2 ^ 64 = to_unsigned 64 v :=
      Nat.mod_eq_of_lt (to_unsigned_lt 64 v)
    rw [e, to_signed_to_unsigned64 v lo hi] at hr
    exact ⟨m, hm, _, hr⟩

/-! ## Appending to a linear file, tagging -/

/-- With the bucket outside the tag table mtag does not return. -/
theorem mtag_out_of_table (h : host) (mf : memfile) (tagdata tagtype : Int)
    (hb : ¬ in_table h tagdata tagtype) :
    mtag h mf tagdata tagtype = .error fatal.TAGS_OUT_OF_BOUNDS := by
  unfold in_table at hb
  unfold mtag
  simp only [if_neg hb]

/-- A call of mtag that returns had its bucket inside the tag table. -/
theorem mtag_in_table (h : host) (mf m : memfile) (tagdata tagtype : Int)
    (e : mtag h mf tagdata tagtype = .ok m) : in_table h tagdata tagtype := by
  by_contra hb
  rw [mtag_out_of_table h mf tagdata tagtype hb] at e
  cases e

theorem mtag_eq_parentless (h : host) (mf : memfile) (tagdata tagtype : Int)
    (hb : in_table h tagdata tagtype) (hp : mf.relativeto = none) :
    mtag h mf tagdata tagtype = .ok (mtag_add h mf tagdata tagtype) := by
  unfold in_table at hb
  unfold mtag mtag_add
  simp only [if_pos hb, hp]

theorem mtag_eq_none (h : host) (mf parent : memfile) (tagdata tagtype : Int)
    (hb : in_table h tagdata tagtype)
    (hp : mf.relativeto = some parent) (hf : parent_tag h parent tagdata tagtype = none) :
    mtag h mf tagdata tagtype = .ok (mtag_add h mf tagdata tagtype) := by
  unfold in_table at hb
  unfold parent_tag at hf
  unfold mtag mtag_add
  simp only [if_pos hb, hp, hf]

theorem mtag_eq_same (h : host) (mf parent : memfile) (tagdata tagtype : Int)
    (tag : memfile_tag) (hb : in_table h tagdata tagtype)
    (hp : mf.relativeto = some parent) (hf : parent_tag h parent tagdata tagtype = some tag)
    (hr : mf.relativepos = tag.pos) :
    mtag h mf tagdata tagtype = .ok (mtag_add h mf tagdata tagtype) := by
  unfold in_table at hb
  unfold parent_tag at hf
  unfold mtag mtag_add
  simp only [if_pos hb, hp, hf, hr, ne_eq, not_true_eq_false, if_false]

theorem mtag_eq_found (h : host) (mf parent : memfile) (tagdata tagtype : Int)
    (tag : memfile_tag) (hb : in_table h tagdata tagtype)
    (hp : mf.relativeto = some parent) (hf : parent_tag h parent tagdata tagtype = some tag)
    (hr : mf.relativepos ≠ tag.pos) :
    mtag h mf tagdata tagtype =
      (mtag_flush h (mtag_add h mf tagdata tagtype)).map
        (fun m => mtag_realign h m tag.pos (mf.relativepos - tag.pos)) := by
  unfold in_table at hb
  unfold parent_tag at hf
  unfold mtag mtag_add
  simp only [if_pos hb, hp, hf, hr, ne_eq, not_false_eq_true, if_true]

theorem mtag_seek_small (fuel : Nat) (h : host) (m : memfile) (offset : Int)
    (hlo : -(2 ^ 13) < offset + m.curcount) (hhi : offset + m.curcount < 2 ^ 13) :
    mtag_seek fuel h m offset = (m, offset) := by
  cases fuel with
  | zero => rfl
  | succ n =>
    unfold mtag_seek
    rw [if_neg (by omega)]

theorem mtag_realign_small (h : host) (m : memfile) (tagpos offset : Int)
    (hlo : -(2 ^ 13) < offset + m.curcount) (hhi : offset + m.curcount < 2 ^ 13) :
    mtag_realign h m tagpos offset =
      { m with curcount := m.curcount + offset,
               curcmd := if m.curcount + offset ≠ 0 then MDIFF_SEEK else MDIFF_INVALID,
               relativepos := tagpos } := by
  unfold mtag_realign
  simp only [mtag_seek_small _ h m offset hlo hhi]

theorem mtag_realign_curcmd (h : host) (m : memfile) (tagpos offset : Int) :
    ((mtag_realign h m tagpos offset).curcmd = MDIFF_SEEK ↔
      (mtag_realign h m tagpos offset).curcount ≠ 0) ∧
    (mtag_realign h m tagpos offset).relativepos = tagpos := by
  unfold mtag_realign
  simp only
  refine ⟨?_, trivial⟩
  split <;> simp_all

theorem mtag_flush_ok (h : host) (mf : memfile) (he : mf.edit_ok) :
    ∃ m, mtag_flush h mf = .ok m := by
  unfold mtag_flush
  split
  · obtain ⟨m, hm⟩ := mdiffflush_ok h mf he
    exact ⟨_, by rw [hm]; rfl⟩
  · exact ⟨_, rfl⟩

theorem mtag_flush_seek (h : host) (mf : memfile) (hc : mf.curcmd = MDIFF_SEEK) :
    mtag_flush h mf = .ok mf := by
  unfold mtag_flush
  simp [hc]

/-- C12: on a parentless memfile whose cursor lies inside its buffer, mwrite of
a block `b` returns, puts `b` at `buf[oldpos .. oldpos + k)`, moves `pos` to
`oldpos + k`, keeps `buf[0 .. oldpos)`, and changes neither the tag index nor
any diff field (diff buffer, its length and cursor, `relativepos`, `curcmd`,
`curcount`); the file stays parentless. -/
theorem mwrite_linear_append (h : host) (mf : memfile) (b : List Nat)
    (hp : mf.relativeto = none) (hw : mf.wf) :
    ∃ m, mwrite h mf b = .ok m ∧
      slice m.buf mf.pos b.length = b ∧
      m.pos = mf.pos + b.length ∧
      m.buf.take mf.pos.toNat = mf.buf.take mf.pos.toNat ∧
      m.tags = mf.tags ∧
      m.diffbuf = mf.diffbuf ∧ m.difflen = mf.difflen ∧ m.diffpos = mf.diffpos ∧
      m.relativepos = mf.relativepos ∧ m.curcmd = mf.curcmd ∧ m.curcount = mf.curcount ∧
      m.relativeto = none := by
  obtain ⟨m, hm, hwr, hrel, s1, s2, s3, s4, s5, s6⟩ := mwrite_linear_ok h mf b hp hw
  exact ⟨m, hm, hwr.at_pos, hwr.pos_eq, hwr.before, hwr.tags_eq, s1, s2, s3, s4, s5, s6, hrel⟩

theorem mwrite_linear_append_witness :
    fresh_le.relativeto = none ∧ fresh_le.wf ∧
    ∃ m, mwrite host_le fresh_le [7, 8, 9] = .ok m ∧
      slice m.buf fresh_le.pos 3 = [7, 8, 9] ∧
      m.pos = fresh_le.pos + 3 ∧
      m.buf.take fresh_le.pos.toNat = fresh_le.buf.take fresh_le.pos.toNat ∧
      m.tags = fresh_le.tags ∧
      m.diffbuf = fresh_le.diffbuf ∧ m.difflen = fresh_le.difflen ∧
      m.diffpos = fresh_le.diffpos ∧
      m.relativepos = fresh_le.relativepos ∧ m.curcmd = fresh_le.curcmd ∧
      m.curcount = fresh_le.curcount ∧
      m.relativeto = none :=
  ⟨rfl, by decide, mwrite_linear_append host_le fresh_le [7, 8, 9] rfl (by decide)⟩

/-- C14: when the bucket chain of the parent of a diff memfile `C` (a chain of
the table: the bucket is one of `0 .. MEMFILE_HASHTABLE_SIZE - 1`) holds no tag
with the given kind and id, `mtag(C, id, kind)` returns `C` with the new record
at the head of its own bucket chain and nothing else changed: the diff buffer,
`diffpos`, `relativepos`, `curcmd` and `curcount` are the ones of `C`. -/
theorem mtag_no_parent_tag (h : host) (C P : memfile) (id kind : Int)
    (hb : in_table h id kind) (hp : C.relativeto = some P)
    (hno : ∀ t ∈ P.tags (mtag_bucket h id kind), ¬ (t.tagtype = kind ∧ t.tagdata = id)) :
    mtag h C id kind =
      .ok { C with tags := (Function.update C.tags (mtag_bucket h id kind)
        ({ tagdata := id, tagtype := kind, pos := C.pos } ::
          C.tags (mtag_bucket h id kind))) } := by
  have hf : parent_tag h P id kind = none := by
    unfold parent_tag
    rw [List.find?_eq_none]
    intro t ht
    simpa using hno t ht
  exact mtag_eq_none h C P id kind hb hp hf

theorem mtag_no_parent_tag_witness :
    in_table host_le 6 1 ∧
    (mnew host_le memfile.zero (some parent_le)).relativeto = some parent_le ∧
    (∀ t ∈ parent_le.tags (mtag_bucket host_le 6 1), ¬ (t.tagtype = 1 ∧ t.tagdata = 6)) ∧
    mtag host_le (mnew host_le memfile.zero (some parent_le)) 6 1 =
      .ok { mnew host_le memfile.zero (some parent_le) with
        tags := (Function.update (mnew host_le memfile.zero (some parent_le)).tags
          (mtag_bucket host_le 6 1)
          ({ tagdata := 6, tagtype := 1, pos := 0 } ::
            (mnew host_le memfile.zero (some parent_le)).tags (mtag_bucket host_le 6 1))) } :=
  ⟨by decide, rfl, by decide,
    mtag_no_parent_tag host_le (mnew host_le memfile.zero (some parent_le)) parent_le 6 1
      (by decide) rfl (by decide)⟩

theorem mtag_flush_frame (h : host) (mf m : memfile) (e : mtag_flush h mf = .ok m) :
    m.buf = mf.buf ∧ m.len = mf.len ∧ m.pos = mf.pos ∧ m.relativeto = mf.relativeto ∧
    m.relativepos = mf.relativepos ∧ m.tags = mf.tags := by
  unfold mtag_flush at e
  split at e
  · rw [map_eq_ok] at e
    obtain ⟨m0, hm0, rfl⟩ := e
    obtain ⟨f1, f2, f3, f4, f5, f6, _, _⟩ := mdiffflush_frame h mf m0 hm0
    exact ⟨f1, f2, f3, f4, f5, f6⟩
  · cases e
    exact ⟨rfl, rfl, rfl, rfl, rfl, rfl⟩

/-- C13: let `C` be a diff memfile with parent `P` and let `tag` be the tag of
`P` that `mtag(C, id, kind)` finds (the first one of the bucket chain with that
kind and id, the bucket being one of the table).  Whenever the call returns, `C.relativepos` is `tag.pos`; the
call returns unless a pending edit run is longer than the data written; and
when `C.relativepos` already was `tag.pos` the call returns `C` with nothing
changed but its own tag index: the diff buffer and its cursor, `curcmd` and
`curcount` are untouched. -/
theorem mtag_realigns (h : host) (C P : memfile) (id kind : Int) (tag : memfile_tag)
    (hb : in_table h id kind)
    (hp : C.relativeto = some P) (hf : parent_tag h P id kind = some tag) :
    (∀ m, mtag h C id kind = .ok m → m.relativepos = tag.pos) ∧
    (C.edit_ok → ∃ m, mtag h C id kind = .ok m) ∧
    (C.relativepos = tag.pos →
      ∃ m, mtag h C id kind = .ok m ∧ m.diffbuf = C.diffbuf ∧ m.difflen = C.difflen ∧
        m.diffpos = C.diffpos ∧ m.curcmd = C.curcmd ∧ m.curcount = C.curcount ∧
        m.relativepos = C.relativepos ∧ m.buf = C.buf ∧ m.pos = C.pos) := by
  by_cases hr : C.relativepos = tag.pos
  · have e := mtag_eq_same h C P id kind tag hb hp hf hr
    refine ⟨?_, fun _ => ⟨_, e⟩, fun _ => ⟨_, e, rfl, rfl, rfl, rfl, rfl, rfl, rfl, rfl⟩⟩
    intro m hm
    rw [e] at hm
    cases hm
    exact hr
  · have e := mtag_eq_found h C P id kind tag hb hp hf hr
    refine ⟨?_, ?_, fun hr2 => absurd hr2 hr⟩
    · intro m hm
      rw [e, map_eq_ok] at hm
      obtain ⟨m0, _, rfl⟩ := hm
      exact (mtag_realign_curcmd h m0 tag.pos _).2
    · intro he
      obtain ⟨m0, hm0⟩ := mtag_flush_ok h (mtag_add h C id kind) he
      exact ⟨_, by rw [e, hm0]; rfl⟩

theorem mtag_realigns_witness :
    in_table host_le 5 1 ∧
    seek_le.relativeto = some parent_le ∧
    parent_tag host_le parent_le 5 1 = some ⟨5, 1, 5⟩ ∧
    (∃ m, mtag host_le seek_le 5 1 = .ok m ∧ m.relativepos = 5) ∧
    (∃ m, mtag host_le { seek_le with relativepos := 5 } 5 1 = .ok m ∧
        m.diffbuf = seek_le.diffbuf ∧ m.difflen = seek_le.difflen ∧
        m.diffpos = seek_le.diffpos ∧ m.curcmd = seek_le.curcmd ∧
        m.curcount = seek_le.curcount ∧ m.relativepos = 5 ∧ m.buf = seek_le.buf ∧
        m.pos = seek_le.pos) := by
  have hf : parent_tag host_le parent_le 5 1 = some ⟨5, 1, 5⟩ := by decide
  have hb : in_table host_le 5 1 := by decide
  have h1 := mtag_realigns host_le seek_le parent_le 5 1 ⟨5, 1, 5⟩ hb rfl hf
  have h2 := mtag_realigns host_le { seek_le with relativepos := 5 } parent_le 5 1 ⟨5, 1, 5⟩
    hb rfl hf
  obtain ⟨m, hm⟩ := h1.2.1 (by decide)
  exact ⟨hb, rfl, hf, ⟨m, hm, h1.1 m hm⟩, h2.2.2 rfl⟩

/-- C16: let `C` be a diff memfile with parent `P` and `tag` the parent tag
that `mtag(C, id, kind)` finds, in a bucket of the table.  If a seek of count `c ≠ 0` is pending and the
realignment offset `C.relativepos - tag.pos` is `-c`, the call returns with
`curcmd = MDIFF_INVALID` and `curcount = 0`, the diff buffer and its cursor
untouched, and a following mdiffflush changes nothing.  In general, when the
call realigns (`C.relativepos ≠ tag.pos`) and returns, `curcmd` is `MDIFF_SEEK`
exactly when the accumulated `curcount` is not zero, and it returns unless a
pending edit run is longer than the data written. -/
theorem mtag_net_zero_seek (h : host) (C P : memfile) (id kind : Int) (tag : memfile_tag)
    (hb : in_table h id kind)
    (hp : C.relativeto = some P) (hf : parent_tag h P id kind = some tag) :
    (C.curcmd = MDIFF_SEEK → C.curcount ≠ 0 → C.relativepos - tag.pos = -C.curcount →
      ∃ m, mtag h C id kind = .ok m ∧ m.curcmd = MDIFF_INVALID ∧ m.curcount = 0 ∧
        m.diffbuf = C.diffbuf ∧ m.difflen = C.difflen ∧ m.diffpos = C.diffpos ∧
        m.relativepos = tag.pos ∧ mdiffflush h m = .ok m) ∧
    (C.relativepos ≠ tag.pos →
      (∀ m, mtag h C id kind = .ok m → (m.curcmd = MDIFF_SEEK ↔ m.curcount ≠ 0)) ∧
      (C.edit_ok → ∃ m, mtag h C id kind = .ok m)) := by
  constructor
  · intro hc hc0 hoff
    have hr : C.relativepos ≠ tag.pos := by omega
    have e := mtag_eq_found h C P id kind tag hb hp hf hr
    have e1 : mtag_flush h (mtag_add h C id kind) = .ok (mtag_add h C id kind) :=
      mtag_flush_seek h _ hc
    have e2 := mtag_realign_small h (mtag_add h C id kind) tag.pos (C.relativepos - tag.pos)
      (by show -(2 ^ 13) < C.relativepos - tag.pos + C.curcount; omega)
      (by show C.relativepos - tag.pos + C.curcount < 2 ^ 13; omega)
    have e3 : (mtag_add h C id kind).curcount + (C.relativepos - tag.pos) = 0 := by
      show C.curcount + (C.relativepos - tag.pos) = 0
      omega
    rw [e3] at e2
    simp only [ne_eq, not_true_eq_false, if_false] at e2
    refine ⟨mtag_realign h (mtag_add h C id kind) tag.pos (C.relativepos - tag.pos),
      by rw [e, e1]; rfl, ?_, ?_, ?_, ?_, ?_, ?_, ?_⟩
    · rw [e2]
    · rw [e2]
    · rw [e2]; rfl
    · rw [e2]; rfl
    · rw [e2]; rfl
    · rw [e2]
    · exact mdiffflush_invalid h _ (by rw [e2])
  · intro hr
    have e := mtag_eq_found h C P id kind tag hb hp hf hr
    constructor
    · intro m hm
      rw [e, map_eq_ok] at hm
      obtain ⟨m0, _, rfl⟩ := hm
      exact (mtag_realign_curcmd h m0 tag.pos _).1
    · intro he
      obtain ⟨m0, hm0⟩ := mtag_flush_ok h (mtag_add h C id kind) he
      exact ⟨_, by rw [e, hm0]; rfl⟩

theorem mtag_net_zero_seek_witness :
    in_table host_le 5 1 ∧
    seek_le.relativeto = some parent_le ∧
    parent_tag host_le parent_le 5 1 = some ⟨5, 1, 5⟩ ∧
    seek_le.curcmd = MDIFF_SEEK ∧ seek_le.curcount = 5 ∧ seek_le.relativepos - 5 = -5 ∧
    ∃ m, mtag host_le seek_le 5 1 = .ok m ∧ m.curcmd = MDIFF_INVALID ∧ m.curcount = 0 ∧
      m.diffbuf = seek_le.diffbuf ∧ m.difflen = seek_le.difflen ∧
      m.diffpos = seek_le.diffpos ∧ m.relativepos = 5 ∧ mdiffflush host_le m = .ok m :=
  ⟨by decide, rfl, by decide, rfl, rfl, by decide,
    (mtag_net_zero_seek host_le seek_le parent_le 5 1 ⟨5, 1, 5⟩ (by decide) rfl
      (by decide)).1 rfl (by decide) (by decide)⟩

/-! ## Reading back what was written -/

theorem expand_memfile_len_mod (h : host) (mf : memfile) (n : Int)
    (hm : mf.len % 4096 = 0) : (expand_memfile h mf n).len % 4096 = 0 := by
  unfold expand_memfile
  split
  · show (n - n % 4096 + 4096) % 4096 = 0
    omega
  · exact hm

theorem mwrite_all_linear (h : host) (blocks : List (List Nat)) :
    ∀ mf : memfile, mf.relativeto = none → mf.wf → mf.len % 4096 = 0 →
    ∃ m, mwrite_all h mf blocks = .ok m ∧ m.wf ∧ m.relativeto = none ∧
      m.pos = mf.pos + ((blocks.map List.length).sum : Nat) ∧ mf.len ≤ m.len ∧
      m.len ≤ max mf.len (m.pos + 4096) ∧ m.len % 4096 = 0 := by
  induction blocks with
  | nil =>
    intro mf hp hw hm
    exact ⟨mf, rfl, hw, hp, by simp, le_refl _, le_max_left _ _, hm⟩
  | cons b rest ih =>
    intro mf hp hw hm
    obtain ⟨m1, hm1, hwr, hrel, _⟩ := mwrite_linear_ok h mf b hp hw
    have hlen : m1.len % 4096 = 0 := by
      have e := mwrite_linear h mf b hp
      rw [hm1] at e
      cases e
      exact expand_memfile_len_mod h mf _ hm
    obtain ⟨m, e, a1, a2, a3, a4, a5, a6⟩ := ih m1 hrel hwr.wf hlen
    refine ⟨m, ?_, a1, a2, ?_, ?_, ?_, a6⟩
    · show (mwrite h mf b >>= fun m => mwrite_all h m rest) = .ok m
      rw [hm1]
      exact e
    · rw [a3, hwr.pos_eq]
      simp only [List.map_cons, List.sum_cons]
      push_cast
      omega
    · exact le_trans hwr.len_ge a4
    · have b1 := hwr.len_le
      have b2 := hwr.pos_eq
      have b3 : (0 : Int) ≤ ((rest.map List.length).sum : Nat) := Int.natCast_nonneg _
      omega

/-- C11, counterexample: one byte is written to a fresh parentless file and
the cursor is set back to 0; an mread of two bytes, one more than was written,
does not panic: it returns, its first byte is the byte written, and the cursor
has moved by 2 inside the buffer of 4096 bytes. -/
theorem mread_past_written_returns :
    ((mwrite_all host_le (mnew host_le memfile.zero none) [[1]]).bind
      (fun m => mread { m with pos := 0 } 2)).toOption.map
        (fun r => (r.1.head?, r.2.pos, r.2.len))
      = some (some 1, 2, 4096) := by
  decide

/-- C11, amended: after blocks of `n` bytes in total have been written with
mwrite to a fresh parentless memfile, the cursor stands at `n` and the length
`mf->len` is a multiple of 4096 with `n <= len <= n + 4096`.  With the cursor
set back to 0, an mread of `k` bytes panics exactly when `k` is more than
`mf->len`; a request of at most `mf->len` bytes returns `buf[0 .. k)`, also when
`k` is more than `n`. -/
theorem mread_past_capacity (h : host) (z : memfile) (blocks : List (List Nat)) (k : Nat)
    (hn : (((blocks.map List.length).sum : Nat) : Int) + 4096 < 2 ^ 31) (hk32 : k < 2 ^ 32) :
    ∃ m, mwrite_all h (mnew h z none) blocks = .ok m ∧
      m.pos = ((blocks.map List.length).sum : Nat) ∧
      m.pos ≤ m.len ∧ m.len ≤ m.pos + 4096 ∧ m.len % 4096 = 0 ∧
      (mread { m with pos := 0 } k = .error fatal.PANIC_READ ↔ (k : Int) > m.len) ∧
      ((k : Int) ≤ m.len →
        mread { m with pos := 0 } k = .ok (slice m.buf 0 k, { m with pos := k })) := by
  obtain ⟨m, e, a1, a2, a3, a4, a5, a6⟩ :=
    mwrite_all_linear h blocks (mnew h z none) rfl ⟨rfl, le_refl _, le_refl _⟩ rfl
  have hp : m.pos = ((blocks.map List.length).sum : Nat) := by
    rw [a3]
    show (0 : Int) + _ = _
    omega
  have hl : m.len ≤ m.pos + 4096 := by
    have b0 : (mnew h z none).len = 0 := rfl
    have b1 : 0 ≤ m.pos := a1.2.1
    omega
  have hw0 : ({ m with pos := 0 } : memfile).wf := ⟨a1.1, le_refl _, le_trans a1.2.1 a1.2.2⟩
  have hlen : ({ m with pos := 0 } : memfile).len < 2 ^ 31 := by
    show m.len < 2 ^ 31
    omega
  refine ⟨m, e, hp, a1.2.2, hl, a6, ?_, ?_⟩
  · constructor
    · intro hr
      by_contra hc
      rw [mread_ok _ k hw0 hlen (by show (k : Int) ≤ m.len - 0; omega)] at hr
      cases hr
    · intro hc
      exact mread_panic _ k hw0 hlen hk32 (by show (k : Int) > m.len - 0; omega)
  · intro hc
    have e2 := mread_ok _ k hw0 hlen (by show (k : Int) ≤ m.len - 0; omega)
    rw [e2]
    simp

theorem mread_past_capacity_witness :
    ((([[1]] : List (List Nat)).map List.length).sum : Int) + 4096 < 2 ^ 31 ∧ 2 < 2 ^ 32 ∧
    ∃ m, mwrite_all host_le (mnew host_le memfile.zero none) [[1]] = .ok m ∧
      m.pos = ((([[1]] : List (List Nat)).map List.length).sum : Nat) ∧
      m.pos ≤ m.len ∧ m.len ≤ m.pos + 4096 ∧ m.len % 4096 = 0 ∧
      (mread { m with pos := 0 } 2 = .error fatal.PANIC_READ ↔ ((2 : Nat) : Int) > m.len) ∧
      (((2 : Nat) : Int) ≤ m.len →
        mread { m with pos := 0 } 2 = .ok (slice m.buf 0 (2 : Nat), { m with pos := (2 : Nat) })) :=
  ⟨by decide, by decide,
    mread_past_capacity host_le memfile.zero [[1]] 2 (by decide) (by decide)⟩

/-! ## Seek units written by mtag -/

theorem mdiffwrite14_stream (h : host) (mf : memfile) (c : memfile_diffcmd) (v : Int)
    (hd : mf.diff_wf) :
    (mdiffwrite14 h mf c.code v).diffstream = mf.diffstream ++ command_unit c v ∧
    (mdiffwrite14 h mf c.code v).diff_wf := by
  have hc : c.code < 4 := by cases c <;> decide
  rw [mdiffwrite14_eq h mf c.code v hc]
  exact mdiffwrite_stream h mf _ hd

theorem mdiffflush_diff_wf (h : host) (mf m : memfile) (hd : mf.diff_wf)
    (e : mdiffflush h mf = .ok m) : m.diff_wf := by
  by_cases h1 : mf.curcmd = MDIFF_INVALID
  · rw [mdiffflush_invalid h mf h1] at e
    cases e
    exact hd
  · by_cases h2 : mf.curcmd = MDIFF_EDIT
    · by_cases h3 : mf.curcount > mf.pos ∨ mf.curcount < 0
      · rw [mdiffflush_edit_panic h mf h2 h3] at e
        cases e
      · rw [mdiffflush_edit h mf h2 (by omega) (by omega)] at e
        cases e
        exact (mdiffwrite_stream h _ _ (mdiffwrite14_stream h mf MDIFF_EDIT _ hd).2).2
    · rw [mdiffflush_unit h mf h1 h2] at e
      cases e
      exact (mdiffwrite14_stream h mf mf.curcmd _ hd).2

theorem mtag_flush_pending (h : host) (mf m : memfile) (hd : mf.diff_wf)
    (e : mtag_flush h mf = .ok m) :
    m.diff_wf ∧ m.curcount = pending_seek mf ∧
    (mf.curcmd = MDIFF_SEEK → m = mf) ∧
    (mf.curcmd ≠ MDIFF_SEEK → ∃ f, mdiffflush h mf = .ok f ∧ m.diffstream = f.diffstream) := by
  unfold mtag_flush at e
  unfold pending_seek
  by_cases hc : mf.curcmd = MDIFF_SEEK
  · rw [if_neg (by simpa using hc)] at e
    cases e
    exact ⟨hd, by rw [if_pos hc], fun _ => rfl, fun hn => absurd hc hn⟩
  · rw [if_pos hc, map_eq_ok] at e
    obtain ⟨f, hf, rfl⟩ := e
    exact ⟨mdiffflush_diff_wf h mf f hd hf, by rw [if_neg hc], fun hn => absurd hn hc,
      fun _ => ⟨f, hf, rfl⟩⟩

theorem mtag_seek_payloads (h : host) :
    ∀ (fuel : Nat) (mf : memfile) (offset : Int), mf.diff_wf →
    (offset + mf.curcount).natAbs ≤ fuel + 8191 →
    ∃ ps : List Int,
      (mtag_seek fuel h mf offset).1.diffstream = mf.diffstream ++ seek_units ps ∧
      (∀ p ∈ ps, p = 0x1fff ∨ p = -0x1fff) ∧
      ps.sum + (mtag_seek fuel h mf offset).2 = offset ∧
      (mtag_seek fuel h mf offset).1.curcount = mf.curcount ∧
      -(2 ^ 13) < (mtag_seek fuel h mf offset).2 + mf.curcount ∧
      (mtag_seek fuel h mf offset).2 + mf.curcount < 2 ^ 13 ∧
      (-(2 ^ 13) < offset + mf.curcount → offset + mf.curcount < 2 ^ 13 → ps = []) := by
  intro fuel
  induction fuel with
  | zero =>
    intro mf offset hd hf
    have e : mtag_seek 0 h mf offset = (mf, offset) := rfl
    rw [e]
    refine ⟨[], by simp [seek_units], by simp, by simp, rfl, ?_, ?_, fun _ _ => rfl⟩
    · show -(2 ^ 13) < offset + mf.curcount
      omega
    · show offset + mf.curcount < 2 ^ 13
      omega
  | succ n ih =>
    intro mf offset hd hf
    by_cases hout : offset + mf.curcount ≥ 2 ^ 13 ∨ offset + mf.curcount ≤ -(2 ^ 13)
    · by_cases hneg : offset + mf.curcount < 0
      · have e : mtag_seek (n + 1) h mf offset =
            mtag_seek n h (mdiffwrite14 h mf MDIFF_SEEK.code (-0x1fff)) (offset + 0x1fff) := by
          rw [mtag_seek, if_pos hout, if_pos hneg]
        obtain ⟨s1, s2⟩ := mdiffwrite14_stream h mf MDIFF_SEEK (-0x1fff) hd
        obtain ⟨ps, a1, a2, a3, a4, a5, a6, _⟩ :=
          ih (mdiffwrite14 h mf MDIFF_SEEK.code (-0x1fff)) (offset + 0x1fff) s2
            (by rw [mdiffwrite14_curcount]; omega)
        rw [e]
        rw [mdiffwrite14_curcount] at a4 a5 a6
        refine ⟨(-0x1fff) :: ps, ?_, ?_, ?_, a4, a5, a6, ?_⟩
        · rw [a1, s1, List.append_assoc]
          rfl
        · intro p hp
          rcases List.mem_cons.mp hp with hp | hp
          · exact Or.inr hp
          · exact a2 p hp
        · rw [List.sum_cons]
          omega
        · intro c1 c2
          omega
      · have e : mtag_seek (n + 1) h mf offset =
            mtag_seek n h (mdiffwrite14 h mf MDIFF_SEEK.code 0x1fff) (offset - 0x1fff) := by
          rw [mtag_seek, if_pos hout, if_neg hneg]
        obtain ⟨s1, s2⟩ := mdiffwrite14_stream h mf MDIFF_SEEK 0x1fff hd
        obtain ⟨ps, a1, a2, a3, a4, a5, a6, _⟩ :=
          ih (mdiffwrite14 h mf MDIFF_SEEK.code 0x1fff) (offset - 0x1fff) s2
            (by rw [mdiffwrite14_curcount]; omega)
        rw [e]
        rw [mdiffwrite14_curcount] at a4 a5 a6
        refine ⟨0x1fff :: ps, ?_, ?_, ?_, a4, a5, a6, ?_⟩
        · rw [a1, s1, List.append_assoc]
          rfl
        · intro p hp
          rcases List.mem_cons.mp hp with hp | hp
          · exact Or.inl hp
          · exact a2 p hp
        · rw [List.sum_cons]
          omega
        · intro c1 c2
          omega
    · have e : mtag_seek (n + 1) h mf offset = (mf, offset) := by
        rw [mtag_seek, if_neg hout]
      rw [e]
      refine ⟨[], by simp [seek_units], by simp, by simp, rfl, ?_, ?_, fun _ _ => rfl⟩
      · show -(2 ^ 13) < offset + mf.curcount
        omega
      · show offset + mf.curcount < 2 ^ 13
        omega

/-- C15: let `C` be a diff memfile with parent `P`, `tag` the parent tag that
`mtag(C, id, kind)` finds, in a bucket of the table, and
`C.relativepos ≠ tag.pos`.  The call first
flushes the pending command unless it is a seek (nothing is written when it is
one), then writes seek units with payloads `ps` and returns: every payload is
`0x1fff` or `-0x1fff`, the sum of the payloads plus the final `curcount` is the
pending seek count plus `C.relativepos - tag.pos`, the final `curcount` lies in
`[-0x1fff, 0x1fff]`, and no seek unit is written when the pending seek count
plus `C.relativepos - tag.pos` already lies in that range. -/
theorem mtag_seek_accounting (h : host) (C P : memfile) (id kind : Int) (tag : memfile_tag)
    (hb : in_table h id kind)
    (hp : C.relativeto = some P) (hf : parent_tag h P id kind = some tag)
    (hr : C.relativepos ≠ tag.pos) (hd : C.diff_wf) (he : C.edit_ok) :
    ∃ (m0 m : memfile) (ps : List Int),
      mtag_flush h (mtag_add h C id kind) = .ok m0 ∧
      (C.curcmd = MDIFF_SEEK → m0.diffstream = C.diffstream) ∧
      (C.curcmd ≠ MDIFF_SEEK →
        ∃ f, mdiffflush h (mtag_add h C id kind) = .ok f ∧ m0.diffstream = f.diffstream) ∧
      mtag h C id kind = .ok m ∧
      m.diffstream = m0.diffstream ++ seek_units ps ∧
      (∀ p ∈ ps, p = 0x1fff ∨ p = -0x1fff) ∧
      ps.sum + m.curcount = pending_seek C + (C.relativepos - tag.pos) ∧
      -0x1fff ≤ m.curcount ∧ m.curcount ≤ 0x1fff ∧
      (-0x1fff ≤ pending_seek C + (C.relativepos - tag.pos) →
        pending_seek C + (C.relativepos - tag.pos) ≤ 0x1fff → ps = []) := by
  have e := mtag_eq_found h C P id kind tag hb hp hf hr
  obtain ⟨m0, hm0⟩ := mtag_flush_ok h (mtag_add h C id kind) he
  obtain ⟨b1, b2, b3, b4⟩ := mtag_flush_pending h (mtag_add h C id kind) m0 hd hm0
  have hps : pending_seek (mtag_add h C id kind) = pending_seek C := rfl
  rw [hps] at b2
  obtain ⟨ps, a1, a2, a3, a4, a5, a6, a7⟩ :=
    mtag_seek_payloads h ((C.relativepos - tag.pos) + m0.curcount).natAbs m0
      (C.relativepos - tag.pos) b1 (by omega)
  refine ⟨m0, mtag_realign h m0 tag.pos (C.relativepos - tag.pos), ps, hm0, ?_, b4,
    by rw [e, hm0]; rfl, a1, a2, ?_, ?_, ?_, ?_⟩
  · intro hc
    rw [b3 hc]
    rfl
  · show ps.sum + ((mtag_seek _ h m0 (C.relativepos - tag.pos)).1.curcount +
      (mtag_seek _ h m0 (C.relativepos - tag.pos)).2) = _
    rw [a4]
    omega
  · show -0x1fff ≤ ((mtag_seek _ h m0 (C.relativepos - tag.pos)).1.curcount +
      (mtag_seek _ h m0 (C.relativepos - tag.pos)).2)
    rw [a4]
    omega
  · show ((mtag_seek _ h m0 (C.relativepos - tag.pos)).1.curcount +
      (mtag_seek _ h m0 (C.relativepos - tag.pos)).2) ≤ 0x1fff
    rw [a4]
    omega
  · intro c1 c2
    exact a7 (by omega) (by omega)

theorem mtag_seek_accounting_witness :
    in_table host_le 5 1 ∧
    far_le.relativeto = some parent_le ∧
    parent_tag host_le parent_le 5 1 = some ⟨5, 1, 5⟩ ∧
    far_le.relativepos ≠ 5 ∧ far_le.diff_wf ∧ far_le.edit_ok ∧
    ∃ (m0 m : memfile) (ps : List Int),
      mtag_flush host_le (mtag_add host_le far_le 5 1) = .ok m0 ∧
      (far_le.curcmd = MDIFF_SEEK → m0.diffstream = far_le.diffstream) ∧
      (far_le.curcmd ≠ MDIFF_SEEK →
        ∃ f, mdiffflush host_le (mtag_add host_le far_le 5 1) = .ok f ∧
          m0.diffstream = f.diffstream) ∧
      mtag host_le far_le 5 1 = .ok m ∧
      m.diffstream = m0.diffstream ++ seek_units ps ∧
      (∀ p ∈ ps, p = 0x1fff ∨ p = -0x1fff) ∧
      ps.sum + m.curcount = pending_seek far_le + (far_le.relativepos - 5) ∧
      -0x1fff ≤ m.curcount ∧ m.curcount ≤ 0x1fff ∧
      (-0x1fff ≤ pending_seek far_le + (far_le.relativepos - 5) →
        pending_seek far_le + (far_le.relativepos - 5) ≤ 0x1fff → ps = []) :=
  ⟨by decide, rfl, by decide, by decide, ⟨rfl, le_refl _, le_refl _⟩, by decide,
    mtag_seek_accounting host_le far_le parent_le 5 1 ⟨5, 1, 5⟩ (by decide) rfl (by decide)
      (by decide) ⟨rfl, le_refl _, le_refl _⟩ (by decide)⟩

/-- The run of C15 on the sample: the parent cursor stands at 20000 and the
parent tag at 5, so two seek units of `0x1fff` are written and 3613 stays
pending. -/
theorem far_le_units :
    (mtag host_le far_le 5 1).toOption.map (fun m => (m.diffstream, m.curcmd, m.curcount))
      = some (seek_units [0x1fff, 0x1fff], MDIFF_SEEK, 3613) := by
  decide

/-! ## Runs of the write loop -/

theorem mwrite_run_continue (h : host) (mf : memfile) (c : memfile_diffcmd)
    (hc : mf.curcmd = c) (hn : mf.curcount ≠ 0x3fff) :
    mwrite_run h mf c = .ok { mf with curcmd := c, curcount := mf.curcount + 1 } := by
  unfold mwrite_run
  rw [if_neg (by simp [hc, hn])]
  rfl

theorem mwrite_run_flush (h : host) (mf f : memfile) (c : memfile_diffcmd)
    (hc : mf.curcmd ≠ c ∨ mf.curcount = 0x3fff) (hf : mdiffflush h mf = .ok f) :
    mwrite_run h mf c = .ok { f with curcmd := c, curcount := 1 } := by
  unfold mwrite_run
  rw [if_pos hc, hf]
  rfl

theorem mwrite_diff_succ (h : host) (parent : memfile) (n : Nat) (mf : memfile) :
    mwrite_diff h parent (n + 1) mf =
      (mwrite_run h mf (run_kind parent mf.buf mf.pos mf.relativepos) >>= fun m =>
        mwrite_diff h parent n { m with pos := m.pos + 1, relativepos := m.relativepos + 1 }) := by
  rw [mwrite_diff]
  unfold run_kind
  split <;> rfl

theorem mwrite_diff_add (h : host) (parent : memfile) (a b : Nat) :
    ∀ mf : memfile, mwrite_diff h parent (a + b) mf =
      (mwrite_diff h parent a mf >>= fun m => mwrite_diff h parent b m) := by
  induction a with
  | zero =>
    intro mf
    rw [Nat.zero_add]
    rfl
  | succ a ih =>
    intro mf
    rw [show a + 1 + b = (a + b) + 1 from by omega, mwrite_diff_succ, mwrite_diff_succ]
    cases hr : mwrite_run h mf (run_kind parent mf.buf mf.pos mf.relativepos) with
    | error e => rfl
    | ok m =>
      show mwrite_diff h parent (a + b) _ = (mwrite_diff h parent a _ >>= _)
      rw [ih]

theorem mwrite_diff_continue (h : host) (parent : memfile) (c : memfile_diffcmd) :
    ∀ (n : Nat) (mf : memfile), mf.curcmd = c → mf.curcount + n ≤ 0x3fff →
    (∀ j : Nat, j < n → run_kind parent mf.buf (mf.pos + j) (mf.relativepos + j) = c) →
    mwrite_diff h parent n mf =
      .ok { mf with pos := mf.pos + n, relativepos := mf.relativepos + n,
                    curcount := mf.curcount + n } := by
  intro n
  induction n with
  | zero =>
    intro mf hc _ _
    rw [mwrite_diff]
    congr 1
    cases mf
    simp
  | succ n ih =>
    intro mf hc hn hsel
    have h0 := hsel 0 (by omega)
    simp only [Nat.cast_zero, add_zero] at h0
    rw [mwrite_diff_succ, h0, mwrite_run_continue h mf c hc (by omega)]
    show mwrite_diff h parent n _ = _
    rw [ih _ rfl (by show mf.curcount + 1 + (n : Int) ≤ 0x3fff; push_cast at hn; omega)
      (by
        intro j hj
        have := hsel (j + 1) (by omega)
        show run_kind parent mf.buf (mf.pos + 1 + j) (mf.relativepos + 1 + j) = c
        rw [← this]
        push_cast
        congr 1 <;> ring)]
    congr 1
    cases mf
    simp only at hc
    simp only [memfile.mk.injEq, true_and, hc]
    push_cast
    refine ⟨by ring, by ring, by ring, trivial⟩

theorem byte_at_of_slice (buf data : List Nat) (p : Int) (j : Nat) (h0 : 0 ≤ p)
    (hs : slice buf p data.length = data) (hj : j < data.length) :
    byte_at buf (p + j) = data.getD j 0 := by
  unfold byte_at
  conv_rhs => rw [← hs]
  unfold slice
  have e : (p + j).toNat = p.toNat + j := by omega
  rw [e]
  simp only [List.getD_eq_getElem?_getD, List.getElem?_take, List.getElem?_drop]
  simp [hj]

theorem mwrite_diff_open (h : host) (P mf : memfile) (c : memfile_diffcmd) (n : Nat)
    (hc : mf.curcmd = MDIFF_INVALID) (hne : c ≠ MDIFF_INVALID)
    (hk : run_kind P mf.buf mf.pos mf.relativepos = c) :
    mwrite_diff h P (n + 1) mf = mwrite_diff h P n
      { mf with curcmd := c, curcount := 1, pos := mf.pos + 1, relativepos := mf.relativepos + 1 } := by
  rw [mwrite_diff_succ, hk,
    mwrite_run_flush h mf mf c (Or.inl (by rw [hc]; exact fun e => hne e.symm))
      (mdiffflush_invalid h mf hc)]
  rfl

theorem mwrite_diff_full (h : host) (P mf F : memfile) (c : memfile_diffcmd)
    (hc : mf.curcount = 0x3fff) (hk : run_kind P mf.buf mf.pos mf.relativepos = c)
    (hF : mdiffflush h mf = .ok F) :
    mwrite_diff h P 1 mf = .ok
      { F with curcmd := c, curcount := 1, pos := F.pos + 1, relativepos := F.relativepos + 1 } := by
  rw [show (1 : Nat) = 0 + 1 from rfl, mwrite_diff_succ, hk,
    mwrite_run_flush h mf F c (Or.inr hc) hF]
  rfl

theorem copy_run_wrap (h : host) (P mf : memfile) (n : Nat) (hn : n = 16382)
    (hc : mf.curcmd = MDIFF_INVALID) (hd : mf.diff_wf)
    (hsel : ∀ j : Nat, j < n + 1 + 1 →
      run_kind P mf.buf (mf.pos + j) (mf.relativepos + j) = MDIFF_COPY) :
    ∃ m f, mwrite_diff h P (n + 1 + 1) mf = .ok m ∧ mdiffflush h m = .ok f ∧
      m.pos = mf.pos + 16384 ∧ m.buf = mf.buf ∧
      f.diffstream = mf.diffstream ++ command_unit MDIFF_COPY 16383
        ++ command_unit MDIFF_COPY 1 := by
  -- the first byte opens the run
  obtain ⟨S1, hS1⟩ : ∃ x : memfile, x =
      { mf with curcmd := MDIFF_COPY, curcount := 1, pos := mf.pos + 1, relativepos := mf.relativepos + 1 } :=
    ⟨_, rfl⟩
  have h0 := hsel 0 (by omega)
  simp only [Nat.cast_zero, add_zero] at h0
  have e1 : mwrite_diff h P (n + 1 + 1) mf = mwrite_diff h P (n + 1) S1 := by
    rw [mwrite_diff_open h P mf MDIFF_COPY (n + 1) hc (by decide) h0, hS1]
  -- the next 16382 bytes lengthen it
  obtain ⟨S2, hS2⟩ : ∃ x : memfile, x =
      { S1 with pos := S1.pos + n, relativepos := S1.relativepos + n, curcount := S1.curcount + n } :=
    ⟨_, rfl⟩
  have e2 : mwrite_diff h P n S1 = .ok S2 := by
    rw [hS2]
    refine mwrite_diff_continue h P MDIFF_COPY n S1 (by rw [hS1])
      (by rw [hS1]; show (1 : Int) + n ≤ 0x3fff; omega) ?_
    intro j hj
    have := hsel (j + 1) (by omega)
    rw [hS1]
    show run_kind P mf.buf (mf.pos + 1 + j) (mf.relativepos + 1 + j) = MDIFF_COPY
    rw [← this]
    push_cast
    congr 1 <;> ring
  have p2 : S2.pos = mf.pos + 16383 := by
    rw [hS2, hS1]; show mf.pos + 1 + (n : Int) = _; omega
  have r2 : S2.relativepos = mf.relativepos + 16383 := by
    rw [hS2, hS1]; show mf.relativepos + 1 + (n : Int) = _; omega
  have c2 : S2.curcount = 16383 := by rw [hS2, hS1]; show (1 : Int) + (n : Int) = _; omega
  have k2 : S2.curcmd = MDIFF_COPY := by rw [hS2, hS1]
  have b2 : S2.buf = mf.buf := by rw [hS2, hS1]
  have d2 : S2.diff_wf := by rw [hS2, hS1]; exact hd
  have s2 : S2.diffstream = mf.diffstream := by rw [hS2, hS1]; rfl
  -- the last byte finds the counter full
  obtain ⟨F, hF⟩ : ∃ x : memfile,
      x = { mdiffwrite14 h S2 S2.curcmd.code S2.curcount with curcmd := MDIFF_INVALID } :=
    ⟨_, rfl⟩
  have eF : mdiffflush h S2 = .ok F := by
    rw [hF]
    exact mdiffflush_unit h S2 (by rw [k2]; decide) (by rw [k2]; decide)
  obtain ⟨m, hm⟩ : ∃ x : memfile, x =
      { F with curcmd := MDIFF_COPY, curcount := 1, pos := F.pos + 1, relativepos := F.relativepos + 1 } :=
    ⟨_, rfl⟩
  have h3 := hsel (n + 1) (by omega)
  have e3 : mwrite_diff h P 1 S2 = .ok m := by
    rw [hm]
    refine mwrite_diff_full h P S2 F MDIFF_COPY c2 ?_ eF
    rw [b2, p2, r2, ← h3]
    push_cast
    congr 1 <;> omega
  have eall : mwrite_diff h P (n + 1 + 1) mf = .ok m := by
    rw [e1, mwrite_diff_add, e2]
    exact e3
  have sF : F.diffstream = mf.diffstream ++ command_unit MDIFF_COPY 16383 ∧ F.diff_wf := by
    have := mdiffwrite14_stream h S2 MDIFF_COPY 16383 d2
    rw [hF, k2, c2, ← s2]
    exact this
  have km : m.curcmd = MDIFF_COPY := by rw [hm]
  have cm : m.curcount = 1 := by rw [hm]
  have dm : m.diff_wf := by rw [hm]; exact sF.2
  have sm : m.diffstream = F.diffstream := by rw [hm]; rfl
  refine ⟨m, { mdiffwrite14 h m m.curcmd.code m.curcount with curcmd := MDIFF_INVALID },
    eall, mdiffflush_unit h m (by rw [km]; decide) (by rw [km]; decide), ?_, ?_, ?_⟩
  · rw [hm, hF]
    show S2.pos + 1 = _
    rw [p2]
    ring
  · rw [hm, hF]
    exact b2
  · have := mdiffwrite14_stream h m MDIFF_COPY 1 dm
    rw [km, cm, ← sF.1, ← sm]
    exact this.1

theorem edit_run_wrap (h : host) (P mf : memfile) (n : Nat) (hn : n = 16382)
    (hc : mf.curcmd = MDIFF_INVALID) (hd : mf.diff_wf) (hp : 0 ≤ mf.pos)
    (hsel : ∀ j : Nat, j < n + 1 + 1 →
      run_kind P mf.buf (mf.pos + j) (mf.relativepos + j) = MDIFF_EDIT) :
    ∃ m f, mwrite_diff h P (n + 1 + 1) mf = .ok m ∧ mdiffflush h m = .ok f ∧
      m.pos = mf.pos + 16384 ∧ m.buf = mf.buf ∧
      f.diffstream = mf.diffstream ++ command_unit MDIFF_EDIT 16383
        ++ slice mf.buf mf.pos 16383 ++ command_unit MDIFF_EDIT 1
        ++ slice mf.buf (mf.pos + 16383) 1 := by
  -- the first byte opens the run
  obtain ⟨S1, hS1⟩ : ∃ x : memfile, x =
      { mf with curcmd := MDIFF_EDIT, curcount := 1, pos := mf.pos + 1, relativepos := mf.relativepos + 1 } :=
    ⟨_, rfl⟩
  have h0 := hsel 0 (by omega)
  simp only [Nat.cast_zero, add_zero] at h0
  have e1 : mwrite_diff h P (n + 1 + 1) mf = mwrite_diff h P (n + 1) S1 := by
    rw [mwrite_diff_open h P mf MDIFF_EDIT (n + 1) hc (by decide) h0, hS1]
  -- the next 16382 bytes lengthen it
  obtain ⟨S2, hS2⟩ : ∃ x : memfile, x =
      { S1 with pos := S1.pos + n, relativepos := S1.relativepos + n, curcount := S1.curcount + n } :=
    ⟨_, rfl⟩
  have e2 : mwrite_diff h P n S1 = .ok S2 := by
    rw [hS2]
    refine mwrite_diff_continue h P MDIFF_EDIT n S1 (by rw [hS1])
      (by rw [hS1]; show (1 : Int) + n ≤ 0x3fff; omega) ?_
    intro j hj
    have := hsel (j + 1) (by omega)
    rw [hS1]
    show run_kind P mf.buf (mf.pos + 1 + j) (mf.relativepos + 1 + j) = MDIFF_EDIT
    rw [← this]
    push_cast
    congr 1 <;> ring
  have p2 : S2.pos = mf.pos + 16383 := by
    rw [hS2, hS1]; show mf.pos + 1 + (n : Int) = _; omega
  have r2 : S2.relativepos = mf.relativepos + 16383 := by
    rw [hS2, hS1]; show mf.relativepos + 1 + (n : Int) = _; omega
  have c2 : S2.curcount = 16383 := by rw [hS2, hS1]; show (1 : Int) + (n : Int) = _; omega
  have k2 : S2.curcmd = MDIFF_EDIT := by rw [hS2, hS1]
  have b2 : S2.buf = mf.buf := by rw [hS2, hS1]
  have d2 : S2.diff_wf := by rw [hS2, hS1]; exact hd
  have s2 : S2.diffstream = mf.diffstream := by rw [hS2, hS1]; rfl
  -- the last byte finds the counter full
  obtain ⟨F, hF⟩ : ∃ x : memfile,
      x = { mdiffwrite h (mdiffwrite14 h S2 MDIFF_EDIT.code S2.curcount)
              (slice S2.buf (S2.pos - S2.curcount) S2.curcount) with curcmd := MDIFF_INVALID } :=
    ⟨_, rfl⟩
  have eF : mdiffflush h S2 = .ok F := by
    rw [hF]
    exact mdiffflush_edit h S2 k2 (by omega) (by omega)
  obtain ⟨m, hm⟩ : ∃ x : memfile, x =
      { F with curcmd := MDIFF_EDIT, curcount := 1, pos := F.pos + 1, relativepos := F.relativepos + 1 } :=
    ⟨_, rfl⟩
  have h3 := hsel (n + 1) (by omega)
  have e3 : mwrite_diff h P 1 S2 = .ok m := by
    rw [hm]
    refine mwrite_diff_full h P S2 F MDIFF_EDIT c2 ?_ eF
    rw [b2, p2, r2, ← h3]
    push_cast
    congr 1 <;> omega
  have eall : mwrite_diff h P (n + 1 + 1) mf = .ok m := by
    rw [e1, mwrite_diff_add, e2]
    exact e3
  have sF : F.diffstream = mf.diffstream ++ command_unit MDIFF_EDIT 16383
      ++ slice mf.buf mf.pos 16383 ∧ F.diff_wf := by
    have a1 := mdiffwrite14_stream h S2 MDIFF_EDIT 16383 d2
    have a2 := mdiffwrite_stream h (mdiffwrite14 h S2 MDIFF_EDIT.code 16383)
      (slice mf.buf mf.pos 16383) a1.2
    rw [a1.1, s2] at a2
    rw [hF, c2, b2, p2, show mf.pos + 16383 - 16383 = mf.pos from by ring]
    exact a2
  have km : m.curcmd = MDIFF_EDIT := by rw [hm]
  have cm : m.curcount = 1 := by rw [hm]
  have dm : m.diff_wf := by rw [hm]; exact sF.2
  have sm : m.diffstream = F.diffstream := by rw [hm]; rfl
  have pm : m.pos = mf.pos + 16384 := by
    rw [hm, hF]
    show S2.pos + 1 = _
    rw [p2]
    ring
  have bm : m.buf = mf.buf := by
    rw [hm, hF]
    exact b2
  refine ⟨m, { mdiffwrite h (mdiffwrite14 h m MDIFF_EDIT.code m.curcount)
      (slice m.buf (m.pos - m.curcount) m.curcount) with curcmd := MDIFF_INVALID },
    eall, mdiffflush_edit h m km (by omega) (by omega), pm, bm, ?_⟩
  have a1 := mdiffwrite14_stream h m MDIFF_EDIT 1 dm
  have a2 := mdiffwrite_stream h (mdiffwrite14 h m MDIFF_EDIT.code 1)
    (slice mf.buf (mf.pos + 16383) 1) a1.2
  rw [a1.1, sm, sF.1] at a2
  rw [cm, bm, pm, show mf.pos + 16384 - 1 = mf.pos + 16383 from by ring]
  exact a2.1

theorem mwrite_diff_file (h : host) (mf P : memfile) (data : List Nat)
    (hp : mf.relativeto = some P) :
    mwrite h mf data = mwrite_diff h P data.length (mwrite_copy h mf data) := by
  have e : (mwrite_copy h mf data).relativeto = some P := by simp [mwrite_copy, hp]
  unfold mwrite
  simp only [e]

theorem slice_split (buf data : List Nat) (k n : Nat) (hk : k ≤ n)
    (hs : slice buf 0 n = data) :
    slice buf 0 k = data.take k ∧ slice buf (0 + k) ((n - k : Nat) : Int) = data.drop k := by
  rw [← hs]
  unfold slice
  simp only [Int.toNat_zero, List.drop_zero, Int.toNat_ofNat, List.take_take, zero_add,
    List.drop_take]
  rw [min_eq_left hk]
  exact ⟨rfl, trivial⟩

/-- C17: 16384 bytes are written by mwrite to a fresh diff memfile with parent
`P`, and mdiffflush is called.  If at every index the parent has the same byte
(inside its content), the diff stream is a copy unit of run length 16383
followed by a copy unit of run length 1.  If at no index the loop finds the
parent byte equal, the diff stream is an edit unit of run length 16383, the
first 16383 bytes, an edit unit of run length 1 and the last byte.  Both calls
return, and nothing else is in the stream: no unit has run length 16384 or
payload 0. -/
theorem run_length_wrap (h : host) (z P : memfile) (data : List Nat)
    (hlen : data.length = 16384) :
    ((∀ i : Nat, i < 16384 → (i : Int) < P.pos ∧ data.getD i 0 = byte_at P.buf i) →
      ∃ m f, mwrite h (mnew h z (some P)) data = .ok m ∧ mdiffflush h m = .ok f ∧
        f.diffstream = command_unit MDIFF_COPY 16383 ++ command_unit MDIFF_COPY 1) ∧
    ((∀ i : Nat, i < 16384 → ¬ ((i : Int) < P.pos ∧ data.getD i 0 = byte_at P.buf i)) →
      ∃ m f, mwrite h (mnew h z (some P)) data = .ok m ∧ mdiffflush h m = .ok f ∧
        f.diffstream = command_unit MDIFF_EDIT 16383 ++ data.take 16383
          ++ command_unit MDIFF_EDIT 1 ++ data.drop 16383) ∧
    command_unit MDIFF_COPY 16383 = [0xff, 0x3f] ∧ command_unit MDIFF_COPY 1 = [0x01, 0x00] ∧
    command_unit MDIFF_EDIT 16383 = [0xff, 0x7f] ∧ command_unit MDIFF_EDIT 1 = [0x01, 0x40] := by
  have hl : data.length = 16382 + 1 + 1 := by omega
  have hw := mwrite_copy_spec h (mnew h z (some P)) data (mnew_wf h z _)
  have hs : slice (mwrite_copy h (mnew h z (some P)) data).buf 0 data.length = data := hw.at_pos
  have hpos : (mwrite_copy h (mnew h z (some P)) data).pos = 0 := by simp [mwrite_copy]; rfl
  have hrel : (mwrite_copy h (mnew h z (some P)) data).relativepos = 0 := by
    simp [mwrite_copy]; rfl
  have hcmd : (mwrite_copy h (mnew h z (some P)) data).curcmd = MDIFF_INVALID := by
    simp [mwrite_copy]; rfl
  have hdw : (mwrite_copy h (mnew h z (some P)) data).diff_wf := by
    unfold memfile.diff_wf
    simp [mwrite_copy]
    exact ⟨rfl, le_refl _, le_refl _⟩
  have hds : (mwrite_copy h (mnew h z (some P)) data).diffstream = [] := by
    have e1 : (mwrite_copy h (mnew h z (some P)) data).diffbuf = [] := by
      simp [mwrite_copy]
      rfl
    unfold memfile.diffstream
    rw [e1, List.take_nil]
  have hbyte : ∀ j : Nat, j < 16384 →
      byte_at (mwrite_copy h (mnew h z (some P)) data).buf (0 + j) = data.getD j 0 :=
    fun j hj => byte_at_of_slice _ data 0 j (le_refl _) hs (by omega)
  have e := mwrite_diff_file h (mnew h z (some P)) P data rfl
  rw [hl] at e
  refine ⟨?_, ?_, by decide, by decide, by decide, by decide⟩
  · intro hrun
    obtain ⟨m, f, a1, a2, _, _, a5⟩ := copy_run_wrap h P _ 16382 rfl hcmd hdw (by
      intro j hj
      rw [hpos, hrel]
      unfold run_kind
      rw [hbyte j (by omega), if_pos]
      have := hrun j (by omega)
      simpa using this)
    rw [hds, List.nil_append] at a5
    exact ⟨m, f, by rw [e]; exact a1, a2, a5⟩
  · intro hrun
    obtain ⟨m, f, a1, a2, _, _, a5⟩ := edit_run_wrap h P _ 16382 rfl hcmd hdw
      (by rw [hpos]) (by
      intro j hj
      rw [hpos, hrel]
      unfold run_kind
      rw [hbyte j (by omega), if_neg]
      have := hrun j (by omega)
      simpa using this)
    have hs2 := slice_split _ data 16383 data.length (by omega) hs
    have t1 : slice (mwrite_copy h (mnew h z (some P)) data).buf 0 16383 = data.take 16383 := by
      exact_mod_cast hs2.1
    have t2 : slice (mwrite_copy h (mnew h z (some P)) data).buf 16383 1 = data.drop 16383 := by
      simpa [hlen] using hs2.2
    rw [hds, List.nil_append, hpos, zero_add, t1, t2] at a5
    exact ⟨m, f, by rw [e]; exact a1, a2, a5⟩

theorem getD_replicate_lt (n i a : Nat) (hi : i < n) : (List.replicate n a).getD i 0 = a := by
  simp [List.getD_eq_getElem?_getD, List.getElem?_replicate, hi]

theorem byte_at_replicate (n i a : Nat) (hi : i < n) :
    byte_at (List.replicate n a) (i : Int) = a := by
  unfold byte_at
  rw [Int.toNat_ofNat]
  exact getD_replicate_lt n i a hi

theorem run_length_wrap_witness :
    (List.replicate 16384 0).length = 16384 ∧
    (∃ m f, mwrite host_le (mnew host_le memfile.zero (some zeros_le)) (List.replicate 16384 0)
        = .ok m ∧ mdiffflush host_le m = .ok f ∧
      f.diffstream = command_unit MDIFF_COPY 16383 ++ command_unit MDIFF_COPY 1) ∧
    (∃ m f, mwrite host_le (mnew host_le memfile.zero (some zeros_le)) (List.replicate 16384 1)
        = .ok m ∧ mdiffflush host_le m = .ok f ∧
      f.diffstream = command_unit MDIFF_EDIT 16383 ++ (List.replicate 16384 1).take 16383
        ++ command_unit MDIFF_EDIT 1 ++ (List.replicate 16384 1).drop 16383) := by
  refine ⟨List.length_replicate _ _,
    (run_length_wrap host_le memfile.zero zeros_le (List.replicate 16384 0)
      (List.length_replicate _ _)).1 ?_,
    (run_length_wrap host_le memfile.zero zeros_le (List.replicate 16384 1)
      (List.length_replicate _ _)).2.1 ?_⟩
  · intro i hi
    refine ⟨by show (i : Int) < 16384; omega, ?_⟩
    rw [getD_replicate_lt _ _ _ hi]
    exact (byte_at_replicate 16384 i 0 hi).symm
  · intro i hi hc
    have h2 := hc.2
    rw [getD_replicate_lt _ _ _ hi] at h2
    have h3 : byte_at zeros_le.buf (i : Int) = 0 := byte_at_replicate 16384 i 0 hi
    rw [h3] at h2
    exact absurd h2 (by decide)

/-! ## Comparing two files -/

theorem mmmap_fits (h : host) (mf : memfile) (len off : Int) (hl : len + off ≤ mf.pos)
    (hp : mf.pos ≤ mf.len) : mmmap h mf len off = mf := by
  unfold mmmap
  rw [expand_memfile_fits h mf _ (by omega)]
  simp only
  rw [if_neg (by omega)]

theorem mequal_verdict (h : host) (c : header) (mf1 mf2 : memfile) (noisy : Bool) :
    (mequal h c mf1 mf2 noisy).verdict =
      decide (¬ ((mmmap h mf1 (if mf1.pos > mf2.pos then mf2.pos else mf1.pos) 0).pos
          ≠ (mmmap h mf2 (if mf1.pos > mf2.pos then mf2.pos else mf1.pos) 0).pos ∨
        slice (mmmap h mf1 (if mf1.pos > mf2.pos then mf2.pos else mf1.pos) 0).buf 0
            (if mf1.pos > mf2.pos then mf2.pos else mf1.pos)
          ≠ slice (mmmap h mf2 (if mf1.pos > mf2.pos then mf2.pos else mf1.pos) 0).buf 0
            (if mf1.pos > mf2.pos then mf2.pos else mf1.pos))) := by
  unfold mequal
  simp only
  generalize (if mf1.pos > mf2.pos then mf2.pos else mf1.pos) = len
  by_cases hc : (mmmap h mf1 len 0).pos ≠ (mmmap h mf2 len 0).pos ∨
      slice (mmmap h mf1 len 0).buf 0 len ≠ slice (mmmap h mf2 len 0).buf 0 len
  · rw [if_pos hc]
    cases noisy <;> simp [hc]
  · rw [if_neg hc]
    simp [hc]

theorem slice_eq_iff (l1 l2 : List Nat) (n : Int) (h0 : 0 ≤ n) (h1 : n ≤ l1.length)
    (h2 : n ≤ l2.length) :
    slice l1 0 n = slice l2 0 n ↔
      ∀ i : Int, 0 ≤ i → i < n → byte_at l1 i = byte_at l2 i := by
  have e1 : (slice l1 0 n).length = n.toNat := slice_length l1 0 n (le_refl _) (by omega)
  have e2 : (slice l2 0 n).length = n.toNat := slice_length l2 0 n (le_refl _) (by omega)
  have b1 : ∀ j : Nat, j < n.toNat → byte_at l1 (0 + j) = (slice l1 0 n).getD j 0 := by
    intro j hj
    refine byte_at_of_slice l1 _ 0 j (le_refl _) ?_ (by omega)
    rw [e1, Int.toNat_of_nonneg h0]
  have b2 : ∀ j : Nat, j < n.toNat → byte_at l2 (0 + j) = (slice l2 0 n).getD j 0 := by
    intro j hj
    refine byte_at_of_slice l2 _ 0 j (le_refl _) ?_ (by omega)
    rw [e2, Int.toNat_of_nonneg h0]
  constructor
  · intro e i hi0 hin
    have hj : i.toNat < n.toNat := by omega
    have c1 := b1 i.toNat hj
    have c2 := b2 i.toNat hj
    rw [show (0 : Int) + (i.toNat : Int) = i from by omega] at c1 c2
    rw [c1, c2, e]
  · intro hall
    apply List.ext_getElem (by rw [e1, e2])
    intro j hj1 hj2
    have hj : j < n.toNat := by omega
    have c := hall (0 + j) (by omega) (by omega)
    rw [b1 j hj, b2 j hj, List.getD_eq_getElem _ _ hj1, List.getD_eq_getElem _ _ hj2] at c
    exact c

/-- C18: for memfiles `A` and `B` that satisfy the buffer invariant (`buf`
holds `len` bytes, `0 <= pos <= len`), `mequal(A, B, FALSE)` returns TRUE
exactly when `A.pos = B.pos` and `A.buf[i] = B.buf[i]` for every `i < A.pos`;
`mequal(A, A, FALSE)` is TRUE; the result is FALSE when the cursors differ and
when a byte inside the common length differs. -/
theorem mequal_iff (h : host) (c : header) (A B : memfile) (hA : A.wf) (hB : B.wf) :
    ((mequal h c A B false).verdict = true ↔
      A.pos = B.pos ∧ ∀ i : Int, 0 ≤ i → i < A.pos → byte_at A.buf i = byte_at B.buf i) ∧
    (mequal h c A A false).verdict = true ∧
    (A.pos ≠ B.pos → (mequal h c A B false).verdict = false) ∧
    (∀ i : Int, 0 ≤ i → i < A.pos → i < B.pos → byte_at A.buf i ≠ byte_at B.buf i →
      (mequal h c A B false).verdict = false) := by
  obtain ⟨a1, a2, a3⟩ := hA
  obtain ⟨b1, b2, b3⟩ := hB
  have key : ∀ X Y : memfile, (X.buf.length : Int) = X.len → 0 ≤ X.pos → X.pos ≤ X.len →
      (Y.buf.length : Int) = Y.len → 0 ≤ Y.pos → Y.pos ≤ Y.len →
      ((mequal h c X Y false).verdict = true ↔
        X.pos = Y.pos ∧ ∀ i : Int, 0 ≤ i → i < X.pos → byte_at X.buf i = byte_at Y.buf i) := by
    intro X Y x1 x2 x3 y1 y2 y3
    rw [mequal_verdict]
    obtain ⟨len, hlen⟩ : ∃ x, x = if X.pos > Y.pos then Y.pos else X.pos := ⟨_, rfl⟩
    rw [← hlen]
    have l1 : len ≤ X.pos := by rw [hlen]; split <;> omega
    have l2 : len ≤ Y.pos := by rw [hlen]; split <;> omega
    have l3 : X.pos = Y.pos → len = X.pos := by intro e; rw [hlen]; split <;> omega
    rw [mmmap_fits h X len 0 (by omega) x3, mmmap_fits h Y len 0 (by omega) y3]
    simp only [decide_eq_true_eq, not_or, not_not, ne_eq]
    constructor
    · rintro ⟨e, hs⟩
      have := l3 e
      rw [this] at hs
      exact ⟨e, (slice_eq_iff X.buf Y.buf X.pos x2 (by omega) (by omega)).mp hs⟩
    · rintro ⟨e, hall⟩
      refine ⟨e, ?_⟩
      rw [l3 e]
      exact (slice_eq_iff X.buf Y.buf X.pos x2 (by omega) (by omega)).mpr hall
  have kAB := key A B a1 a2 a3 b1 b2 b3
  refine ⟨kAB, ?_, ?_, ?_⟩
  · exact (key A A a1 a2 a3 a1 a2 a3).mpr ⟨rfl, fun _ _ _ => rfl⟩
  · intro hne
    cases hv : (mequal h c A B false).verdict with
    | false => rfl
    | true => exact absurd (kAB.mp hv).1 hne
  · intro i hi0 hiA _ hne
    cases hv : (mequal h c A B false).verdict with
    | false => rfl
    | true => exact absurd ((kAB.mp hv).2 i hi0 hiA) hne

theorem mequal_iff_witness :
    five_le.wf ∧ fresh_le.wf ∧
    (mequal host_le header_le five_le five_le false).verdict = true ∧
    (mequal host_le header_le five_le fresh_le false).verdict = false := by
  have w5 : five_le.wf := (mwrite_copy_spec host_le fresh_le [1, 2, 3, 4, 5] (by decide)).wf
  have w0 : fresh_le.wf := by decide
  exact ⟨w5, w0, (mequal_iff host_le header_le five_le fresh_le w5 w0).2.1,
    (mequal_iff host_le header_le five_le fresh_le w5 w0).2.2.1 (by decide)⟩

/-- C19: for all memfiles `A` and `B`, whatever their tag indexes hold,
`mequal(A, B, TRUE)` returns the same boolean as `mequal(A, B, FALSE)` and
leaves the two memfiles as the silent call does; the silent call prints
nothing.  The function has no call of panic or terminate and all its loops are
bounded (`off < len`, `bin < MEMFILE_HASHTABLE_SIZE`, the chains), so the model
is a total function. -/
theorem mequal_noisy_same (h : host) (c : header) (A B : memfile) :
    (mequal h c A B true).verdict = (mequal h c A B false).verdict ∧
    (mequal h c A B true).mf1 = (mequal h c A B false).mf1 ∧
    (mequal h c A B true).mf2 = (mequal h c A B false).mf2 ∧
    (mequal h c A B false).printed = [] ∧
    ((mequal h c A B true).verdict = true → (mequal h c A B true).printed = []) := by
  refine ⟨by rw [mequal_verdict, mequal_verdict], ?_, ?_, ?_, ?_⟩
  all_goals
    unfold mequal
    simp only
    generalize (if A.pos > B.pos then B.pos else A.pos) = len
    by_cases hc : (mmmap h A len 0).pos ≠ (mmmap h B len 0).pos ∨
        slice (mmmap h A len 0).buf 0 len ≠ slice (mmmap h B len 0).buf 0 len
    · simp [hc]
    · simp [hc]

/-- The diagnostics of mequal on the sample files: the heading, one desync
line for offset 1 (tag type 3, data 7, zero bytes after the tag, was 2, is 9)
and the location line; the value returned is FALSE. -/
theorem mequal_noisy_sample :
    (mequal host_four header_le was_le now_le true).verdict = false ∧
    (mequal host_four header_le was_le now_le true).printed =
      [report.changed, report.desync 1 3 7 0 true 2 9, report.location 0 0 0 true] := by
  decide

/-! ## Draining to a sink -/

theorem slice_drop (buf : List Nat) (a n k : Int) (ha : 0 ≤ a) (hk : 0 ≤ k) (hn : k ≤ n) :
    (slice buf a n).drop k.toNat = slice buf (a + k) (n - k) := by
  unfold slice
  rw [List.drop_take, List.drop_drop]
  congr 2 <;> omega

theorem store_mf_loop_drains {σ : Type} (write : σ → List Nat → Int × σ) (buf : List Nat)
    (len : Int) (hlen : len ≤ buf.length)
    (hsink : ∀ s bytes, bytes ≠ [] →
      1 ≤ (write s bytes).1 ∧ (write s bytes).1 ≤ bytes.length) :
    ∀ (fuel : Nat) (left : Int) (s : σ), 0 ≤ left → left ≤ len → left.toNat ≤ fuel →
    ∃ s1 log, store_mf_loop write buf len fuel left s = some (s1, log) ∧
      drained (slice buf (len - left) left) log ∧
      accepted log = slice buf (len - left) left := by
  intro fuel
  induction fuel with
  | zero =>
    intro left s h0 h1 hf
    have e : left = 0 := by omega
    subst e
    refine ⟨s, [], by simp [store_mf_loop], ?_, ?_⟩
    · simp [drained, slice]
    · simp [accepted, slice]
  | succ n ih =>
    intro left s h0 h1 hf
    by_cases e : left = 0
    · subst e
      refine ⟨s, [], by simp [store_mf_loop], ?_, ?_⟩
      · simp [drained, slice]
      · simp [accepted, slice]
    · have hl : (slice buf (len - left) left).length = left.toNat :=
        slice_length buf _ _ (by omega) (by omega)
      have hne : slice buf (len - left) left ≠ [] := by
        intro hc
        rw [hc] at hl
        simp at hl
        omega
      obtain ⟨r1, r2⟩ := hsink s _ hne
      rw [hl] at r2
      obtain ⟨s1, log, a1, a2, a3⟩ :=
        ih (left - (write s (slice buf (len - left) left)).1)
          (write s (slice buf (len - left) left)).2 (by omega) (by omega) (by omega)
      have hd := slice_drop buf (len - left) left (write s (slice buf (len - left) left)).1
        (by omega) (by omega) (by omega)
      rw [show len - left + (write s (slice buf (len - left) left)).1 =
        len - (left - (write s (slice buf (len - left) left)).1) from by ring] at hd
      refine ⟨s1, (slice buf (len - left) left, (write s (slice buf (len - left) left)).1) :: log,
        ?_, ?_, ?_⟩
      · rw [store_mf_loop, if_pos e, if_neg (by omega), a1]
        rfl
      · refine ⟨rfl, r1, by rw [hl]; omega, ?_⟩
        rw [hd]
        exact a2
      · show List.take _ _ ++ accepted log = _
        rw [a3, ← hd]
        exact List.take_append_drop _ _

/-- C20: let `mf` satisfy the buffer invariant and let the sink accept, on
every call with a non-empty block, between one byte and the whole block.  With
a bound of at least `pos` iterations store_mf returns; its calls of `write`
drain `buf[0 .. pos)`: each call is offered exactly the bytes not yet accepted,
and the bytes accepted, in order, are `buf[0 .. pos)`; the memfile left is
`mnew(mf, NULL)` after `mfree(mf)`: `pos`, `len`, `diffpos`, `difflen` and
`relativepos` are 0, both buffers are null, there is no parent, `curcmd` is
`MDIFF_INVALID` and every bucket of the table is empty. -/
theorem store_mf_drains {σ : Type} (h : host) (write : σ → List Nat → Int × σ) (fuel : Nat)
    (fd : σ) (mf : memfile) (hw : mf.wf)
    (hsink : ∀ s bytes, bytes ≠ [] →
      1 ≤ (write s bytes).1 ∧ (write s bytes).1 ≤ bytes.length)
    (hfuel : mf.pos.toNat ≤ fuel) :
    ∃ m s1 log, store_mf h write fuel fd mf = some (m, s1, log) ∧
      drained mf.content log ∧ accepted log = mf.content ∧
      m = mnew h (mfree h mf) none ∧
      m.pos = 0 ∧ m.len = 0 ∧ m.diffpos = 0 ∧ m.difflen = 0 ∧ m.relativepos = 0 ∧
      m.buf = [] ∧ m.diffbuf = [] ∧ m.relativeto = none ∧ m.curcmd = MDIFF_INVALID ∧
      ∀ i : Int, 0 ≤ i → i < h.MEMFILE_HASHTABLE_SIZE → m.tags i = [] := by
  obtain ⟨w1, w2, w3⟩ := hw
  obtain ⟨s1, log, a1, a2, a3⟩ :=
    store_mf_loop_drains write mf.buf mf.pos (by omega) hsink fuel mf.pos fd w2 (le_refl _) hfuel
  have hc : slice mf.buf (mf.pos - mf.pos) mf.pos = mf.content := by
    rw [sub_self]
    unfold slice memfile.content
    simp
  rw [hc] at a2 a3
  refine ⟨mnew h (mfree h mf) none, s1, log, ?_, a2, a3, rfl, rfl, rfl, rfl, rfl, rfl, rfl, rfl,
    rfl, rfl, ?_⟩
  · unfold store_mf
    rw [a1]
    rfl
  · intro i hi0 hi1
    show (if 0 ≤ i ∧ i < h.MEMFILE_HASHTABLE_SIZE then [] else (mfree h mf).tags i) = []
    rw [if_pos ⟨hi0, hi1⟩]

theorem sink_two_accepts (s bytes : List Nat) (hb : bytes ≠ []) :
    1 ≤ (sink_two s bytes).1 ∧ (sink_two s bytes).1 ≤ bytes.length := by
  have hl : 0 < bytes.length := List.length_pos.mpr hb
  unfold sink_two
  simp only
  omega

theorem store_mf_drains_witness :
    was_le.wf ∧
    (∀ s bytes : List Nat, bytes ≠ [] →
      1 ≤ (sink_two s bytes).1 ∧ (sink_two s bytes).1 ≤ bytes.length) ∧
    was_le.pos.toNat ≤ 3 ∧
    ∃ m s1 log, store_mf host_le sink_two 3 [] was_le = some (m, s1, log) ∧
      drained was_le.content log ∧ accepted log = was_le.content ∧
      m = mnew host_le (mfree host_le was_le) none ∧
      m.pos = 0 ∧ m.len = 0 ∧ m.diffpos = 0 ∧ m.difflen = 0 ∧ m.relativepos = 0 ∧
      m.buf = [] ∧ m.diffbuf = [] ∧ m.relativeto = none ∧ m.curcmd = MDIFF_INVALID ∧
      ∀ i : Int, 0 ≤ i → i < host_le.MEMFILE_HASHTABLE_SIZE → m.tags i = [] :=
  ⟨by decide, sink_two_accepts, by decide,
    store_mf_drains host_le sink_two 3 [] was_le (by decide) sink_two_accepts (by decide)⟩

/-- The run of store_mf on the sample: the sink is offered the three bytes and
takes two, then is offered the last one and takes it. -/
theorem store_mf_sample :
    (store_mf host_le sink_two 3 [] was_le).map (fun r => (r.2.1, r.2.2, r.1.pos, r.1.buf))
      = some ([1, 2, 3], [([1, 2, 3], 2), ([3], 1)], 0, []) := by
  decide

/-! ## A failing sink -/

theorem store_mf_loop_stops {σ : Type} (write : σ → List Nat → Int × σ) (buf : List Nat)
    (len : Int) (hlen : len ≤ buf.length)
    (hsink : ∀ s bytes, bytes ≠ [] → (write s bytes).1 = -1 ∨
      (1 ≤ (write s bytes).1 ∧ (write s bytes).1 ≤ bytes.length)) :
    ∀ (fuel : Nat) (left : Int) (s : σ), 0 ≤ left → left ≤ len → left.toNat ≤ fuel →
    ∃ s1 log, store_mf_loop write buf len fuel left s = some (s1, log) ∧
      drained_or_failed (slice buf (len - left) left) log ∧
      (∃ rest, accepted log ++ rest = slice buf (len - left) left) ∧
      (left ≠ 0 → (write s (slice buf (len - left) left)).1 = -1 →
        log = [(slice buf (len - left) left, -1)] ∧
        s1 = (write s (slice buf (len - left) left)).2) := by
  intro fuel
  induction fuel with
  | zero =>
    intro left s h0 h1 hf
    have e : left = 0 := by omega
    subst e
    refine ⟨s, [], by simp [store_mf_loop], ?_, ⟨[], ?_⟩, fun hc => absurd rfl hc⟩
    · simp [drained_or_failed, slice]
    · simp [accepted, slice]
  | succ n ih =>
    intro left s h0 h1 hf
    by_cases e : left = 0
    · subst e
      refine ⟨s, [], by simp [store_mf_loop], ?_, ⟨[], ?_⟩, fun hc => absurd rfl hc⟩
      · simp [drained_or_failed, slice]
      · simp [accepted, slice]
    · have hl : (slice buf (len - left) left).length = left.toNat :=
        slice_length buf _ _ (by omega) (by omega)
      have hne : slice buf (len - left) left ≠ [] := by
        intro hc
        rw [hc] at hl
        simp at hl
        omega
      by_cases hfail : (write s (slice buf (len - left) left)).1 = -1
      · refine ⟨(write s (slice buf (len - left) left)).2,
          [(slice buf (len - left) left, -1)], ?_, ?_, ⟨slice buf (len - left) left, ?_⟩,
          fun _ _ => ⟨rfl, rfl⟩⟩
        · rw [store_mf_loop, if_pos e, if_pos hfail, hfail]
        · exact ⟨rfl, Or.inl ⟨rfl, rfl⟩⟩
        · simp [accepted]
      · obtain r | ⟨r1, r2⟩ := hsink s _ hne
        · exact absurd r hfail
        · rw [hl] at r2
          obtain ⟨s1, log, a1, a2, ⟨rest, a3⟩, _⟩ :=
            ih (left - (write s (slice buf (len - left) left)).1)
              (write s (slice buf (len - left) left)).2 (by omega) (by omega) (by omega)
          have hd := slice_drop buf (len - left) left
            (write s (slice buf (len - left) left)).1 (by omega) (by omega) (by omega)
          rw [show len - left + (write s (slice buf (len - left) left)).1 =
            len - (left - (write s (slice buf (len - left) left)).1) from by ring] at hd
          refine ⟨s1, (slice buf (len - left) left,
            (write s (slice buf (len - left) left)).1) :: log, ?_, ?_, ⟨rest, ?_⟩,
            fun _ hc => absurd hc hfail⟩
          · rw [store_mf_loop, if_pos e, if_neg hfail, a1]
            rfl
          · refine ⟨rfl, Or.inr ⟨r1, by rw [hl]; omega, ?_⟩⟩
            rw [hd]
            exact a2
          · show List.take _ _ ++ accepted log ++ rest = _
            rw [List.append_assoc, a3, ← hd]
            exact List.take_append_drop _ _

/-- C21, counterexample: the sink accepts two of the three bytes of the sample
file and returns -1 on the second call.  store_mf comes back as after a full
drain: the calls are the two made, the memfile is reset (`pos = 0`, no
buffer), the third byte is gone, and nothing tells the caller (the function
returns `void` and has no call of panic or terminate). -/
theorem store_mf_swallows_failure :
    (store_mf host_le sink_once 3 [] was_le).map (fun r => (r.2.1, r.2.2, r.1.pos, r.1.buf))
      = some ([1, 2], [([1, 2, 3], 2), ([3], -1)], 0, []) := by
  decide

/-- C21, amended: let `mf` satisfy the buffer invariant and let every call of
the sink on a non-empty block either return -1 or accept between one byte and
the whole block.  With a bound of at least `pos` iterations store_mf returns
normally: a call that returns -1 is the last call made, the bytes accepted
before it are a prefix of `buf[0 .. pos)`, what was not accepted is dropped,
and the memfile left is `mnew(mf, NULL)` after `mfree(mf)` exactly as after a
full drain; no error is signalled.  In particular, when the first call returns
-1 it is the only call. -/
theorem store_mf_failing_sink {σ : Type} (h : host) (write : σ → List Nat → Int × σ)
    (fuel : Nat) (fd : σ) (mf : memfile) (hw : mf.wf)
    (hsink : ∀ s bytes, bytes ≠ [] → (write s bytes).1 = -1 ∨
      (1 ≤ (write s bytes).1 ∧ (write s bytes).1 ≤ bytes.length))
    (hfuel : mf.pos.toNat ≤ fuel) :
    ∃ m s1 log, store_mf h write fuel fd mf = some (m, s1, log) ∧
      drained_or_failed mf.content log ∧
      (∃ rest, accepted log ++ rest = mf.content) ∧
      (0 < mf.pos → (write fd mf.content).1 = -1 →
        log = [(mf.content, -1)] ∧ s1 = (write fd mf.content).2) ∧
      m = mnew h (mfree h mf) none ∧ m.pos = 0 ∧ m.len = 0 ∧ m.buf = [] ∧
      m.diffbuf = [] ∧ m.relativeto = none ∧ m.curcmd = MDIFF_INVALID := by
  obtain ⟨w1, w2, w3⟩ := hw
  obtain ⟨s1, log, a1, a2, a3, a4⟩ :=
    store_mf_loop_stops write mf.buf mf.pos (by omega) hsink fuel mf.pos fd w2 (le_refl _) hfuel
  have hc : slice mf.buf (mf.pos - mf.pos) mf.pos = mf.content := by
    rw [sub_self]
    unfold slice memfile.content
    simp
  rw [hc] at a2 a3 a4
  refine ⟨mnew h (mfree h mf) none, s1, log, ?_, a2, a3, fun hp hf => a4 (by omega) hf,
    rfl, rfl, rfl, rfl, rfl, rfl, rfl⟩
  unfold store_mf
  rw [a1]
  rfl

theorem sink_once_returns (s bytes : List Nat) (hb : bytes ≠ []) :
    (sink_once s bytes).1 = -1 ∨
      (1 ≤ (sink_once s bytes).1 ∧ (sink_once s bytes).1 ≤ bytes.length) := by
  have hl : 0 < bytes.length := List.length_pos.mpr hb
  unfold sink_once
  split
  · right
    simp only
    omega
  · left
    rfl

theorem store_mf_failing_sink_witness :
    was_le.wf ∧
    (∀ s bytes : List Nat, bytes ≠ [] → (sink_once s bytes).1 = -1 ∨
      (1 ≤ (sink_once s bytes).1 ∧ (sink_once s bytes).1 ≤ bytes.length)) ∧
    was_le.pos.toNat ≤ 3 ∧
    ∃ m s1 log, store_mf host_le sink_once 3 [] was_le = some (m, s1, log) ∧
      drained_or_failed was_le.content log ∧
      (∃ rest, accepted log ++ rest = was_le.content) ∧
      (0 < was_le.pos → (sink_once [] was_le.content).1 = -1 →
        log = [(was_le.content, -1)] ∧ s1 = (sink_once [] was_le.content).2) ∧
      m = mnew host_le (mfree host_le was_le) none ∧ m.pos = 0 ∧ m.len = 0 ∧ m.buf = [] ∧
      m.diffbuf = [] ∧ m.relativeto = none ∧ m.curcmd = MDIFF_INVALID :=
  ⟨by decide, sink_once_returns, by decide,
    store_mf_failing_sink host_le sink_once 3 [] was_le (by decide) sink_once_returns
      (by decide)⟩

/-! ## Adding a tag -/

theorem mtag_seek_frame (h : host) :
    ∀ (fuel : Nat) (mf : memfile) (offset : Int),
    (mtag_seek fuel h mf offset).1.buf = mf.buf ∧
    (mtag_seek fuel h mf offset).1.len = mf.len ∧
    (mtag_seek fuel h mf offset).1.pos = mf.pos ∧
    (mtag_seek fuel h mf offset).1.relativeto = mf.relativeto ∧
    (mtag_seek fuel h mf offset).1.tags = mf.tags ∧
    (mtag_seek fuel h mf offset).1.curcmd = mf.curcmd := by
  intro fuel
  induction fuel with
  | zero =>
    intro mf offset
    exact ⟨rfl, rfl, rfl, rfl, rfl, rfl⟩
  | succ n ih =>
    intro mf offset
    rw [mtag_seek]
    split
    · split
      · obtain ⟨a1, a2, a3, a4, a5, a6⟩ :=
          ih (mdiffwrite14 h mf MDIFF_SEEK.code (-0x1fff)) (offset + 0x1fff)
        exact ⟨a1, a2, a3, a4, a5, a6⟩
      · obtain ⟨a1, a2, a3, a4, a5, a6⟩ :=
          ih (mdiffwrite14 h mf MDIFF_SEEK.code 0x1fff) (offset - 0x1fff)
        exact ⟨a1, a2, a3, a4, a5, a6⟩
    · exact ⟨rfl, rfl, rfl, rfl, rfl, rfl⟩

theorem mtag_realign_frame (h : host) (m : memfile) (tagpos offset : Int) :
    (mtag_realign h m tagpos offset).buf = m.buf ∧
    (mtag_realign h m tagpos offset).len = m.len ∧
    (mtag_realign h m tagpos offset).pos = m.pos ∧
    (mtag_realign h m tagpos offset).relativeto = m.relativeto ∧
    (mtag_realign h m tagpos offset).tags = m.tags := by
  obtain ⟨a1, a2, a3, a4, a5, _⟩ := mtag_seek_frame h (offset + m.curcount).natAbs m offset
  exact ⟨a1, a2, a3, a4, a5⟩

/-- What mtag leaves alone: the data buffer, its length, the cursor and the
parent; the tag index is the one with the new record at the head of its
bucket chain. -/
theorem mtag_frame (h : host) (mf m : memfile) (tagdata tagtype : Int)
    (e : mtag h mf tagdata tagtype = .ok m) :
    m.buf = mf.buf ∧ m.len = mf.len ∧ m.pos = mf.pos ∧ m.relativeto = mf.relativeto ∧
    m.tags = (mtag_add h mf tagdata tagtype).tags := by
  have hb := mtag_in_table h mf m tagdata tagtype e
  cases hp : mf.relativeto with
  | none =>
    rw [mtag_eq_parentless h mf tagdata tagtype hb hp] at e
    cases e
    exact ⟨rfl, rfl, rfl, hp, rfl⟩
  | some P =>
    cases hf : parent_tag h P tagdata tagtype with
    | none =>
      rw [mtag_eq_none h mf P tagdata tagtype hb hp hf] at e
      cases e
      exact ⟨rfl, rfl, rfl, hp, rfl⟩
    | some tag =>
      by_cases hr : mf.relativepos = tag.pos
      · rw [mtag_eq_same h mf P tagdata tagtype tag hb hp hf hr] at e
        cases e
        exact ⟨rfl, rfl, rfl, hp, rfl⟩
      · rw [mtag_eq_found h mf P tagdata tagtype tag hb hp hf hr, map_eq_ok] at e
        obtain ⟨m0, hm0, rfl⟩ := e
        obtain ⟨f1, f2, f3, f4, _, f6⟩ := mtag_flush_frame h _ m0 hm0
        obtain ⟨g1, g2, g3, g4, g5⟩ := mtag_realign_frame h m0 tag.pos (mf.relativepos - tag.pos)
        exact ⟨g1.trans f1, g2.trans f2, g3.trans f3, (g4.trans f4).trans hp, g5.trans f6⟩

theorem mtag_returns (h : host) (mf : memfile) (tagdata tagtype : Int)
    (hb : in_table h tagdata tagtype) (he : mf.edit_ok) :
    ∃ m, mtag h mf tagdata tagtype = .ok m := by
  cases hp : mf.relativeto with
  | none => exact ⟨_, mtag_eq_parentless h mf tagdata tagtype hb hp⟩
  | some P =>
    cases hf : parent_tag h P tagdata tagtype with
    | none => exact ⟨_, mtag_eq_none h mf P tagdata tagtype hb hp hf⟩
    | some tag =>
      by_cases hr : mf.relativepos = tag.pos
      · exact ⟨_, mtag_eq_same h mf P tagdata tagtype tag hb hp hf hr⟩
      · obtain ⟨m0, hm0⟩ := mtag_flush_ok h (mtag_add h mf tagdata tagtype) he
        exact ⟨_, by rw [mtag_eq_found h mf P tagdata tagtype tag hb hp hf hr, hm0]; rfl⟩

/-- C22: for a tag id `id >= 0` and a tag kind `kind >= 0` (the values of the
enumeration), the table having at least one bucket, the bucket of mtag is
`(id * 619 + kind) mod MEMFILE_HASHTABLE_SIZE`, inside the table.  Whenever
`mtag(mf, id, kind)` returns, the chain of that bucket is the record
`(id, kind, pos)` followed by the previous chain, every other bucket is
unchanged, and `pos`, the data buffer and its length are unchanged; the call
returns unless a pending edit run is longer than the data written.  The
embedding computes `id * 619 + kind` in the integers, which is the value of C
when the `long` does not overflow. -/
theorem mtag_adds_record (h : host) (mf : memfile) (id kind : Int) (hid : 0 ≤ id)
    (hk : 0 ≤ kind) (hs : 0 < h.MEMFILE_HASHTABLE_SIZE) :
    mtag_bucket h id kind = (id * 619 + kind) % h.MEMFILE_HASHTABLE_SIZE ∧
    0 ≤ mtag_bucket h id kind ∧ mtag_bucket h id kind < h.MEMFILE_HASHTABLE_SIZE ∧
    (∀ m, mtag h mf id kind = .ok m →
      m.tags (mtag_bucket h id kind) =
        { tagdata := id, tagtype := kind, pos := mf.pos } :: mf.tags (mtag_bucket h id kind) ∧
      (∀ b, b ≠ mtag_bucket h id kind → m.tags b = mf.tags b) ∧
      m.pos = mf.pos ∧ m.buf = mf.buf ∧ m.len = mf.len) ∧
    (mf.edit_ok → ∃ m, mtag h mf id kind = .ok m) := by
  have hb : mtag_bucket h id kind = (id * 619 + kind) % h.MEMFILE_HASHTABLE_SIZE := by
    unfold mtag_bucket
    exact Int.tmod_eq_emod (by positivity) (le_of_lt hs)
  have hlo : 0 ≤ mtag_bucket h id kind := by
    rw [hb]
    exact Int.emod_nonneg _ (ne_of_gt hs)
  have hhi : mtag_bucket h id kind < h.MEMFILE_HASHTABLE_SIZE := by
    rw [hb]
    exact Int.emod_lt_of_pos _ hs
  refine ⟨hb, hlo, hhi, ?_, mtag_returns h mf id kind ⟨hlo, hhi⟩⟩
  · intro m e
    obtain ⟨f1, f2, f3, _, f5⟩ := mtag_frame h mf m id kind e
    refine ⟨?_, ?_, f3, f1, f2⟩
    · rw [f5]
      unfold mtag_add
      simp
    · intro b hne
      rw [f5]
      unfold mtag_add
      simp [Function.update, hne]

theorem mtag_adds_record_witness :
    (0 : Int) ≤ 5 ∧ (0 : Int) ≤ 1 ∧ 0 < host_le.MEMFILE_HASHTABLE_SIZE ∧
    mtag_bucket host_le 5 1 = (5 * 619 + 1) % host_le.MEMFILE_HASHTABLE_SIZE ∧
    0 ≤ mtag_bucket host_le 5 1 ∧ mtag_bucket host_le 5 1 < host_le.MEMFILE_HASHTABLE_SIZE ∧
    (∀ m, mtag host_le fresh_le 5 1 = .ok m →
      m.tags (mtag_bucket host_le 5 1) =
        { tagdata := 5, tagtype := 1, pos := fresh_le.pos } ::
          fresh_le.tags (mtag_bucket host_le 5 1) ∧
      (∀ b, b ≠ mtag_bucket host_le 5 1 → m.tags b = fresh_le.tags b) ∧
      m.pos = fresh_le.pos ∧ m.buf = fresh_le.buf ∧ m.len = fresh_le.len) ∧
    (fresh_le.edit_ok → ∃ m, mtag host_le fresh_le 5 1 = .ok m) :=
  ⟨by decide, by decide, by decide,
    mtag_adds_record host_le fresh_le 5 1 (by decide) (by decide) (by decide)⟩

/-- C23, the code at the failing input: for the tag id -1 and the kind 0 the
remainder of C is negative, `(-619) % 1009 = -619`, so mtag indexes
`mf->tags[-619]`, outside the table; the same holds for every table of more
than 619 buckets.  The first statements of mtag store the new record at that
index (`mtag_add`), 619 chain heads in front of the table, and the call ends
with `TAGS_OUT_OF_BOUNDS`. -/
theorem mtag_bucket_negative :
    mtag_bucket host_le (-1) 0 = -619 ∧ ¬ (0 ≤ mtag_bucket host_le (-1) 0) ∧
    (∀ h : host, 619 < h.MEMFILE_HASHTABLE_SIZE → mtag_bucket h (-1) 0 = -619) ∧
    (mtag_add host_le fresh_le (-1) 0).tags (-619)
      = [{ tagdata := -1, tagtype := 0, pos := 0 }] ∧
    ¬ in_table host_le (-1) 0 ∧
    mtag host_le fresh_le (-1) 0 = .error fatal.TAGS_OUT_OF_BOUNDS := by
  refine ⟨by decide, by decide, ?_, by decide, by decide,
    mtag_out_of_table host_le fresh_le (-1) 0 (by decide)⟩
  intro h hs
  unfold mtag_bucket
  show Int.tmod (-619) h.MEMFILE_HASHTABLE_SIZE = -619
  rw [Int.tmod_def, show (-619 : Int) = -(619 : Int) from rfl, Int.neg_tdiv,
    Int.tdiv_eq_zero_of_lt (by norm_num) hs]
  norm_num

/-! ## Mapping a region -/

/-- C25: for a memfile whose buffer holds `len` bytes and for `off >= 0` (and
`len` of any sign, `len >= 0` included), after `mmmap(mf, len, off)` the capacity is at least `off + len`
(and not less than before), so the view of `len` bytes at buffer offset `off`
that the call returns lies inside the buffer; `pos` is the larger of the old
`pos` and `off + len`; the bytes the buffer held, the tag index, the parent
and the diff fields are unchanged. -/
theorem mmmap_maps (h : host) (mf : memfile) (len off : Int) (ho : 0 ≤ off)
    (hb : (mf.buf.length : Int) = mf.len) :
    off + len ≤ (mmmap h mf len off).len ∧
    ((mmmap h mf len off).buf.length : Int) = (mmmap h mf len off).len ∧
    mf.len ≤ (mmmap h mf len off).len ∧
    (slice (mmmap h mf len off).buf off len).length = len.toNat ∧
    (mmmap h mf len off).pos = max mf.pos (off + len) ∧
    (off + len ≤ mf.pos → (mmmap h mf len off).pos = mf.pos) ∧
    (∀ k, k ≤ mf.buf.length → (mmmap h mf len off).buf.take k = mf.buf.take k) ∧
    (mmmap h mf len off).tags = mf.tags ∧
    (mmmap h mf len off).relativeto = mf.relativeto ∧
    same_diff mf (mmmap h mf len off) := by
  obtain ⟨e1, e2, e3, _, e5⟩ := expand_memfile_spec h mf (len + off) hb
  have hbuf : (mmmap h mf len off).buf = (expand_memfile h mf (len + off)).buf := by
    unfold mmmap
    simp only
    split <;> rfl
  have hlen : (mmmap h mf len off).len = (expand_memfile h mf (len + off)).len := by
    unfold mmmap
    simp only
    split <;> rfl
  have hpos : (mmmap h mf len off).pos = max mf.pos (off + len) := by
    unfold mmmap
    simp only [expand_memfile_pos]
    split
    · show len + off = max mf.pos (off + len)
      omega
    · show (expand_memfile h mf (len + off)).pos = max mf.pos (off + len)
      rw [expand_memfile_pos]
      omega
  have hrest : (mmmap h mf len off).tags = mf.tags ∧
      (mmmap h mf len off).relativeto = mf.relativeto ∧ same_diff mf (mmmap h mf len off) := by
    unfold mmmap same_diff
    simp only
    split <;> simp
  refine ⟨by rw [hlen]; omega, by rw [hbuf, hlen]; exact e1, by rw [hlen]; exact e2, ?_, hpos,
    fun hfit => by rw [hpos]; omega, fun k hk => by rw [hbuf]; exact e5 k hk, hrest⟩
  rw [hbuf]
  exact slice_length _ off len ho (by omega)

theorem mmmap_maps_witness :
    (0 : Int) ≤ 4 ∧ (was_le.buf.length : Int) = was_le.len ∧
    4 + 2 ≤ (mmmap host_le was_le 2 4).len ∧
    ((mmmap host_le was_le 2 4).buf.length : Int) = (mmmap host_le was_le 2 4).len ∧
    was_le.len ≤ (mmmap host_le was_le 2 4).len ∧
    (slice (mmmap host_le was_le 2 4).buf 4 2).length = (2 : Int).toNat ∧
    (mmmap host_le was_le 2 4).pos = max was_le.pos (4 + 2) ∧
    (4 + 2 ≤ was_le.pos → (mmmap host_le was_le 2 4).pos = was_le.pos) ∧
    (∀ k, k ≤ was_le.buf.length →
      (mmmap host_le was_le 2 4).buf.take k = was_le.buf.take k) ∧
    (mmmap host_le was_le 2 4).tags = was_le.tags ∧
    (mmmap host_le was_le 2 4).relativeto = was_le.relativeto ∧
    same_diff was_le (mmmap host_le was_le 2 4) :=
  ⟨by decide, by decide, mmmap_maps host_le was_le 2 4 (by decide) (by decide)⟩

/-- The run of C25 on the sample: the three bytes are kept, the capacity
becomes 4096 and the cursor 6. -/
theorem mmmap_sample :
    ((mmmap host_le was_le 2 4).pos, (mmmap host_le was_le 2 4).len,
      (mmmap host_le was_le 2 4).buf.take 3) = (6, 4096, [1, 2, 3]) := by
  decide

/-! ## Packing a command unit -/

/-- C26: for a command selector `c < 4` and a payload `v`, let `w` be
`(v mod 2^14) + c * 2^14`.  It is the 16-bit word that mdiffwrite14 computes;
the call appends the two bytes `w mod 256`, `w / 256` (least significant byte
first, on every host) to the diff stream and nothing else.  `w >> 14` is `c`,
the low 14 bits of `w` are `v mod 2^14`; read unsigned they are `v` for
`0 <= v <= 16383`, and sign-extended from bit 13 they are `v` for
`-8192 <= v <= 8191`. -/
theorem mdiffwrite14_packs (h : host) (mf : memfile) (c : Nat) (v : Int) (hc : c < 4)
    (hd : mf.diff_wf) :
    (Nat.lor (Nat.land (to_unsigned 16 v) 0x3fff) (c <<< 14)) % 2 ^ 16
      = (v % 2 ^ 14).toNat + c * 2 ^ 14 ∧
    (mdiffwrite14 h mf c v).diffstream = mf.diffstream ++
      [((v % 2 ^ 14).toNat + c * 2 ^ 14) % 256, ((v % 2 ^ 14).toNat + c * 2 ^ 14) / 256] ∧
    (mdiffwrite14 h mf c v).diffpos = mf.diffpos + 2 ∧
    (mdiffwrite14 h mf c v).diff_wf ∧
    (v % 2 ^ 14).toNat + c * 2 ^ 14 < 2 ^ 16 ∧
    ((v % 2 ^ 14).toNat + c * 2 ^ 14) / 2 ^ 14 = c ∧
    ((v % 2 ^ 14).toNat + c * 2 ^ 14) % 2 ^ 14 = (v % 2 ^ 14).toNat ∧
    (0 ≤ v → v ≤ 16383 → ((((v % 2 ^ 14).toNat + c * 2 ^ 14) % 2 ^ 14 : Nat) : Int) = v) ∧
    (-8192 ≤ v → v ≤ 8191 → to_signed 14 (((v % 2 ^ 14).toNat + c * 2 ^ 14) % 2 ^ 14) = v) := by
  have hv : (v % 2 ^ 14).toNat < 2 ^ 14 := by omega
  have hw : (v % 2 ^ 14).toNat + c * 2 ^ 14 < 2 ^ 16 := by omega
  have hlow : ((v % 2 ^ 14).toNat + c * 2 ^ 14) % 2 ^ 14 = (v % 2 ^ 14).toNat := by omega
  have e := mdiffwrite14_eq h mf c v hc
  have s := mdiffwrite_stream h mf (le_bytes 2 ((v % 2 ^ 14).toNat + c * 2 ^ 14)) hd
  rw [(unit_bytes _ hw).1] at s e
  refine ⟨unit_word c v hc, by rw [e]; exact s.1, ?_, by rw [e]; exact s.2, hw, by omega, hlow,
    ?_, ?_⟩
  · rw [e, mdiffwrite_diffpos]
    rfl
  · intro h0 h1
    rw [hlow]
    omega
  · intro h0 h1
    rw [hlow]
    unfold to_signed
    split <;> omega

theorem mdiffwrite14_packs_witness :
    2 < 4 ∧ (mnew host_be memfile.zero none).diff_wf ∧
    (Nat.lor (Nat.land (to_unsigned 16 (-5)) 0x3fff) (2 <<< 14)) % 2 ^ 16
      = ((-5 : Int) % 2 ^ 14).toNat + 2 * 2 ^ 14 ∧
    (mdiffwrite14 host_be (mnew host_be memfile.zero none) 2 (-5)).diffstream =
      (mnew host_be memfile.zero none).diffstream ++
      [(((-5 : Int) % 2 ^ 14).toNat + 2 * 2 ^ 14) % 256,
        (((-5 : Int) % 2 ^ 14).toNat + 2 * 2 ^ 14) / 256] ∧
    (mdiffwrite14 host_be (mnew host_be memfile.zero none) 2 (-5)).diffpos =
      (mnew host_be memfile.zero none).diffpos + 2 ∧
    (mdiffwrite14 host_be (mnew host_be memfile.zero none) 2 (-5)).diff_wf ∧
    ((-5 : Int) % 2 ^ 14).toNat + 2 * 2 ^ 14 < 2 ^ 16 ∧
    (((-5 : Int) % 2 ^ 14).toNat + 2 * 2 ^ 14) / 2 ^ 14 = 2 ∧
    (((-5 : Int) % 2 ^ 14).toNat + 2 * 2 ^ 14) % 2 ^ 14 = ((-5 : Int) % 2 ^ 14).toNat ∧
    (0 ≤ (-5 : Int) → (-5 : Int) ≤ 16383 →
      (((((-5 : Int) % 2 ^ 14).toNat + 2 * 2 ^ 14) % 2 ^ 14 : Nat) : Int) = -5) ∧
    (-8192 ≤ (-5 : Int) → (-5 : Int) ≤ 8191 →
      to_signed 14 ((((-5 : Int) % 2 ^ 14).toNat + 2 * 2 ^ 14) % 2 ^ 14) = -5) :=
  ⟨by decide, ⟨rfl, le_refl _, le_refl _⟩,
    mdiffwrite14_packs host_be (mnew host_be memfile.zero none) 2 (-5) (by decide)
      ⟨rfl, le_refl _, le_refl _⟩⟩

/-- The unit of C26 on the big-endian sample host: a seek of -5 is the word
0xbffb, written as the bytes fb, bf. -/
theorem mdiffwrite14_sample :
    (mdiffwrite14 host_be (mnew host_be memfile.zero none) 2 (-5)).diffstream = [0xfb, 0xbf] := by
  decide

/-! ## Flushing the pending command -/

theorem command_unit_length (c : memfile_diffcmd) (v : Int) : (command_unit c v).length = 2 :=
  le_bytes_length 2 _

theorem mdiffflush_stream (h : host) (mf f : memfile) (hd : mf.diff_wf)
    (e : mdiffflush h mf = .ok f) :
    f.diffstream = mf.diffstream ++ flush_bytes mf ∧ f.diff_wf := by
  by_cases h1 : mf.curcmd = MDIFF_INVALID
  · rw [mdiffflush_invalid h mf h1] at e
    cases e
    unfold flush_bytes
    rw [h1]
    exact ⟨by simp, hd⟩
  · by_cases h2 : mf.curcmd = MDIFF_EDIT
    · by_cases h3 : mf.curcount > mf.pos ∨ mf.curcount < 0
      · rw [mdiffflush_edit_panic h mf h2 h3] at e
        cases e
      · rw [mdiffflush_edit h mf h2 (by omega) (by omega)] at e
        cases e
        have a1 := mdiffwrite14_stream h mf MDIFF_EDIT mf.curcount hd
        have a2 := mdiffwrite_stream h (mdiffwrite14 h mf MDIFF_EDIT.code mf.curcount)
          (slice mf.buf (mf.pos - mf.curcount) mf.curcount) a1.2
        rw [a1.1] at a2
        unfold flush_bytes
        rw [h2]
        simp only
        rw [← List.append_assoc]
        exact a2
    · rw [mdiffflush_unit h mf h1 h2] at e
      cases e
      have a1 := mdiffwrite14_stream h mf mf.curcmd mf.curcount hd
      unfold flush_bytes
      cases hc : mf.curcmd with
      | MDIFF_INVALID => exact absurd hc h1
      | MDIFF_EDIT => exact absurd hc h2
      | MDIFF_COPY =>
        rw [hc] at a1
        exact a1
      | MDIFF_SEEK =>
        rw [hc] at a1
        exact a1

/-- C28: for a memfile with a well-formed data buffer and diff buffer.  With
`curcmd = MDIFF_EDIT` and `0 <= curcount <= pos`, mdiffflush appends the
command unit and then the `curcount` bytes `buf[pos - curcount .. pos)`; with
`MDIFF_COPY` or `MDIFF_SEEK` it appends only the unit (two bytes); with
`MDIFF_INVALID` it returns the memfile as it is.  Whenever it returns, `curcmd`
is `MDIFF_INVALID`, `pos`, the data buffer, `relativepos`, the tags and
`curcount` are unchanged, and a second mdiffflush returns the same memfile. -/
theorem mdiffflush_appends (h : host) (mf : memfile) (hw : mf.wf) (hd : mf.diff_wf) :
    (mf.curcmd = MDIFF_EDIT → 0 ≤ mf.curcount → mf.curcount ≤ mf.pos →
      ∃ f, mdiffflush h mf = .ok f ∧
        f.diffstream = mf.diffstream ++ command_unit MDIFF_EDIT mf.curcount
          ++ slice mf.buf (mf.pos - mf.curcount) mf.curcount ∧
        (slice mf.buf (mf.pos - mf.curcount) mf.curcount).length = mf.curcount.toNat) ∧
    (mf.curcmd = MDIFF_COPY ∨ mf.curcmd = MDIFF_SEEK →
      ∃ f, mdiffflush h mf = .ok f ∧
        f.diffstream = mf.diffstream ++ command_unit mf.curcmd mf.curcount ∧
        (command_unit mf.curcmd mf.curcount).length = 2) ∧
    (mf.curcmd = MDIFF_INVALID → mdiffflush h mf = .ok mf) ∧
    (∀ f, mdiffflush h mf = .ok f →
      f.curcmd = MDIFF_INVALID ∧ f.pos = mf.pos ∧ f.buf = mf.buf ∧ f.len = mf.len ∧
      f.relativepos = mf.relativepos ∧ f.tags = mf.tags ∧ f.curcount = mf.curcount ∧
      f.diffstream = mf.diffstream ++ flush_bytes mf ∧
      mdiffflush h f = .ok f) := by
  refine ⟨?_, ?_, mdiffflush_invalid h mf, ?_⟩
  · intro hc h0 h1
    have e := mdiffflush_edit h mf hc h0 h1
    have s := (mdiffflush_stream h mf _ hd e).1
    unfold flush_bytes at s
    rw [hc] at s
    simp only at s
    rw [← List.append_assoc] at s
    exact ⟨_, e, s, slice_length _ _ _ (by omega) (by have := hw.1; have := hw.2.2; omega)⟩
  · intro hc
    have h1 : mf.curcmd ≠ MDIFF_INVALID := by rcases hc with hc | hc <;> rw [hc] <;> decide
    have h2 : mf.curcmd ≠ MDIFF_EDIT := by rcases hc with hc | hc <;> rw [hc] <;> decide
    have e := mdiffflush_unit h mf h1 h2
    have s := (mdiffflush_stream h mf _ hd e).1
    refine ⟨_, e, ?_, command_unit_length _ _⟩
    rw [s]
    unfold flush_bytes
    rcases hc with hc | hc <;> rw [hc]
  · intro f e
    obtain ⟨f1, f2, f3, _, f5, f6, f7, f8⟩ := mdiffflush_frame h mf f e
    exact ⟨f8, f3, f1, f2, f5, f6, f7, (mdiffflush_stream h mf f hd e).1,
      mdiffflush_invalid h f f8⟩

theorem mdiffflush_appends_witness :
    edit_le.wf ∧ edit_le.diff_wf ∧
    (∃ f, mdiffflush host_le edit_le = .ok f ∧
      f.diffstream = edit_le.diffstream ++ command_unit MDIFF_EDIT edit_le.curcount
        ++ slice edit_le.buf (edit_le.pos - edit_le.curcount) edit_le.curcount ∧
      (slice edit_le.buf (edit_le.pos - edit_le.curcount) edit_le.curcount).length
        = edit_le.curcount.toNat) ∧
    (∀ f, mdiffflush host_le edit_le = .ok f →
      f.curcmd = MDIFF_INVALID ∧ f.pos = edit_le.pos ∧ f.buf = edit_le.buf ∧
      f.len = edit_le.len ∧
      f.relativepos = edit_le.relativepos ∧ f.tags = edit_le.tags ∧
      f.curcount = edit_le.curcount ∧
      f.diffstream = edit_le.diffstream ++ flush_bytes edit_le ∧
      mdiffflush host_le f = .ok f) :=
  ⟨by decide, ⟨rfl, le_refl _, le_refl _⟩,
    (mdiffflush_appends host_le edit_le (by decide) ⟨rfl, le_refl _, le_refl _⟩).1 rfl
      (by decide) (by decide),
    (mdiffflush_appends host_le edit_le (by decide) ⟨rfl, le_refl _, le_refl _⟩).2.2.2⟩

/-- The flush of C28 on the sample: the edit unit of run length 2 (the word
0x4002) and the two bytes before the cursor. -/
theorem mdiffflush_sample :
    (mdiffflush host_le edit_le).toOption.map (fun f => (f.diffstream, f.curcmd, f.pos))
      = some ([0x02, 0x40, 8, 9], MDIFF_INVALID, 3) := by
  decide

/-! ## One byte written to a diff file -/

/-- The state after the first two statements of mwrite: the buffer holds the
data at the cursor, has room for it, keeps what stood before the cursor; no
other field has moved. -/
theorem mwrite_copy_fields (h : host) (mf : memfile) (data : List Nat) (hw : mf.wf) :
    ((mwrite_copy h mf data).buf.length : Int) = (mwrite_copy h mf data).len ∧
    mf.pos + data.length ≤ (mwrite_copy h mf data).len ∧
    mf.len ≤ (mwrite_copy h mf data).len ∧
    (mwrite_copy h mf data).len = (expand_memfile h mf (mf.pos + data.length)).len ∧
    slice (mwrite_copy h mf data).buf mf.pos data.length = data ∧
    (mwrite_copy h mf data).buf.take mf.pos.toNat = mf.buf.take mf.pos.toNat ∧
    (mwrite_copy h mf data).pos = mf.pos ∧
    (mwrite_copy h mf data).relativeto = mf.relativeto ∧
    (mwrite_copy h mf data).tags = mf.tags ∧
    same_diff mf (mwrite_copy h mf data) := by
  have w := mwrite_copy_spec h mf data hw
  have w1 := w.wf
  have w2 := w.pos_eq
  refine ⟨w1.1, ?_, w.len_ge, ?_, w.at_pos, w.before, ?_, ?_, ?_, ?_⟩
  · have := w1.2.2
    have e : ({ mwrite_copy h mf data with pos := mf.pos + data.length } : memfile).pos
        = mf.pos + data.length := rfl
    rw [e] at this
    exact this
  · simp [mwrite_copy]
  · simp [mwrite_copy]
  · simp [mwrite_copy]
  · simp [mwrite_copy]
  · unfold same_diff
    simp [mwrite_copy]

theorem flush_bytes_congr (mf m : memfile) (he : mf.edit_ok)
    (hb : m.buf.take mf.pos.toNat = mf.buf.take mf.pos.toNat) (hp : m.pos = mf.pos)
    (hc : m.curcmd = mf.curcmd) (hn : m.curcount = mf.curcount) :
    flush_bytes m = flush_bytes mf := by
  unfold flush_bytes
  rw [hc, hn, hp]
  cases hk : mf.curcmd with
  | MDIFF_INVALID => rfl
  | MDIFF_COPY => rfl
  | MDIFF_SEEK => rfl
  | MDIFF_EDIT =>
    simp only
    obtain ⟨e1, e2⟩ := he hk
    have e : slice m.buf (mf.pos - mf.curcount) mf.curcount
        = slice mf.buf (mf.pos - mf.curcount) mf.curcount := by
      have := slice_of_take_eq m.buf mf.buf mf.pos.toNat (mf.pos - mf.curcount)
        mf.curcount.toNat (by omega) (by omega) hb
      rw [Int.toNat_of_nonneg e1] at this
      exact this
    rw [e]

theorem diffstream_congr (mf m : memfile) (hs : same_diff mf m) :
    m.diffstream = mf.diffstream ∧ (mf.diff_wf → m.diff_wf) := by
  obtain ⟨s1, s2, s3, _, _, _⟩ := hs
  unfold memfile.diffstream memfile.diff_wf
  rw [s1, s2, s3]
  exact ⟨rfl, fun x => x⟩

/-- C27: let `mf` be a diff memfile with parent `P`, with well-formed buffers,
a pending edit run not longer than the data and `curcount <= 0x3fff` (what the
writer maintains), and let one byte `b` be written with mwrite.  The call
returns; the pending command is `MDIFF_COPY` if `relativepos < P.pos` and
`b = P.buf[relativepos]`, `MDIFF_EDIT` otherwise; if the pending command
already was that one with `curcount < 0x3fff`, `curcount` grows by 1 and
nothing is written to the diff stream; otherwise `curcount` is 1 and the diff
stream has received what mdiffflush writes for the previous pending command;
`pos` and `relativepos` grow by 1 and `b` stands at the old cursor. -/
theorem mwrite_byte_step (h : host) (mf P : memfile) (b : Nat)
    (hp : mf.relativeto = some P) (hw : mf.wf) (hd : mf.diff_wf) (he : mf.edit_ok)
    (hc : mf.curcount ≤ 0x3fff) :
    ∃ m, mwrite h mf [b] = .ok m ∧
      m.curcmd = (if mf.relativepos < P.pos ∧ b = byte_at P.buf mf.relativepos
        then MDIFF_COPY else MDIFF_EDIT) ∧
      m.pos = mf.pos + 1 ∧ m.relativepos = mf.relativepos + 1 ∧
      byte_at m.buf mf.pos = b ∧
      ((mf.curcmd = (if mf.relativepos < P.pos ∧ b = byte_at P.buf mf.relativepos
            then MDIFF_COPY else MDIFF_EDIT) ∧ mf.curcount < 0x3fff) →
        m.curcount = mf.curcount + 1 ∧ m.diffstream = mf.diffstream) ∧
      (¬ (mf.curcmd = (if mf.relativepos < P.pos ∧ b = byte_at P.buf mf.relativepos
            then MDIFF_COPY else MDIFF_EDIT) ∧ mf.curcount < 0x3fff) →
        m.curcount = 1 ∧ m.diffstream = mf.diffstream ++ flush_bytes mf) := by
  obtain ⟨c1, c2, c3, c4, c5, c6, c7, c8, c9, c10⟩ := mwrite_copy_fields h mf [b] hw
  obtain ⟨S, hS⟩ : ∃ x : memfile, x = mwrite_copy h mf [b] := ⟨_, rfl⟩
  rw [← hS] at c1 c2 c3 c4 c5 c6 c7 c8 c9 c10
  obtain ⟨s1, s2, s3, s4, s5, s6⟩ := c10
  have hbyte : byte_at S.buf S.pos = b := by
    have := byte_at_of_slice S.buf [b] mf.pos 0 hw.2.1 c5 (by simp)
    rw [c7]
    simpa using this
  obtain ⟨k, hk⟩ : ∃ x : memfile_diffcmd, x =
      (if mf.relativepos < P.pos ∧ b = byte_at P.buf mf.relativepos
        then MDIFF_COPY else MDIFF_EDIT) := ⟨_, rfl⟩
  rw [← hk]
  have hkind : run_kind P S.buf S.pos S.relativepos = k := by
    unfold run_kind
    rw [hbyte, s4, hk]
  have e0 : mwrite h mf [b] = (mwrite_run h S k >>= fun m =>
      mwrite_diff h P 0 { m with pos := m.pos + 1, relativepos := m.relativepos + 1 }) := by
    rw [mwrite_diff_file h mf P [b] hp, ← hS]
    show mwrite_diff h P (0 + 1) S = _
    rw [mwrite_diff_succ, hkind]
  have hds := diffstream_congr mf S ⟨s1, s2, s3, s4, s5, s6⟩
  have heS : S.edit_ok := by
    intro hx
    rw [s5] at hx
    rw [s6, c7]
    exact he hx
  by_cases hcont : mf.curcmd = k ∧ mf.curcount < 0x3fff
  · have e1 := mwrite_run_continue h S k (by rw [s5]; exact hcont.1) (by rw [s6]; omega)
    refine ⟨{ S with curcmd := k, curcount := S.curcount + 1, pos := S.pos + 1, relativepos := S.relativepos + 1 },
      ?_, rfl, ?_, ?_, ?_, ?_, fun hn => absurd hcont hn⟩
    · rw [e0, e1]
      rfl
    · show S.pos + 1 = _
      rw [c7]
    · show S.relativepos + 1 = _
      rw [s4]
    · show byte_at S.buf mf.pos = b
      rw [← c7]
      exact hbyte
    · intro _
      refine ⟨?_, hds.1⟩
      show S.curcount + 1 = _
      rw [s6]
  · obtain ⟨f, hf⟩ := mdiffflush_ok h S heS
    obtain ⟨f1, f2, f3, f4, f5, f6, f7, f8⟩ := mdiffflush_frame h S f hf
    have e1 := mwrite_run_flush h S f k (by
      rw [s5, s6]
      by_cases hx : mf.curcmd = k
      · right
        have : ¬ mf.curcount < 0x3fff := fun hy => hcont ⟨hx, hy⟩
        omega
      · left
        exact hx) hf
    have hfs := (mdiffflush_stream h S f (hds.2 hd) hf).1
    rw [hds.1, flush_bytes_congr mf S he c6 c7 s5 s6] at hfs
    refine ⟨{ f with curcmd := k, curcount := 1, pos := f.pos + 1, relativepos := f.relativepos + 1 },
      ?_, rfl, ?_, ?_, ?_, fun hy => absurd hy hcont, ?_⟩
    · rw [e0, e1]
      rfl
    · show f.pos + 1 = _
      rw [f3, c7]
    · show f.relativepos + 1 = _
      rw [f5, s4]
    · show byte_at f.buf mf.pos = b
      rw [f1, ← c7]
      exact hbyte
    · intro _
      exact ⟨rfl, hfs⟩

theorem mwrite_byte_step_witness :
    edit_le.relativeto = some parent_le ∧ edit_le.wf ∧ edit_le.diff_wf ∧ edit_le.edit_ok ∧
    edit_le.curcount ≤ 0x3fff ∧
    ∃ m, mwrite host_le edit_le [4] = .ok m ∧
      m.curcmd = (if edit_le.relativepos < parent_le.pos ∧
          4 = byte_at parent_le.buf edit_le.relativepos
        then MDIFF_COPY else MDIFF_EDIT) ∧
      m.pos = edit_le.pos + 1 ∧ m.relativepos = edit_le.relativepos + 1 ∧
      byte_at m.buf edit_le.pos = 4 ∧
      ((edit_le.curcmd = (if edit_le.relativepos < parent_le.pos ∧
              4 = byte_at parent_le.buf edit_le.relativepos
            then MDIFF_COPY else MDIFF_EDIT) ∧ edit_le.curcount < 0x3fff) →
        m.curcount = edit_le.curcount + 1 ∧ m.diffstream = edit_le.diffstream) ∧
      (¬ (edit_le.curcmd = (if edit_le.relativepos < parent_le.pos ∧
              4 = byte_at parent_le.buf edit_le.relativepos
            then MDIFF_COPY else MDIFF_EDIT) ∧ edit_le.curcount < 0x3fff) →
        m.curcount = 1 ∧ m.diffstream = edit_le.diffstream ++ flush_bytes edit_le) :=
  ⟨rfl, by decide, ⟨rfl, le_refl _, le_refl _⟩, by decide, by decide,
    mwrite_byte_step host_le edit_le parent_le 4 rfl (by decide) ⟨rfl, le_refl _, le_refl _⟩
      (by decide) (by decide)⟩

/-- The step of C27 on the sample: the byte 4 is the byte of the parent at
offset 3, so the pending edit run of 2 is flushed (unit 0x4002 and its two
bytes) and a copy run of 1 is pending. -/
theorem mwrite_byte_sample :
    (mwrite host_le edit_le [4]).toOption.map
        (fun m => (m.curcmd, m.curcount, m.pos, m.relativepos, m.diffstream))
      = some (MDIFF_COPY, 1, 4, 4, [0x02, 0x40, 8, 9]) := by
  decide

/-! ## The invariant of the writer -/

theorem units_valid_append (s t : List Nat) (hs : units_valid s) (ht : units_valid t) :
    units_valid (s ++ t) := by
  induction hs with
  | nil => exact ht
  | copy n rest h1 h2 _ ih =>
    rw [List.append_assoc]
    exact units_valid.copy n _ h1 h2 ih
  | edit n lit rest h1 h2 h3 _ ih =>
    rw [List.append_assoc]
    exact units_valid.edit n lit _ h1 h2 h3 ih
  | seek k rest h1 h2 h3 _ ih =>
    rw [List.append_assoc]
    exact units_valid.seek k _ h1 h2 h3 ih

theorem seek_units_valid (ps : List Int) (hp : ∀ p ∈ ps, p = 0x1fff ∨ p = -0x1fff) :
    units_valid (seek_units ps) := by
  induction ps with
  | nil => exact units_valid.nil
  | cons p rest ih =>
    have h1 := hp p (List.mem_cons_self _ _)
    exact units_valid.seek p _ (by omega) (by omega) (by omega)
      (ih (fun q hq => hp q (List.mem_cons_of_mem _ hq)))

theorem enc_inv.edit_ok {mf : memfile} (hi : enc_inv mf) : mf.edit_ok := by
  intro hc
  have := hi.run (Or.inr hc)
  have := hi.edit hc
  exact ⟨by omega, by omega⟩

theorem flush_bytes_valid (mf : memfile) (hi : enc_inv mf) : units_valid (flush_bytes mf) := by
  unfold flush_bytes
  cases hc : mf.curcmd with
  | MDIFF_INVALID => exact units_valid.nil
  | MDIFF_COPY =>
    obtain ⟨r1, r2⟩ := hi.run (Or.inl hc)
    have := units_valid.copy mf.curcount [] r1 r2 units_valid.nil
    rw [List.append_nil] at this
    exact this
  | MDIFF_SEEK =>
    obtain ⟨r1, r2, r3⟩ := hi.seek hc
    have := units_valid.seek mf.curcount [] r1 r2 r3 units_valid.nil
    rw [List.append_nil] at this
    exact this
  | MDIFF_EDIT =>
    obtain ⟨r1, r2⟩ := hi.run (Or.inr hc)
    have r3 := hi.edit hc
    obtain ⟨w1, w2, w3⟩ := hi.wf
    have hl : ((slice mf.buf (mf.pos - mf.curcount) mf.curcount).length : Int) = mf.curcount := by
      rw [slice_length _ _ _ (by omega) (by omega)]
      omega
    have := units_valid.edit mf.curcount _ [] r1 r2 hl units_valid.nil
    rw [List.append_nil] at this
    exact this

theorem mnew_enc_inv (h : host) (z : memfile) (r : Option memfile) : enc_inv (mnew h z r) := by
  refine ⟨mnew_wf h z r, ⟨rfl, le_refl _, le_refl _⟩, rfl, ?_, ?_, ?_, units_valid.nil⟩
  · intro hc
    cases hc
  · intro hc
    rcases hc with hc | hc <;> cases hc
  · intro hc
    cases hc

theorem mdiffflush_enc_inv (h : host) (mf : memfile) (hi : enc_inv mf) :
    ∃ f, mdiffflush h mf = .ok f ∧ enc_inv f ∧ f.relativeto = mf.relativeto ∧
      f.curcmd = MDIFF_INVALID ∧ f.buf = mf.buf ∧ f.len = mf.len ∧ f.pos = mf.pos ∧
      f.relativepos = mf.relativepos ∧ f.tags = mf.tags := by
  obtain ⟨f, hf⟩ := mdiffflush_ok h mf hi.edit_ok
  obtain ⟨f1, f2, f3, f4, f5, f6, f7, f8⟩ := mdiffflush_frame h mf f hf
  obtain ⟨s1, s2⟩ := mdiffflush_stream h mf f hi.dwf hf
  refine ⟨f, hf, ⟨?_, s2, by rw [f2]; exact hi.cap, ?_, ?_, ?_, ?_⟩, f4, f8, f1, f2, f3, f5, f6⟩
  · unfold memfile.wf
    rw [f1, f2, f3]
    exact hi.wf
  · intro hc
    rw [f8] at hc
    cases hc
  · intro hc
    rw [f8] at hc
    rcases hc with hc | hc <;> cases hc
  · intro hc
    rw [f8] at hc
    cases hc
  · rw [s1]
    exact units_valid_append _ _ hi.units (flush_bytes_valid mf hi)

theorem mwrite_run_enc_inv (h : host) (mf : memfile) (c : memfile_diffcmd) (hi : enc_inv mf)
    (hfit : mf.pos < mf.len) (hc : c = MDIFF_COPY ∨ c = MDIFF_EDIT) :
    ∃ m, mwrite_run h mf c = .ok m ∧
      enc_inv { m with pos := m.pos + 1, relativepos := m.relativepos + 1 } ∧
      m.len = mf.len ∧ m.pos = mf.pos ∧ m.relativeto = mf.relativeto ∧ m.tags = mf.tags := by
  obtain ⟨w1, w2, w3⟩ := hi.wf
  have hns : c ≠ MDIFF_SEEK := by rcases hc with hc | hc <;> rw [hc] <;> decide
  by_cases hcont : mf.curcmd ≠ c ∨ mf.curcount = 0x3fff
  · obtain ⟨f, hf, fi, f0, f8, f1, f2, f3, f5, f6⟩ := mdiffflush_enc_inv h mf hi
    refine ⟨{ f with curcmd := c, curcount := 1 }, mwrite_run_flush h mf f c hcont hf,
      ⟨?_, fi.dwf, fi.cap, ?_, ?_, ?_, fi.units⟩, f2, f3, f0, f6⟩
    · show (f.buf.length : Int) = f.len ∧ 0 ≤ f.pos + 1 ∧ f.pos + 1 ≤ f.len
      rw [f1, f2, f3]
      exact ⟨w1, by omega, by omega⟩
    · intro _
      show (1 : Int) ≤ f.pos + 1
      rw [f3]
      omega
    · intro _
      show (1 : Int) ≤ 1 ∧ (1 : Int) ≤ 0x3fff
      exact ⟨le_refl _, by norm_num⟩
    · intro hx
      exact absurd hx hns
  · have hk : mf.curcmd = c := by
      by_contra hx
      exact hcont (Or.inl hx)
    have hn : mf.curcount ≠ 0x3fff := fun hx => hcont (Or.inr hx)
    have hr := hi.run (by rw [hk]; exact hc)
    refine ⟨{ mf with curcmd := c, curcount := mf.curcount + 1 },
      mwrite_run_continue h mf c hk hn,
      ⟨?_, hi.dwf, hi.cap, ?_, ?_, ?_, hi.units⟩, rfl, rfl, rfl, rfl⟩
    · show (mf.buf.length : Int) = mf.len ∧ 0 ≤ mf.pos + 1 ∧ mf.pos + 1 ≤ mf.len
      exact ⟨w1, by omega, by omega⟩
    · intro hx
      have hx2 : c = MDIFF_EDIT := hx
      have := hi.edit (by rw [hk]; exact hx2)
      show mf.curcount + 1 ≤ mf.pos + 1
      omega
    · intro _
      show 1 ≤ mf.curcount + 1 ∧ mf.curcount + 1 ≤ 0x3fff
      omega
    · intro hx
      exact absurd hx hns

theorem run_kind_cases (P : memfile) (buf : List Nat) (pos relativepos : Int) :
    run_kind P buf pos relativepos = MDIFF_COPY ∨ run_kind P buf pos relativepos = MDIFF_EDIT := by
  unfold run_kind
  split
  · exact Or.inl rfl
  · exact Or.inr rfl

theorem mwrite_diff_enc_inv (h : host) (P : memfile) :
    ∀ (n : Nat) (mf : memfile), enc_inv mf → mf.pos + n ≤ mf.len →
    ∃ m, mwrite_diff h P n mf = .ok m ∧ enc_inv m ∧ m.relativeto = mf.relativeto ∧
      m.tags = mf.tags ∧ m.len = mf.len := by
  intro n
  induction n with
  | zero =>
    intro mf hi _
    exact ⟨mf, rfl, hi, rfl, rfl, rfl⟩
  | succ n ih =>
    intro mf hi hfit
    obtain ⟨m1, e1, i1, l1, p1, r1, t1⟩ := mwrite_run_enc_inv h mf
      (run_kind P mf.buf mf.pos mf.relativepos) hi (by push_cast at hfit; omega)
      (run_kind_cases P _ _ _)
    obtain ⟨m, e2, i2, r2, t2, l2⟩ := ih _ i1 (by
      show m1.pos + 1 + (n : Int) ≤ m1.len
      rw [l1, p1]
      push_cast at hfit
      omega)
    refine ⟨m, ?_, i2, r2.trans r1, t2.trans t1, l2.trans l1⟩
    rw [mwrite_diff_succ, e1]
    exact e2

theorem mwrite_enc_inv (h : host) (mf : memfile) (data : List Nat) (hi : enc_inv mf) :
    ∃ m, mwrite h mf data = .ok m ∧ enc_inv m ∧ m.relativeto = mf.relativeto ∧
      m.tags = mf.tags := by
  obtain ⟨c1, c2, c3, c4, c5, c6, c7, c8, c9, c10⟩ := mwrite_copy_fields h mf data hi.wf
  obtain ⟨S, hS⟩ : ∃ x : memfile, x = mwrite_copy h mf data := ⟨_, rfl⟩
  rw [← hS] at c1 c2 c3 c4 c5 c6 c7 c8 c9 c10
  have hds := diffstream_congr mf S c10
  obtain ⟨s1, s2, s3, s4, s5, s6⟩ := c10
  obtain ⟨w1, w2, w3⟩ := hi.wf
  have hcap : S.len % 4096 = 0 := by
    rw [c4]
    exact expand_memfile_len_mod h mf _ hi.cap
  have hedit : S.curcmd = MDIFF_EDIT → S.curcount ≤ mf.pos := by
    rw [s5, s6]
    exact hi.edit
  have hrun : S.curcmd = MDIFF_COPY ∨ S.curcmd = MDIFF_EDIT →
      1 ≤ S.curcount ∧ S.curcount ≤ 0x3fff := by
    rw [s5, s6]
    exact hi.run
  have hseek : S.curcmd = MDIFF_SEEK →
      S.curcount ≠ 0 ∧ -0x1fff ≤ S.curcount ∧ S.curcount ≤ 0x1fff := by
    rw [s5, s6]
    exact hi.seek
  have hunits : units_valid S.diffstream := by
    rw [hds.1]
    exact hi.units
  cases hp : mf.relativeto with
  | none =>
    have e := mwrite_linear h mf data hp
    rw [← hS] at e
    refine ⟨_, e, ⟨?_, hds.2 hi.dwf, hcap, ?_, hrun, hseek, hunits⟩, ?_, c9⟩
    · show (S.buf.length : Int) = S.len ∧ 0 ≤ mf.pos + data.length ∧ mf.pos + data.length ≤ S.len
      exact ⟨c1, by omega, c2⟩
    · intro hx
      have := hedit hx
      show S.curcount ≤ mf.pos + data.length
      omega
    · show S.relativeto = none
      rw [c8, hp]
  | some P =>
    have e := mwrite_diff_file h mf P data hp
    rw [← hS] at e
    have iS : enc_inv S := by
      refine ⟨⟨c1, by rw [c7]; exact w2, by rw [c7]; omega⟩, hds.2 hi.dwf, hcap, ?_, hrun, hseek,
        hunits⟩
      rw [c7]
      exact hedit
    obtain ⟨m, e2, i2, r2, t2, _⟩ := mwrite_diff_enc_inv h P data.length S iS (by rw [c7]; exact c2)
    exact ⟨m, by rw [e]; exact e2, i2, by rw [r2, c8, hp], t2.trans c9⟩

theorem mtag_seek_diff_wf (h : host) :
    ∀ (fuel : Nat) (mf : memfile) (offset : Int), mf.diff_wf →
    (mtag_seek fuel h mf offset).1.diff_wf := by
  intro fuel
  induction fuel with
  | zero =>
    intro mf offset hd
    exact hd
  | succ n ih =>
    intro mf offset hd
    rw [mtag_seek]
    split
    · split
      · exact ih _ _ (mdiffwrite14_stream h mf MDIFF_SEEK (-0x1fff) hd).2
      · exact ih _ _ (mdiffwrite14_stream h mf MDIFF_SEEK 0x1fff hd).2
    · exact hd

theorem mtag_realign_enc_inv (h : host) (m0 : memfile) (tagpos offset : Int) (hw : m0.wf)
    (hd : m0.diff_wf) (hcap : m0.len % 4096 = 0) (hu : units_valid m0.diffstream) :
    enc_inv (mtag_realign h m0 tagpos offset) := by
  obtain ⟨g1, g2, g3, _, _, _⟩ := mtag_seek_frame h (offset + m0.curcount).natAbs m0 offset
  obtain ⟨ps, a1, a2, a3, a4, a5, a6, _⟩ :=
    mtag_seek_payloads h (offset + m0.curcount).natAbs m0 offset hd (by omega)
  have hdw := mtag_seek_diff_wf h (offset + m0.curcount).natAbs m0 offset hd
  obtain ⟨k1, k2⟩ := mtag_realign_curcmd h m0 tagpos offset
  have hcnt : (mtag_realign h m0 tagpos offset).curcount =
      (mtag_seek (offset + m0.curcount).natAbs h m0 offset).1.curcount +
        (mtag_seek (offset + m0.curcount).natAbs h m0 offset).2 := rfl
  have hcmd : (mtag_realign h m0 tagpos offset).curcmd = MDIFF_SEEK ∨
      (mtag_realign h m0 tagpos offset).curcmd = MDIFF_INVALID := by
    unfold mtag_realign
    simp only
    split
    · exact Or.inl rfl
    · exact Or.inr rfl
  refine ⟨?_, hdw, ?_, ?_, ?_, ?_, ?_⟩
  · show ((mtag_seek _ h m0 offset).1.buf.length : Int) = (mtag_seek _ h m0 offset).1.len ∧
      0 ≤ (mtag_seek _ h m0 offset).1.pos ∧
      (mtag_seek _ h m0 offset).1.pos ≤ (mtag_seek _ h m0 offset).1.len
    rw [g1, g2, g3]
    exact hw
  · show (mtag_seek _ h m0 offset).1.len % 4096 = 0
    rw [g2]
    exact hcap
  · intro hc
    rcases hcmd with hx | hx <;> rw [hx] at hc <;> cases hc
  · intro hc
    rcases hc with hc | hc <;> rcases hcmd with hx | hx <;> rw [hx] at hc <;> cases hc
  · intro hc
    have := k1.mp hc
    rw [hcnt, a4] at this ⊢
    refine ⟨this, by omega, by omega⟩
  · show units_valid (mtag_seek _ h m0 offset).1.diffstream
    rw [a1]
    exact units_valid_append _ _ hu (seek_units_valid ps a2)

theorem mtag_flush_enc_inv (h : host) (mf : memfile) (hi : enc_inv mf) :
    ∃ m0, mtag_flush h mf = .ok m0 ∧ m0.wf ∧ m0.diff_wf ∧ m0.len % 4096 = 0 ∧
      units_valid m0.diffstream ∧ m0.relativeto = mf.relativeto ∧ m0.tags = mf.tags := by
  by_cases hc : mf.curcmd = MDIFF_SEEK
  · exact ⟨mf, mtag_flush_seek h mf hc, hi.wf, hi.dwf, hi.cap, hi.units, rfl, rfl⟩
  · obtain ⟨f, hf, fi, f0, _, _, _, _, _, f6⟩ := mdiffflush_enc_inv h mf hi
    refine ⟨{ f with curcount := 0 }, ?_, fi.wf, fi.dwf, fi.cap, fi.units, f0, f6⟩
    unfold mtag_flush
    rw [if_pos hc, hf]
    rfl

theorem mtag_add_enc_inv (h : host) (mf : memfile) (tagdata tagtype : Int) (hi : enc_inv mf) :
    enc_inv (mtag_add h mf tagdata tagtype) :=
  ⟨hi.wf, hi.dwf, hi.cap, hi.edit, hi.run, hi.seek, hi.units⟩

theorem mtag_enc_inv (h : host) (mf : memfile) (tagdata tagtype : Int)
    (hb : in_table h tagdata tagtype) (hi : enc_inv mf) :
    ∃ m, mtag h mf tagdata tagtype = .ok m ∧ enc_inv m ∧ m.relativeto = mf.relativeto := by
  have ha := mtag_add_enc_inv h mf tagdata tagtype hi
  cases hp : mf.relativeto with
  | none => exact ⟨_, mtag_eq_parentless h mf tagdata tagtype hb hp, ha, hp⟩
  | some P =>
    cases hf : parent_tag h P tagdata tagtype with
    | none => exact ⟨_, mtag_eq_none h mf P tagdata tagtype hb hp hf, ha, hp⟩
    | some tag =>
      by_cases hr : mf.relativepos = tag.pos
      · exact ⟨_, mtag_eq_same h mf P tagdata tagtype tag hb hp hf hr, ha, hp⟩
      · obtain ⟨m0, hm0, b1, b2, b3, b4, b5, _⟩ := mtag_flush_enc_inv h _ ha
        refine ⟨mtag_realign h m0 tag.pos (mf.relativepos - tag.pos), ?_,
          mtag_realign_enc_inv h m0 _ _ b1 b2 b3 b4, ?_⟩
        · rw [mtag_eq_found h mf P tagdata tagtype tag hb hp hf hr, hm0]
          rfl
        · rw [(mtag_realign_frame h m0 _ _).2.2.2.1, b5]
          exact hp

theorem mfalign_loop_enc_inv (h : host) :
    ∀ (n : Nat) (mf : memfile), enc_inv mf →
    ∃ m, mfalign_loop h n mf = .ok m ∧ enc_inv m ∧ m.relativeto = mf.relativeto := by
  intro n
  induction n with
  | zero =>
    intro mf hi
    exact ⟨mf, rfl, hi, rfl⟩
  | succ n ih =>
    intro mf hi
    obtain ⟨m1, e1, i1, r1, _⟩ := mwrite_enc_inv h mf [0] hi
    obtain ⟨m, e2, i2, r2⟩ := ih m1 i1
    refine ⟨m, ?_, i2, r2.trans r1⟩
    rw [mfalign_loop, mwrite8_zero, e1]
    exact e2

theorem do_call_enc_inv (h : host) (mf : memfile) (c : call) (hv : call_valid h c)
    (hi : enc_inv mf) :
    ∃ m, do_call h mf c = .ok m ∧ enc_inv m ∧ m.relativeto = mf.relativeto := by
  cases c with
  | write data =>
    obtain ⟨m, e, i, r, _⟩ := mwrite_enc_inv h mf data hi
    exact ⟨m, e, i, r⟩
  | write8 value =>
    obtain ⟨m, e, i, r, _⟩ := mwrite_enc_inv h mf _ hi
    exact ⟨m, e, i, r⟩
  | write16 value =>
    obtain ⟨m, e, i, r, _⟩ := mwrite_enc_inv h mf _ hi
    exact ⟨m, e, i, r⟩
  | write32 value =>
    obtain ⟨m, e, i, r, _⟩ := mwrite_enc_inv h mf _ hi
    exact ⟨m, e, i, r⟩
  | write64 value =>
    obtain ⟨m, e, i, r, _⟩ := mwrite_enc_inv h mf _ hi
    exact ⟨m, e, i, r⟩
  | tag tagdata tagtype => exact mtag_enc_inv h mf tagdata tagtype hv hi
  | align aln => exact mfalign_loop_enc_inv h _ mf hi
  | magic magic =>
    obtain ⟨m1, e1, i1, r1⟩ := mfalign_loop_enc_inv h (mfalign_bytes mf.pos 4).toNat mf hi
    obtain ⟨m, e2, i2, r2, _⟩ := mwrite_enc_inv h m1 _ i1
    refine ⟨m, ?_, i2, r2.trans r1⟩
    show mfmagic_set h mf magic = .ok m
    unfold mfmagic_set mfalign
    rw [e1]
    exact e2
  | flush =>
    obtain ⟨f, e, i, r, _⟩ := mdiffflush_enc_inv h mf hi
    exact ⟨f, e, i, r⟩

theorem do_calls_enc_inv (h : host) (calls : List call)
    (hv : ∀ c ∈ calls, call_valid h c) :
    ∀ mf : memfile, enc_inv mf →
    ∃ m, do_calls h mf calls = .ok m ∧ enc_inv m ∧ m.relativeto = mf.relativeto := by
  induction calls with
  | nil =>
    intro mf hi
    exact ⟨mf, rfl, hi, rfl⟩
  | cons c rest ih =>
    intro mf hi
    obtain ⟨m1, e1, i1, r1⟩ := do_call_enc_inv h mf c (hv c (List.mem_cons_self _ _)) hi
    obtain ⟨m, e2, i2, r2⟩ := ih (fun x hx => hv x (List.mem_cons_of_mem _ hx)) m1 i1
    refine ⟨m, ?_, i2, r2.trans r1⟩
    show (do_call h mf c >>= fun m => do_calls h m rest) = .ok m
    rw [e1]
    exact e2

/-! ## Capacity, the edit bound and the payload bounds -/

/-- C24: after `expand_memfile(mf, n)` the capacity `len` is at least `n` and
at least the old `len`; when the old `len` was below `n`, the new one is the
multiple of 4096 with `n < len <= n + 4096`; when the old `len` was at least
`n`, the memfile is unchanged.  Hence every sequence of calls of mwrite,
mwrite8/16/32/64, mtag (with its bucket inside the tag table), mfalign,
mfmagic_set and mdiffflush on a memfile made by mnew (with or without a
parent) returns with `len` a multiple of 4096. -/
theorem expand_memfile_grows (h : host) (mf : memfile) (n : Int) :
    n ≤ (expand_memfile h mf n).len ∧
    mf.len ≤ (expand_memfile h mf n).len ∧
    (mf.len < n → (expand_memfile h mf n).len % 4096 = 0 ∧ n < (expand_memfile h mf n).len ∧
      (expand_memfile h mf n).len ≤ n + 4096) ∧
    (n ≤ mf.len → expand_memfile h mf n = mf) ∧
    (∀ (z : memfile) (r : Option memfile) (calls : List call),
      (∀ c ∈ calls, call_valid h c) →
      ∃ m, do_calls h (mnew h z r) calls = .ok m ∧ m.len % 4096 = 0) := by
  have e : mf.len < n → (expand_memfile h mf n).len = n - n % 4096 + 4096 := by
    intro hlt
    unfold expand_memfile
    rw [if_pos hlt]
  refine ⟨?_, ?_, ?_, expand_memfile_fits h mf n, ?_⟩
  · by_cases hlt : mf.len < n
    · rw [e hlt]
      omega
    · rw [expand_memfile_fits h mf n (by omega)]
      omega
  · by_cases hlt : mf.len < n
    · rw [e hlt]
      omega
    · rw [expand_memfile_fits h mf n (by omega)]
  · intro hlt
    rw [e hlt]
    omega
  · intro z r calls hv
    obtain ⟨m, hm, hi, _⟩ := do_calls_enc_inv h calls hv (mnew h z r) (mnew_enc_inv h z r)
    exact ⟨m, hm, hi.cap⟩

/-- The first unit of a sequence of command units within bounds: its 16-bit
word has a command other than 3 in its two high bits and a payload other than
0 in its low 14 bits, and other than 0x2000 (that is -8192) for a seek. -/
theorem units_valid_head (s : List Nat) (hs : units_valid s) :
    s = [] ∨ ∃ b0 b1 rest, s = b0 :: b1 :: rest ∧
      (b0 + 256 * b1) / 2 ^ 14 < 3 ∧ (b0 + 256 * b1) % 2 ^ 14 ≠ 0 ∧
      ((b0 + 256 * b1) / 2 ^ 14 = MDIFF_SEEK.code → (b0 + 256 * b1) % 2 ^ 14 ≠ 0x2000) := by
  have key : ∀ (c : memfile_diffcmd) (n : Int) (rest : List Nat), c.code < 3 →
      (n % 2 ^ 14).toNat ≠ 0 → (c = MDIFF_SEEK → (n % 2 ^ 14).toNat ≠ 0x2000) →
      ∃ b0 b1 rest1, command_unit c n ++ rest = b0 :: b1 :: rest1 ∧
        (b0 + 256 * b1) / 2 ^ 14 < 3 ∧ (b0 + 256 * b1) % 2 ^ 14 ≠ 0 ∧
        ((b0 + 256 * b1) / 2 ^ 14 = MDIFF_SEEK.code → (b0 + 256 * b1) % 2 ^ 14 ≠ 0x2000) := by
    intro c n rest hc hn hk
    obtain ⟨b0, b1, e1, e2, e3⟩ := unit_fields (n % 2 ^ 14).toNat c.code (by omega) (by omega)
    refine ⟨b0, b1, rest, ?_, by rw [e2]; exact hc, by rw [e3]; exact hn, ?_⟩
    · unfold command_unit
      rw [e1]
      rfl
    · intro hx
      rw [e2] at hx
      rw [e3]
      apply hk
      cases c <;> first | rfl | (exact absurd hx (by decide))
  cases hs with
  | nil => exact Or.inl rfl
  | copy n rest h1 h2 _ =>
    exact Or.inr (key MDIFF_COPY n rest (by decide) (by omega) (fun hx => by cases hx))
  | edit n lit rest h1 h2 _ _ =>
    rw [List.append_assoc]
    exact Or.inr (key MDIFF_EDIT n _ (by decide) (by omega) (fun hx => by cases hx))
  | seek k rest h1 h2 h3 _ =>
    exact Or.inr (key MDIFF_SEEK k rest (by decide) (by omega) (fun _ => by omega))

/-- A run of the write path on a child of the sample parent: three bytes of
which the first two are those of the parent, a tag that the parent has at
offset 5, one more byte, and a flush.  The stream is a copy of 2, an edit of 1
with its byte, a seek of -2 (the word 0xbffe), and an edit of 1 with its
byte. -/
theorem do_calls_sample :
    (do_calls host_le (mnew host_le memfile.zero (some parent_le))
        [call.write [1, 2, 9], call.tag 5 1, call.write [6], call.flush]).toOption.map
      (fun m => (m.diffstream, m.curcmd, m.pos, m.relativepos))
      = some ([2, 0, 1, 0x40, 9, 0xfe, 0xbf, 1, 0x40, 6], MDIFF_INVALID, 4, 6) := by
  decide

/-! ## The tag that the lookup finds -/

theorem find_first_match (p : memfile_tag → Bool) (pre post : List memfile_tag)
    (t : memfile_tag) (hpre : ∀ x ∈ pre, p x = false) (ht : p t = true) :
    (pre ++ t :: post).find? p = some t := by
  induction pre with
  | nil => simp [List.find?, ht]
  | cons x rest ih =>
    have hx := hpre x (List.mem_cons_self _ _)
    rw [List.cons_append, List.find?_cons, hx]
    exact ih (fun y hy => hpre y (List.mem_cons_of_mem _ hy))

/-- C31: let the bucket chain of the parent `P`, in a bucket of the table, be,
from its head, tags of other (kind, id) pairs, then a tag `t` of the pair looked for, then any other
tags (older tags of the same pair among them).  The lookup of mtag finds `t`;
whenever mtag on the child returns, `relativepos` is `t.pos`, and it returns
unless a pending edit run is longer than the data.  The head of a chain is the
tag added last: after `mtag(Q, id, kind)` on any memfile `Q`, the lookup in the
result finds the tag just added, at offset `Q.pos`. -/
theorem mtag_most_recent (h : host) (C P : memfile) (id kind : Int)
    (pre post : List memfile_tag) (t : memfile_tag) (hb : in_table h id kind)
    (hp : C.relativeto = some P)
    (hchain : P.tags (mtag_bucket h id kind) = pre ++ t :: post)
    (hpre : ∀ x ∈ pre, ¬ (x.tagtype = kind ∧ x.tagdata = id))
    (ht : t.tagtype = kind ∧ t.tagdata = id) :
    parent_tag h P id kind = some t ∧
    (∀ m, mtag h C id kind = .ok m → m.relativepos = t.pos) ∧
    (C.edit_ok → ∃ m, mtag h C id kind = .ok m ∧ m.relativepos = t.pos) ∧
    (∀ Q Q1 : memfile, mtag h Q id kind = .ok Q1 →
      parent_tag h Q1 id kind = some { tagdata := id, tagtype := kind, pos := Q.pos }) := by
  have hf : parent_tag h P id kind = some t := by
    unfold parent_tag
    rw [hchain]
    apply find_first_match
    · intro x hx
      simpa using hpre x hx
    · simpa using ht
  have hrel : ∀ m, mtag h C id kind = .ok m → m.relativepos = t.pos := by
    intro m hm
    by_cases hr : C.relativepos = t.pos
    · rw [mtag_eq_same h C P id kind t hb hp hf hr] at hm
      cases hm
      exact hr
    · rw [mtag_eq_found h C P id kind t hb hp hf hr, map_eq_ok] at hm
      obtain ⟨m0, _, rfl⟩ := hm
      exact (mtag_realign_curcmd h m0 t.pos _).2
  refine ⟨hf, hrel, ?_, ?_⟩
  · intro he
    obtain ⟨m, hm⟩ := mtag_returns h C id kind hb he
    exact ⟨m, hm, hrel m hm⟩
  · intro Q Q1 hq
    obtain ⟨_, _, _, _, f5⟩ := mtag_frame h Q Q1 id kind hq
    unfold parent_tag
    rw [f5]
    unfold mtag_add
    simp

theorem mtag_most_recent_witness :
    in_table host_le 5 1 ∧
    (mnew host_le memfile.zero (some twice_le)).relativeto = some twice_le ∧
    twice_le.tags (mtag_bucket host_le 5 1) = [⟨1014, 1, 7⟩] ++ ⟨5, 1, 9⟩ :: [⟨5, 1, 5⟩] ∧
    (∀ x ∈ ([⟨1014, 1, 7⟩] : List memfile_tag), ¬ (x.tagtype = 1 ∧ x.tagdata = 5)) ∧
    ((⟨5, 1, 9⟩ : memfile_tag).tagtype = 1 ∧ (⟨5, 1, 9⟩ : memfile_tag).tagdata = 5) ∧
    parent_tag host_le twice_le 5 1 = some ⟨5, 1, 9⟩ ∧
    (∀ m, mtag host_le (mnew host_le memfile.zero (some twice_le)) 5 1 = .ok m →
      m.relativepos = (⟨5, 1, 9⟩ : memfile_tag).pos) ∧
    ((mnew host_le memfile.zero (some twice_le)).edit_ok →
      ∃ m, mtag host_le (mnew host_le memfile.zero (some twice_le)) 5 1 = .ok m ∧
        m.relativepos = (⟨5, 1, 9⟩ : memfile_tag).pos) ∧
    (∀ Q Q1 : memfile, mtag host_le Q 5 1 = .ok Q1 →
      parent_tag host_le Q1 5 1 = some { tagdata := 5, tagtype := 1, pos := Q.pos }) :=
  ⟨by decide, rfl, by decide, by decide, by decide,
    mtag_most_recent host_le (mnew host_le memfile.zero (some twice_le)) twice_le 5 1
      [⟨1014, 1, 7⟩] [⟨5, 1, 5⟩] ⟨5, 1, 9⟩ (by decide) rfl (by decide) (by decide)
      (by decide)⟩

/-- The lookup of C31 on the sample: the child is realigned to offset 9, by a
pending seek of -9. -/
theorem mtag_most_recent_sample :
    (mtag host_le (mnew host_le memfile.zero (some twice_le)) 5 1).toOption.map
        (fun m => (m.relativepos, m.curcmd, m.curcount))
      = some (9, MDIFF_SEEK, -9) := by
  decide

/-! ## What mfalign writes -/

/-- C35: for a memfile with `0 <= pos` (an `int`), well-formed, whose writes
return, and a power of two `aln = 2 ^ k` (an `int`): the number of bytes that
mfalign writes is `aln` when `pos < aln` and 0 otherwise, whatever `pos mod
aln` is.  When `pos < aln` the call returns with `pos` advanced by `aln`, the
`aln` bytes at the old cursor zero and the bytes before it kept; when
`pos >= aln` it returns the memfile as it is. -/
theorem mfalign_exact (h : host) (mf : memfile) (k : Nat) (hk : k ≤ 30) (hw : mf.wf)
    (he : mf.edit_ok) (hb : mf.pos < 2 ^ 31) :
    (mfalign_bytes mf.pos (2 ^ k)).toNat = (if mf.pos < 2 ^ k then 2 ^ k else 0) ∧
    (mf.pos < 2 ^ k → ∃ m, mfalign h mf (2 ^ k) = .ok m ∧ m.pos = mf.pos + 2 ^ k ∧
      slice m.buf mf.pos (2 ^ k) = List.replicate (2 ^ k) 0 ∧
      m.buf.take mf.pos.toNat = mf.buf.take mf.pos.toNat ∧ m.tags = mf.tags) ∧
    ((2 : Int) ^ k ≤ mf.pos → mfalign h mf (2 ^ k) = .ok mf) := by
  have hcnt := mfalign_bytes_toNat mf.pos k hk hw.2.1 hb
  rw [pow2_cast]
  refine ⟨hcnt, ?_, ?_⟩
  · intro hlt
    rw [if_pos hlt] at hcnt
    obtain ⟨m, hm, w, _⟩ := mfalign_loop_ok h (2 ^ k) mf hw he
    have hp := w.pos_eq
    have ha := w.at_pos
    rw [List.length_replicate] at hp ha
    refine ⟨m, ?_, hp, ha, w.before, w.tags_eq⟩
    unfold mfalign
    rw [hcnt]
    exact hm
  · intro hge
    rw [if_neg (by omega)] at hcnt
    unfold mfalign
    rw [hcnt]
    rfl

theorem mfalign_exact_witness :
    2 ≤ 30 ∧ fresh_le.wf ∧ fresh_le.edit_ok ∧ fresh_le.pos < 2 ^ 31 ∧
    (mfalign_bytes fresh_le.pos (2 ^ 2)).toNat = (if fresh_le.pos < 2 ^ 2 then 2 ^ 2 else 0) ∧
    (∃ m, mfalign host_le fresh_le (2 ^ 2) = .ok m ∧ m.pos = fresh_le.pos + 2 ^ 2 ∧
      slice m.buf fresh_le.pos (2 ^ 2) = List.replicate (2 ^ 2) 0 ∧
      m.buf.take fresh_le.pos.toNat = fresh_le.buf.take fresh_le.pos.toNat ∧
      m.tags = fresh_le.tags) ∧
    ((2 : Int) ^ 2 ≤ fresh_le.pos → mfalign host_le fresh_le (2 ^ 2) = .ok fresh_le) :=
  ⟨by decide, by decide, by decide, by decide,
    (mfalign_exact host_le fresh_le 2 (by decide) (by decide) (by decide) (by decide)).1,
    (mfalign_exact host_le fresh_le 2 (by decide) (by decide) (by decide) (by decide)).2.1
      (by decide),
    (mfalign_exact host_le fresh_le 2 (by decide) (by decide) (by decide) (by decide)).2.2⟩

/-! ## The iterations of the seek loop -/

theorem mdiffwrite14_diffpos (h : host) (mf : memfile) (c : memfile_diffcmd) (v : Int) :
    (mdiffwrite14 h mf c.code v).diffpos = mf.diffpos + 2 := by
  have hc : c.code < 4 := by cases c <;> decide
  rw [mdiffwrite14_eq h mf c.code v hc, mdiffwrite_diffpos, le_bytes_length]
  rfl

theorem mtag_seek_step (h : host) (n : Nat) (mf : memfile) (offset : Int)
    (hout : offset + mf.curcount ≥ 2 ^ 13 ∨ offset + mf.curcount ≤ -(2 ^ 13)) :
    ∃ (mf1 : memfile) (off1 : Int),
      mtag_seek (n + 1) h mf offset = mtag_seek n h mf1 off1 ∧
      mf1.curcount = mf.curcount ∧ mf1.diffpos = mf.diffpos + 2 ∧
      (off1 + mf.curcount).natAbs + 8191 = (offset + mf.curcount).natAbs ∧
      (0 < offset + mf.curcount → 0 < off1 + mf.curcount ∧ off1 = offset - 8191) ∧
      (offset + mf.curcount < 0 → off1 + mf.curcount < 0 ∧ off1 = offset + 8191) := by
  by_cases hneg : offset + mf.curcount < 0
  · refine ⟨mdiffwrite14 h mf MDIFF_SEEK.code (-0x1fff), offset + 0x1fff, ?_, rfl,
      mdiffwrite14_diffpos h mf MDIFF_SEEK _, by omega, by omega, by omega⟩
    rw [mtag_seek, if_pos hout, if_pos hneg]
  · refine ⟨mdiffwrite14 h mf MDIFF_SEEK.code 0x1fff, offset - 0x1fff, ?_, rfl,
      mdiffwrite14_diffpos h mf MDIFF_SEEK _, by omega, by omega, by omega⟩
    rw [mtag_seek, if_pos hout, if_neg hneg]

theorem mtag_seek_count (h : host) :
    ∀ (fuel : Nat) (mf : memfile) (offset : Int),
    ((offset + mf.curcount).natAbs - 1) / 8191 ≤ fuel →
    mtag_seek fuel h mf offset =
      mtag_seek (((offset + mf.curcount).natAbs - 1) / 8191) h mf offset ∧
    (mtag_seek fuel h mf offset).1.diffpos =
      mf.diffpos + 2 * ((((offset + mf.curcount).natAbs - 1) / 8191 : Nat) : Int) ∧
    (mtag_seek fuel h mf offset).1.curcount = mf.curcount ∧
    (0 ≤ offset + mf.curcount → (mtag_seek fuel h mf offset).2 =
      offset - 8191 * ((((offset + mf.curcount).natAbs - 1) / 8191 : Nat) : Int)) ∧
    (offset + mf.curcount ≤ 0 → (mtag_seek fuel h mf offset).2 =
      offset + 8191 * ((((offset + mf.curcount).natAbs - 1) / 8191 : Nat) : Int)) ∧
    -(2 ^ 13) < (mtag_seek fuel h mf offset).2 + mf.curcount ∧
    (mtag_seek fuel h mf offset).2 + mf.curcount < 2 ^ 13 := by
  intro fuel
  induction fuel with
  | zero =>
    intro mf offset hf
    have e0 : ((offset + mf.curcount).natAbs - 1) / 8191 = 0 := by omega
    rw [e0]
    have e : mtag_seek 0 h mf offset = (mf, offset) := rfl
    rw [e]
    refine ⟨rfl, by simp, rfl, fun _ => by simp, fun _ => by simp, ?_, ?_⟩
    · show -(2 ^ 13) < offset + mf.curcount
      omega
    · show offset + mf.curcount < 2 ^ 13
      omega
  | succ n ih =>
    intro mf offset hf
    by_cases hout : offset + mf.curcount ≥ 2 ^ 13 ∨ offset + mf.curcount ≤ -(2 ^ 13)
    · by_cases hneg : offset + mf.curcount < 0
      · have d1 := mdiffwrite14_diffpos h mf MDIFF_SEEK (-0x1fff)
        have hN : ((offset + mf.curcount).natAbs - 1) / 8191 =
            ((offset + 0x1fff + mf.curcount).natAbs - 1) / 8191 + 1 := by
          omega
        have ih1 := ih (mdiffwrite14 h mf MDIFF_SEEK.code (-0x1fff)) (offset + 0x1fff)
          (by rw [mdiffwrite14_curcount]; omega)
        simp only [mdiffwrite14_curcount] at ih1
        obtain ⟨b1, b2, b3, b4, b5, b6, b7⟩ := ih1
        have e1 : mtag_seek (n + 1) h mf offset =
            mtag_seek n h (mdiffwrite14 h mf MDIFF_SEEK.code (-0x1fff)) (offset + 0x1fff) := by
          rw [mtag_seek, if_pos hout, if_pos hneg]
        have e2 : mtag_seek (((offset + 0x1fff + mf.curcount).natAbs - 1) / 8191 + 1) h mf offset =
            mtag_seek (((offset + 0x1fff + mf.curcount).natAbs - 1) / 8191) h
              (mdiffwrite14 h mf MDIFF_SEEK.code (-0x1fff)) (offset + 0x1fff) := by
          rw [mtag_seek, if_pos hout, if_pos hneg]
        rw [hN, e1, e2]
        rw [d1] at b2
        refine ⟨b1, ?_, b3, ?_, ?_, b6, b7⟩
        · rw [b2]
          push_cast
          ring
        · intro hs
          omega
        · intro hs
          rw [b5 (by omega)]; push_cast; ring
      · have d1 := mdiffwrite14_diffpos h mf MDIFF_SEEK 0x1fff
        have hN : ((offset + mf.curcount).natAbs - 1) / 8191 =
            ((offset - 0x1fff + mf.curcount).natAbs - 1) / 8191 + 1 := by
          omega
        have ih1 := ih (mdiffwrite14 h mf MDIFF_SEEK.code 0x1fff) (offset - 0x1fff)
          (by rw [mdiffwrite14_curcount]; omega)
        simp only [mdiffwrite14_curcount] at ih1
        obtain ⟨b1, b2, b3, b4, b5, b6, b7⟩ := ih1
        have e1 : mtag_seek (n + 1) h mf offset =
            mtag_seek n h (mdiffwrite14 h mf MDIFF_SEEK.code 0x1fff) (offset - 0x1fff) := by
          rw [mtag_seek, if_pos hout, if_neg hneg]
        have e2 : mtag_seek (((offset - 0x1fff + mf.curcount).natAbs - 1) / 8191 + 1) h mf offset =
            mtag_seek (((offset - 0x1fff + mf.curcount).natAbs - 1) / 8191) h
              (mdiffwrite14 h mf MDIFF_SEEK.code 0x1fff) (offset - 0x1fff) := by
          rw [mtag_seek, if_pos hout, if_neg hneg]
        rw [hN, e1, e2]
        rw [d1] at b2
        refine ⟨b1, ?_, b3, ?_, ?_, b6, b7⟩
        · rw [b2]
          push_cast
          ring
        · intro hs
          rw [b4 (by omega)]; push_cast; ring
        · intro hs
          omega
    · have e0 : ((offset + mf.curcount).natAbs - 1) / 8191 = 0 := by omega
      rw [e0]
      have e : mtag_seek (n + 1) h mf offset = (mf, offset) := by
        rw [mtag_seek, if_neg hout]
      have e9 : mtag_seek 0 h mf offset = (mf, offset) := rfl
      rw [e, e9]
      refine ⟨rfl, by simp, rfl, fun _ => by simp, fun _ => by simp, ?_, ?_⟩
      · show -(2 ^ 13) < offset + mf.curcount
        omega
      · show offset + mf.curcount < 2 ^ 13
        omega

/-- C37: let `s = offset + curcount` at the entry of the seek loop of mtag and
`N = (|s| - 1) / 8191` (0 when `s = 0`).  With any bound of at least `N`
iterations (the bound `|s|` of mtag is one) the loop gives the result it gives
with the bound `N`; it has written `N` units (`diffpos` has grown by `2 N`),
`curcount` is untouched, `offset` has moved by `8191 N` towards 0, and the
loop condition is false at the end.  While the loop condition holds, one
iteration writes one unit and lowers `|offset + curcount|` by 8191 keeping its
sign. -/
theorem mtag_seek_terminates (h : host) (mf : memfile) (offset : Int) (fuel : Nat)
    (hf : ((offset + mf.curcount).natAbs - 1) / 8191 ≤ fuel) :
    mtag_seek fuel h mf offset =
      mtag_seek (((offset + mf.curcount).natAbs - 1) / 8191) h mf offset ∧
    (mtag_seek fuel h mf offset).1.diffpos =
      mf.diffpos + 2 * ((((offset + mf.curcount).natAbs - 1) / 8191 : Nat) : Int) ∧
    (mtag_seek fuel h mf offset).1.curcount = mf.curcount ∧
    (0 ≤ offset + mf.curcount → (mtag_seek fuel h mf offset).2 =
      offset - 8191 * ((((offset + mf.curcount).natAbs - 1) / 8191 : Nat) : Int)) ∧
    (offset + mf.curcount ≤ 0 → (mtag_seek fuel h mf offset).2 =
      offset + 8191 * ((((offset + mf.curcount).natAbs - 1) / 8191 : Nat) : Int)) ∧
    -(2 ^ 13) < (mtag_seek fuel h mf offset).2 + mf.curcount ∧
    (mtag_seek fuel h mf offset).2 + mf.curcount < 2 ^ 13 ∧
    ((offset + mf.curcount).natAbs - 1) / 8191 ≤ (offset + mf.curcount).natAbs ∧
    (offset + mf.curcount = 0 → ((offset + mf.curcount).natAbs - 1) / 8191 = 0) ∧
    (offset + mf.curcount ≥ 2 ^ 13 ∨ offset + mf.curcount ≤ -(2 ^ 13) →
      ∀ n : Nat, ∃ (mf1 : memfile) (off1 : Int),
        mtag_seek (n + 1) h mf offset = mtag_seek n h mf1 off1 ∧
        mf1.curcount = mf.curcount ∧ mf1.diffpos = mf.diffpos + 2 ∧
        (off1 + mf.curcount).natAbs + 8191 = (offset + mf.curcount).natAbs ∧
        (0 < offset + mf.curcount → 0 < off1 + mf.curcount ∧ off1 = offset - 8191) ∧
        (offset + mf.curcount < 0 → off1 + mf.curcount < 0 ∧ off1 = offset + 8191)) := by
  obtain ⟨a1, a2, a3, a4, a5, a6, a7⟩ := mtag_seek_count h fuel mf offset hf
  exact ⟨a1, a2, a3, a4, a5, a6, a7, by omega, by omega,
    fun hout n => mtag_seek_step h n mf offset hout⟩

theorem mtag_seek_terminates_witness :
    ((19995 + far_le.curcount).natAbs - 1) / 8191 ≤ 2 ∧
    mtag_seek 2 host_le far_le 19995 =
      mtag_seek (((19995 + far_le.curcount).natAbs - 1) / 8191) host_le far_le 19995 ∧
    (mtag_seek 2 host_le far_le 19995).1.diffpos =
      far_le.diffpos + 2 * ((((19995 + far_le.curcount).natAbs - 1) / 8191 : Nat) : Int) ∧
    (0 ≤ 19995 + far_le.curcount → (mtag_seek 2 host_le far_le 19995).2 =
      19995 - 8191 * ((((19995 + far_le.curcount).natAbs - 1) / 8191 : Nat) : Int)) :=
  ⟨by decide,
    (mtag_seek_terminates host_le far_le 19995 2 (by decide)).1,
    (mtag_seek_terminates host_le far_le 19995 2 (by decide)).2.1,
    (mtag_seek_terminates host_le far_le 19995 2 (by decide)).2.2.2.1⟩

/-- The loop of C37 on the sample: from 19995 two iterations write four bytes
and leave 3613; the bound 19995 of mtag gives the same. -/
theorem mtag_seek_sample :
    ((mtag_seek 2 host_le far_le 19995).1.diffpos, (mtag_seek 2 host_le far_le 19995).2,
      (mtag_seek 19995 host_le far_le 19995).1.diffpos, (mtag_seek 19995 host_le far_le 19995).2,
      ((19995 : Int).natAbs - 1) / 8191) = (4, 3613, 4, 3613, 2) := by
  decide

/-! ## Cloning -/

theorem mclone_chain_eq (l : List memfile_tag) : mclone_chain l = l := by
  induction l with
  | nil => rfl
  | cons t rest ih =>
    rw [mclone_chain, ih]

theorem malloc_copy (h : host) (buf : List Nat) (len : Int) (hl : (buf.length : Int) = len) :
    memcpy (realloc h [] len.toNat) 0 (slice buf 0 len) = buf := by
  have e : slice buf 0 len = buf := by
    unfold slice
    simp only [Int.toNat_zero, List.drop_zero]
    exact List.take_of_length_le (by omega)
  rw [e]
  unfold memcpy
  have hr := realloc_length h [] len.toNat
  rw [List.take_zero, List.nil_append, Nat.zero_add, List.drop_of_length_le (by omega),
    List.append_nil]

theorem mequal_same (h : host) (c : header) (A : memfile) (noisy : Bool) :
    (mequal h c A A noisy).verdict = true := by
  rw [mequal_verdict]
  simp

theorem mclone_eq (h : host) (F : memfile) (hb : (F.buf.length : Int) = F.len)
    (hd : (F.diffbuf.length : Int) = F.difflen) : mclone h F = F := by
  have e1 : (if F.buf ≠ [] then memcpy (realloc h [] F.len.toNat) 0 (slice F.buf 0 F.len)
      else F.buf) = F.buf := by
    split
    · exact malloc_copy h F.buf F.len hb
    · rfl
  have e2 : (if F.diffbuf ≠ [] then
      memcpy (realloc h [] F.difflen.toNat) 0 (slice F.diffbuf 0 F.difflen)
      else F.diffbuf) = F.diffbuf := by
    split
    · exact malloc_copy h F.diffbuf F.difflen hd
    · rfl
  have e3 : (fun i => if 0 ≤ i ∧ i < h.MEMFILE_HASHTABLE_SIZE then mclone_chain (F.tags i)
      else F.tags i) = F.tags := by
    funext i
    split
    · exact mclone_chain_eq _
    · rfl
  unfold mclone
  rw [e1, e2, e3]
  cases F
  rfl

/-- C38: for a memfile `F` whose buffer holds `len` bytes and whose diff
buffer holds `difflen` bytes, the copy `T` left by `mclone(T, F)` has the `pos`,
`len`, buffer bytes, diff buffer bytes, `difflen`, `diffpos`, `relativepos`,
parent, `curcmd` and `curcount` of `F`, and every bucket chain of `T` is the
chain of `F`, record by record in the same order; `mequal(T, F, FALSE)` is
TRUE.  `F` is not written (the parameter is `const`; the model takes it by
value). -/
theorem mclone_equal (h : host) (c : header) (F : memfile)
    (hb : (F.buf.length : Int) = F.len) (hd : (F.diffbuf.length : Int) = F.difflen) :
    (mclone h F).pos = F.pos ∧ (mclone h F).len = F.len ∧
    (mclone h F).buf = F.buf ∧ slice (mclone h F).buf 0 F.len = slice F.buf 0 F.len ∧
    (mclone h F).diffbuf = F.diffbuf ∧
    slice (mclone h F).diffbuf 0 F.difflen = slice F.diffbuf 0 F.difflen ∧
    (mclone h F).difflen = F.difflen ∧ (mclone h F).diffpos = F.diffpos ∧
    (mclone h F).relativepos = F.relativepos ∧ (mclone h F).relativeto = F.relativeto ∧
    (mclone h F).curcmd = F.curcmd ∧ (mclone h F).curcount = F.curcount ∧
    (∀ i : Int, (mclone h F).tags i = F.tags i) ∧
    (mequal h c (mclone h F) F false).verdict = true := by
  have e := mclone_eq h F hb hd
  rw [e]
  exact ⟨rfl, rfl, rfl, rfl, rfl, rfl, rfl, rfl, rfl, rfl, rfl, rfl, fun _ => rfl,
    mequal_same h c F false⟩

theorem mclone_equal_witness :
    (now_le.buf.length : Int) = now_le.len ∧ (now_le.diffbuf.length : Int) = now_le.difflen ∧
    (mclone host_four now_le).pos = now_le.pos ∧ (mclone host_four now_le).len = now_le.len ∧
    (mclone host_four now_le).buf = now_le.buf ∧
    slice (mclone host_four now_le).buf 0 now_le.len = slice now_le.buf 0 now_le.len ∧
    (mclone host_four now_le).diffbuf = now_le.diffbuf ∧
    slice (mclone host_four now_le).diffbuf 0 now_le.difflen
      = slice now_le.diffbuf 0 now_le.difflen ∧
    (mclone host_four now_le).difflen = now_le.difflen ∧
    (mclone host_four now_le).diffpos = now_le.diffpos ∧
    (mclone host_four now_le).relativepos = now_le.relativepos ∧
    (mclone host_four now_le).relativeto = now_le.relativeto ∧
    (mclone host_four now_le).curcmd = now_le.curcmd ∧
    (mclone host_four now_le).curcount = now_le.curcount ∧
    (∀ i : Int, (mclone host_four now_le).tags i = now_le.tags i) ∧
    (mequal host_four header_le (mclone host_four now_le) now_le false).verdict = true :=
  ⟨by decide, by decide, mclone_equal host_four header_le now_le (by decide) (by decide)⟩

/-- The copy of C38 on the sample, evaluated: the three bytes, the cursor and
the chain of bucket 2. -/
theorem mclone_sample :
    ((mclone host_four now_le).buf, (mclone host_four now_le).pos,
      (mclone host_four now_le).tags 2) = ([1, 9, 3], 3, [⟨7, 3, 1⟩]) := by
  decide

/-! ## Reading and mapping keep the invariant -/

theorem mread_fields (mf : memfile) (k : Nat) (r : List Nat × memfile)
    (e : mread mf k = .ok r) :
    r.2.buf = mf.buf ∧ r.2.len = mf.len ∧ r.2.tags = mf.tags ∧
    r.2.relativeto = mf.relativeto ∧ same_diff mf r.2 := by
  unfold mread at e
  simp only at e
  split at e
  · cases e
  · cases e
    exact ⟨rfl, rfl, rfl, rfl, rfl, rfl, rfl, rfl, rfl, rfl⟩

theorem mread_error (mf : memfile) (k : Nat) (x : fatal) (e : mread mf k = .error x) :
    x = fatal.PANIC_READ := by
  unfold mread at e
  simp only at e
  split at e
  · cases e
    rfl
  · cases e

theorem mread_pos (mf : memfile) (k : Nat) (r : List Nat × memfile) (hw : mf.wf)
    (hk : k < 2 ^ 31) (e : mread mf k = .ok r) :
    r.2.pos = mf.pos + k ∧ mf.pos + k ≤ mf.len := by
  obtain ⟨w1, w2, w3⟩ := hw
  have hu0 : ((to_unsigned 32 (mf.len - mf.pos) : Nat) : Int) ≤ mf.len - mf.pos := by
    unfold to_unsigned
    omega
  have hmin : min_unsigned k (to_unsigned 32 (mf.len - mf.pos)) ≤ k := by
    unfold min_unsigned
    split <;> omega
  have hmin2 : min_unsigned k (to_unsigned 32 (mf.len - mf.pos))
      ≤ to_unsigned 32 (mf.len - mf.pos) := by
    unfold min_unsigned
    split <;> omega
  have hs : to_signed 32 (min_unsigned k (to_unsigned 32 (mf.len - mf.pos)))
      = (min_unsigned k (to_unsigned 32 (mf.len - mf.pos)) : Nat) :=
    to_signed32_small _ (by omega)
  have hu : to_unsigned 32 ((min_unsigned k (to_unsigned 32 (mf.len - mf.pos)) : Nat) : Int)
      = min_unsigned k (to_unsigned 32 (mf.len - mf.pos)) := by
    rw [to_unsigned32_small _ (by omega) (by omega)]
    omega
  unfold mread at e
  simp only [hs, hu] at e
  split at e
  · cases e
  · rename_i hne
    cases e
    have hk2 : min_unsigned k (to_unsigned 32 (mf.len - mf.pos)) = k := by
      by_contra hc
      exact hne hc
    rw [hk2] at hmin2
    constructor
    · show mf.pos + ((min_unsigned k (to_unsigned 32 (mf.len - mf.pos)) : Nat) : Int) = _
      rw [hk2]
    · omega

theorem mread_enc_inv (mf : memfile) (k : Nat) (r : List Nat × memfile) (hi : enc_inv mf)
    (hk : k < 2 ^ 31) (e : mread mf k = .ok r) :
    enc_inv r.2 ∧ r.2.relativeto = mf.relativeto := by
  obtain ⟨f1, f2, _, f4, s1, s2, s3, _, s5, s6⟩ := mread_fields mf k r e
  obtain ⟨p1, p2⟩ := mread_pos mf k r hi.wf hk e
  obtain ⟨w1, w2, w3⟩ := hi.wf
  refine ⟨⟨?_, ?_, by rw [f2]; exact hi.cap, ?_, ?_, ?_, ?_⟩, f4⟩
  · unfold memfile.wf
    rw [f1, f2, p1]
    exact ⟨w1, by omega, p2⟩
  · unfold memfile.diff_wf
    rw [s1, s2, s3]
    exact hi.dwf
  · intro hc
    rw [s5] at hc
    rw [s6, p1]
    have := hi.edit hc
    omega
  · rw [s5, s6]
    exact hi.run
  · rw [s5, s6]
    exact hi.seek
  · unfold memfile.diffstream
    rw [s1, s3]
    exact hi.units

theorem mread8_cases (h : host) (mf : memfile) :
    (∃ r v, mread mf 1 = .ok r ∧ mread8 h mf = .ok (v, r.2)) ∨
    (∃ x, mread mf 1 = .error x ∧ mread8 h mf = .error x) := by
  unfold mread8
  cases hr : mread mf 1 with
  | error x => exact Or.inr ⟨x, rfl, rfl⟩
  | ok r =>
    obtain ⟨bytes, m⟩ := r
    exact Or.inl ⟨_, _, rfl, rfl⟩

theorem mread16_cases (h : host) (mf : memfile) :
    (∃ r v, mread mf 2 = .ok r ∧ mread16 h mf = .ok (v, r.2)) ∨
    (∃ x, mread mf 2 = .error x ∧ mread16 h mf = .error x) := by
  unfold mread16
  cases hr : mread mf 2 with
  | error x => exact Or.inr ⟨x, rfl, rfl⟩
  | ok r =>
    obtain ⟨bytes, m⟩ := r
    exact Or.inl ⟨_, _, rfl, rfl⟩

theorem mread32_cases (h : host) (mf : memfile) :
    (∃ r v, mread mf 4 = .ok r ∧ mread32 h mf = .ok (v, r.2)) ∨
    (∃ x, mread mf 4 = .error x ∧ mread32 h mf = .error x) := by
  unfold mread32
  cases hr : mread mf 4 with
  | error x => exact Or.inr ⟨x, rfl, rfl⟩
  | ok r =>
    obtain ⟨bytes, m⟩ := r
    exact Or.inl ⟨_, _, rfl, rfl⟩

theorem mread64_cases (h : host) (mf : memfile) :
    (∃ r v, mread mf 8 = .ok r ∧ mread64 h mf = .ok (v, r.2)) ∨
    (∃ x, mread mf 8 = .error x ∧ mread64 h mf = .error x) := by
  unfold mread64
  cases hr : mread mf 8 with
  | error x => exact Or.inr ⟨x, rfl, rfl⟩
  | ok r =>
    obtain ⟨bytes, m⟩ := r
    exact Or.inl ⟨_, _, rfl, rfl⟩

/-- A read either returns the memfile that mread leaves or ends in the panic
of mread. -/
theorem read_step_cases (h : host) (mf : memfile) (s : step)
    (hs : s = step.read8 ∨ s = step.read16 ∨ s = step.read32 ∨ s = step.read64 ∨
      ∃ n, s = step.read n) :
    ∃ k : Nat, (s = step.read k ∨ k ≤ 8) ∧
      ((∃ r, mread mf k = .ok r ∧ do_step h mf s = .ok r.2) ∨
        do_step h mf s = .error fatal.PANIC_READ) := by
  rcases hs with rfl | rfl | rfl | rfl | ⟨n, rfl⟩
  · refine ⟨1, Or.inr (by omega), ?_⟩
    rcases mread8_cases h mf with ⟨r, v, e1, e2⟩ | ⟨x, e1, e2⟩
    · exact Or.inl ⟨r, e1, by show (mread8 h mf).map _ = _; rw [e2]; rfl⟩
    · rw [mread_error mf 1 x e1] at e2
      exact Or.inr (by show (mread8 h mf).map _ = _; rw [e2]; rfl)
  · refine ⟨2, Or.inr (by omega), ?_⟩
    rcases mread16_cases h mf with ⟨r, v, e1, e2⟩ | ⟨x, e1, e2⟩
    · exact Or.inl ⟨r, e1, by show (mread16 h mf).map _ = _; rw [e2]; rfl⟩
    · rw [mread_error mf 2 x e1] at e2
      exact Or.inr (by show (mread16 h mf).map _ = _; rw [e2]; rfl)
  · refine ⟨4, Or.inr (by omega), ?_⟩
    rcases mread32_cases h mf with ⟨r, v, e1, e2⟩ | ⟨x, e1, e2⟩
    · exact Or.inl ⟨r, e1, by show (mread32 h mf).map _ = _; rw [e2]; rfl⟩
    · rw [mread_error mf 4 x e1] at e2
      exact Or.inr (by show (mread32 h mf).map _ = _; rw [e2]; rfl)
  · refine ⟨8, Or.inr (by omega), ?_⟩
    rcases mread64_cases h mf with ⟨r, v, e1, e2⟩ | ⟨x, e1, e2⟩
    · exact Or.inl ⟨r, e1, by show (mread64 h mf).map _ = _; rw [e2]; rfl⟩
    · rw [mread_error mf 8 x e1] at e2
      exact Or.inr (by show (mread64 h mf).map _ = _; rw [e2]; rfl)
  · refine ⟨n, Or.inl rfl, ?_⟩
    cases e1 : mread mf n with
    | error x =>
      rw [mread_error mf n x e1]
      exact Or.inr (by show (mread mf n).map _ = _; rw [e1, mread_error mf n x e1]; rfl)
    | ok r => exact Or.inl ⟨r, rfl, by show (mread mf n).map _ = _; rw [e1]; rfl⟩

theorem mmmap_fields (h : host) (mf : memfile) (len off : Int) :
    (mmmap h mf len off).buf = (expand_memfile h mf (len + off)).buf ∧
    (mmmap h mf len off).len = (expand_memfile h mf (len + off)).len ∧
    (mmmap h mf len off).pos = max mf.pos (len + off) ∧
    (mmmap h mf len off).tags = mf.tags ∧
    (mmmap h mf len off).relativeto = mf.relativeto ∧
    same_diff mf (mmmap h mf len off) := by
  have hpos : (mmmap h mf len off).pos = max mf.pos (len + off) := by
    unfold mmmap
    simp only [expand_memfile_pos]
    split
    · show len + off = max mf.pos (len + off)
      omega
    · show (expand_memfile h mf (len + off)).pos = max mf.pos (len + off)
      rw [expand_memfile_pos]
      omega
  refine ⟨?_, ?_, hpos, ?_⟩
  · unfold mmmap
    simp only
    split <;> rfl
  · unfold mmmap
    simp only
    split <;> rfl
  · unfold mmmap same_diff
    simp only
    split <;> simp

theorem mmmap_enc_inv (h : host) (mf : memfile) (len off : Int) (hi : enc_inv mf)
    (hl : 0 ≤ len) (ho : 0 ≤ off) :
    enc_inv (mmmap h mf len off) ∧ (mmmap h mf len off).relativeto = mf.relativeto := by
  obtain ⟨f1, f2, f3, _, f5, s1, s2, s3, _, s5, s6⟩ := mmmap_fields h mf len off
  obtain ⟨w1, w2, w3⟩ := hi.wf
  obtain ⟨e1, e2, e3, _, _⟩ := expand_memfile_spec h mf (len + off) w1
  refine ⟨⟨?_, ?_, ?_, ?_, ?_, ?_, ?_⟩, f5⟩
  · unfold memfile.wf
    rw [f1, f2, f3]
    exact ⟨e1, by omega, by omega⟩
  · unfold memfile.diff_wf
    rw [s1, s2, s3]
    exact hi.dwf
  · rw [f2]
    exact expand_memfile_len_mod h mf _ hi.cap
  · intro hc
    rw [s5] at hc
    rw [s6, f3]
    have := hi.edit hc
    omega
  · rw [s5, s6]
    exact hi.run
  · rw [s5, s6]
    exact hi.seek
  · unfold memfile.diffstream
    rw [s1, s3]
    exact hi.units

theorem do_step_enc_inv (h : host) (mf : memfile) (s : step) (hi : enc_inv mf)
    (hv : step_valid h s) :
    (∃ m, do_step h mf s = .ok m ∧ enc_inv m ∧ m.relativeto = mf.relativeto) ∨
    do_step h mf s = .error fatal.PANIC_READ := by
  have hread : (s = step.read8 ∨ s = step.read16 ∨ s = step.read32 ∨ s = step.read64 ∨
      ∃ n, s = step.read n) →
      (∃ m, do_step h mf s = .ok m ∧ enc_inv m ∧ m.relativeto = mf.relativeto) ∨
      do_step h mf s = .error fatal.PANIC_READ := by
    intro hs
    obtain ⟨k, hk, hr⟩ := read_step_cases h mf s hs
    have hk31 : k < 2 ^ 31 := by
      rcases hk with rfl | hk
      · exact hv
      · omega
    rcases hr with ⟨r, e1, e2⟩ | e2
    · obtain ⟨i1, i2⟩ := mread_enc_inv mf k r hi hk31 e1
      exact Or.inl ⟨r.2, e2, i1, i2⟩
    · exact Or.inr e2
  cases s with
  | call c => exact Or.inl (do_call_enc_inv h mf c hv hi)
  | map len off =>
    obtain ⟨i1, i2⟩ := mmmap_enc_inv h mf len off hi hv.1 hv.2
    exact Or.inl ⟨_, rfl, i1, i2⟩
  | read n => exact hread (Or.inr (Or.inr (Or.inr (Or.inr ⟨n, rfl⟩))))
  | read8 => exact hread (Or.inl rfl)
  | read16 => exact hread (Or.inr (Or.inl rfl))
  | read32 => exact hread (Or.inr (Or.inr (Or.inl rfl)))
  | read64 => exact hread (Or.inr (Or.inr (Or.inr (Or.inl rfl))))

theorem do_steps_enc_inv (h : host) (steps : List step) :
    ∀ mf : memfile, enc_inv mf → (∀ s ∈ steps, step_valid h s) →
    (∃ m, do_steps h mf steps = .ok m ∧ enc_inv m ∧ m.relativeto = mf.relativeto) ∨
    do_steps h mf steps = .error fatal.PANIC_READ := by
  induction steps with
  | nil =>
    intro mf hi _
    exact Or.inl ⟨mf, rfl, hi, rfl⟩
  | cons s rest ih =>
    intro mf hi hv
    rcases do_step_enc_inv h mf s hi (hv s (List.mem_cons_self _ _)) with ⟨m1, e1, i1, r1⟩ | e1
    · rcases ih m1 i1 (fun x hx => hv x (List.mem_cons_of_mem _ hx)) with ⟨m, e2, i2, r2⟩ | e2
      · refine Or.inl ⟨m, ?_, i2, r2.trans r1⟩
        show (do_step h mf s >>= fun m => do_steps h m rest) = .ok m
        rw [e1]
        exact e2
      · refine Or.inr ?_
        show (do_step h mf s >>= fun m => do_steps h m rest) = _
        rw [e1]
        exact e2
    · refine Or.inr ?_
      show (do_step h mf s >>= fun m => do_steps h m rest) = _
      rw [e1]
      rfl

/-- The run of C33 on the sample: three bytes written, a region mapped up to
offset 6, then reads of 2 bytes and of 1 byte; the cursor ends at 9 in a
buffer of 4096 bytes. -/
theorem do_steps_sample :
    (do_steps host_le (mnew host_le memfile.zero none)
        [step.call (call.write [1, 2, 3]), step.call (call.tag 5 1), step.map 2 4,
          step.read 2, step.read8]).toOption.map
      (fun m => (m.pos, m.len)) = some (9, 4096) := by
  decide

/-! ## A file without a parent -/

theorem inert_congr (mf m : memfile) (hi : inert mf) (hr : m.relativeto = mf.relativeto)
    (hs : same_diff mf m) : inert m := by
  obtain ⟨i1, i2, i3, i4, i5, i6⟩ := hi
  obtain ⟨s1, s2, s3, s4, s5, _⟩ := hs
  exact ⟨hr.trans i1, s1.trans i2, s2.trans i3, s3.trans i4, s4.trans i5, s5.trans i6⟩

theorem mwrite_inert (h : host) (mf : memfile) (data : List Nat) (hi : inert mf) :
    ∃ m, mwrite h mf data = .ok m ∧ inert m := by
  refine ⟨_, mwrite_linear h mf data hi.1, inert_congr mf _ hi ?_ ?_⟩
  · simp [mwrite_copy]
  · unfold same_diff
    simp [mwrite_copy]

theorem mfalign_loop_inert (h : host) :
    ∀ (n : Nat) (mf : memfile), inert mf → ∃ m, mfalign_loop h n mf = .ok m ∧ inert m := by
  intro n
  induction n with
  | zero =>
    intro mf hi
    exact ⟨mf, rfl, hi⟩
  | succ n ih =>
    intro mf hi
    obtain ⟨m1, e1, i1⟩ := mwrite_inert h mf [0] hi
    obtain ⟨m, e2, i2⟩ := ih m1 i1
    refine ⟨m, ?_, i2⟩
    rw [mfalign_loop, mwrite8_zero, e1]
    exact e2

theorem do_call_inert (h : host) (mf : memfile) (c : call) (hv : call_valid h c)
    (hi : inert mf) :
    ∃ m, do_call h mf c = .ok m ∧ inert m := by
  cases c with
  | write data => exact mwrite_inert h mf data hi
  | write8 value => exact mwrite_inert h mf _ hi
  | write16 value => exact mwrite_inert h mf _ hi
  | write32 value => exact mwrite_inert h mf _ hi
  | write64 value => exact mwrite_inert h mf _ hi
  | tag tagdata tagtype =>
    exact ⟨_, mtag_eq_parentless h mf tagdata tagtype hv hi.1,
      inert_congr mf _ hi rfl ⟨rfl, rfl, rfl, rfl, rfl, rfl⟩⟩
  | align aln => exact mfalign_loop_inert h _ mf hi
  | magic magic =>
    obtain ⟨m1, e1, i1⟩ := mfalign_loop_inert h (mfalign_bytes mf.pos 4).toNat mf hi
    obtain ⟨m, e2, i2⟩ := mwrite_inert h m1 _ i1
    refine ⟨m, ?_, i2⟩
    show mfmagic_set h mf magic = .ok m
    unfold mfmagic_set mfalign
    rw [e1]
    exact e2
  | flush => exact ⟨mf, mdiffflush_invalid h mf hi.2.2.2.2.2, hi⟩

theorem do_step_inert (h : host) (mf : memfile) (s : step) (hv : step_in_table h s)
    (hi : inert mf) :
    (∃ m, do_step h mf s = .ok m ∧ inert m) ∨ do_step h mf s = .error fatal.PANIC_READ := by
  have hread : (s = step.read8 ∨ s = step.read16 ∨ s = step.read32 ∨ s = step.read64 ∨
      ∃ n, s = step.read n) →
      (∃ m, do_step h mf s = .ok m ∧ inert m) ∨ do_step h mf s = .error fatal.PANIC_READ := by
    intro hs
    obtain ⟨k, _, hr⟩ := read_step_cases h mf s hs
    rcases hr with ⟨r, e1, e2⟩ | e2
    · obtain ⟨_, _, _, f4, f5⟩ := mread_fields mf k r e1
      exact Or.inl ⟨r.2, e2, inert_congr mf _ hi f4 f5⟩
    · exact Or.inr e2
  cases s with
  | call c => exact Or.inl (do_call_inert h mf c hv hi)
  | map len off =>
    obtain ⟨_, _, _, _, f5, f6⟩ := mmmap_fields h mf len off
    exact Or.inl ⟨_, rfl, inert_congr mf _ hi f5 f6⟩
  | read n => exact hread (Or.inr (Or.inr (Or.inr (Or.inr ⟨n, rfl⟩))))
  | read8 => exact hread (Or.inl rfl)
  | read16 => exact hread (Or.inr (Or.inl rfl))
  | read32 => exact hread (Or.inr (Or.inr (Or.inl rfl)))
  | read64 => exact hread (Or.inr (Or.inr (Or.inr (Or.inl rfl))))

theorem do_steps_inert (h : host) (steps : List step) :
    ∀ mf : memfile, inert mf → (∀ s ∈ steps, step_in_table h s) →
    (∃ m, do_steps h mf steps = .ok m ∧ inert m) ∨
    do_steps h mf steps = .error fatal.PANIC_READ := by
  induction steps with
  | nil =>
    intro mf hi _
    exact Or.inl ⟨mf, rfl, hi⟩
  | cons s rest ih =>
    intro mf hi hv
    rcases do_step_inert h mf s (hv s (List.mem_cons_self _ _)) hi with ⟨m1, e1, i1⟩ | e1
    · rcases ih m1 i1 (fun x hx => hv x (List.mem_cons_of_mem _ hx)) with ⟨m, e2, i2⟩ | e2
      · refine Or.inl ⟨m, ?_, i2⟩
        show (do_step h mf s >>= fun m => do_steps h m rest) = .ok m
        rw [e1]
        exact e2
      · refine Or.inr ?_
        show (do_step h mf s >>= fun m => do_steps h m rest) = _
        rw [e1]
        exact e2
    · refine Or.inr ?_
      show (do_step h mf s >>= fun m => do_steps h m rest) = _
      rw [e1]
      rfl

/-- A run of C34 on the sample: bytes, a tag, an alignment, a marker, a
mapping and a read on a parentless file leave the diff side as mnew made it. -/
theorem diff_state_sample :
    (do_steps host_le (mnew host_le memfile.zero none)
        [step.call (call.write [1, 2, 3]), step.call (call.tag 5 1),
          step.call (call.align 4), step.call (call.magic 7), step.map 2 4,
          step.read16]).toOption.map
      (fun m => (m.pos, m.diffbuf, m.difflen, m.diffpos, m.relativepos, m.curcmd))
      = some (13, [], 0, 0, 0, MDIFF_INVALID) := by
  decide

/-! ## The content does not depend on the parent -/

theorem written_content (mf m : memfile) (data : List Nat) (hp : 0 ≤ mf.pos)
    (w : written mf data m) : m.content = mf.content ++ data := by
  have h1 := w.before
  have h2 := w.at_pos
  have h3 := w.pos_eq
  unfold memfile.content
  unfold slice at h2
  rw [h3, show (mf.pos + (data.length : Int)).toNat = mf.pos.toNat + data.length from by omega,
    List.take_add, h1]
  rw [Int.toNat_ofNat] at h2
  rw [h2]

theorem content_congr (mf m : memfile) (hb : m.buf = mf.buf) (hp : m.pos = mf.pos) :
    m.content = mf.content := by
  unfold memfile.content
  rw [hb, hp]

theorem mwrite_effect (h : host) (mf : memfile) (data : List Nat) (hi : enc_inv mf) :
    ∃ m, mwrite h mf data = .ok m ∧ enc_inv m ∧ m.relativeto = mf.relativeto ∧
      m.pos = mf.pos + data.length ∧ m.content = mf.content ++ data ∧ m.tags = mf.tags := by
  obtain ⟨m, e, i, r, _⟩ := mwrite_enc_inv h mf data hi
  have w := mwrite_written h mf m data hi.wf e
  exact ⟨m, e, i, r, w.pos_eq, written_content mf m data hi.wf.2.1 w, w.tags_eq⟩

theorem mfalign_loop_effect (h : host) :
    ∀ (n : Nat) (mf : memfile), enc_inv mf →
    ∃ m, mfalign_loop h n mf = .ok m ∧ enc_inv m ∧ m.relativeto = mf.relativeto ∧
      m.pos = mf.pos + (List.replicate n 0).length ∧
      m.content = mf.content ++ List.replicate n 0 ∧ m.tags = mf.tags := by
  intro n mf hi
  obtain ⟨m, e, i, r⟩ := mfalign_loop_enc_inv h n mf hi
  obtain ⟨m2, e2, w, _⟩ := mfalign_loop_ok h n mf hi.wf hi.edit_ok
  rw [e] at e2
  cases e2
  exact ⟨m, e, i, r, w.pos_eq, written_content mf m _ hi.wf.2.1 w, w.tags_eq⟩

theorem call_effect (h : host) (mf : memfile) (c : call) (hv : call_valid h c)
    (hi : enc_inv mf) :
    ∃ m, do_call h mf c = .ok m ∧ enc_inv m ∧ m.relativeto = mf.relativeto ∧
      m.pos = mf.pos + (linear_data h mf.pos c).length ∧
      m.content = mf.content ++ linear_data h mf.pos c ∧
      m.tags = linear_tags h mf.pos mf.tags c := by
  cases c with
  | write data => exact mwrite_effect h mf data hi
  | write8 value => exact mwrite_effect h mf _ hi
  | write16 value => exact mwrite_effect h mf _ hi
  | write32 value => exact mwrite_effect h mf _ hi
  | write64 value => exact mwrite_effect h mf _ hi
  | tag tagdata tagtype =>
    obtain ⟨m, e, i, r⟩ := mtag_enc_inv h mf tagdata tagtype hv hi
    obtain ⟨f1, _, f3, _, f5⟩ := mtag_frame h mf m tagdata tagtype e
    refine ⟨m, e, i, r, ?_, ?_, f5⟩
    · rw [f3]
      show mf.pos = mf.pos + ((0 : Nat) : Int)
      omega
    · rw [content_congr mf m f1 f3]
      exact (List.append_nil _).symm
  | align aln => exact mfalign_loop_effect h _ mf hi
  | magic magic =>
    obtain ⟨m1, e1, i1, r1, p1, c1, t1⟩ :=
      mfalign_loop_effect h (mfalign_bytes mf.pos 4).toNat mf hi
    obtain ⟨m, e2, i2, r2, p2, c2, t2⟩ := mwrite_effect h m1
      (object_bytes h.IS_BIG_ENDIAN 4 (host_to_le32 h (to_unsigned 32 magic))) i1
    refine ⟨m, ?_, i2, r2.trans r1, ?_, ?_, t2.trans t1⟩
    · show mfmagic_set h mf magic = .ok m
      unfold mfmagic_set mfalign
      rw [e1]
      exact e2
    · rw [p2, p1]
      show _ = mf.pos + ((List.replicate (mfalign_bytes mf.pos 4).toNat 0 ++
        object_bytes h.IS_BIG_ENDIAN 4 (host_to_le32 h (to_unsigned 32 magic))).length : Nat)
      rw [List.length_append]
      push_cast
      ring
    · rw [c2, c1, List.append_assoc]
      rfl
  | flush =>
    obtain ⟨f, e, i, r, _, f1, _, f3, _, f6⟩ := mdiffflush_enc_inv h mf hi
    refine ⟨f, e, i, r, ?_, ?_, f6⟩
    · rw [f3]
      show mf.pos = mf.pos + ((0 : Nat) : Int)
      omega
    · rw [content_congr mf f f1 f3]
      exact (List.append_nil _).symm

theorem do_calls_linear (h : host) (calls : List call)
    (hv : ∀ c ∈ calls, call_valid h c) :
    ∀ m1 m2 : memfile, enc_inv m1 → enc_inv m2 → m1.pos = m2.pos →
    m1.content = m2.content → m1.tags = m2.tags →
    ∃ r1 r2, do_calls h m1 calls = .ok r1 ∧ do_calls h m2 calls = .ok r2 ∧
      r1.relativeto = m1.relativeto ∧ r2.relativeto = m2.relativeto ∧
      r1.pos = r2.pos ∧ r1.content = r2.content ∧ r1.tags = r2.tags := by
  induction calls with
  | nil =>
    intro m1 m2 _ _ hp hc ht
    exact ⟨m1, m2, rfl, rfl, rfl, rfl, hp, hc, ht⟩
  | cons c rest ih =>
    intro m1 m2 i1 i2 hp hc ht
    have hc1 := hv c (List.mem_cons_self _ _)
    obtain ⟨a, ea, ia, ra, pa, ca, ta⟩ := call_effect h m1 c hc1 i1
    obtain ⟨b, eb, ib, rb, pb, cb, tb⟩ := call_effect h m2 c hc1 i2
    obtain ⟨r1, r2, e1, e2, q1, q2, x1, x2, x3⟩ :=
      ih (fun x hx => hv x (List.mem_cons_of_mem _ hx)) a b ia ib
      (by rw [pa, pb, hp]) (by rw [ca, cb, hc, hp]) (by rw [ta, tb, ht, hp])
    refine ⟨r1, r2, ?_, ?_, q1.trans ra, q2.trans rb, x1, x2, x3⟩
    · show (do_call h m1 c >>= fun m => do_calls h m rest) = .ok r1
      rw [ea]
      exact e1
    · show (do_call h m2 c >>= fun m => do_calls h m rest) = .ok r2
      rw [eb]
      exact e2

/-- A run of C36 on the sample, with the parent and without: the same cursor,
the same four bytes and the same tag in bucket 69. -/
theorem content_sample :
    (do_calls host_le (mnew host_le memfile.zero (some parent_le))
        [call.write [1, 2, 9], call.tag 5 1, call.write8 6]).toOption.map
      (fun m => (m.pos, m.content, m.tags 69)) = some (4, [1, 2, 9, 6], [⟨5, 1, 3⟩]) ∧
    (do_calls host_le (mnew host_le memfile.zero none)
        [call.write [1, 2, 9], call.tag 5 1, call.write8 6]).toOption.map
      (fun m => (m.pos, m.content, m.tags 69)) = some (4, [1, 2, 9, 6], [⟨5, 1, 3⟩]) := by
  decide

/-! ## The tag index -/

theorem mwrite_tags (h : host) (mf m : memfile) (data : List Nat)
    (e : mwrite h mf data = .ok m) : m.tags = mf.tags := by
  have hc : (mwrite_copy h mf data).tags = mf.tags := by simp [mwrite_copy]
  cases hp : mf.relativeto with
  | none =>
    rw [mwrite_linear h mf data hp] at e
    cases e
    exact hc
  | some P =>
    rw [mwrite_diff_file h mf P data hp] at e
    exact (mwrite_diff_frame h P _ _ m e).2.2.2.2.trans hc

theorem mfalign_loop_tags (h : host) :
    ∀ (n : Nat) (mf m : memfile), mfalign_loop h n mf = .ok m → m.tags = mf.tags := by
  intro n
  induction n with
  | zero =>
    intro mf m e
    cases e
    rfl
  | succ n ih =>
    intro mf m e
    rw [mfalign_loop, mwrite8_zero] at e
    cases e1 : mwrite h mf [0] with
    | error x =>
      rw [e1] at e
      cases e
    | ok m1 =>
      rw [e1] at e
      exact (ih m1 m e).trans (mwrite_tags h mf m1 [0] e1)

theorem mfmagic_set_tags (h : host) (mf m : memfile) (magic : Int)
    (e : mfmagic_set h mf magic = .ok m) : m.tags = mf.tags := by
  unfold mfmagic_set mfalign at e
  cases e1 : mfalign_loop h (mfalign_bytes mf.pos 4).toNat mf with
  | error x =>
    rw [e1] at e
    cases e
  | ok m1 =>
    rw [e1] at e
    exact (mwrite_tags h m1 m _ e).trans (mfalign_loop_tags h _ mf m1 e1)

theorem mread_typed_tags (h : host) (mf : memfile) :
    (∀ r, mread8 h mf = .ok r → r.2.tags = mf.tags) ∧
    (∀ r, mread16 h mf = .ok r → r.2.tags = mf.tags) ∧
    (∀ r, mread32 h mf = .ok r → r.2.tags = mf.tags) ∧
    (∀ r, mread64 h mf = .ok r → r.2.tags = mf.tags) := by
  refine ⟨?_, ?_, ?_, ?_⟩
  · intro r e
    rcases mread8_cases h mf with ⟨r0, v, e1, e2⟩ | ⟨x, e1, e2⟩
    · rw [e2] at e
      cases e
      exact (mread_fields mf 1 r0 e1).2.2.1
    · rw [e2] at e
      cases e
  · intro r e
    rcases mread16_cases h mf with ⟨r0, v, e1, e2⟩ | ⟨x, e1, e2⟩
    · rw [e2] at e
      cases e
      exact (mread_fields mf 2 r0 e1).2.2.1
    · rw [e2] at e
      cases e
  · intro r e
    rcases mread32_cases h mf with ⟨r0, v, e1, e2⟩ | ⟨x, e1, e2⟩
    · rw [e2] at e
      cases e
      exact (mread_fields mf 4 r0 e1).2.2.1
    · rw [e2] at e
      cases e
  · intro r e
    rcases mread64_cases h mf with ⟨r0, v, e1, e2⟩ | ⟨x, e1, e2⟩
    · rw [e2] at e
      cases e
      exact (mread_fields mf 8 r0 e1).2.2.1
    · rw [e2] at e
      cases e

theorem mfmagic_check_tags (h : host) (mf m : memfile) (magic : Int)
    (e : mfmagic_check h mf magic = .ok m) : m.tags = mf.tags := by
  unfold mfmagic_check mfalign at e
  cases e1 : mfalign_loop h (mfalign_bytes mf.pos 4).toNat mf with
  | error x =>
    rw [e1] at e
    cases e
  | ok m1 =>
    rw [e1] at e
    have t1 := mfalign_loop_tags h _ mf m1 e1
    cases e2 : mread32 h m1 with
    | error x =>
      simp only [bind, Except.bind, e2] at e
      cases e
    | ok r =>
      obtain ⟨v, m2⟩ := r
      have t2 := (mread_typed_tags h m1).2.2.1 _ e2
      simp only [bind, Except.bind, e2] at e
      split at e
      · cases e
      · cases e
        exact t2.trans t1

theorem mequal_tags (h : host) (c : header) (A B : memfile) (noisy : Bool) :
    (mequal h c A B noisy).mf1.tags = A.tags ∧ (mequal h c A B noisy).mf2.tags = B.tags := by
  have t : ∀ (X : memfile) (len : Int), (mmmap h X len 0).tags = X.tags :=
    fun X len => (mmmap_fields h X len 0).2.2.2.1
  unfold mequal
  simp only
  generalize (if A.pos > B.pos then B.pos else A.pos) = len
  by_cases hc : (mmmap h A len 0).pos ≠ (mmmap h B len 0).pos ∨
      slice (mmmap h A len 0).buf 0 len ≠ slice (mmmap h B len 0).buf 0 len
  · rw [if_pos hc]
    cases noisy
    · exact ⟨t A len, t B len⟩
    · exact ⟨t A len, t B len⟩
  · rw [if_neg hc]
    exact ⟨t A len, t B len⟩

/-- C32: on every memfile, whenever they return, mwrite, mwrite8/16/32/64,
mread, mread8/16/32/64, mmmap, mfalign, mfmagic_set, mfmagic_check,
mdiffflush and mequal (for both of its arguments) leave the tag index as it
was: every chain holds the same records in the same order.  mtag puts one
record at the head of the chain of its bucket, the old chain following it
unchanged, and leaves the other chains alone.  mfree and mnew, and with them
store_mf, empty every bucket of the table. -/
theorem tags_only_accumulate (h : host) (c : header) (mf : memfile) :
    (∀ data m, mwrite h mf data = .ok m → m.tags = mf.tags) ∧
    (∀ v m, mwrite8 h mf v = .ok m → m.tags = mf.tags) ∧
    (∀ v m, mwrite16 h mf v = .ok m → m.tags = mf.tags) ∧
    (∀ v m, mwrite32 h mf v = .ok m → m.tags = mf.tags) ∧
    (∀ v m, mwrite64 h mf v = .ok m → m.tags = mf.tags) ∧
    (∀ k r, mread mf k = .ok r → r.2.tags = mf.tags) ∧
    (∀ r, mread8 h mf = .ok r → r.2.tags = mf.tags) ∧
    (∀ r, mread16 h mf = .ok r → r.2.tags = mf.tags) ∧
    (∀ r, mread32 h mf = .ok r → r.2.tags = mf.tags) ∧
    (∀ r, mread64 h mf = .ok r → r.2.tags = mf.tags) ∧
    (∀ len off, (mmmap h mf len off).tags = mf.tags) ∧
    (∀ aln m, mfalign h mf aln = .ok m → m.tags = mf.tags) ∧
    (∀ magic m, mfmagic_set h mf magic = .ok m → m.tags = mf.tags) ∧
    (∀ magic m, mfmagic_check h mf magic = .ok m → m.tags = mf.tags) ∧
    (∀ m, mdiffflush h mf = .ok m → m.tags = mf.tags) ∧
    (∀ B noisy, (mequal h c mf B noisy).mf1.tags = mf.tags ∧
      (mequal h c B mf noisy).mf2.tags = mf.tags) ∧
    (∀ id kind m, mtag h mf id kind = .ok m →
      m.tags (mtag_bucket h id kind) =
        { tagdata := id, tagtype := kind, pos := mf.pos } :: mf.tags (mtag_bucket h id kind) ∧
      ∀ b, b ≠ mtag_bucket h id kind → m.tags b = mf.tags b) ∧
    (∀ i : Int, 0 ≤ i → i < h.MEMFILE_HASHTABLE_SIZE →
      (mfree h mf).tags i = [] ∧ (∀ r, (mnew h mf r).tags i = []) ∧
      ∀ (σ : Type) (write : σ → List Nat → Int × σ) (fuel : Nat) (fd : σ)
        (r : memfile × σ × List (List Nat × Int)),
        store_mf h write fuel fd mf = some r → r.1.tags i = []) := by
  obtain ⟨r8, r16, r32, r64⟩ := mread_typed_tags h mf
  refine ⟨fun data m e => mwrite_tags h mf m data e, fun v m e => mwrite_tags h mf m _ e,
    fun v m e => mwrite_tags h mf m _ e, fun v m e => mwrite_tags h mf m _ e,
    fun v m e => mwrite_tags h mf m _ e, fun k r e => (mread_fields mf k r e).2.2.1,
    r8, r16, r32, r64, fun len off => (mmmap_fields h mf len off).2.2.2.1,
    fun aln m e => mfalign_loop_tags h _ mf m e, fun magic m e => mfmagic_set_tags h mf m magic e,
    fun magic m e => mfmagic_check_tags h mf m magic e,
    fun m e => (mdiffflush_frame h mf m e).2.2.2.2.2.1,
    fun B noisy => ⟨(mequal_tags h c mf B noisy).1, (mequal_tags h c B mf noisy).2⟩, ?_, ?_⟩
  · intro id kind m e
    obtain ⟨_, _, _, _, f5⟩ := mtag_frame h mf m id kind e
    rw [f5]
    unfold mtag_add
    refine ⟨by simp, ?_⟩
    intro b hne
    simp [Function.update, hne]
  · intro i h0 h1
    refine ⟨?_, ?_, ?_⟩
    · show (if 0 ≤ i ∧ i < h.MEMFILE_HASHTABLE_SIZE then [] else mf.tags i) = []
      rw [if_pos ⟨h0, h1⟩]
    · intro r
      show (if 0 ≤ i ∧ i < h.MEMFILE_HASHTABLE_SIZE then [] else mf.tags i) = []
      rw [if_pos ⟨h0, h1⟩]
    · intro σ write fuel fd r e
      unfold store_mf at e
      cases e1 : store_mf_loop write mf.buf mf.pos fuel mf.pos fd with
      | none =>
        rw [e1] at e
        cases e
      | some x =>
        rw [e1] at e
        cases e
        show (if 0 ≤ i ∧ i < h.MEMFILE_HASHTABLE_SIZE then [] else (mfree h mf).tags i) = []
        rw [if_pos ⟨h0, h1⟩]

/-- The tag index of C32 on the sample: a tag, then writes, an alignment, a
marker, a mapping, a read and a flush leave bucket 69 holding the one record;
a second mtag puts its record in front of it. -/
theorem tags_sample :
    (do_steps host_le (mnew host_le memfile.zero (some parent_le))
        [step.call (call.tag 5 1), step.call (call.write [1, 2, 9]),
          step.call (call.align 4), step.call (call.magic 7), step.map 2 4, step.read8,
          step.call call.flush, step.call (call.tag 5 1)]).toOption.map
      (fun m => m.tags 69) = some [⟨5, 1, 12⟩, ⟨5, 1, 0⟩] := by
  decide

end Memfile
